import Mathlib

/-!
# Multipartite index algebra of qpp

A shallow embedding of the subsystem engine of the library: the index codec
(`_n2multiidx`, `_multiidx2n`), the validation predicates, `kron`, `syspermute`,
`ptrace2`, `ptrace`, `ptranspose` (util.h), `apply` and `channel` (obsolete.h),
`reshape` (util.h), and of the integer functions `invperm`, `compperm`, `gcd`,
`egcd`, `modinv`, `modmul`, `modpow`, `factors` and `isprime` (number_theory.h).

Conventions of the embedding.

* `std::vector<size_t>` is `List Nat`; a C scratch array `size_t[]` is a total
  function `Nat → Nat` (type `CArr`) updated pointwise.  The capacity of the
  fixed-size arrays of obsolete.h is not modelled.
* `size_t` is `Nat`.  Every index computed for a matrix whose size is the true
  product of its dimension vector is bounded by that size, so no product wraps.
  The shape arguments of `reshape` are bounded by no matrix: their product is
  reduced modulo `2^64`.
* The scalar type is any semiring `R`: arithmetic is exact.  Where a statement
  needs the product of scalars to commute or a complex conjugation, `R` is a
  commutative semiring, with `star` as the conjugation.
* A dense matrix is `Mat R`: its shape and a total entry function.  Two
  matrices are the same matrix (`Mat.same`) when the shapes agree and every
  in-range entry agrees.
* `bigint` is `Int` with exact arithmetic and truncating `/`, `%`; `ubigint` is
  `Nat` with every operation reduced modulo `2^64`.
* `throw` is the `Except.error` result.
* The header internal.h (codec, validation predicates, the two workers) is not
  part of the sources at hand; these functions are modelled from the
  specification and marked so.  The same holds for `super`, the superoperator
  primitive that `channel` calls.
-/

namespace qpp

/-! ## Data model -/

/-- C scratch array of indices. -/
abbrev CArr := Nat → Nat

/-- Pointwise store `a[i] = v`. -/
def CArr.write (a : CArr) (i v : Nat) : CArr := fun k => if k = i then v else a k

/-- The C array holding a copy of a vector (entries past the end read as 0). -/
def toCArr (v : List Nat) : CArr := fun k => v.getD k 0

/-- Dense matrix: shape and entries. -/
structure Mat (R : Type) where
  rows : Nat
  cols : Nat
  data : Nat → Nat → R

namespace Mat

variable {R : Type}

/-- Freshly allocated `r x c` matrix (zero filled). -/
def Zero [Zero R] (r c : Nat) : Mat R := ⟨r, c, fun _ _ => 0⟩

/-- Store `M(i, j) = v`. -/
def set (M : Mat R) (i j : Nat) (v : R) : Mat R :=
  ⟨M.rows, M.cols, fun a b => if a = i ∧ b = j then v else M.data a b⟩

/-- Sub-block `M.block(i, j, p, q)`. -/
def block (M : Mat R) (i j p q : Nat) : Mat R :=
  ⟨p, q, fun a b => M.data (i + a) (j + b)⟩

/-- Sum of the coefficients of the main diagonal, accumulated from index 0
upwards (the `trace()` of the matrix library). -/
def trace [AddMonoid R] (M : Mat R) : R :=
  (List.range (min M.rows M.cols)).foldl (fun acc k => acc + M.data k k) 0

/-- Equality of matrices: same shape, same entry at every in-range position. -/
def same (A B : Mat R) : Prop :=
  A.rows = B.rows ∧ A.cols = B.cols ∧ ∀ i < A.rows, ∀ j < A.cols, A.data i j = B.data i j

instance [DecidableEq R] (A B : Mat R) : Decidable (A.same B) := by
  unfold same; infer_instance

end Mat

/-! ## Index codec -/

namespace internal

/-- Modelled from the spec: the place values used by the codec of internal.h
(a header that is not among the sources), the product of `dims[start..numdims)`. -/
def _suffix_prod (dims : CArr) (numdims start : Nat) : Nat :=
  (((List.range numdims).filter (fun l => start ≤ l)).map dims).prod

/-- Modelled from the spec: `_n2multiidx(n, numdims, dims, result)` of internal.h
(not among the sources; called by util.h and obsolete.h),
the mixed-radix decomposition of `n`, subsystem 0 most significant: entry `k` is
the running remainder divided by the product of the less significant dimensions
`dims[k+1..numdims)`, and the remainder is reduced modulo that product.  The
entries `0..numdims-1` of `result` are written, no range error is signalled. -/
def _n2multiidx (n numdims : Nat) (dims : CArr) (result : CArr) : CArr :=
  ((List.range numdims).foldl
    (fun (st : Nat × CArr) k =>
      (st.1 % _suffix_prod dims numdims (k + 1),
       st.2.write k (st.1 / _suffix_prod dims numdims (k + 1))))
    (n, result)).2

/-- Modelled from the spec: `_multiidx2n(midx, numdims, dims)` of internal.h
(not among the sources; called by obsolete.h),
`linear = Σ midx[k] * (product of dims[k+1..numdims))`. -/
def _multiidx2n (midx : CArr) (numdims : Nat) (dims : CArr) : Nat :=
  ((List.range numdims).map (fun k => midx k * _suffix_prod dims numdims (k + 1))).sum

/-- Digit `k` of `x` in the mixed radix system `dims[0..n)` (closed form used in
the proofs). -/
def digit (dims : CArr) (n x k : Nat) : Nat := (x / _suffix_prod dims n (k + 1)) % dims k

end internal

/-- The loop `for (k = 0; k < cnt; k++) dst[lab[k]] = src[k];`. -/
def CArr.scatter (lab : CArr) (cnt : Nat) (src dst : CArr) : CArr :=
  (List.range cnt).foldl (fun m k => m.write (lab k) (src k)) dst

/-! ## Validation layer -/

namespace internal

variable {R : Type}

/-- Modelled from the spec: `_check_nonzero_size` of internal.h (not among the
sources): non-zero size, the matrix has at least one row and one column. -/
def _check_nonzero_size (A : Mat R) : Bool := A.rows != 0 && A.cols != 0

/-- Modelled from the spec: `_check_square_mat` of internal.h (not among the
sources): square matrix. -/
def _check_square_mat (A : Mat R) : Bool := A.rows == A.cols

/-- Modelled from the spec: `_check_col_vector` of internal.h (not among the
sources): column-vector shape. -/
def _check_col_vector (A : Mat R) : Bool := A.cols == 1

/-- Modelled from the spec: `_check_dims` of internal.h (not among the sources):
dimension vector validity, non-empty and all entries at least 1. -/
def _check_dims (dims : List Nat) : Bool := !dims.isEmpty && dims.all (fun d => decide (1 ≤ d))

/-- Modelled from the spec: `_check_dims_match_mat` of internal.h (not among the
sources): the matrix size matches the product of the dimension vector,
rows = cols = ∏dims. -/
def _check_dims_match_mat (dims : List Nat) (A : Mat R) : Bool :=
  A.rows == dims.prod && A.cols == dims.prod

/-- Modelled from the spec: `_check_dims_match_cvect` of internal.h (not among
the sources): for a column vector, rows = ∏dims. -/
def _check_dims_match_cvect (dims : List Nat) (A : Mat R) : Bool := A.rows == dims.prod

/-- Modelled from the spec: `check_perm` of internal.h (not among the sources;
called by number_theory.h): the candidate is a bijection on exactly `0, …, n-1`,
`n` its length. -/
def check_perm (perm : List Nat) : Bool :=
  perm.all (fun l => decide (l < perm.length)) && decide perm.Nodup

/-- Modelled from the spec: `_check_perm` of internal.h (not among the sources;
called by util.h): a candidate permutation is a bijection on exactly `0, …, n-1`
and its length matches the dimension vector length. -/
def _check_perm (perm dims : List Nat) : Bool :=
  perm.length == dims.length && check_perm perm

/-- Modelled from the spec: `_check_subsys` of internal.h (not among the
sources; called by util.h): the labels of a subsystem subset are all within the
index range of the dimension vector, without duplicates. -/
def _check_subsys (subsys dims : List Nat) : Bool :=
  subsys.all (fun l => decide (l < dims.length)) && decide subsys.Nodup

/-- Modelled from the spec: `_check_subsys_match_dims` of internal.h (not among
the sources; called by obsolete.h): the same predicate as `_check_subsys`. -/
def _check_subsys_match_dims (subsys dims : List Nat) : Bool := _check_subsys subsys dims

/-! ## Workers -/

/-- Modelled from the spec: `_syspermute_worker` of internal.h (not among the
sources), the body of the `syspermute` loop (§4.3).  For the result cell
`(i, j)`: decode `i`, `j` over the permuted dimension vector
`permdims[k] = cdims[cperm[k]]`, route position `k` to the original subsystem
`cperm[k]`, re-encode over `cdims`, and copy `A(iperm, jperm)` into
`result(i, j)`.  The scratch arguments `iperm`, `jperm` of the call are locals
here. -/
def _syspermute_worker (numdims : Nat) (cdims cperm : CArr) (i j : Nat)
    (A result : Mat R) : Mat R :=
  let permdims : CArr := fun k => cdims (cperm k)
  let midxrowtmp := _n2multiidx i numdims permdims (fun _ => 0)
  let midxcoltmp := _n2multiidx j numdims permdims (fun _ => 0)
  let midxrow := CArr.scatter cperm numdims midxrowtmp (fun _ => 0)
  let midxcol := CArr.scatter cperm numdims midxcoltmp (fun _ => 0)
  let iperm := _multiidx2n midxrow numdims cdims
  let jperm := _multiidx2n midxcol numdims cdims
  result.set i j (A.data iperm jperm)

/-- Modelled from the spec: `_ptranspose_worker` of internal.h (not among the
sources), the body of the `ptranspose` loop (§4.4).  The row multi-index
`midxrow` of `i` is supplied by the caller; the column `j` is decoded over
`cdims`; the coordinates at the labels `csubsys[0..numsubsys)` are swapped
between the two multi-indices; both are re-encoded and `A(iperm, jperm)` is
copied into `result(i, j)`.  The scratch arguments `iperm`, `jperm` of the call
are locals here. -/
def _ptranspose_worker (midxrow : CArr) (numdims numsubsys : Nat) (cdims csubsys : CArr)
    (i j : Nat) (A result : Mat R) : Mat R :=
  let midxcol := _n2multiidx j numdims cdims (fun _ => 0)
  let sw := (List.range numsubsys).foldl
    (fun (p : CArr × CArr) k =>
      (p.1.write (csubsys k) (p.2 (csubsys k)), p.2.write (csubsys k) (p.1 (csubsys k))))
    (midxrow, midxcol)
  let iperm := _multiidx2n sw.1 numdims cdims
  let jperm := _multiidx2n sw.2 numdims cdims
  result.set i j (A.data iperm jperm)

end internal

/-! ## util.h -/

section util

variable {R : Type} [Semiring R]

/-- The function `trace` of util.h. -/
def trace (A : Mat R) : R := A.trace

/-- The function `syspermute` of util.h: permutes the subsystems in a matrix. -/
def syspermute (A : Mat R) (perm dims : List Nat) : Except String (Mat R) :=
  if !internal._check_square_mat A then
    .error "syspermute: Matrix must be square!"
  else if !internal._check_dims dims then
    .error "syspermute: Invalid dimensions vector!"
  else if !internal._check_dims_match_mat dims A then
    .error "syspermute: Dimenisons vector does not match the dimension of the matrix!"
  else if !internal._check_perm perm dims then
    .error "syspermute: Invalid permutation size!"
  else
    let dim := A.rows
    let numdims := dims.length
    let cdims := toCArr dims
    let cperm := toCArr perm
    .ok ((List.range dim).foldl
      (fun result i => (List.range dim).foldl
        (fun result j => internal._syspermute_worker numdims cdims cperm i j A result) result)
      (Mat.Zero dim dim))

/-- The function `ptrace2` of util.h: partial trace over subsystem B in a
`D_A x D_B` system. -/
def ptrace2 (A : Mat R) (dims : List Nat) : Except String (Mat R) :=
  if !internal._check_square_mat A then
    .error "ptrace2: Matrix must be square!"
  else if dims.length != 2 then
    .error "ptrace2: Must have only 2 dimensions!"
  else if !internal._check_dims dims then
    .error "ptrace2: Invalid dimensions vector!"
  else if !internal._check_dims_match_mat dims A then
    .error "ptrace2: Dimenisons vector does not match the dimension of the matrix!"
  else
    let DA := dims.getD 0 0
    let DB := dims.getD 1 0
    .ok ((List.range DA).foldl
      (fun result i => (List.range DA).foldl
        (fun result j => result.set i j (trace (A.block (i * DB) (j * DB) DB DB))) result)
      (Mat.Zero DA DA))

/-- The loop of `ptrace` that multiplies up the dimension of the traced-out
subsystems. -/
def ptrace_dimsubsys (subsys dims : List Nat) : Nat :=
  (List.range subsys.length).foldl (fun acc i => acc * dims.getD (subsys.getD i 0) 0) 1

/-- The loop of `ptrace` that constructs the permutation bringing the traced-out
subsystems to the end; the state is `(perm, cnt0, cnt1)`. -/
def ptrace_perm (subsys : List Nat) (numdims : Nat) : List Nat × Nat × Nat :=
  (List.range numdims).foldl
    (fun (st : List Nat × Nat × Nat) i =>
      if subsys.contains i then
        (st.1.set (numdims - subsys.length + st.2.1) i, st.2.1 + 1, st.2.2)
      else
        (st.1.set st.2.2 i, st.2.1, st.2.2 + 1))
    (List.replicate numdims 0, 0, 0)

/-- The function `ptrace` of util.h: partial trace. -/
def ptrace (A : Mat R) (subsys dims : List Nat) : Except String (Mat R) :=
  if !internal._check_square_mat A then
    .error "ptrace: Matrix must be square!"
  else if !internal._check_dims dims then
    .error "ptrace: Invalid dimensions vector!"
  else if !internal._check_dims_match_mat dims A then
    .error "ptrace: Dimenisons vector does not match the dimension of the matrix!"
  else if !internal._check_subsys subsys dims then
    .error "ptrace: Invalid subsystems!"
  else
    let dim := A.rows
    let numdims := dims.length
    let dimsubsys := ptrace_dimsubsys subsys dims
    let sizeAB := [dim / dimsubsys, dimsubsys]
    let perm := (ptrace_perm subsys numdims).1
    match syspermute A perm dims with
    | .error e => .error e
    | .ok B => ptrace2 B sizeAB

/-- The function `ptranspose` of util.h: partial transpose. -/
def ptranspose (A : Mat R) (subsys dims : List Nat) : Except String (Mat R) :=
  if !internal._check_square_mat A then
    .error "ptranspose: Matrix must be square!"
  else if !internal._check_dims dims then
    .error "ptranspose: Invalid dimensions vector!"
  else if !internal._check_dims_match_mat dims A then
    .error "ptranspose: Dimenisons vector does not match the dimension of the matrix!"
  else if !internal._check_subsys subsys dims then
    .error "ptranspose: Invalid subsystems!"
  else
    let dim := A.rows
    let numdims := dims.length
    let numsubsys := subsys.length
    let cdims := toCArr dims
    let csubsys := toCArr subsys
    .ok ((List.range dim).foldl
      (fun (st : CArr × Mat R) i =>
        let midxrow := internal._n2multiidx i numdims cdims st.1
        (midxrow, (List.range dim).foldl
          (fun result j =>
            internal._ptranspose_worker midxrow numdims numsubsys cdims csubsys i j A result)
          st.2))
      ((fun _ => 0), A)).2

end util

/-! ## number_theory.h -/

/-- The kinds of `Exception::Type` raised by the functions embedded here. -/
inductive ExceptionType where
  | TYPE_MISMATCH
  | ZERO_SIZE
  | MATRIX_NOT_SQUARE
  | MATRIX_NOT_SQUARE_OR_CVECTOR
  | DIMS_INVALID
  | DIMS_NOT_EQUAL
  | DIMS_MISMATCH_MATRIX
  | DIMS_MISMATCH_CVECTOR
  | SUBSYS_MISMATCH_DIMS
  | PERM_INVALID
  | OUT_OF_RANGE
  deriving DecidableEq

/-- An `Exception(where, type)`. -/
structure Exception where
  origin : String
  type : ExceptionType
  deriving DecidableEq

/-- The function `invperm` of number_theory.h: inverse permutation. -/
def invperm (perm : List Nat) : Except Exception (List Nat) :=
  if !internal.check_perm perm then
    .error ⟨"qpp::invperm()", .PERM_INVALID⟩
  else
    .ok ((List.range perm.length).foldl
      (fun result i => result.set (perm.getD i 0) i)
      (List.replicate perm.length 0))

/-! ## obsolete.h -/

namespace obsolete

variable {R : Type} [Semiring R]

/-- The setup loops of `apply` (obsolete.h 81-113): the copies of `dims` and
`subsys`, the complement of `subsys` and the three total dimensions. -/
structure ApplySetup where
  Cdims : CArr
  CdimsA : CArr
  CsubsysA : CArr
  CdimsA_bar : CArr
  CsubsysA_bar : CArr
  D : Nat
  DA : Nat
  DA_bar : Nat
  cnt : Nat

/-- The scratch multi-index arrays of `apply`. -/
structure ApplyScratch where
  midx_row : CArr
  midx_rho_row : CArr
  midxA_row : CArr
  midxA_rho_row : CArr
  midxA_bar_row : CArr

/-- State of the first setup loop of `apply`, `for (k = 0, cnt = 0; k < n; k++)`. -/
structure ApplyLoop1 where
  Cdims : CArr
  CdimsA_bar : CArr
  CsubsysA_bar : CArr
  D : Nat
  DA_bar : Nat
  cnt : Nat
  midx_row : CArr
  midx_rho_row : CArr
  midxA_bar_row : CArr

/-- First setup loop of `apply` (obsolete.h 88-104). -/
def apply_loop1 (subsys dims : List Nat) : ApplyLoop1 :=
  (List.range dims.length).foldl
    (fun (st : ApplyLoop1) k =>
      let st1 : ApplyLoop1 :=
        { st with
          midx_row := st.midx_row.write k 0
          midx_rho_row := st.midx_rho_row.write k 0
          Cdims := st.Cdims.write k (dims.getD k 0)
          D := st.D * dims.getD k 0 }
      if !subsys.contains k then
        { st1 with
          CsubsysA_bar := st1.CsubsysA_bar.write st1.cnt k
          CdimsA_bar := st1.CdimsA_bar.write st1.cnt (dims.getD k 0)
          midxA_bar_row := st1.midxA_bar_row.write st1.cnt 0
          DA_bar := st1.DA_bar * dims.getD k 0
          cnt := st1.cnt + 1 }
      else st1)
    { Cdims := fun _ => 0, CdimsA_bar := fun _ => 0, CsubsysA_bar := fun _ => 0,
      D := 1, DA_bar := 1, cnt := 0,
      midx_row := fun _ => 0, midx_rho_row := fun _ => 0, midxA_bar_row := fun _ => 0 }

/-- State of the second setup loop of `apply`, `for (k = 0; k < nA; k++)`. -/
structure ApplyLoop2 where
  CdimsA : CArr
  CsubsysA : CArr
  DA : Nat
  midxA_row : CArr
  midxA_rho_row : CArr

/-- Second setup loop of `apply` (obsolete.h 106-113). -/
def apply_loop2 (subsys dims : List Nat) : ApplyLoop2 :=
  (List.range subsys.length).foldl
    (fun (st : ApplyLoop2) k =>
      { midxA_row := st.midxA_row.write k 0
        midxA_rho_row := st.midxA_rho_row.write k 0
        CdimsA := st.CdimsA.write k (dims.getD (subsys.getD k 0) 0)
        CsubsysA := st.CsubsysA.write k (subsys.getD k 0)
        DA := st.DA * dims.getD (subsys.getD k 0) 0 })
    { CdimsA := fun _ => 0, CsubsysA := fun _ => 0, DA := 1,
      midxA_row := fun _ => 0, midxA_rho_row := fun _ => 0 }

/-- The values computed by the two setup loops. -/
def apply_setup (subsys dims : List Nat) : ApplySetup × ApplyScratch :=
  let l1 := apply_loop1 subsys dims
  let l2 := apply_loop2 subsys dims
  ({ Cdims := l1.Cdims, CdimsA := l2.CdimsA, CsubsysA := l2.CsubsysA,
     CdimsA_bar := l1.CdimsA_bar, CsubsysA_bar := l1.CsubsysA_bar,
     D := l1.D, DA := l2.DA, DA_bar := l1.DA_bar, cnt := l1.cnt },
   { midx_row := l1.midx_row, midx_rho_row := l1.midx_rho_row, midxA_row := l2.midxA_row,
     midxA_rho_row := l2.midxA_rho_row, midxA_bar_row := l1.midxA_bar_row })

/-- The innermost loop `for (c = 0; c < DA; c++)` of `apply`, which accumulates
the coefficient of one result entry; `col` is the column of `rstate` that is read
(0 for a ket, `j` for a matrix). -/
def apply_coeff (rA rstate : Mat R) (n nA : Nat) (su : ApplySetup) (a col : Nat)
    (sc : ApplyScratch) : ApplyScratch × R :=
  (List.range su.DA).foldl
    (fun (st : ApplyScratch × R) c =>
      let midxA_rho_row := internal._n2multiidx c nA su.CdimsA st.1.midxA_rho_row
      let midx_rho_row := CArr.scatter su.CsubsysA nA midxA_rho_row st.1.midx_rho_row
      ({ st.1 with midxA_rho_row := midxA_rho_row, midx_rho_row := midx_rho_row },
       st.2 + rA.data a c * rstate.data (internal._multiidx2n midx_rho_row n su.Cdims) col))
    (sc, 0)

/-- The two statements that open the loop over `i` in `apply`: decode the
complement index and store it in the result's and the state's row multi-index. -/
def apply_complement (nA_bar : Nat) (su : ApplySetup) (i : Nat) (sc : ApplyScratch) :
    ApplyScratch :=
  let midxA_bar_row := internal._n2multiidx i nA_bar su.CdimsA_bar sc.midxA_bar_row
  { sc with
    midxA_bar_row := midxA_bar_row
    midx_row := CArr.scatter su.CsubsysA_bar nA_bar midxA_bar_row sc.midx_row
    midx_rho_row := CArr.scatter su.CsubsysA_bar nA_bar midxA_bar_row sc.midx_rho_row }

/-- The two statements that open the loop over `a` in `apply`: decode the
subsystem index and store it in the result's row multi-index. -/
def apply_subsys (nA : Nat) (su : ApplySetup) (a : Nat) (sc : ApplyScratch) : ApplyScratch :=
  let midxA_row := internal._n2multiidx a nA su.CdimsA sc.midxA_row
  { sc with
    midxA_row := midxA_row
    midx_row := CArr.scatter su.CsubsysA nA midxA_row sc.midx_row }

/-- The loops of the ket branch of `apply` (obsolete.h 127-170). -/
def apply_ket (rA rstate : Mat R) (n nA nA_bar : Nat) (su : ApplySetup) (sc : ApplyScratch)
    (result : Mat R) : ApplyScratch × Mat R :=
  (List.range su.DA).foldl
    (fun (st : ApplyScratch × Mat R) a =>
      (List.range su.DA_bar).foldl
        (fun (st : ApplyScratch × Mat R) i =>
          let sc1 := apply_complement nA_bar su i st.1
          let result_row_idx := internal._multiidx2n sc1.midx_row n su.Cdims
          let r := apply_coeff rA rstate n nA su a 0 sc1
          (r.1, st.2.set result_row_idx 0 r.2))
        (apply_subsys nA su a st.1, st.2))
    (sc, result)

/-- The loops of the matrix branch of `apply` (obsolete.h 182-230). -/
def apply_mat (rA rstate : Mat R) (n nA nA_bar : Nat) (su : ApplySetup) (sc : ApplyScratch)
    (result : Mat R) : ApplyScratch × Mat R :=
  (List.range su.DA).foldl
    (fun (st : ApplyScratch × Mat R) a =>
      (List.range su.DA_bar).foldl
        (fun (st : ApplyScratch × Mat R) i =>
          let sc1 := apply_complement nA_bar su i st.1
          let result_row_idx := internal._multiidx2n sc1.midx_row n su.Cdims
          (List.range su.D).foldl
            (fun (st : ApplyScratch × Mat R) j =>
              let r := apply_coeff rA rstate n nA su a j st.1
              (r.1, st.2.set result_row_idx j r.2))
            (sc1, st.2))
        (apply_subsys nA su a st.1, st.2))
    (sc, result)

/-- The function `apply` of obsolete.h: applies the gate `A` to the part `subsys`
of a multipartite state vector or density matrix.  The scalar types of `state`
and `A` are the same type `R`, so the type check cannot fail. -/
def apply (state A : Mat R) (subsys dims : List Nat) : Except Exception (Mat R) :=
  let rstate := state
  let rA := A
  if !internal._check_nonzero_size rA then
    .error ⟨"apply", .ZERO_SIZE⟩
  else if !internal._check_nonzero_size rstate then
    .error ⟨"apply", .ZERO_SIZE⟩
  else if !internal._check_square_mat rA then
    .error ⟨"apply", .MATRIX_NOT_SQUARE⟩
  else if !internal._check_dims dims then
    .error ⟨"apply", .DIMS_INVALID⟩
  else if !internal._check_subsys_match_dims subsys dims then
    .error ⟨"apply", .SUBSYS_MISMATCH_DIMS⟩
  else
    let n := dims.length
    let nA := subsys.length
    let nA_bar := n - nA
    let su := (apply_setup subsys dims).1
    let sc := (apply_setup subsys dims).2
    if rA.rows != su.DA then
      .error ⟨"apply", .DIMS_MISMATCH_MATRIX⟩
    else if internal._check_col_vector rstate then
      if !internal._check_dims_match_cvect dims rstate then
        .error ⟨"apply", .DIMS_MISMATCH_CVECTOR⟩
      else
        .ok (apply_ket rA rstate n nA nA_bar su sc (Mat.Zero su.D 1)).2
    else if internal._check_square_mat rstate then
      if !internal._check_dims_match_mat dims rstate then
        .error ⟨"apply", .DIMS_MISMATCH_MATRIX⟩
      else
        .ok (apply_mat rA rstate n nA nA_bar su sc (Mat.Zero su.D su.D)).2
    else
      .error ⟨"apply", .MATRIX_NOT_SQUARE_OR_CVECTOR⟩

end obsolete

/-! ## Closed forms used in the proofs -/

/-- The labels `lab[0..n)` are a bijection of `0, …, n-1`. -/
def IsBij (lab : CArr) (n : Nat) : Prop :=
  (∀ t, t < n → lab t < n) ∧ (∀ t u, t < n → u < n → lab t = lab u → t = u)

/-- The source index that the `syspermute` worker computes for the result
index `x`. -/
def permIdx (cdims cperm : CArr) (n x : Nat) : Nat :=
  internal._multiidx2n
    (CArr.scatter cperm n
      (internal._n2multiidx x n (fun k => cdims (cperm k)) (fun _ => 0)) (fun _ => 0))
    n cdims

/-- The matrix that `syspermute` returns when its checks pass. -/
def syspermuteMat {R : Type} [Semiring R] (A : Mat R) (perm dims : List Nat) : Mat R :=
  ⟨A.rows, A.rows, fun a b =>
    if a < A.rows ∧ b < A.rows then
      A.data (permIdx (toCArr dims) (toCArr perm) dims.length a)
        (permIdx (toCArr dims) (toCArr perm) dims.length b)
    else 0⟩

/-- A sample `n x n` integer matrix with pairwise distinct entries (for `n ≤ 10`). -/
def demoMat (n : Nat) : Mat Int := ⟨n, n, fun i j => (i * 10 + j : Nat)⟩

/-- The source row that the `ptranspose` worker computes for the result cell
`(i, j)`: the digits of `i`, with those at the labels `csubsys[0..ns)` taken from
`j`.  The source column is `ptIdx … j i`. -/
def ptIdx (cdims csubsys : CArr) (n ns i j : Nat) : Nat :=
  internal._multiidx2n
    (fun l => if ∃ k, k < ns ∧ csubsys k = l then internal.digit cdims n j l
      else internal.digit cdims n i l)
    n cdims

/-- The matrix that `ptranspose` returns when its checks pass. -/
def ptransposeMat {R : Type} (A : Mat R) (subsys dims : List Nat) : Mat R :=
  ⟨A.rows, A.cols, fun a b =>
    if a < A.rows ∧ b < A.rows then
      A.data (ptIdx (toCArr dims) (toCArr subsys) dims.length subsys.length a b)
        (ptIdx (toCArr dims) (toCArr subsys) dims.length subsys.length b a)
    else A.data a b⟩

/-- The labels `0..n-1` that are not in `subsys`, in increasing order. -/
def complLabels (subsys : List Nat) (n : Nat) : List Nat :=
  (List.range n).filter (fun l => !subsys.contains l)

/-- The labels `0..n-1` that are in `subsys`, in increasing order. -/
def sortedLabels (subsys : List Nat) (n : Nat) : List Nat :=
  (List.range n).filter (fun l => subsys.contains l)

/-- Total dimension of the subsystems with the labels `L`. -/
def subDim (dims L : List Nat) : Nat := (L.map (fun l => dims.getD l 0)).prod

/-- The matrix that `ptrace2` returns for the sizes `[DA, DB]` when its checks pass. -/
def ptrace2Mat {R : Type} [Semiring R] (B : Mat R) (DA DB : Nat) : Mat R :=
  ⟨DA, DA, fun i j =>
    if i < DA ∧ j < DA then ∑ k in Finset.range DB, B.data (i * DB + k) (j * DB + k) else 0⟩

/-- The matrix that `ptrace` returns when its checks pass. -/
def ptraceMat {R : Type} [Semiring R] (A : Mat R) (subsys dims : List Nat) : Mat R :=
  ptrace2Mat
    (syspermuteMat A (complLabels subsys dims.length ++ sortedLabels subsys dims.length) dims)
    (A.rows / subDim dims subsys) (subDim dims subsys)

/-- The linear index, over the dimensions of the labels `lab[0..cnt)`, of the
digits that `x` has at these labels. -/
def subIdx (cdims lab : CArr) (cnt n x : Nat) : Nat :=
  internal._multiidx2n (fun t => internal.digit cdims n x (lab t)) cnt (fun t => cdims (lab t))

/-- Every label below `n` is one of `lab1[0..n1)` or one of `lab2[0..n2)`. -/
def Covers (lab1 : CArr) (n1 : Nat) (lab2 : CArr) (n2 n : Nat) : Prop :=
  ∀ l, l < n → (∃ t, t < n1 ∧ lab1 t = l) ∨ (∃ t, t < n2 ∧ lab2 t = l)

/-- The linear index over `dims` of the full multi-index that agrees, on the
labels `C`, with the decoding of `i` over the dimensions of `C` and, on the labels
`S`, with the decoding of `k` over the dimensions of `S` (both in listed order). -/
def fullIndex (dims C S : List Nat) (i k : Nat) : Nat :=
  let mC := internal._n2multiidx i C.length (fun t => toCArr dims (toCArr C t)) (fun _ => 0)
  let mS := internal._n2multiidx k S.length (fun t => toCArr dims (toCArr S t)) (fun _ => 0)
  internal._multiidx2n
    (CArr.scatter (toCArr S) S.length mS (CArr.scatter (toCArr C) C.length mC (fun _ => 0)))
    dims.length (toCArr dims)

/-- Reference definition of the partial trace, after the wording of the
specification: the `(D/Dsub) x (D/Dsub)` matrix, `Dsub` the product of `dims[s]`
for `s` in `subsys`, whose `(i, j)` entry is the sum over all multi-indices of the
traced-out subsystems (enumerated by their linear index `k < Dsub` over the
dimensions of `subsys`) of `A(r(i,k), r(j,k))`, where `r(i,k)` agrees with the
decoding of `i` on the complement (increasing label order) and with `k` on
`subsys`. -/
def ptrace_ref {R : Type} [Semiring R] (A : Mat R) (subsys dims : List Nat) : Mat R :=
  let C := complLabels subsys dims.length
  let Dsub := subDim dims subsys
  ⟨dims.prod / Dsub, dims.prod / Dsub, fun i j =>
    ∑ k in Finset.range Dsub, A.data (fullIndex dims C subsys i k) (fullIndex dims C subsys j k)⟩

/-- What the loops of `apply` use of the values computed by its setup loops. -/
structure ApplyInv (su : obsolete.ApplySetup) (n nA nA_bar : Nat) : Prop where
  hA : ∀ t, t < nA → su.CsubsysA t < n
  hB : ∀ t, t < nA_bar → su.CsubsysA_bar t < n
  injA : ∀ t u, t < nA → u < nA → su.CsubsysA t = su.CsubsysA u → t = u
  injB : ∀ t u, t < nA_bar → u < nA_bar → su.CsubsysA_bar t = su.CsubsysA_bar u → t = u
  disj : ∀ t u, t < nA_bar → u < nA → su.CsubsysA_bar t ≠ su.CsubsysA u
  cov : Covers su.CsubsysA_bar nA_bar su.CsubsysA nA n
  dA : ∀ t, t < nA → su.CdimsA t = su.Cdims (su.CsubsysA t)
  dB : ∀ t, t < nA_bar → su.CdimsA_bar t = su.Cdims (su.CsubsysA_bar t)
  pos : ∀ l, l < n → 1 ≤ su.Cdims l
  hDA : su.DA = internal._suffix_prod su.CdimsA nA 0
  hDB : su.DA_bar = internal._suffix_prod su.CdimsA_bar nA_bar 0
  hD : su.D = internal._suffix_prod su.Cdims n 0

/-- The row multi-index that `apply` assembles for the subsystem index `a` and
the complement index `i`. -/
def applyRowIdx (su : obsolete.ApplySetup) (nA nA_bar a i : Nat) : CArr :=
  CArr.scatter su.CsubsysA_bar nA_bar
    (internal._n2multiidx i nA_bar su.CdimsA_bar (fun _ => 0))
    (CArr.scatter su.CsubsysA nA (internal._n2multiidx a nA su.CdimsA (fun _ => 0))
      (fun _ => 0))

/-- The row index that `apply` computes for the subsystem index `a` and the
complement index `i`. -/
def applyRow (su : obsolete.ApplySetup) (n nA nA_bar a i : Nat) : Nat :=
  internal._multiidx2n (applyRowIdx su nA nA_bar a i) n su.Cdims

/-- A sample integer column vector of length `n` with pairwise distinct entries. -/
def demoVec (n : Nat) : Mat Int := ⟨n, 1, fun i _ => (i + 1 : Nat)⟩

/-- The dimension vector `dims` with the entries at the labels `S` removed. -/
def reducedDims (dims S : List Nat) : List Nat :=
  (complLabels S dims.length).map (fun l => dims.getD l 0)

/-- The labels `L` renumbered in the system of `n` subsystems reduced by `S`:
each label becomes its position among the remaining labels. -/
def renumber (S : List Nat) (n : Nat) (L : List Nat) : List Nat :=
  L.map (fun l => (complLabels S n).indexOf l)

/-- The source index that `ptrace` reads for the result index `i` and the
traced-out index `k`. -/
def ptraceIdx (dims S : List Nat) (i k : Nat) : Nat :=
  permIdx (toCArr dims) (toCArr (complLabels S dims.length ++ sortedLabels S dims.length))
    dims.length (i * subDim dims S + k)

/-- A sample `12 x 12` integer matrix. -/
def demoMat12 : Mat Int := ⟨12, 12, fun i j => (i * i * 7 + j * 13 + i * j : Nat)⟩

/-! ## Further primitives of the matrix library -/

/-- The identity matrix `Identity(n, n)`. -/
def Mat.Identity {R : Type} [Semiring R] (n : Nat) : Mat R :=
  ⟨n, n, fun i j => if i = j then 1 else 0⟩

/-- The scalar multiple `c * M`. -/
def Mat.smul {R : Type} [Mul R] (c : R) (M : Mat R) : Mat R :=
  ⟨M.rows, M.cols, fun i j => c * M.data i j⟩

/-- The matrix product `A * B` (the sizes must agree, `A.cols = B.rows`). -/
def Mat.mul {R : Type} [Semiring R] (A B : Mat R) : Mat R :=
  ⟨A.rows, B.cols, fun i j => ∑ k in Finset.range A.cols, A.data i k * B.data k j⟩

/-- The matrix sum `A + B` (of equal shapes). -/
def Mat.add {R : Type} [Add R] (A B : Mat R) : Mat R :=
  ⟨A.rows, A.cols, fun i j => A.data i j + B.data i j⟩

/-- The transpose `M.transpose()`. -/
def Mat.transpose {R : Type} (M : Mat R) : Mat R :=
  ⟨M.cols, M.rows, fun i j => M.data j i⟩

/-- The conjugate transpose `M.adjoint()`. -/
def Mat.adjoint {R : Type} [Star R] (M : Mat R) : Mat R :=
  ⟨M.cols, M.rows, fun i j => star (M.data j i)⟩

/-- Column `j` of a matrix, `M.col(j)`. -/
def Mat.col {R : Type} (M : Mat R) (j : Nat) : Mat R :=
  ⟨M.rows, 1, fun i _ => M.data i j⟩

/-- The block assignment `M.block(i, j, p, q) = N`. -/
def Mat.setBlock {R : Type} (M : Mat R) (i j p q : Nat) (N : Mat R) : Mat R :=
  ⟨M.rows, M.cols, fun a b =>
    if i ≤ a ∧ a < i + p ∧ j ≤ b ∧ b < j + q then N.data (a - i) (b - j) else M.data a b⟩

/-- The function `kron` of util.h: Kronecker product of 2 matrices.  The sizes,
held in `int` in the source, are natural numbers here. -/
def kron {R : Type} [Semiring R] (A B : Mat R) : Mat R :=
  let Acols := A.cols
  let Arows := A.rows
  let Bcols := B.cols
  let Brows := B.rows
  (List.range Arows).foldl
    (fun result i => (List.range Acols).foldl
      (fun result j =>
        result.setBlock (i * Brows) (j * Bcols) Brows Bcols (Mat.smul (A.data i j) B))
      result)
    (Mat.Zero (Arows * Brows) (Acols * Bcols))

/-- The basis column vector `e_x` of length `D`. -/
def basisKet {R : Type} [Semiring R] (D x : Nat) : Mat R :=
  ⟨D, 1, fun i _ => if i = x then 1 else 0⟩

/-- The basis matrix `|e_x><e_y|` of size `D`: a single 1 at the cell `(x, y)`. -/
def basisMat {R : Type} [Semiring R] (D x y : Nat) : Mat R :=
  ⟨D, D, fun i j => if i = x ∧ j = y then 1 else 0⟩

/-- The linear index, over the permuted dimension vector `dims[perm[k]]`, of the
permuted multi-index of `x`: position `k` holds the coordinate of `x` at the
subsystem `perm[k]`. -/
def permutedIndex (dims perm : List Nat) (x : Nat) : Nat :=
  let midx := internal._n2multiidx x dims.length (toCArr dims) (fun _ => 0)
  internal._multiidx2n (fun k => midx (toCArr perm k)) dims.length
    (fun k => toCArr dims (toCArr perm k))

/-- The index `x` with its coordinates at the labels `subsys` replaced by the
decoding of `c` over the dimensions of `subsys` (in listed order). -/
def replaceIdx (dims subsys : List Nat) (x c : Nat) : Nat :=
  fullIndex dims (complLabels subsys dims.length) subsys
    (subIdx (toCArr dims) (toCArr (complLabels subsys dims.length))
      (complLabels subsys dims.length).length dims.length x) c

/-- The entry that `apply` stores at row `x` and column `col` of its result: the
contraction of row `a` of the gate, `a` the subsystem part of `x`, with the
entries of the state at the rows that differ from `x` on `subsys` only. -/
def applyEntry {R : Type} [Semiring R] (state A : Mat R) (subsys dims : List Nat)
    (x col : Nat) : R :=
  ∑ c in Finset.range (subDim dims subsys),
    A.data (subIdx (toCArr dims) (toCArr subsys) subsys.length dims.length x) c *
      state.data (replaceIdx dims subsys x c) col

/-- The bit-flip gate `X`. -/
def bitflipX {R : Type} [Semiring R] : Mat R := ⟨2, 2, fun i j => if i = j then 0 else 1⟩

/-! ## `channel` of obsolete.h -/

/-- The loop `for (k = 0; k < cnt; k++) dst[k] = src[lab[k]];`. -/
def CArr.gather (lab : CArr) (cnt : Nat) (src dst : CArr) : CArr :=
  (List.range cnt).foldl (fun m k => m.write k (src (lab k))) dst

/-- Modelled from the spec: the overload of `_check_nonzero_size` of internal.h
(not among the sources) for a vector of Kraus operators: the set is not empty. -/
def internal._check_nonzero_size_list {α : Type} (Ks : List α) : Bool := !Ks.isEmpty

/-- Modelled from the spec: `super(Ks)`, the superoperator-construction
primitive (defined in a header that is not among the sources; called by
`channel`).  It returns the `DA² x DA²` matrix of the Kraus set in the
row-stacking representation, `sop(a*DA + b, m*DA + n) = Σ_i K_i(a, m) *
conj(K_i(b, n))`, where `DA` is the size of `Ks[0]`. -/
def super {R : Type} [Semiring R] [Star R] (Ks : List (Mat R)) : Mat R :=
  let DA := (Ks.head?.map (fun K => K.rows)).getD 0
  ⟨DA * DA, DA * DA, fun r c =>
    (Ks.map (fun K => K.data (r / DA) (c / DA) * star (K.data (r % DA) (c % DA)))).sum⟩

namespace obsolete

/-- The scratch multi-index arrays of `channel`. -/
structure ChannelScratch where
  midx_row : CArr
  midx_col : CArr
  midx_rho_row : CArr
  midx_rho_col : CArr
  midxA_row : CArr
  midxA_col : CArr
  midxA_rho_row : CArr
  midxA_rho_col : CArr
  midxA_bar_row : CArr
  midxA_bar_col : CArr

/-- The scratch arrays of `channel` after its setup loops, which store 0 in the
entries that are used. -/
def channel_scratch : ChannelScratch :=
  { midx_row := fun _ => 0, midx_col := fun _ => 0, midx_rho_row := fun _ => 0,
    midx_rho_col := fun _ => 0, midxA_row := fun _ => 0, midxA_col := fun _ => 0,
    midxA_rho_row := fun _ => 0, midxA_rho_col := fun _ => 0, midxA_bar_row := fun _ => 0,
    midxA_bar_col := fun _ => 0 }

/-- The three statements that open the loop over the rows `i` in `channel`:
decode the row and read off its complement part and its subsystem part. -/
def channel_rows (n nA nA_bar : Nat) (su : ApplySetup) (i : Nat) (sc : ChannelScratch) :
    ChannelScratch :=
  let midx_row := internal._n2multiidx i n su.Cdims sc.midx_row
  { sc with
    midx_row := midx_row
    midxA_bar_row := CArr.gather su.CsubsysA_bar nA_bar midx_row sc.midxA_bar_row
    midxA_row := CArr.gather su.CsubsysA nA midx_row sc.midxA_row }

/-- The three statements that open the loop over the columns `j` in `channel`. -/
def channel_cols (n nA nA_bar : Nat) (su : ApplySetup) (j : Nat) (sc : ChannelScratch) :
    ChannelScratch :=
  let midx_col := internal._n2multiidx j n su.Cdims sc.midx_col
  { sc with
    midx_col := midx_col
    midxA_bar_col := CArr.gather su.CsubsysA_bar nA_bar midx_col sc.midxA_bar_col
    midxA_col := CArr.gather su.CsubsysA nA midx_col sc.midxA_col }

variable {R : Type} [Semiring R]

/-- The body of the loop over `b` in `channel`: assemble the row and the column
multi-index of `rho` and add one term to the coefficient. -/
def channel_term (sop rrho : Mat R) (n nA nA_bar : Nat) (su : ApplySetup) (a b : Nat)
    (st : ChannelScratch × R) : ChannelScratch × R :=
  let midxA_rho_col := internal._n2multiidx b nA su.CdimsA st.1.midxA_rho_col
  let midx_rho_row := CArr.scatter su.CsubsysA_bar nA_bar st.1.midxA_bar_row
    (CArr.scatter su.CsubsysA nA st.1.midxA_rho_row st.1.midx_rho_row)
  let midx_rho_col := CArr.scatter su.CsubsysA_bar nA_bar st.1.midxA_bar_col
    (CArr.scatter su.CsubsysA nA midxA_rho_col st.1.midx_rho_col)
  let sop_dims := toCArr [su.DA, su.DA]
  let midx_sop_row := toCArr
    [internal._multiidx2n st.1.midxA_row nA su.CdimsA,
     internal._multiidx2n st.1.midxA_col nA su.CdimsA]
  let midx_sop_col := toCArr [a, b]
  ({ st.1 with
      midxA_rho_col := midxA_rho_col
      midx_rho_row := midx_rho_row
      midx_rho_col := midx_rho_col },
   st.2 + sop.data (internal._multiidx2n midx_sop_row 2 sop_dims)
        (internal._multiidx2n midx_sop_col 2 sop_dims)
      * rrho.data (internal._multiidx2n midx_rho_row n su.Cdims)
          (internal._multiidx2n midx_rho_col n su.Cdims))

/-- The loops over `a` and `b` of `channel`, which accumulate the coefficient of
one result cell. -/
def channel_coeff (sop rrho : Mat R) (n nA nA_bar : Nat) (su : ApplySetup)
    (sc : ChannelScratch) : ChannelScratch × R :=
  (List.range su.DA).foldl
    (fun (st : ChannelScratch × R) a =>
      (List.range su.DA).foldl
        (fun (st : ChannelScratch × R) b => channel_term sop rrho n nA nA_bar su a b st)
        ({ st.1 with
            midxA_rho_row := internal._n2multiidx a nA su.CdimsA st.1.midxA_rho_row },
          st.2))
    (sc, 0)

/-- The loops over the result cells of `channel` (obsolete.h 339-413). -/
def channel_loops (sop rrho : Mat R) (n nA nA_bar : Nat) (su : ApplySetup)
    (sc : ChannelScratch) (result : Mat R) : ChannelScratch × Mat R :=
  (List.range su.D).foldl
    (fun (st : ChannelScratch × Mat R) i =>
      (List.range su.D).foldl
        (fun (st : ChannelScratch × Mat R) j =>
          let r := channel_coeff sop rrho n nA nA_bar su (channel_cols n nA nA_bar su j st.1)
          (r.1, st.2.set i j r.2))
        (channel_rows n nA nA_bar su i st.1, st.2))
    (sc, result)

/-- The function `channel` of obsolete.h: applies the channel specified by the
set of Kraus operators `Ks` to the part `subsys` of the density matrix `rho`.
Its two setup loops are, statement for statement, those of `apply` (with the
column scratch arrays zeroed alongside and without `CdimsA_bar`, which `channel`
does not use), so `apply_setup` supplies `Cdims`, `CdimsA`, `CsubsysA`,
`CsubsysA_bar`, `D`, `DA` and `DA_bar`. -/
def channel [Star R] (rho : Mat R) (Ks : List (Mat R)) (subsys dims : List Nat) :
    Except Exception (Mat R) :=
  let rrho := rho
  if !internal._check_nonzero_size rrho then
    .error ⟨"channel", .ZERO_SIZE⟩
  else if !internal._check_square_mat rrho then
    .error ⟨"channel", .MATRIX_NOT_SQUARE⟩
  else if !internal._check_dims dims then
    .error ⟨"channel", .DIMS_INVALID⟩
  else if !internal._check_dims_match_mat dims rrho then
    .error ⟨"channel", .DIMS_MISMATCH_MATRIX⟩
  else if !internal._check_subsys_match_dims subsys dims then
    .error ⟨"channel", .SUBSYS_MISMATCH_DIMS⟩
  else if !internal._check_nonzero_size_list Ks then
    .error ⟨"channel", .ZERO_SIZE⟩
  else
    match Ks with
    | [] => .error ⟨"channel", .ZERO_SIZE⟩
    | K0 :: _ =>
      if !internal._check_square_mat K0 then
        .error ⟨"channel", .MATRIX_NOT_SQUARE⟩
      else if Ks.any (fun it => it.rows != K0.rows || it.cols != K0.rows) then
        .error ⟨"channel", .DIMS_NOT_EQUAL⟩
      else
        let n := dims.length
        let nA := subsys.length
        let nA_bar := n - nA
        let su := (apply_setup subsys dims).1
        if K0.rows != su.DA then
          .error ⟨"channel", .DIMS_MISMATCH_MATRIX⟩
        else
          let sop := super Ks
          .ok (channel_loops sop rrho n nA nA_bar su channel_scratch (Mat.Zero su.D su.D)).2

end obsolete

/-- The entry that `channel` stores at the cell `(x, y)` of its result: the
contraction of the superoperator row of the subsystem parts of `x` and `y` with
the entries of `rho` at the rows and columns that differ from `x` and `y` on
`subsys` only. -/
def channelEntry {R : Type} [Semiring R] (sop rho : Mat R) (subsys dims : List Nat)
    (x y : Nat) : R :=
  ∑ a in Finset.range (subDim dims subsys), ∑ b in Finset.range (subDim dims subsys),
    sop.data
        (subIdx (toCArr dims) (toCArr subsys) subsys.length dims.length x * subDim dims subsys
          + subIdx (toCArr dims) (toCArr subsys) subsys.length dims.length y)
        (a * subDim dims subsys + b)
      * rho.data (replaceIdx dims subsys x a) (replaceIdx dims subsys y b)

/-- The embedding `E(K)` of an operator `K` on `subsys` into the whole system:
the matrix whose column `y` is `apply(e_y, K, subsys, dims)`, so that
`E(K) * v = apply(v, K, subsys, dims)`. -/
def embedOp {R : Type} [Semiring R] (K : Mat R) (subsys dims : List Nat) : Mat R :=
  ⟨dims.prod, dims.prod, fun x y =>
    match obsolete.apply (basisKet dims.prod y) K subsys dims with
    | .ok v => v.data x 0
    | .error _ => 0⟩

/-- The Kraus sum `Σ_i E(K_i) * rho * adjoint(E(K_i))`. -/
def krausSum {R : Type} [Semiring R] [Star R] (rho : Mat R) (Ks : List (Mat R))
    (subsys dims : List Nat) : Mat R :=
  (Ks.map (fun K =>
    Mat.mul (Mat.mul (embedOp K subsys dims) rho) (Mat.adjoint (embedOp K subsys dims)))).foldl
    Mat.add (Mat.Zero dims.prod dims.prod)

/-- The linear index, over the dimensions of the labels `S2` in listed order, of
the multi-index that `c` is over the dimensions of the labels `S1` in listed
order (`S1` and `S2` hold the same labels). -/
def reorderIdx (dims S1 S2 : List Nat) (c : Nat) : Nat :=
  subIdx (toCArr dims) (toCArr S2) S2.length dims.length
    (fullIndex dims (complLabels S1 dims.length) S1 0 c)

/-- The gate `A`, given over the subsystems in the order `S2`, rewritten over the
same subsystems in the order `S1`: its tensor factors are reordered. -/
def reorderGate {R : Type} (A : Mat R) (dims S1 S2 : List Nat) : Mat R :=
  ⟨A.rows, A.cols, fun a c => A.data (reorderIdx dims S1 S2 a) (reorderIdx dims S1 S2 c)⟩

/-- The controlled-NOT gate on two qubits, the first being the control. -/
def gateCNOT {R : Type} [Semiring R] : Mat R :=
  ⟨4, 4, fun i j =>
    if (i = 0 ∧ j = 0) ∨ (i = 1 ∧ j = 1) ∨ (i = 2 ∧ j = 3) ∨ (i = 3 ∧ j = 2) then 1 else 0⟩

/-! ## number_theory.h: integer functions

`bigint` (`long long`) is `Int`; the operators `/` and `%` of the source truncate
towards zero (`Int.tdiv`, `Int.tmod`).  Signed arithmetic is exact: an overflow
of a signed operation is undefined behaviour in the source and outside this
model.  A `while` loop is a recursion on a fuel argument that bounds the number
of its iterations; the fuel passed by the caller is shown to suffice. -/

/-- The loop `while (b) { result = b; b = a % result; a = result; }` of `gcd`. -/
def gcd_loop : Nat → Int → Int → Int → Int
  | 0, _, _, result => result
  | fuel + 1, a, b, result =>
    if b ≠ 0 then gcd_loop fuel b (a.tmod b) b else result

/-- The function `gcd(bigint, bigint)` of number_theory.h: greatest common
divisor of two integers.  Every pass of the loop makes `|b|` smaller, so `|b|`
passes suffice. -/
def gcd (a b : Int) : Except Exception Int :=
  if a = 0 ∧ b = 0 then
    .error ⟨"qpp::gcd()", .OUT_OF_RANGE⟩
  else if a = 0 ∨ b = 0 then
    .ok (max |a| |b|)
  else
    let result := gcd_loop b.natAbs a b 1
    .ok (if result > 0 then result else -result)

/-- The function `gcd(const std::vector<bigint>&)` of number_theory.h: greatest
common divisor of a list of integers.  An exception of the two-argument `gcd`
leaves the loop. -/
def gcd_list (as : List Int) : Except Exception Int :=
  match as with
  | [] => .error ⟨"qpp::gcd()", .ZERO_SIZE⟩
  | a0 :: rest =>
    match rest.foldlM (fun result x => gcd result x) a0 with
    | .error e => .error e
    | .ok result => .ok (if result > 0 then result else -result)

/-- The loop of `egcd`:
`while (b) { q = a / b, r = a - q * b; m = m2 - q * m1, n = n2 - q * n1;
a = b, b = r; m2 = m1, m1 = m, n2 = n1, n1 = n; }`; the result is the triple
`(a, m2, n2)` read after the loop. -/
def egcd_loop : Nat → Int → Int → Int → Int → Int → Int → Int × Int × Int
  | 0, a, _, _, m2, _, n2 => (a, m2, n2)
  | fuel + 1, a, b, m1, m2, n1, n2 =>
    if b ≠ 0 then
      let q := a.tdiv b
      let r := a - q * b
      let m := m2 - q * m1
      let n := n2 - q * n1
      egcd_loop fuel b r m m1 n n1
    else (a, m2, n2)

/-- The function `egcd` of number_theory.h: the tuple `(m, n, c)` of the extended
Euclidean algorithm, with the signs corrected so that `c` is non-negative. -/
def egcd (a b : Int) : Except Exception (Int × Int × Int) :=
  if a = 0 ∧ b = 0 then .error ⟨"qpp::egcd()", .OUT_OF_RANGE⟩
  else
    let res := egcd_loop b.natAbs a b 0 1 1 0
    let c := res.1
    let m := res.2.1
    let n := res.2.2
    if c < 0 then .ok (-m, -n, -c) else .ok (m, n, c)

/-- The function `modinv` of number_theory.h: modular inverse of `a` mod `p`. -/
def modinv (a p : Int) : Except Exception Int :=
  if a ≤ 0 ∨ p ≤ 0 then .error ⟨"qpp::modinv()", .OUT_OF_RANGE⟩
  else
    match egcd p a with
    | .error e => .error e
    | .ok (_, y, gcd_ap) =>
      if gcd_ap ≠ 1 then .error ⟨"qpp::modinv()", .OUT_OF_RANGE⟩
      else .ok (if y > 0 then y else y + p)

/-! ## number_theory.h: modular arithmetic

`ubigint` (`unsigned long long`) is a natural number below `2^64`; its operations
wrap modulo `2^64`, written out with `%`.  The loops of `modmul` and `modpow` shift
a 64-bit value to the right in every iteration, so that 64 iterations suffice. -/

/-- Conversion of a `bigint` to `ubigint`: the value modulo `2^64`. -/
def to_ubigint (x : Int) : Nat := (x % (2 ^ 64 : Int)).toNat

/-- Conversion `static_cast<bigint>` of a `ubigint`: the values from `2^63` on are
the negative ones. -/
def to_bigint (x : Nat) : Int := if x < 2 ^ 63 then (x : Int) else (x : Int) - 2 ^ 64

/-- Subtraction `x - y` of `ubigint`. -/
def ubigint_sub (x y : Nat) : Nat := (x + 2 ^ 64 - y % 2 ^ 64) % 2 ^ 64

/-- Addition `x + y` of `ubigint`. -/
def ubigint_add (x y : Nat) : Nat := (x + y) % 2 ^ 64

/-- The loop `while (ua != 0)` of `modmul`; the result is `res` after the loop. -/
def modmul_loop : Nat → Nat → Nat → Nat → Nat → Nat
  | 0, _, _, _, res => res
  | fuel + 1, ua, ub, up, res =>
    if ua ≠ 0 then
      let res1 :=
        if ua % 2 = 1 then
          ubigint_add (if ub ≥ ubigint_sub up res then ubigint_sub res up else res) ub
        else res
      let temp_b := if ub ≥ ubigint_sub up ub then ubigint_sub ub up else ub
      modmul_loop fuel (ua / 2) (ubigint_add ub temp_b) up res1
    else res

/-- The unsigned part of `modmul`, from `ua %= up` to the end of the loop: the
value of `res` for the unsigned operands `ua`, `ub` and the modulus `up`. -/
def modmul_unsigned (ua ub up : Nat) : Nat :=
  let ua := ua % up
  let ub := ub % up
  let ua1 := if ub > ua then ub else ua
  let ub1 := if ub > ua then ua else ub
  let ub2 :=
    if ub1 ≥ up then
      if up > (2 ^ 64 - 1) / 2 then ubigint_sub ub1 up else ub1 % up
    else ub1
  modmul_loop 64 ua1 ub2 up 0

/-- The function `modmul` of number_theory.h. -/
def modmul (a b p : Int) : Except Exception Int :=
  if p < 1 then .error ⟨"qpp::modmul()", .OUT_OF_RANGE⟩
  else if a = 0 ∨ b = 0 then .ok 0
  else
    let ua := if a < 0 then to_ubigint (-a) else to_ubigint a
    let ub := if b < 0 then to_ubigint (-b) else to_ubigint b
    let is_positive : Bool :=
      if a < 0 ∧ b < 0 then true else if a < 0 ∨ b < 0 then false else true
    let up := to_ubigint p
    let res := modmul_unsigned ua ub up
    .ok (if is_positive then to_bigint res else to_bigint (ubigint_sub up res))

/-- The loop `for (; n > 0; n /= 2)` of `modpow`, with the running values of
`result` and `a`. -/
def modpow_loop : Nat → Int → Int → Int → Int → Except Exception Int
  | 0, _, _, _, result => .ok result
  | fuel + 1, n, a, p, result =>
    if n > 0 then
      match (if n.tmod 2 ≠ 0 then (modmul result a p).map (fun x => x.tmod p)
             else .ok result) with
      | .error e => .error e
      | .ok result1 =>
        match modmul a a p with
        | .error e => .error e
        | .ok a1 => modpow_loop fuel (n.tdiv 2) (a1.tmod p) p result1
    else .ok result

/-- The function `modpow` of number_theory.h. -/
def modpow (a n p : Int) : Except Exception Int :=
  if a < 0 ∨ n < 0 ∨ p < 1 then .error ⟨"qpp::modpow()", .OUT_OF_RANGE⟩
  else if a = 0 ∧ n = 0 then .error ⟨"qpp::modpow()", .OUT_OF_RANGE⟩
  else if a = 0 ∧ n > 0 then .ok 0
  else if n = 0 ∧ p = 1 then .ok 0
  else modpow_loop 64 n a p 1

/-! ## number_theory.h: prime factors

After `a = std::abs(a)` all values of `factors` are non-negative, and `/`, `%` on
them are the division and remainder of natural numbers: the loops run on `Nat`,
the resulting vector is a list of `Int`. -/

/-- The inner loop `while (a % d == 0) { result.push_back(d); a /= d; }` of
`factors`: the values of `a` and `result` after the loop. -/
def factors_inner : Nat → Nat → Nat → List Nat → Nat × List Nat
  | 0, a, _, result => (a, result)
  | fuel + 1, a, d, result =>
    if a % d = 0 then factors_inner fuel (a / d) d (result ++ [d]) else (a, result)

/-- The outer loop `while (a > 1)` of `factors`, left by `break` when `d * d > a`. -/
def factors_loop : Nat → Nat → Nat → List Nat → List Nat
  | 0, _, _, result => result
  | fuel + 1, a, d, result =>
    if a > 1 then
      let inner := factors_inner a a d result
      let a1 := inner.1
      let result1 := inner.2
      let d1 := d + 1
      if d1 * d1 > a1 then
        if a1 > 1 then result1 ++ [a1] else result1
      else factors_loop fuel a1 d1 result1
    else result

/-- The function `factors` of number_theory.h: prime factor decomposition. -/
def factors (a : Int) : Except Exception (List Int) :=
  let a := a.natAbs
  if a = 0 ∨ a = 1 then .error ⟨"qpp::factors()", .OUT_OF_RANGE⟩
  else .ok ((factors_loop a a 2 []).map Int.ofNat)

/-- The function `compperm` of number_theory.h: composition `perm ∘ sigma` of
two permutations. -/
def compperm (perm sigma : List Nat) : Except Exception (List Nat) :=
  if !internal.check_perm perm then
    .error ⟨"qpp::compperm()", .PERM_INVALID⟩
  else if !internal.check_perm sigma then
    .error ⟨"qpp::compperm()", .PERM_INVALID⟩
  else if perm.length != sigma.length then
    .error ⟨"qpp::compperm()", .PERM_INVALID⟩
  else
    .ok ((List.range perm.length).foldl
      (fun result i => result.set i (perm.getD (sigma.getD i 0) 0))
      (List.replicate perm.length 0))

/-! ## util.h: reshape

The matrix library stores a matrix in column-major order: the element `(r, c)` of
an `m x n` matrix is at position `r + c * m` of its buffer `data()`, and
`Map(buffer, rows, cols)` is the `rows x cols` matrix read from a buffer in that
order.  The shape arguments of `reshape` are `size_t` values that no matrix
bounds: the products of the comparison are taken modulo `2^64`. -/

/-- The buffer `A.data()` of a matrix, in column-major order. -/
def Mat.buffer {R : Type} (A : Mat R) : Nat → R := fun k => A.data (k % A.rows) (k / A.rows)

/-- The matrix `Map(buffer, rows, cols)` of the matrix library. -/
def Mat.Map {R : Type} (buffer : Nat → R) (rows cols : Nat) : Mat R :=
  ⟨rows, cols, fun i j => buffer (i + j * rows)⟩

/-- The function `reshape` of util.h: reshapes the columns of `A` into a matrix
with `rows` rows and `cols` columns, in column-major order. -/
def reshape {R : Type} (A : Mat R) (rows cols : Nat) : Except String (Mat R) :=
  let rowsA := A.rows
  let colsA := A.cols
  if (rowsA * colsA) % 2 ^ 64 ≠ (rows * cols) % 2 ^ 64 then
    .error "reshape: Dimension mismatch!"
  else .ok (Mat.Map A.buffer rows cols)

/-- A loop iteration `step` assigns the cell `(a, b)` of the result: it stores one
value there, whatever the result held before, and changes nothing else. -/
def AssignsCell {R : Type} (step : Mat R → Mat R) (a b : Nat) : Prop :=
  ∃ v, ∀ result, step result = result.set a b v

/-! ## number_theory.h: primality test

Modelled from the spec: the random draws `rand(2, p - 1)` and `rand(2, p - 2)`
(random.h is not among the sources) are arguments of `isprime`: `x` is the draw
of the Fermat test and `as i` the draw of the `i`-th round; a statement on every
outcome of the draws quantifies over them within the requested ranges. -/

/-- The loop `for (bigint i = p - 1; i % 2 == 0; ++u, i /= 2);` of `isprime`: the
value of the counter `u` after the loop. -/
def isprime_u : Nat → Int → Nat → Nat
  | 0, _, u => u
  | fuel + 1, i, u => if i.tmod 2 = 0 then isprime_u fuel (i.tdiv 2) (u + 1) else u

/-- The inner loop `for (idx j = 0; j < u; ++j)` of `isprime`, with `n` iterations
left: `none` when the function returns `false` from inside the loop (`z == 1`),
otherwise the value of `jump` after the loop. -/
def isprime_inner (p : Int) : Nat → Int → Except Exception (Option Bool)
  | 0, _ => .ok (some false)
  | n + 1, z =>
    match modmul z z p with
    | .error e => .error e
    | .ok m =>
      let z := m.tmod p
      if z = 1 then .ok none
      else if z = p - 1 then .ok (some true)
      else isprime_inner p n z

/-- The loop `for (idx i = 0; i < k; ++i)` of `isprime`, with `n` rounds left,
and the `return true` after it. -/
def isprime_rounds (p r : Int) (u : Nat) (as : Nat → Int) : Nat → Nat → Except Exception Bool
  | 0, _ => .ok true
  | n + 1, i =>
    let a := as i
    match modpow a r p with
    | .error e => .error e
    | .ok z =>
      if z = 1 ∨ z = p - 1 then isprime_rounds p r u as n (i + 1)
      else
        match isprime_inner p u z with
        | .error e => .error e
        | .ok none => .ok false
        | .ok (some jump) =>
          if jump then isprime_rounds p r u as n (i + 1) else .ok false

/-- The function `isprime` of number_theory.h: primality test based on the
Miller-Rabin algorithm, with `k` rounds; `x` and `as` are the outcomes of the
random draws.  The power `std::pow(2, u)`, rounded by `std::llround`, is the
integer `2^u` (exact for `u < 63`). -/
def isprime (p : Int) (k : Nat) (x : Int) (as : Nat → Int) : Except Exception Bool :=
  let p := |p|
  if p < 2 then .error ⟨"qpp::isprime()", .OUT_OF_RANGE⟩
  else if p = 2 ∨ p = 3 then .ok true
  else
    match modpow x (p - 1) p with
    | .error e => .error e
    | .ok f =>
      if f ≠ 1 then .ok false
      else
        let u := isprime_u 64 (p - 1) 0
        let r := (p - 1).tdiv (2 ^ u)
        isprime_rounds p r u as k 0

/-! ## Codec lemmas -/

namespace internal

theorem _suffix_prod_succ (dims : CArr) (n start : Nat) (h : start ≤ n) :
    _suffix_prod dims (n + 1) start = _suffix_prod dims n start * dims n := by
  simp [_suffix_prod, List.range_succ, List.filter_append, h]

theorem _suffix_prod_of_ge (dims : CArr) (n start : Nat) (h : n ≤ start) :
    _suffix_prod dims n start = 1 := by
  have : (List.range n).filter (fun l => decide (start ≤ l)) = [] := by
    rw [List.filter_eq_nil_iff]
    intro a ha
    have := List.mem_range.mp ha
    simp; omega
  simp [_suffix_prod, this]

theorem _suffix_prod_step (dims : CArr) (n k : Nat) (h : k < n) :
    _suffix_prod dims n k = dims k * _suffix_prod dims n (k + 1) := by
  induction n with
  | zero => omega
  | succ n ih =>
    rcases Nat.lt_or_ge k n with hk | hk
    · rw [_suffix_prod_succ dims n k (by omega), _suffix_prod_succ dims n (k + 1) (by omega),
        ih hk, Nat.mul_assoc]
    · have hkn : k = n := by omega
      subst hkn
      rw [_suffix_prod_succ dims k k (le_refl _), _suffix_prod_of_ge dims k k (le_refl _),
        _suffix_prod_of_ge dims (k + 1) (k + 1) (le_refl _)]
      simp

theorem _suffix_prod_congr (dims dims2 : CArr) (n start : Nat)
    (h : ∀ l, l < n → dims l = dims2 l) :
    _suffix_prod dims n start = _suffix_prod dims2 n start := by
  unfold _suffix_prod
  congr 1
  apply List.map_congr_left
  intro a ha
  exact h a (List.mem_range.mp (List.mem_filter.mp ha).1)

theorem _suffix_prod_pos (dims : CArr) (n start : Nat) (h : ∀ l, l < n → 1 ≤ dims l) :
    0 < _suffix_prod dims n start := by
  unfold _suffix_prod
  apply List.prod_pos
  intro a ha
  obtain ⟨l, hl, rfl⟩ := List.mem_map.mp ha
  exact h l (List.mem_range.mp (List.mem_filter.mp hl).1)

/-- A positive total forces every dimension to be positive. -/
theorem dims_pos_of_total_pos (dims : CArr) (n : Nat) (h : 0 < _suffix_prod dims n 0) :
    ∀ l, l < n → 1 ≤ dims l := by
  intro l hl
  by_contra hc
  have h0 : dims l = 0 := by omega
  have : _suffix_prod dims n 0 = 0 := by
    unfold _suffix_prod
    apply List.prod_eq_zero
    apply List.mem_map.mpr
    exact ⟨l, List.mem_filter.mpr ⟨List.mem_range.mpr hl, by simp⟩, h0⟩
  omega

theorem _n2multiidx_fold (dims : CArr) (n x : Nat) (r : CArr) (hx : x < _suffix_prod dims n 0)
    (j : Nat) (hj : j ≤ n) :
    (List.range j).foldl
      (fun (st : Nat × CArr) k =>
        (st.1 % _suffix_prod dims n (k + 1),
         st.2.write k (st.1 / _suffix_prod dims n (k + 1))))
      (x, r)
    = (x % _suffix_prod dims n j, fun k => if k < j then digit dims n x k else r k) := by
  induction j with
  | zero => simp [Nat.mod_eq_of_lt hx]
  | succ j ih =>
    rw [List.range_succ, List.foldl_append, ih (by omega)]
    have hstep := _suffix_prod_step dims n j (by omega)
    simp only [List.foldl_cons, List.foldl_nil]
    refine Prod.ext ?_ ?_
    · simp only [hstep]
      exact Nat.mod_mul_left_mod _ _ _
    · funext k
      simp only [CArr.write]
      by_cases hk : k = j
      · subst hk
        simp only [if_true, Nat.lt_succ_self, digit, hstep]
        exact Nat.mod_mul_left_div_self _ _ _
      · by_cases hk2 : k < j
        · simp [hk, hk2, Nat.lt_succ_of_lt hk2]
        · have : ¬ k < j + 1 := by omega
          simp [hk, hk2, this]

/-- Closed form of the decomposition for an in-range linear index. -/
theorem _n2multiidx_eq (dims : CArr) (n x : Nat) (r : CArr) (hx : x < _suffix_prod dims n 0) :
    _n2multiidx x n dims r = fun k => if k < n then digit dims n x k else r k := by
  unfold _n2multiidx
  rw [_n2multiidx_fold dims n x r hx n (le_refl _)]

theorem _multiidx2n_succ (midx dims : CArr) (n : Nat) :
    _multiidx2n midx (n + 1) dims = _multiidx2n midx n dims * dims n + midx n := by
  unfold _multiidx2n
  rw [List.range_succ, List.map_append, List.sum_append]
  simp only [List.map_cons, List.map_nil, List.sum_cons, List.sum_nil, Nat.add_zero]
  rw [_suffix_prod_of_ge dims (n + 1) (n + 1) (le_refl _), Nat.mul_one]
  congr 1
  rw [← List.sum_map_mul_right]
  congr 1
  apply List.map_congr_left
  intro k hk
  have := List.mem_range.mp hk
  rw [_suffix_prod_succ dims n (k + 1) (by omega), Nat.mul_assoc]

theorem _multiidx2n_congr (midx midx2 dims dims2 : CArr) (n : Nat)
    (hm : ∀ k, k < n → midx k = midx2 k) (hd : ∀ l, l < n → dims l = dims2 l) :
    _multiidx2n midx n dims = _multiidx2n midx2 n dims2 := by
  unfold _multiidx2n
  congr 1
  apply List.map_congr_left
  intro k hk
  rw [hm k (List.mem_range.mp hk), _suffix_prod_congr dims dims2 n (k + 1) hd]

theorem digit_succ_of_lt (dims : CArr) (n x k : Nat) (hk : k < n) :
    digit dims (n + 1) x k = digit dims n (x / dims n) k := by
  unfold digit
  rw [_suffix_prod_succ dims n (k + 1) (by omega), Nat.div_div_eq_div_mul, Nat.mul_comm]

theorem digit_succ_last (dims : CArr) (n x : Nat) :
    digit dims (n + 1) x n = x % dims n := by
  unfold digit
  rw [_suffix_prod_of_ge dims (n + 1) (n + 1) (le_refl _), Nat.div_one]

/-- Encoding the digits of an in-range index gives the index back. -/
theorem _multiidx2n_digit (dims : CArr) (n : Nat) :
    ∀ x, x < _suffix_prod dims n 0 → _multiidx2n (digit dims n x) n dims = x := by
  induction n with
  | zero =>
    intro x hx
    rw [_suffix_prod_of_ge dims 0 0 (le_refl _)] at hx
    simp [_multiidx2n]; omega
  | succ n ih =>
    intro x hx
    rw [_suffix_prod_succ dims n 0 (Nat.zero_le _)] at hx
    have hq : x / dims n < _suffix_prod dims n 0 :=
      Nat.div_lt_of_lt_mul (by rwa [Nat.mul_comm] at hx)
    rw [_multiidx2n_succ, digit_succ_last,
      _multiidx2n_congr (digit dims (n + 1) x) (digit dims n (x / dims n)) dims dims n
        (fun k hk => digit_succ_of_lt dims n x k hk) (fun _ _ => rfl),
      ih _ hq]
    exact Nat.div_add_mod' x (dims n)

/-- The encoding of a valid multi-index is in range and has that multi-index as digits. -/
theorem digit_multiidx2n (dims : CArr) (n : Nat) :
    ∀ m : CArr, (∀ k, k < n → m k < dims k) →
      _multiidx2n m n dims < _suffix_prod dims n 0 ∧
      ∀ k, k < n → digit dims n (_multiidx2n m n dims) k = m k := by
  induction n with
  | zero =>
    intro m _
    refine ⟨?_, fun k hk => by omega⟩
    rw [_suffix_prod_of_ge dims 0 0 (le_refl _)]
    simp [_multiidx2n]
  | succ n ih =>
    intro m hm
    obtain ⟨hlt, hdig⟩ := ih m (fun k hk => hm k (by omega))
    have hmn := hm n (by omega)
    have hd : 0 < dims n := by omega
    rw [_multiidx2n_succ, _suffix_prod_succ dims n 0 (Nat.zero_le _)]
    refine ⟨?_, ?_⟩
    · calc _multiidx2n m n dims * dims n + m n
          < _multiidx2n m n dims * dims n + dims n := by omega
        _ = (_multiidx2n m n dims + 1) * dims n := by ring
        _ ≤ _suffix_prod dims n 0 * dims n := Nat.mul_le_mul_right _ hlt
    · intro k hk
      have hdiv : (_multiidx2n m n dims * dims n + m n) / dims n = _multiidx2n m n dims := by
        rw [Nat.add_comm, Nat.add_mul_div_right _ _ hd, Nat.div_eq_of_lt hmn, Nat.zero_add]
      rcases Nat.lt_or_ge k n with hkn | hkn
      · rw [digit_succ_of_lt dims n _ k hkn, hdiv]
        exact hdig k hkn
      · have : k = n := by omega
        subst this
        rw [digit_succ_last, Nat.add_comm, Nat.add_mul_mod_self_right, Nat.mod_eq_of_lt hmn]

theorem digit_lt (dims : CArr) (n x k : Nat) (h : 1 ≤ dims k) : digit dims n x k < dims k :=
  Nat.mod_lt _ h

theorem _suffix_prod_toCArr (dims : List Nat) :
    _suffix_prod (toCArr dims) dims.length 0 = dims.prod := by
  induction dims using List.reverseRecOn with
  | nil => simp [_suffix_prod]
  | append_singleton ds d ih =>
    rw [List.length_append, List.length_singleton, _suffix_prod_succ _ _ _ (Nat.zero_le _),
      List.prod_append, List.prod_singleton]
    have h1 : _suffix_prod (toCArr (ds ++ [d])) ds.length 0 = _suffix_prod (toCArr ds) ds.length 0 := by
      apply _suffix_prod_congr
      intro l hl
      simp [toCArr, List.getElem?_append_left hl]
    rw [h1, ih]
    simp [toCArr]

end internal

/-! ## Index codec: the claims -/

theorem toCArr_pos (dims : List Nat) (hdims : ∀ d ∈ dims, 1 ≤ d) :
    ∀ l, l < dims.length → 1 ≤ toCArr dims l := by
  intro l hl
  have : toCArr dims l = dims[l] := by simp [toCArr, List.getD_eq_getElem?_getD, hl]
  rw [this]
  exact hdims _ (List.getElem_mem hl)

/-- Decoding an in-range index and encoding the result is the identity. -/
theorem _multiidx2n_n2multiidx (dims : List Nat) (x : Nat) (hx : x < dims.prod) (buf : CArr) :
    internal._multiidx2n (internal._n2multiidx x dims.length (toCArr dims) buf)
      dims.length (toCArr dims) = x := by
  rw [← internal._suffix_prod_toCArr] at hx
  rw [internal._n2multiidx_eq _ _ _ _ hx]
  rw [internal._multiidx2n_congr _ (internal.digit (toCArr dims) dims.length x) _ (toCArr dims)
    dims.length (fun k hk => by simp [hk]) (fun _ _ => rfl)]
  exact internal._multiidx2n_digit _ _ x hx

/-- C1: index codec round trip.  For every dimension vector `dims` with all
entries at least 1 and every linear index `x < prod(dims)`, encoding the
multi-index that `_n2multiidx` writes for `x` with `_multiidx2n` gives `x` back. -/
theorem index_codec_round_trip (dims : List Nat) (hdims : ∀ d ∈ dims, 1 ≤ d) (x : Nat)
    (hx : x < dims.prod) (buf : CArr) :
    internal._multiidx2n (internal._n2multiidx x dims.length (toCArr dims) buf)
      dims.length (toCArr dims) = x := by
  have _ := hdims
  exact _multiidx2n_n2multiidx dims x hx buf

theorem index_codec_round_trip_witness :
    internal._multiidx2n (internal._n2multiidx 17 [2, 3, 4].length (toCArr [2, 3, 4]) (fun _ => 0))
      [2, 3, 4].length (toCArr [2, 3, 4]) = 17 :=
  index_codec_round_trip [2, 3, 4] (by decide) 17 (by decide) (fun _ => 0)

/-- C2: index codec inverse direction.  For every `dims` with all entries at
least 1 and every multi-index `m` of the same length with `m[k] < dims[k]`, the
linear index of `m` is below `prod(dims)` and decoding it gives `m` back; hence
decoding is a bijection from `[0, prod(dims))` onto the valid multi-indices, with
`_multiidx2n` as its inverse. -/
theorem index_codec_inverse (dims : List Nat) (hdims : ∀ d ∈ dims, 1 ≤ d) (buf : CArr) :
    (∀ m : List Nat, m.length = dims.length →
      (∀ k, k < dims.length → m.getD k 0 < dims.getD k 0) →
        internal._multiidx2n (toCArr m) dims.length (toCArr dims) < dims.prod ∧
        (List.range dims.length).map
          (internal._n2multiidx (internal._multiidx2n (toCArr m) dims.length (toCArr dims))
            dims.length (toCArr dims) buf) = m) ∧
    Set.BijOn
      (fun x => (List.range dims.length).map
        (internal._n2multiidx x dims.length (toCArr dims) buf))
      {x | x < dims.prod}
      {m | m.length = dims.length ∧ ∀ k, k < dims.length → m.getD k 0 < dims.getD k 0} := by
  have hpos := toCArr_pos dims hdims
  have key : ∀ m : List Nat, m.length = dims.length →
      (∀ k, k < dims.length → m.getD k 0 < dims.getD k 0) →
        internal._multiidx2n (toCArr m) dims.length (toCArr dims) < dims.prod ∧
        (List.range dims.length).map
          (internal._n2multiidx (internal._multiidx2n (toCArr m) dims.length (toCArr dims))
            dims.length (toCArr dims) buf) = m := by
    intro m hlen hm
    obtain ⟨hlt, hdig⟩ := internal.digit_multiidx2n (toCArr dims) dims.length (toCArr m) hm
    refine ⟨by rwa [internal._suffix_prod_toCArr] at hlt, ?_⟩
    rw [internal._n2multiidx_eq _ _ _ _ hlt]
    apply List.ext_getElem
    · simp [hlen]
    · intro k h1 h2
      have hk : k < dims.length := by simpa using h1
      simp only [List.getElem_map, List.getElem_range, hk, if_true]
      rw [hdig k hk]
      simp [toCArr, List.getD_eq_getElem?_getD, h2]
  refine ⟨key, ?_, ?_, ?_⟩
  · intro x hx
    have hx2 : x < internal._suffix_prod (toCArr dims) dims.length 0 := by
      rw [internal._suffix_prod_toCArr]; exact hx
    refine ⟨by simp, ?_⟩
    intro k hk
    show (List.map (internal._n2multiidx x dims.length (toCArr dims) buf)
      (List.range dims.length)).getD k 0 < dims.getD k 0
    rw [internal._n2multiidx_eq _ _ _ _ hx2]
    simp only [List.getD_eq_getElem?_getD, List.getElem?_map, List.getElem?_range hk,
      Option.map_some', Option.getD_some, hk, if_true]
    have := internal.digit_lt (toCArr dims) dims.length x k (hpos k hk)
    simpa [toCArr, List.getD_eq_getElem?_getD] using this
  · intro x hx y hy hxy
    have hx2 := _multiidx2n_n2multiidx dims x hx buf
    have hy2 := _multiidx2n_n2multiidx dims y hy buf
    have hcongr : ∀ k, k < dims.length →
        internal._n2multiidx x dims.length (toCArr dims) buf k
          = internal._n2multiidx y dims.length (toCArr dims) buf k := by
      intro k hk
      have := congrArg (fun l => l.getD k 0) hxy
      simpa [List.getD_eq_getElem?_getD, List.getElem?_map, List.getElem?_range hk] using this
    rw [← hx2, ← hy2]
    exact internal._multiidx2n_congr _ _ _ _ _ hcongr (fun _ _ => rfl)
  · intro m hm
    obtain ⟨h1, h2⟩ := key m hm.1 hm.2
    exact ⟨_, h1, h2⟩

theorem index_codec_inverse_witness :
    (∀ m : List Nat, m.length = [2, 3].length →
      (∀ k, k < [2, 3].length → m.getD k 0 < [2, 3].getD k 0) →
        internal._multiidx2n (toCArr m) [2, 3].length (toCArr [2, 3]) < [2, 3].prod ∧
        (List.range [2, 3].length).map
          (internal._n2multiidx (internal._multiidx2n (toCArr m) [2, 3].length (toCArr [2, 3]))
            [2, 3].length (toCArr [2, 3]) (fun _ => 0)) = m) ∧
    Set.BijOn
      (fun x => (List.range [2, 3].length).map
        (internal._n2multiidx x [2, 3].length (toCArr [2, 3]) (fun _ => 0)))
      {x | x < [2, 3].prod}
      {m | m.length = [2, 3].length ∧ ∀ k, k < [2, 3].length → m.getD k 0 < [2, 3].getD k 0} :=
  index_codec_inverse [2, 3] (by decide) (fun _ => 0)

/-- C3: for every `dims` with all entries at least 1 and every `x < prod(dims)`,
`_n2multiidx` writes exactly the `dims.size()` entries `0..dims.size()-1` of the
multi-index, and entry `k` lies in `[0, dims[k])`. -/
theorem multi_index_entries_in_range (dims : List Nat) (hdims : ∀ d ∈ dims, 1 ≤ d) (x : Nat)
    (hx : x < dims.prod) (buf : CArr) :
    (∀ k, k < dims.length →
      internal._n2multiidx x dims.length (toCArr dims) buf k < dims.getD k 0) ∧
    (∀ k, dims.length ≤ k →
      internal._n2multiidx x dims.length (toCArr dims) buf k = buf k) ∧
    ((List.range dims.length).map
      (internal._n2multiidx x dims.length (toCArr dims) buf)).length = dims.length := by
  have hpos := toCArr_pos dims hdims
  rw [← internal._suffix_prod_toCArr] at hx
  rw [internal._n2multiidx_eq _ _ _ _ hx]
  refine ⟨?_, ?_, by simp⟩
  · intro k hk
    simp only [hk, if_true]
    exact internal.digit_lt (toCArr dims) dims.length x k (hpos k hk)
  · intro k hk
    have : ¬ k < dims.length := by omega
    simp [this]

theorem multi_index_entries_in_range_witness :
    (∀ k, k < [2, 3, 4].length →
      internal._n2multiidx 17 [2, 3, 4].length (toCArr [2, 3, 4]) (fun _ => 9) k
        < [2, 3, 4].getD k 0) ∧
    (∀ k, [2, 3, 4].length ≤ k →
      internal._n2multiidx 17 [2, 3, 4].length (toCArr [2, 3, 4]) (fun _ => 9) k = 9) ∧
    ((List.range [2, 3, 4].length).map
      (internal._n2multiidx 17 [2, 3, 4].length (toCArr [2, 3, 4]) (fun _ => 9))).length
        = [2, 3, 4].length :=
  multi_index_entries_in_range [2, 3, 4] (by decide) 17 (by decide) (fun _ => 9)

/-! ## Loops over matrices and arrays -/

theorem Mat.ext_iff3 {R : Type} (A B : Mat R) (h1 : A.rows = B.rows) (h2 : A.cols = B.cols)
    (h3 : A.data = B.data) : A = B := by
  cases A; cases B; simp_all

/-- A row loop of stores `M(i, j) = val j` for `j < c`. -/
theorem foldl_set_row {R : Type} (i c : Nat) (val : Nat → R) (M : Mat R) :
    (List.range c).foldl (fun M j => M.set i j (val j)) M
      = ⟨M.rows, M.cols, fun a b => if a = i ∧ b < c then val b else M.data a b⟩ := by
  induction c with
  | zero => simp
  | succ c ih =>
    rw [List.range_succ, List.foldl_append, ih]
    simp only [List.foldl_cons, List.foldl_nil, Mat.set]
    refine Mat.ext_iff3 _ _ rfl rfl ?_
    funext a b
    simp only
    by_cases ha : a = i
    · by_cases hb : b = c
      · simp [ha, hb]
      · by_cases hb2 : b < c
        · simp [ha, hb, hb2, Nat.lt_succ_of_lt hb2]
        · have : ¬ b < c + 1 := by omega
          simp [ha, hb, hb2, this]
    · simp [ha]

/-- The doubly nested loop of stores `M(i, j) = val i j` for `i < r`, `j < c`. -/
theorem foldl_set_grid {R : Type} (r c : Nat) (val : Nat → Nat → R) (M : Mat R) :
    (List.range r).foldl (fun M i => (List.range c).foldl (fun M j => M.set i j (val i j)) M) M
      = ⟨M.rows, M.cols, fun a b => if a < r ∧ b < c then val a b else M.data a b⟩ := by
  induction r with
  | zero => simp
  | succ r ih =>
    rw [List.range_succ, List.foldl_append, ih]
    simp only [List.foldl_cons, List.foldl_nil]
    rw [foldl_set_row]
    refine Mat.ext_iff3 _ _ rfl rfl ?_
    funext a b
    simp only
    by_cases ha : a = r
    · subst ha
      by_cases hb : b < c
      · simp [hb]
      · simp [hb]
    · by_cases ha2 : a < r
      · have : a < r + 1 := by omega
        simp [ha, ha2, this]
      · have : ¬ a < r + 1 := by omega
        simp [ha, ha2, this]

/-- Two loops with bodies that agree on the members of the list compute the same. -/
theorem foldl_congr_mem {α β : Type} (f g : β → α → β) (l : List α) (b : β)
    (h : ∀ s, ∀ x ∈ l, f s x = g s x) : l.foldl f b = l.foldl g b := by
  induction l generalizing b with
  | nil => rfl
  | cons x xs ih =>
    simp only [List.foldl_cons]
    rw [h b x (List.mem_cons_self _ _)]
    exact ih _ (fun s y hy => h s y (List.mem_cons_of_mem _ hy))

/-- A loop whose state has an observable part `π` that evolves by `g` whenever
the invariant `I` holds. -/
theorem foldl_simulation {σ ρ ι : Type} (f : σ → ι → σ) (g : ρ → ι → ρ) (π : σ → ρ)
    (I : σ → Prop) (l : List ι)
    (h : ∀ s, ∀ x ∈ l, I s → I (f s x) ∧ π (f s x) = g (π s) x) :
    ∀ s, I s → I (l.foldl f s) ∧ π (l.foldl f s) = l.foldl g (π s) := by
  induction l with
  | nil => intro s hs; exact ⟨hs, rfl⟩
  | cons x xs ih =>
    intro s hs
    simp only [List.foldl_cons]
    obtain ⟨h1, h2⟩ := h s x (List.mem_cons_self _ _) hs
    obtain ⟨h3, h4⟩ := ih (fun s y hy => h s y (List.mem_cons_of_mem _ hy)) (f s x) h1
    exact ⟨h3, by rw [h4, h2]⟩

/-- The accumulation loop `acc += f k` is the finite sum. -/
theorem foldl_add_eq_sum {R : Type} [AddCommMonoid R] (f : Nat → R) (n : Nat) :
    (List.range n).foldl (fun acc k => acc + f k) 0 = ∑ k in Finset.range n, f k := by
  induction n with
  | zero => simp
  | succ n ih =>
    rw [List.range_succ, List.foldl_append, ih, Finset.sum_range_succ]
    simp

theorem CArr.scatter_succ (lab : CArr) (cnt : Nat) (src dst : CArr) :
    CArr.scatter lab (cnt + 1) src dst
      = (CArr.scatter lab cnt src dst).write (lab cnt) (src cnt) := by
  simp [CArr.scatter, List.range_succ, List.foldl_append]

/-- A label that is not stored into keeps its entry. -/
theorem CArr.scatter_of_not_mem (lab : CArr) (cnt : Nat) (src dst : CArr) (l : Nat)
    (h : ∀ k, k < cnt → lab k ≠ l) : CArr.scatter lab cnt src dst l = dst l := by
  induction cnt with
  | zero => simp [CArr.scatter]
  | succ cnt ih =>
    rw [CArr.scatter_succ]
    have h1 : l ≠ lab cnt := fun e => h cnt (by omega) e.symm
    simp only [CArr.write, h1, if_false]
    exact ih (fun k hk => h k (by omega))

/-- With distinct labels, entry `lab k` receives `src k`. -/
theorem CArr.scatter_of_mem (lab : CArr) (cnt : Nat) (src dst : CArr)
    (hinj : ∀ k k2, k < cnt → k2 < cnt → lab k = lab k2 → k = k2) (k : Nat) (hk : k < cnt) :
    CArr.scatter lab cnt src dst (lab k) = src k := by
  induction cnt with
  | zero => omega
  | succ cnt ih =>
    rw [CArr.scatter_succ]
    by_cases hkc : k = cnt
    · subst hkc
      simp [CArr.write]
    · have hne : lab k ≠ lab cnt := fun e => hkc (hinj k cnt hk (by omega) e)
      simp only [CArr.write, hne, if_false]
      exact ih (fun a b ha hb => hinj a b (by omega) (by omega)) (by omega)

/-! ## Permuted indices -/

theorem _suffix_prod_zero (f : CArr) (n : Nat) :
    internal._suffix_prod f n 0 = ∏ t in Finset.range n, f t := by
  induction n with
  | zero => simp [internal._suffix_prod]
  | succ n ih =>
    rw [internal._suffix_prod_succ f n 0 (Nat.zero_le _), ih, Finset.prod_range_succ]

theorem IsBij.image_eq {lab : CArr} {n : Nat} (h : IsBij lab n) :
    (Finset.range n).image lab = Finset.range n := by
  apply Finset.eq_of_subset_of_card_le
  · intro l hl
    obtain ⟨t, ht, rfl⟩ := Finset.mem_image.mp hl
    exact Finset.mem_range.mpr (h.1 t (Finset.mem_range.mp ht))
  · rw [Finset.card_image_of_injOn]
    intro a ha b hb hab
    exact h.2 a b (Finset.mem_range.mp ha) (Finset.mem_range.mp hb) hab

theorem IsBij.surj {lab : CArr} {n : Nat} (h : IsBij lab n) (l : Nat) (hl : l < n) :
    ∃ t, t < n ∧ lab t = l := by
  have : l ∈ (Finset.range n).image lab := by rw [h.image_eq]; exact Finset.mem_range.mpr hl
  obtain ⟨t, ht, rfl⟩ := Finset.mem_image.mp this
  exact ⟨t, Finset.mem_range.mp ht, rfl⟩

theorem IsBij.sum_comp {M : Type} [AddCommMonoid M] {lab : CArr} {n : Nat} (h : IsBij lab n)
    (f : Nat → M) : ∑ t in Finset.range n, f (lab t) = ∑ l in Finset.range n, f l := by
  conv_rhs => rw [← h.image_eq]
  rw [Finset.sum_image]
  intro a ha b hb hab
  exact h.2 a b (Finset.mem_range.mp ha) (Finset.mem_range.mp hb) hab

theorem IsBij.prod_comp {lab : CArr} {n : Nat} (h : IsBij lab n) (dims : CArr) :
    internal._suffix_prod (fun t => dims (lab t)) n 0 = internal._suffix_prod dims n 0 := by
  rw [_suffix_prod_zero, _suffix_prod_zero]
  conv_rhs => rw [← h.image_eq]
  rw [Finset.prod_image]
  intro a ha b hb hab
  exact h.2 a b (Finset.mem_range.mp ha) (Finset.mem_range.mp hb) hab

theorem digit_congr (dims dims2 : CArr) (n x k : Nat) (h : ∀ l, l < n → dims l = dims2 l)
    (hk : k < n) : internal.digit dims n x k = internal.digit dims2 n x k := by
  unfold internal.digit
  rw [internal._suffix_prod_congr dims dims2 n (k + 1) h, h k hk]

/-- Two in-range indices with the same digits are equal. -/
theorem eq_of_digit_eq (dims : CArr) (n x y : Nat) (hx : x < internal._suffix_prod dims n 0)
    (hy : y < internal._suffix_prod dims n 0)
    (h : ∀ k, k < n → internal.digit dims n x k = internal.digit dims n y k) : x = y := by
  rw [← internal._multiidx2n_digit dims n x hx, ← internal._multiidx2n_digit dims n y hy]
  exact internal._multiidx2n_congr _ _ _ _ _ h (fun _ _ => rfl)

/-- The index computed by the `syspermute` worker is in range, and its digit at
the label `cperm t` is digit `t` of the argument over the permuted dimensions. -/
theorem permIdx_spec (cdims cperm : CArr) (n x : Nat) (hb : IsBij cperm n)
    (hx : x < internal._suffix_prod cdims n 0) :
    permIdx cdims cperm n x < internal._suffix_prod cdims n 0 ∧
    ∀ t, t < n → internal.digit cdims n (permIdx cdims cperm n x) (cperm t)
      = internal.digit (fun k => cdims (cperm k)) n x t := by
  have hpos := internal.dims_pos_of_total_pos cdims n (by omega)
  have hx2 : x < internal._suffix_prod (fun k => cdims (cperm k)) n 0 := by
    rw [hb.prod_comp]; exact hx
  unfold permIdx
  rw [internal._n2multiidx_eq _ _ _ _ hx2]
  have hm : ∀ t, t < n →
      CArr.scatter cperm n
        (fun k => if k < n then internal.digit (fun k => cdims (cperm k)) n x k else 0)
        (fun _ => 0) (cperm t) = internal.digit (fun k => cdims (cperm k)) n x t := by
    intro t ht
    rw [CArr.scatter_of_mem _ _ _ _ hb.2 t ht]
    simp [ht]
  have hvalid : ∀ l, l < n →
      CArr.scatter cperm n
        (fun k => if k < n then internal.digit (fun k => cdims (cperm k)) n x k else 0)
        (fun _ => 0) l < cdims l := by
    intro l hl
    obtain ⟨t, ht, rfl⟩ := hb.surj l hl
    rw [hm t ht]
    exact internal.digit_lt _ n x t (hpos _ (hb.1 t ht))
  obtain ⟨h1, h2⟩ := internal.digit_multiidx2n cdims n _ hvalid
  refine ⟨h1, ?_⟩
  intro t ht
  rw [h2 _ (hb.1 t ht), hm t ht]

/-! ## Validation predicates -/

theorem _check_dims_iff (dims : List Nat) :
    internal._check_dims dims = true ↔ dims ≠ [] ∧ ∀ d ∈ dims, 1 ≤ d := by
  simp [internal._check_dims, List.isEmpty_iff]

theorem check_perm_iff (perm : List Nat) :
    internal.check_perm perm = true ↔ (∀ l ∈ perm, l < perm.length) ∧ perm.Nodup := by
  simp [internal.check_perm]

theorem _check_perm_iff (perm dims : List Nat) :
    internal._check_perm perm dims = true ↔
      perm.length = dims.length ∧ (∀ l ∈ perm, l < perm.length) ∧ perm.Nodup := by
  simp [internal._check_perm, check_perm_iff]

theorem _check_subsys_iff (subsys dims : List Nat) :
    internal._check_subsys subsys dims = true ↔
      (∀ l ∈ subsys, l < dims.length) ∧ subsys.Nodup := by
  simp [internal._check_subsys]

theorem _check_dims_match_mat_iff {R : Type} (dims : List Nat) (A : Mat R) :
    internal._check_dims_match_mat dims A = true ↔ A.rows = dims.prod ∧ A.cols = dims.prod := by
  simp [internal._check_dims_match_mat]

theorem _check_square_mat_iff {R : Type} (A : Mat R) :
    internal._check_square_mat A = true ↔ A.rows = A.cols := by
  simp [internal._check_square_mat]

/-- A permutation of the labels `0..n-1` passes the permutation check. -/
theorem _check_perm_of_perm (perm dims : List Nat) (h : perm.Perm (List.range dims.length)) :
    internal._check_perm perm dims = true := by
  rw [_check_perm_iff]
  have hlen : perm.length = dims.length := by simpa using h.length_eq
  refine ⟨hlen, ?_, h.nodup_iff.mpr (List.nodup_range _)⟩
  intro l hl
  rw [hlen]
  exact List.mem_range.mp (h.mem_iff.mp hl)

theorem toCArr_getElem (v : List Nat) (k : Nat) (hk : k < v.length) : toCArr v k = v[k] := by
  simp [toCArr, List.getD_eq_getElem?_getD, hk]

/-- A list that passes the permutation check is a bijection of the labels. -/
theorem IsBij_of_check (perm : List Nat) (h1 : ∀ l ∈ perm, l < perm.length) (h2 : perm.Nodup) :
    IsBij (toCArr perm) perm.length := by
  refine ⟨?_, ?_⟩
  · intro t ht
    rw [toCArr_getElem perm t ht]
    exact h1 _ (List.getElem_mem ht)
  · intro t u ht hu he
    rw [toCArr_getElem perm t ht, toCArr_getElem perm u hu] at he
    exact (List.Nodup.getElem_inj_iff h2).mp he

/-! ## `syspermute` in closed form -/

theorem _syspermute_worker_eq {R : Type} (numdims : Nat) (cdims cperm : CArr) (i j : Nat)
    (A result : Mat R) :
    internal._syspermute_worker numdims cdims cperm i j A result
      = result.set i j (A.data (permIdx cdims cperm numdims i) (permIdx cdims cperm numdims j)) :=
  rfl

theorem syspermute_eq {R : Type} [Semiring R] (A : Mat R) (perm dims : List Nat)
    (hsq : A.rows = A.cols) (hd : internal._check_dims dims = true) (hm : A.rows = dims.prod)
    (hp : internal._check_perm perm dims = true) :
    syspermute A perm dims = .ok (syspermuteMat A perm dims) := by
  have h1 : internal._check_square_mat A = true := (_check_square_mat_iff A).mpr hsq
  have h3 : internal._check_dims_match_mat dims A = true :=
    (_check_dims_match_mat_iff dims A).mpr ⟨hm, by rw [← hsq]; exact hm⟩
  unfold syspermute
  simp only [h1, hd, h3, hp, Bool.not_true, Bool.false_eq_true, if_false]
  congr 1
  simp only [_syspermute_worker_eq]
  rw [foldl_set_grid]
  rfl

/-! ## `syspermute`: identity and inverse -/

theorem _n2multiidx_congr (dims dims2 : CArr) (n x : Nat) (r : CArr)
    (h : ∀ l, l < n → dims l = dims2 l) :
    internal._n2multiidx x n dims r = internal._n2multiidx x n dims2 r := by
  unfold internal._n2multiidx
  have : ∀ k, internal._suffix_prod dims n (k + 1) = internal._suffix_prod dims2 n (k + 1) :=
    fun k => internal._suffix_prod_congr dims dims2 n (k + 1) h
  simp only [this]

theorem CArr.scatter_congr (lab lab2 : CArr) (cnt : Nat) (src dst : CArr)
    (h : ∀ k, k < cnt → lab k = lab2 k) :
    CArr.scatter lab cnt src dst = CArr.scatter lab2 cnt src dst := by
  unfold CArr.scatter
  apply foldl_congr_mem
  intro s k hk
  rw [h k (List.mem_range.mp hk)]

theorem permIdx_congr (cdims cdims2 cperm cperm2 : CArr) (n x : Nat)
    (hd : ∀ l, l < n → cdims l = cdims2 l) (hp : ∀ k, k < n → cperm k = cperm2 k)
    (hr : ∀ k, k < n → cperm k < n) :
    permIdx cdims cperm n x = permIdx cdims2 cperm2 n x := by
  unfold permIdx
  rw [_n2multiidx_congr (fun k => cdims (cperm k)) (fun k => cdims2 (cperm2 k)) n x _
    (fun l hl => by simp only; rw [← hp l hl, hd _ (hr l hl)])]
  rw [CArr.scatter_congr cperm cperm2 n _ _ hp]
  exact internal._multiidx2n_congr _ _ _ _ _ (fun _ _ => rfl) hd

/-- Permuting by `q` and then by `p` is the identity on indices when `p ∘ q` is
the identity on labels. -/
theorem permIdx_comp (cdims p q : CArr) (n x : Nat) (hp : IsBij p n) (hq : IsBij q n)
    (hpq : ∀ s, s < n → p (q s) = s) (hx : x < internal._suffix_prod cdims n 0) :
    permIdx (fun k => cdims (p k)) q n x < internal._suffix_prod cdims n 0 ∧
    permIdx cdims p n (permIdx (fun k => cdims (p k)) q n x) = x := by
  have hx2 : x < internal._suffix_prod (fun k => cdims (p k)) n 0 := by
    rw [hp.prod_comp]; exact hx
  obtain ⟨hy, hyd⟩ := permIdx_spec (fun k => cdims (p k)) q n x hq hx2
  have hy2 : permIdx (fun k => cdims (p k)) q n x < internal._suffix_prod cdims n 0 := by
    rw [hp.prod_comp] at hy; exact hy
  obtain ⟨hz, hzd⟩ := permIdx_spec cdims p n _ hp hy2
  refine ⟨hy2, eq_of_digit_eq cdims n _ _ hz hx ?_⟩
  intro s hs
  have h1 := hzd (q s) (hq.1 s hs)
  rw [hpq s hs] at h1
  rw [h1, hyd s hs]
  exact digit_congr _ _ n x s (fun l hl => by rw [hpq l hl]) hs

theorem toCArr_range (n k : Nat) (hk : k < n) : toCArr (List.range n) k = k := by
  simp [toCArr, List.getD_eq_getElem?_getD, List.getElem?_range hk]

theorem IsBij_range (n : Nat) : IsBij (toCArr (List.range n)) n := by
  refine ⟨fun t ht => by rw [toCArr_range n t ht]; exact ht, ?_⟩
  intro t u ht hu h
  rwa [toCArr_range n t ht, toCArr_range n u hu] at h

/-- With the identity permutation every index is its own source. -/
theorem permIdx_id (cdims : CArr) (n x : Nat) (hx : x < internal._suffix_prod cdims n 0) :
    permIdx cdims (toCArr (List.range n)) n x = x := by
  obtain ⟨h1, h2⟩ := permIdx_spec cdims _ n x (IsBij_range n)  hx
  refine eq_of_digit_eq cdims n _ _ h1 hx ?_
  intro k hk
  have := h2 k hk
  rw [toCArr_range n k hk] at this
  rw [this]
  exact digit_congr _ _ n x k (fun l hl => by rw [toCArr_range n l hl]) hk

/-- C6: permutation identity.  For every square matrix `A` of size `prod(dims)`
and valid `dims` (non-empty, entries at least 1), `syspermute` with the
identity permutation `[0, 1, ..., n-1]` succeeds and returns `A`. -/
theorem syspermute_identity {R : Type} [Semiring R] (A : Mat R) (dims : List Nat)
    (hne : dims ≠ []) (hpos : ∀ d ∈ dims, 1 ≤ d)
    (hr : A.rows = dims.prod) (hc : A.cols = dims.prod) :
    ∃ B, syspermute A (List.range dims.length) dims = .ok B ∧ B.same A := by
  refine ⟨_, syspermute_eq A _ dims (by rw [hr, hc]) ((_check_dims_iff dims).mpr ⟨hne, hpos⟩) hr
    (_check_perm_of_perm _ dims (List.Perm.refl _)), rfl, by simp [syspermuteMat, hr, hc], ?_⟩
  intro i hi j hj
  have hi2 : i < A.rows := hi
  have hj2 : j < A.rows := by
    have : j < A.rows := hj
    exact this
  simp only [syspermuteMat, hi2, hj2, and_self, if_true]
  rw [permIdx_id _ _ i (by rw [internal._suffix_prod_toCArr, ← hr]; exact hi2),
    permIdx_id _ _ j (by rw [internal._suffix_prod_toCArr, ← hr]; exact hj2)]

theorem syspermute_identity_witness :
    ∃ B, syspermute (demoMat 6) (List.range [2, 3].length) [2, 3] = .ok B ∧ B.same (demoMat 6) :=
  syspermute_identity (demoMat 6) [2, 3] (by decide) (by decide) (by decide) (by decide)

/-! ## `invperm` -/

theorem toCArr_set (l : List Nat) (i v : Nat) (hi : i < l.length) :
    toCArr (l.set i v) = (toCArr l).write i v := by
  funext k
  simp only [toCArr, CArr.write, List.getD_eq_getElem?_getD]
  by_cases hk : k = i
  · subst hk
    simp [hi]
  · have : i ≠ k := fun e => hk e.symm
    simp [hk, List.getElem?_set_ne this]

/-- A loop of stores into a vector, read as a C array, is a scatter. -/
theorem toCArr_foldl_set (lab src : CArr) (cnt : Nat) (l : List Nat)
    (h : ∀ t, t < cnt → lab t < l.length) :
    ((List.range cnt).foldl (fun r t => r.set (lab t) (src t)) l).length = l.length ∧
    toCArr ((List.range cnt).foldl (fun r t => r.set (lab t) (src t)) l)
      = CArr.scatter lab cnt src (toCArr l) := by
  induction cnt with
  | zero => simp [CArr.scatter]
  | succ cnt ih =>
    obtain ⟨h1, h2⟩ := ih (fun t ht => h t (by omega))
    rw [List.range_succ, List.foldl_append]
    simp only [List.foldl_cons, List.foldl_nil, List.length_set]
    refine ⟨h1, ?_⟩
    rw [toCArr_set _ _ _ (by rw [h1]; exact h cnt (by omega)), h2, CArr.scatter_succ]

/-- The vector that `invperm` builds. -/
theorem invperm_eq (perm : List Nat) (h1 : ∀ l ∈ perm, l < perm.length) (h2 : perm.Nodup) :
    ∃ q, invperm perm = .ok q ∧ q.length = perm.length ∧
      ∀ i, i < perm.length → toCArr q (toCArr perm i) = i := by
  have hb := IsBij_of_check perm h1 h2
  have hc : internal.check_perm perm = true := (check_perm_iff perm).mpr ⟨h1, h2⟩
  unfold invperm
  simp only [hc, Bool.not_true, Bool.false_eq_true, if_false]
  refine ⟨_, rfl, ?_, ?_⟩
  · have := (toCArr_foldl_set (toCArr perm) (fun i => i) perm.length
      (List.replicate perm.length 0) (fun t ht => by simpa using hb.1 t ht)).1
    simpa [toCArr] using this
  · intro i hi
    have := (toCArr_foldl_set (toCArr perm) (fun i => i) perm.length
      (List.replicate perm.length 0) (fun t ht => by simpa using hb.1 t ht)).2
    have h3 : (fun result i => List.set result (perm.getD i 0) i)
        = (fun (r : List Nat) t => r.set (toCArr perm t) t) := rfl
    rw [h3, this]
    exact CArr.scatter_of_mem _ _ _ _ hb.2 i hi

/-- A left inverse of a label bijection is a label bijection and a right inverse. -/
theorem IsBij.of_left_inverse {p q : CArr} {n : Nat} (hp : IsBij p n)
    (h : ∀ i, i < n → q (p i) = i) : IsBij q n ∧ ∀ s, s < n → p (q s) = s := by
  have hpq : ∀ s, s < n → p (q s) = s := by
    intro s hs
    obtain ⟨i, hi, rfl⟩ := hp.surj s hs
    rw [h i hi]
  refine ⟨⟨?_, ?_⟩, hpq⟩
  · intro s hs
    obtain ⟨i, hi, rfl⟩ := hp.surj s hs
    rw [h i hi]; exact hi
  · intro s u hs hu he
    rw [← hpq s hs, ← hpq u hu, he]

theorem check_of_IsBij (q : List Nat) (h : IsBij (toCArr q) q.length) :
    (∀ l ∈ q, l < q.length) ∧ q.Nodup := by
  refine ⟨?_, ?_⟩
  · intro l hl
    obtain ⟨k, hk, rfl⟩ := List.getElem_of_mem hl
    rw [← toCArr_getElem q k hk]
    exact h.1 k hk
  · rw [List.nodup_iff_injective_getElem]
    intro a b hab
    apply Fin.ext
    apply h.2 a b a.2 b.2
    rw [toCArr_getElem q a a.2, toCArr_getElem q b b.2]
    exact hab

theorem toCArr_map_getD (perm dims : List Nat) (k : Nat) (hk : k < perm.length) :
    toCArr (perm.map (fun l => dims.getD l 0)) k = toCArr dims (toCArr perm k) := by
  simp [toCArr, List.getD_eq_getElem?_getD, List.getElem?_map, List.getElem?_eq_getElem hk]

/-- The permuted dimension vector has the same product. -/
theorem prod_map_getD_of_IsBij (perm dims : List Nat) (hlen : perm.length = dims.length)
    (hb : IsBij (toCArr perm) dims.length) :
    (perm.map (fun l => dims.getD l 0)).prod = dims.prod := by
  rw [← internal._suffix_prod_toCArr, ← internal._suffix_prod_toCArr dims, List.length_map, hlen,
    ← hb.prod_comp (toCArr dims)]
  apply internal._suffix_prod_congr
  intro l hl
  exact toCArr_map_getD perm dims l (by omega)

theorem getD_pos_of_lt (dims : List Nat) (hpos : ∀ d ∈ dims, 1 ≤ d) (l : Nat)
    (hl : l < dims.length) : 1 ≤ dims.getD l 0 := by
  have : dims.getD l 0 = dims[l] := by simp [List.getD_eq_getElem?_getD, hl]
  rw [this]
  exact hpos _ (List.getElem_mem hl)

/-- C5: permutation inverse.  For every square matrix `A` of size `prod(dims)`,
valid `dims` and every permutation `perm` of the subsystem labels, with
`permutedDims[k] = dims[perm[k]]` the dimension vector of the permuted system,
`syspermute(syspermute(A, perm, dims), invperm(perm), permutedDims)` succeeds and
is `A`. -/
theorem syspermute_inverse {R : Type} [Semiring R] (A : Mat R) (perm dims : List Nat)
    (hne : dims ≠ []) (hpos : ∀ d ∈ dims, 1 ≤ d)
    (hr : A.rows = dims.prod) (hc : A.cols = dims.prod)
    (hperm : perm.Perm (List.range dims.length)) :
    ∃ B q C, syspermute A perm dims = .ok B ∧ invperm perm = .ok q ∧
      syspermute B q (perm.map (fun l => dims.getD l 0)) = .ok C ∧ C.same A := by
  have hcp := (_check_perm_iff perm dims).mp (_check_perm_of_perm perm dims hperm)
  obtain ⟨hlen, h1, h2⟩ := hcp
  have hb : IsBij (toCArr perm) dims.length := hlen ▸ IsBij_of_check perm h1 h2
  obtain ⟨q, hq, hqlen, hqp⟩ := invperm_eq perm h1 h2
  rw [hlen] at hqp hqlen
  obtain ⟨hbq, hpq⟩ := hb.of_left_inverse hqp
  have hB := syspermute_eq A perm dims (by rw [hr, hc]) ((_check_dims_iff dims).mpr ⟨hne, hpos⟩)
    hr (_check_perm_of_perm perm dims hperm)
  have hprod := prod_map_getD_of_IsBij perm dims hlen hb
  have hn : 0 < dims.length := List.length_pos.mpr hne
  have hd2 : internal._check_dims (perm.map (fun l => dims.getD l 0)) = true := by
    rw [_check_dims_iff]
    refine ⟨?_, ?_⟩
    · intro he
      have := congrArg List.length he
      rw [List.length_map, List.length_nil] at this
      omega
    · intro d hd
      obtain ⟨l, hl, rfl⟩ := List.mem_map.mp hd
      exact getD_pos_of_lt dims hpos l (hlen ▸ h1 l hl)
  have hp2 : internal._check_perm q (perm.map (fun l => dims.getD l 0)) = true := by
    rw [_check_perm_iff]
    have := check_of_IsBij q (hqlen ▸ hbq)
    exact ⟨by simp [hqlen, hlen], this.1, this.2⟩
  have hC := syspermute_eq (syspermuteMat A perm dims) q (perm.map (fun l => dims.getD l 0))
    rfl hd2 (by simp only [syspermuteMat]; rw [hr, hprod]) hp2
  refine ⟨_, q, _, hB, hq, hC, rfl, by simp [syspermuteMat, hr, hc], ?_⟩
  intro i hi j hj
  have hi2 : i < A.rows := hi
  have hj2 : j < A.rows := hj
  have hD : internal._suffix_prod (toCArr dims) dims.length 0 = A.rows := by
    rw [internal._suffix_prod_toCArr, hr]
  have hcongr : ∀ x, permIdx (toCArr (perm.map (fun l => dims.getD l 0))) (toCArr q)
      (perm.map (fun l => dims.getD l 0)).length x
        = permIdx (fun k => toCArr dims (toCArr perm k)) (toCArr q) dims.length x := by
    intro x
    rw [List.length_map, hlen]
    exact permIdx_congr _ _ _ _ _ x (fun l hl => toCArr_map_getD perm dims l (by omega))
      (fun _ _ => rfl) hbq.1
  obtain ⟨hi3, hi4⟩ := permIdx_comp (toCArr dims) (toCArr perm) (toCArr q) dims.length i hb hbq
    hpq (by rw [hD]; exact hi2)
  obtain ⟨hj3, hj4⟩ := permIdx_comp (toCArr dims) (toCArr perm) (toCArr q) dims.length j hb hbq
    hpq (by rw [hD]; exact hj2)
  rw [hD] at hi3 hj3
  simp only [syspermuteMat, hi2, hj2, and_self, if_true, hcongr, hi3, hj3, hi4, hj4]

theorem syspermute_inverse_witness :
    ∃ B q C, syspermute (demoMat 6) [1, 0] [2, 3] = .ok B ∧ invperm [1, 0] = .ok q ∧
      syspermute B q ([1, 0].map (fun l => [2, 3].getD l 0)) = .ok C ∧ C.same (demoMat 6) :=
  syspermute_inverse (demoMat 6) [1, 0] [2, 3] (by decide) (by decide) (by decide) (by decide)
    (by decide)

/-! ## `ptranspose` -/

/-- The swap loop of the `ptranspose` worker, for distinct labels. -/
theorem swap_fold (csubsys : CArr) (ns : Nat)
    (hinj : ∀ k k2, k < ns → k2 < ns → csubsys k = csubsys k2 → k = k2) (row col : CArr) :
    (List.range ns).foldl
      (fun (p : CArr × CArr) k =>
        (p.1.write (csubsys k) (p.2 (csubsys k)), p.2.write (csubsys k) (p.1 (csubsys k))))
      (row, col)
    = (fun l => if ∃ k, k < ns ∧ csubsys k = l then col l else row l,
       fun l => if ∃ k, k < ns ∧ csubsys k = l then row l else col l) := by
  induction ns with
  | zero => simp
  | succ ns ih =>
    rw [List.range_succ, List.foldl_append, ih (fun a b ha hb => hinj a b (by omega) (by omega))]
    simp only [List.foldl_cons, List.foldl_nil]
    have hnew : ¬ ∃ k, k < ns ∧ csubsys k = csubsys ns := by
      rintro ⟨k, hk, he⟩
      have := hinj k ns (by omega) (by omega) he
      omega
    have hiff : ∀ l, (∃ k, k < ns + 1 ∧ csubsys k = l)
        ↔ ((∃ k, k < ns ∧ csubsys k = l) ∨ l = csubsys ns) := by
      intro l
      constructor
      · rintro ⟨k, hk, he⟩
        rcases Nat.lt_succ_iff_lt_or_eq.mp hk with h | h
        · exact Or.inl ⟨k, h, he⟩
        · subst h; exact Or.inr he.symm
      · rintro (⟨k, hk, he⟩ | h)
        · exact ⟨k, by omega, he⟩
        · exact ⟨ns, by omega, h.symm⟩
    refine Prod.ext ?_ ?_
    · funext l
      simp only [CArr.write, hnew, if_false, hiff]
      by_cases hl : l = csubsys ns
      · subst hl; simp
      · simp [hl]
    · funext l
      simp only [CArr.write, hnew, if_false, hiff]
      by_cases hl : l = csubsys ns
      · subst hl; simp
      · simp [hl]

theorem _ptranspose_worker_eq {R : Type} (buf : CArr) (n ns : Nat) (cdims csubsys : CArr)
    (hinj : ∀ k k2, k < ns → k2 < ns → csubsys k = csubsys k2 → k = k2)
    (i j : Nat) (hi : i < internal._suffix_prod cdims n 0)
    (hj : j < internal._suffix_prod cdims n 0) (A result : Mat R) :
    internal._ptranspose_worker (internal._n2multiidx i n cdims buf) n ns cdims csubsys i j A
      result
    = result.set i j (A.data (ptIdx cdims csubsys n ns i j) (ptIdx cdims csubsys n ns j i)) := by
  unfold internal._ptranspose_worker
  simp only
  rw [swap_fold csubsys ns hinj, internal._n2multiidx_eq _ _ _ _ hi,
    internal._n2multiidx_eq _ _ _ _ hj]
  simp only
  congr 2
  · apply internal._multiidx2n_congr _ _ _ _ _ _ (fun _ _ => rfl)
    intro k hk
    simp [hk]
  · apply internal._multiidx2n_congr _ _ _ _ _ _ (fun _ _ => rfl)
    intro k hk
    simp [hk]

theorem toCArr_inj_of_nodup (v : List Nat) (h : v.Nodup) :
    ∀ k k2, k < v.length → k2 < v.length → toCArr v k = toCArr v k2 → k = k2 := by
  intro k k2 hk hk2 he
  rw [toCArr_getElem v k hk, toCArr_getElem v k2 hk2] at he
  exact (List.Nodup.getElem_inj_iff h).mp he

theorem ptranspose_eq {R : Type} [Semiring R] (A : Mat R) (subsys dims : List Nat)
    (hsq : A.rows = A.cols) (hd : internal._check_dims dims = true) (hm : A.rows = dims.prod)
    (hs : internal._check_subsys subsys dims = true) :
    ptranspose A subsys dims = .ok (ptransposeMat A subsys dims) := by
  have h1 : internal._check_square_mat A = true := (_check_square_mat_iff A).mpr hsq
  have h3 : internal._check_dims_match_mat dims A = true :=
    (_check_dims_match_mat_iff dims A).mpr ⟨hm, by rw [← hsq]; exact hm⟩
  have hnd := ((_check_subsys_iff subsys dims).mp hs).2
  unfold ptranspose
  simp only [h1, hd, h3, hs, Bool.not_true, Bool.false_eq_true, if_false]
  congr 1
  have hD : internal._suffix_prod (toCArr dims) dims.length 0 = A.rows := by
    rw [internal._suffix_prod_toCArr, hm]
  have hsim := foldl_simulation
    (fun (st : CArr × Mat R) i =>
      (internal._n2multiidx i dims.length (toCArr dims) st.1,
        (List.range A.rows).foldl
          (fun result j =>
            internal._ptranspose_worker (internal._n2multiidx i dims.length (toCArr dims) st.1)
              dims.length subsys.length (toCArr dims) (toCArr subsys) i j A result)
          st.2))
    (fun (M : Mat R) i => (List.range A.rows).foldl
      (fun M j => M.set i j
        (A.data (ptIdx (toCArr dims) (toCArr subsys) dims.length subsys.length i j)
          (ptIdx (toCArr dims) (toCArr subsys) dims.length subsys.length j i))) M)
    (fun st => st.2) (fun _ => True) (List.range A.rows)
    (by
      intro s i hi _
      refine ⟨trivial, ?_⟩
      simp only
      apply foldl_congr_mem
      intro M j hj
      exact _ptranspose_worker_eq s.1 _ _ _ _ (toCArr_inj_of_nodup subsys hnd) i j
        (by rw [hD]; exact List.mem_range.mp hi) (by rw [hD]; exact List.mem_range.mp hj) A M)
    ((fun _ => 0), A) trivial
  refine hsim.2.trans ?_
  rw [foldl_set_grid]
  rfl

theorem ptIdx_spec (cdims csubsys : CArr) (n ns i j : Nat)
    (hi : i < internal._suffix_prod cdims n 0) (hj : j < internal._suffix_prod cdims n 0) :
    ptIdx cdims csubsys n ns i j < internal._suffix_prod cdims n 0 ∧
    ∀ l, l < n → internal.digit cdims n (ptIdx cdims csubsys n ns i j) l
      = if ∃ k, k < ns ∧ csubsys k = l then internal.digit cdims n j l
        else internal.digit cdims n i l := by
  have hpos := internal.dims_pos_of_total_pos cdims n (Nat.lt_of_le_of_lt (Nat.zero_le _) hi)
  have _ := hj
  apply internal.digit_multiidx2n
  intro k hk
  split
  · exact internal.digit_lt _ _ _ _ (hpos k hk)
  · exact internal.digit_lt _ _ _ _ (hpos k hk)

theorem ptIdx_ptIdx (cdims csubsys : CArr) (n ns i j : Nat)
    (hi : i < internal._suffix_prod cdims n 0) (hj : j < internal._suffix_prod cdims n 0) :
    ptIdx cdims csubsys n ns (ptIdx cdims csubsys n ns i j) (ptIdx cdims csubsys n ns j i) = i := by
  obtain ⟨h1, h2⟩ := ptIdx_spec cdims csubsys n ns i j hi hj
  obtain ⟨h3, h4⟩ := ptIdx_spec cdims csubsys n ns j i hj hi
  obtain ⟨h5, h6⟩ := ptIdx_spec cdims csubsys n ns _ _ h1 h3
  apply eq_of_digit_eq cdims n _ _ h5 hi
  intro l hl
  rw [h6 l hl, h2 l hl, h4 l hl]
  split <;> rfl

/-- C7: partial-transpose involution.  For every square matrix `A` of size
`prod(dims)`, valid `dims` and every valid subsystem list `subsys` (labels in
range, no duplicates), `ptranspose` applied twice with the same `subsys`
succeeds and returns `A`. -/
theorem ptranspose_involution {R : Type} [Semiring R] (A : Mat R) (subsys dims : List Nat)
    (hne : dims ≠ []) (hpos : ∀ d ∈ dims, 1 ≤ d)
    (hr : A.rows = dims.prod) (hc : A.cols = dims.prod)
    (hsub : ∀ l ∈ subsys, l < dims.length) (hnd : subsys.Nodup) :
    ∃ B C, ptranspose A subsys dims = .ok B ∧ ptranspose B subsys dims = .ok C ∧
      C.same A := by
  have hd := (_check_dims_iff dims).mpr ⟨hne, hpos⟩
  have hs := (_check_subsys_iff subsys dims).mpr ⟨hsub, hnd⟩
  have hB := ptranspose_eq A subsys dims (by rw [hr, hc]) hd hr hs
  have hC := ptranspose_eq (ptransposeMat A subsys dims) subsys dims
    (by simp only [ptransposeMat]; rw [hr, hc]) hd (by simp only [ptransposeMat]; exact hr) hs
  refine ⟨_, _, hB, hC, rfl, rfl, ?_⟩
  intro i hi j hj
  have hi2 : i < A.rows := hi
  have hj2 : j < A.rows := by
    have : j < A.cols := hj
    rw [hr]; rw [hc] at this; exact this
  have hD : internal._suffix_prod (toCArr dims) dims.length 0 = A.rows := by
    rw [internal._suffix_prod_toCArr, hr]
  have hi3 : i < internal._suffix_prod (toCArr dims) dims.length 0 := by rw [hD]; exact hi2
  have hj3 : j < internal._suffix_prod (toCArr dims) dims.length 0 := by rw [hD]; exact hj2
  have h1 := (ptIdx_spec (toCArr dims) (toCArr subsys) dims.length subsys.length i j hi3 hj3).1
  have h2 := (ptIdx_spec (toCArr dims) (toCArr subsys) dims.length subsys.length j i hj3 hi3).1
  rw [hD] at h1 h2
  simp only [ptransposeMat, hi2, hj2, h1, h2, and_self, if_true]
  rw [ptIdx_ptIdx _ _ _ _ i j hi3 hj3, ptIdx_ptIdx _ _ _ _ j i hj3 hi3]

theorem ptranspose_involution_witness :
    ∃ B C, ptranspose (demoMat 6) [1] [2, 3] = .ok B ∧ ptranspose B [1] [2, 3] = .ok C ∧
      C.same (demoMat 6) :=
  ptranspose_involution (demoMat 6) [1] [2, 3] (by decide) (by decide) (by decide) (by decide)
    (by decide) (by decide)

/-! ## The permutation built by `ptrace` -/

theorem sortedLabels_perm (subsys : List Nat) (n : Nat) (h1 : ∀ l ∈ subsys, l < n)
    (h2 : subsys.Nodup) : (sortedLabels subsys n).Perm subsys := by
  apply (List.perm_ext_iff_of_nodup ((List.nodup_range n).filter _) h2).mpr
  intro a
  simp only [sortedLabels, List.mem_filter, List.mem_range]
  constructor
  · intro h
    simpa using h.2
  · intro h
    exact ⟨h1 a h, by simpa using h⟩

theorem compl_append_sorted_perm (subsys : List Nat) (n : Nat) :
    (complLabels subsys n ++ sortedLabels subsys n).Perm (List.range n) := by
  have := List.filter_append_perm (fun l => subsys.contains l) (List.range n)
  refine (List.perm_append_comm.trans ?_).trans this
  apply List.Perm.append_left
  unfold complLabels
  apply List.Perm.of_eq
  congr 1

theorem length_filter_range_le (p : Nat → Bool) (j n : Nat) (h : j ≤ n) :
    ((List.range j).filter p).length ≤ ((List.range n).filter p).length :=
  ((List.range_sublist.mpr h).filter p).length_le

theorem ptrace_perm_fold (subsys : List Nat) (n ns : Nat)
    (hS : (sortedLabels subsys n).length = ns) (hC : (complLabels subsys n).length = n - ns)
    (hns : ns ≤ n) (j : Nat) (hj : j ≤ n) :
    let st := (List.range j).foldl
      (fun (st : List Nat × Nat × Nat) i =>
        if subsys.contains i then
          (st.1.set (n - ns + st.2.1) i, st.2.1 + 1, st.2.2)
        else
          (st.1.set st.2.2 i, st.2.1, st.2.2 + 1))
      (List.replicate n 0, 0, 0)
    st.1.length = n ∧ st.2.1 = (sortedLabels subsys j).length ∧
      st.2.2 = (complLabels subsys j).length ∧
      (∀ k, k < (complLabels subsys j).length →
        toCArr st.1 k = toCArr (complLabels subsys j) k) ∧
      (∀ k, k < (sortedLabels subsys j).length →
        toCArr st.1 (n - ns + k) = toCArr (sortedLabels subsys j) k) := by
  induction j with
  | zero => simp [sortedLabels, complLabels]
  | succ j ih =>
    obtain ⟨h1, h2, h3, h4, h5⟩ := ih (by omega)
    rw [List.range_succ, List.foldl_append]
    simp only [List.foldl_cons, List.foldl_nil]
    generalize List.foldl
      (fun (st : List Nat × Nat × Nat) i =>
        if subsys.contains i then
          (st.1.set (n - ns + st.2.1) i, st.2.1 + 1, st.2.2)
        else
          (st.1.set st.2.2 i, st.2.1, st.2.2 + 1))
      (List.replicate n 0, 0, 0) (List.range j) = st at h1 h2 h3 h4 h5 ⊢
    have hSle := length_filter_range_le (fun l => subsys.contains l) (j + 1) n hj
    have hCle := length_filter_range_le (fun l => !subsys.contains l) (j + 1) n hj
    have hS' : (sortedLabels subsys (j + 1)).length ≤ ns := hS ▸ hSle
    have hC' : (complLabels subsys (j + 1)).length ≤ n - ns := hC ▸ hCle
    by_cases hmem0 : j ∈ subsys
    · have hmem : subsys.contains j = true := by simpa using hmem0
      have eS : sortedLabels subsys (j + 1) = sortedLabels subsys j ++ [j] := by
        simp [sortedLabels, List.range_succ, List.filter_append, hmem0]
      have eC : complLabels subsys (j + 1) = complLabels subsys j := by
        simp [complLabels, List.range_succ, List.filter_append, hmem0]
      rw [eS, List.length_append, List.length_singleton] at hS'
      rw [eC] at hC'
      simp only [hmem, if_true, List.length_set, eS, eC, List.length_append,
        List.length_singleton]
      refine ⟨h1, by rw [h2], h3, ?_, ?_⟩
      · intro k hk
        rw [toCArr_set _ _ _ (by rw [h1, h2]; omega)]
        have : k ≠ n - ns + (sortedLabels subsys j).length := by omega
        simp only [CArr.write, h2, this, if_false]
        exact h4 k hk
      · intro k hk
        rw [toCArr_set _ _ _ (by rw [h1, h2]; omega)]
        by_cases hk2 : k = (sortedLabels subsys j).length
        · subst hk2
          simp [CArr.write, h2, toCArr, List.getD_eq_getElem?_getD]
        · have hk3 : k < (sortedLabels subsys j).length := by omega
          have : n - ns + k ≠ n - ns + (sortedLabels subsys j).length := by omega
          simp only [CArr.write, h2, this, if_false]
          rw [h5 k hk3]
          simp [toCArr, List.getD_eq_getElem?_getD, List.getElem?_append_left hk3]
    · have hmem2 : subsys.contains j = false := by simpa using hmem0
      have eS : sortedLabels subsys (j + 1) = sortedLabels subsys j := by
        simp [sortedLabels, List.range_succ, List.filter_append, hmem0]
      have eC : complLabels subsys (j + 1) = complLabels subsys j ++ [j] := by
        simp [complLabels, List.range_succ, List.filter_append, hmem0]
      rw [eC, List.length_append, List.length_singleton] at hC'
      rw [eS] at hS'
      simp only [hmem2, Bool.false_eq_true, if_false, List.length_set, eS, eC,
        List.length_append, List.length_singleton]
      refine ⟨h1, h2, by rw [h3], ?_, ?_⟩
      · intro k hk
        rw [toCArr_set _ _ _ (by rw [h1, h3]; omega)]
        by_cases hk2 : k = (complLabels subsys j).length
        · subst hk2
          simp [CArr.write, h3, toCArr, List.getD_eq_getElem?_getD]
        · have hk3 : k < (complLabels subsys j).length := by omega
          simp only [CArr.write, h3, hk2, if_false]
          rw [h4 k hk3]
          simp [toCArr, List.getD_eq_getElem?_getD, List.getElem?_append_left hk3]
      · intro k hk
        rw [toCArr_set _ _ _ (by rw [h1, h3]; omega)]
        have : n - ns + k ≠ (complLabels subsys j).length := by omega
        simp only [CArr.write, h3, this, if_false]
        exact h5 k hk

/-- The permutation that `ptrace` builds is the complement followed by the
traced-out labels, each in increasing order. -/
theorem ptrace_perm_eq (subsys : List Nat) (n : Nat) (h1 : ∀ l ∈ subsys, l < n)
    (h2 : subsys.Nodup) :
    (ptrace_perm subsys n).1 = complLabels subsys n ++ sortedLabels subsys n := by
  have hS : (sortedLabels subsys n).length = subsys.length :=
    (sortedLabels_perm subsys n h1 h2).length_eq
  have htot : (complLabels subsys n).length + (sortedLabels subsys n).length = n := by
    have := (compl_append_sorted_perm subsys n).length_eq
    simpa using this
  have hC : (complLabels subsys n).length = n - subsys.length := by omega
  obtain ⟨g1, _, _, g4, g5⟩ :=
    ptrace_perm_fold subsys n subsys.length hS hC (by omega) n (le_refl _)
  unfold ptrace_perm
  apply List.ext_getElem
  · simp only [List.length_append]
    rw [g1]; omega
  · intro k hk1 hk2
    rw [← toCArr_getElem _ k hk1, ← toCArr_getElem _ k hk2]
    by_cases hk : k < (complLabels subsys n).length
    · rw [g4 k hk]
      simp [toCArr, List.getD_eq_getElem?_getD, List.getElem?_append_left hk]
    · have hk3 : k = n - subsys.length + (k - (complLabels subsys n).length) := by omega
      have hk4 : k - (complLabels subsys n).length < (sortedLabels subsys n).length := by
        rw [g1] at hk1; omega
      have h5 := g5 _ hk4
      rw [← hk3] at h5
      rw [h5]
      simp [toCArr, List.getD_eq_getElem?_getD, List.getElem?_append_right (Nat.le_of_not_lt hk)]

/-! ## `ptrace` in closed form -/

theorem foldl_mul_eq_prod (g : Nat → Nat) (n : Nat) :
    (List.range n).foldl (fun acc i => acc * g i) 1 = ((List.range n).map g).prod := by
  induction n with
  | zero => simp
  | succ n ih => simp [List.range_succ, List.foldl_append, ih]

theorem map_range_getD (l : List Nat) :
    (List.range l.length).map (fun i => l.getD i 0) = l := by
  apply List.ext_getElem
  · simp
  · intro k h1 h2
    simp [List.getD_eq_getElem?_getD, h2]

theorem map_range_comp_getD (f : Nat → Nat) (l : List Nat) :
    (List.range l.length).map (fun i => f (l.getD i 0)) = l.map f := by
  apply List.ext_getElem
  · simp
  · intro k h1 h2
    have h3 : k < l.length := by simpa using h2
    simp [List.getD_eq_getElem?_getD, h3]

theorem ptrace_dimsubsys_eq (subsys dims : List Nat) :
    ptrace_dimsubsys subsys dims = subDim dims subsys := by
  unfold ptrace_dimsubsys subDim
  rw [foldl_mul_eq_prod (fun i => dims.getD (subsys.getD i 0) 0),
    map_range_comp_getD (fun l => dims.getD l 0) subsys]

theorem subDim_perm (dims L L2 : List Nat) (h : L.Perm L2) : subDim dims L = subDim dims L2 :=
  (h.map _).prod_eq

theorem subDim_range (dims : List Nat) : subDim dims (List.range dims.length) = dims.prod := by
  unfold subDim
  rw [map_range_getD]

theorem subDim_append (dims L L2 : List Nat) :
    subDim dims (L ++ L2) = subDim dims L * subDim dims L2 := by
  simp [subDim]

theorem subDim_pos (dims L : List Nat) (hpos : ∀ d ∈ dims, 1 ≤ d) (hL : ∀ l ∈ L, l < dims.length) :
    0 < subDim dims L := by
  unfold subDim
  apply List.prod_pos
  intro a ha
  obtain ⟨l, hl, rfl⟩ := List.mem_map.mp ha
  exact getD_pos_of_lt dims hpos l (hL l hl)

/-- The complement and the traced-out part factor the total dimension. -/
theorem subDim_compl_mul (dims subsys : List Nat) (h1 : ∀ l ∈ subsys, l < dims.length)
    (h2 : subsys.Nodup) :
    subDim dims (complLabels subsys dims.length) * subDim dims subsys = dims.prod := by
  rw [← subDim_perm dims _ _ (sortedLabels_perm subsys dims.length h1 h2), ← subDim_append,
    subDim_perm dims _ _ (compl_append_sorted_perm subsys dims.length), subDim_range]

theorem trace_block {R : Type} [Semiring R] (B : Mat R) (i j DB : Nat) :
    trace (B.block i j DB DB) = ∑ k in Finset.range DB, B.data (i + k) (j + k) := by
  unfold trace Mat.trace Mat.block
  simp only [Nat.min_self]
  exact foldl_add_eq_sum (fun k => B.data (i + k) (j + k)) DB

theorem ptrace2_eq {R : Type} [Semiring R] (B : Mat R) (DA DB : Nat) (hsq : B.rows = B.cols)
    (hA : 1 ≤ DA) (hB : 1 ≤ DB) (hm : B.rows = DA * DB) :
    ptrace2 B [DA, DB] = .ok (ptrace2Mat B DA DB) := by
  have h1 : internal._check_square_mat B = true := (_check_square_mat_iff B).mpr hsq
  have h2 : internal._check_dims [DA, DB] = true := by
    rw [_check_dims_iff]
    refine ⟨by simp, ?_⟩
    intro d hd
    simp at hd
    rcases hd with rfl | rfl <;> assumption
  have h3 : internal._check_dims_match_mat [DA, DB] B = true := by
    rw [_check_dims_match_mat_iff]
    constructor
    · simp [hm]
    · rw [← hsq]; simp [hm]
  unfold ptrace2
  simp only [h1, h2, h3, Bool.not_true, Bool.false_eq_true, if_false, List.length_cons,
    List.length_nil, bne_self_eq_false]
  congr 1
  simp only [trace_block]
  rw [foldl_set_grid]
  rfl

theorem ptrace_eq {R : Type} [Semiring R] (A : Mat R) (subsys dims : List Nat)
    (hne : dims ≠ []) (hpos : ∀ d ∈ dims, 1 ≤ d)
    (hr : A.rows = dims.prod) (hc : A.cols = dims.prod)
    (hsub : ∀ l ∈ subsys, l < dims.length) (hnd : subsys.Nodup) :
    ptrace A subsys dims = .ok (ptraceMat A subsys dims) := by
  have hd := (_check_dims_iff dims).mpr ⟨hne, hpos⟩
  have hs := (_check_subsys_iff subsys dims).mpr ⟨hsub, hnd⟩
  have h1 : internal._check_square_mat A = true := (_check_square_mat_iff A).mpr (by rw [hr, hc])
  have h3 : internal._check_dims_match_mat dims A = true :=
    (_check_dims_match_mat_iff dims A).mpr ⟨hr, hc⟩
  have hS := subDim_pos dims subsys hpos hsub
  have hmul := subDim_compl_mul dims subsys hsub hnd
  have hdiv : A.rows / subDim dims subsys = subDim dims (complLabels subsys dims.length) := by
    rw [hr, ← hmul]
    exact Nat.mul_div_cancel _ hS
  have hC : 0 < subDim dims (complLabels subsys dims.length) := by
    apply subDim_pos dims _ hpos
    intro l hl
    exact List.mem_range.mp (List.mem_filter.mp hl).1
  unfold ptrace
  simp only [h1, hd, h3, hs, Bool.not_true, Bool.false_eq_true, if_false]
  rw [ptrace_perm_eq subsys dims.length hsub hnd, ptrace_dimsubsys_eq,
    syspermute_eq A _ dims (by rw [hr, hc]) hd hr
      (_check_perm_of_perm _ dims (compl_append_sorted_perm subsys dims.length))]
  simp only
  rw [ptrace2_eq _ _ _ rfl (by rw [hdiv]; exact hC) hS
    (by simp only [syspermuteMat]; rw [hdiv, hmul, hr])]
  rfl

/-! ## Splitting an index into two groups of subsystems -/

theorem _suffix_prod_add (dims : CArr) (n1 n2 : Nat) :
    internal._suffix_prod dims (n1 + n2) 0
      = internal._suffix_prod dims n1 0 * internal._suffix_prod (fun t => dims (n1 + t)) n2 0 := by
  induction n2 with
  | zero => simp [internal._suffix_prod_of_ge _ 0 0 (le_refl _)]
  | succ n2 ih =>
    rw [← Nat.add_assoc, internal._suffix_prod_succ _ _ 0 (Nat.zero_le _), ih,
      internal._suffix_prod_succ _ n2 0 (Nat.zero_le _), Nat.mul_assoc]

/-- The digits of `i * D2 + k` over `n1 + n2` subsystems are the digits of `i`
over the first `n1` followed by the digits of `k` over the last `n2`. -/
theorem digit_add (dims : CArr) (n1 : Nat) :
    ∀ n2 i k, k < internal._suffix_prod (fun t => dims (n1 + t)) n2 0 →
      (∀ t, t < n1 →
        internal.digit dims (n1 + n2)
          (i * internal._suffix_prod (fun t => dims (n1 + t)) n2 0 + k) t
          = internal.digit dims n1 i t) ∧
      (∀ u, u < n2 →
        internal.digit dims (n1 + n2)
          (i * internal._suffix_prod (fun t => dims (n1 + t)) n2 0 + k) (n1 + u)
          = internal.digit (fun t => dims (n1 + t)) n2 k u) := by
  intro n2
  induction n2 with
  | zero =>
    intro i k hk
    rw [internal._suffix_prod_of_ge _ 0 0 (le_refl _)] at hk ⊢
    have : k = 0 := by omega
    subst this
    refine ⟨fun t _ => by simp, fun u hu => by omega⟩
  | succ n2 ih =>
    intro i k hk
    rw [internal._suffix_prod_succ _ n2 0 (Nat.zero_le _)] at hk ⊢
    have hdl : 0 < dims (n1 + n2) := by
      rcases Nat.eq_zero_or_pos (dims (n1 + n2)) with h | h
      · simp only [h, Nat.mul_zero] at hk; omega
      · exact h
    have hkd : k / dims (n1 + n2) < internal._suffix_prod (fun t => dims (n1 + t)) n2 0 :=
      Nat.div_lt_of_lt_mul (by rwa [Nat.mul_comm] at hk)
    have hdiv : (i * (internal._suffix_prod (fun t => dims (n1 + t)) n2 0 * dims (n1 + n2)) + k)
        / dims (n1 + n2)
        = i * internal._suffix_prod (fun t => dims (n1 + t)) n2 0 + k / dims (n1 + n2) := by
      rw [← Nat.mul_assoc, Nat.add_comm, Nat.add_mul_div_right _ _ hdl, Nat.add_comm]
    have hmod : (i * (internal._suffix_prod (fun t => dims (n1 + t)) n2 0 * dims (n1 + n2)) + k)
        % dims (n1 + n2) = k % dims (n1 + n2) := by
      rw [← Nat.mul_assoc, Nat.add_comm, Nat.add_mul_mod_self_right]
    obtain ⟨ih1, ih2⟩ := ih i (k / dims (n1 + n2)) hkd
    refine ⟨?_, ?_⟩
    · intro t ht
      rw [← Nat.add_assoc, internal.digit_succ_of_lt dims (n1 + n2) _ t (by omega), hdiv]
      exact ih1 t ht
    · intro u hu
      rw [← Nat.add_assoc]
      rcases Nat.lt_or_ge u n2 with hu2 | hu2
      · rw [internal.digit_succ_of_lt dims (n1 + n2) _ (n1 + u) (by omega), hdiv, ih2 u hu2,
          internal.digit_succ_of_lt (fun t => dims (n1 + t)) n2 k u hu2]
      · have : u = n2 := by omega
        subst this
        rw [internal.digit_succ_last, hmod, internal.digit_succ_last]

/-- The digits of a sub-index are the digits of the index at the selected labels. -/
theorem subIdx_spec (cdims lab : CArr) (cnt n x : Nat) (hlab : ∀ t, t < cnt → lab t < n)
    (hx : x < internal._suffix_prod cdims n 0) :
    subIdx cdims lab cnt n x < internal._suffix_prod (fun t => cdims (lab t)) cnt 0 ∧
    ∀ t, t < cnt → internal.digit (fun t => cdims (lab t)) cnt (subIdx cdims lab cnt n x) t
      = internal.digit cdims n x (lab t) := by
  have hpos := internal.dims_pos_of_total_pos cdims n (by omega)
  apply internal.digit_multiidx2n
  intro k hk
  exact internal.digit_lt _ _ _ _ (hpos _ (hlab k hk))

/-- An index whose digits at the labels are the digits of `i` has sub-index `i`. -/
theorem subIdx_eq_of_digit (cdims lab : CArr) (cnt n x i : Nat)
    (hi : i < internal._suffix_prod (fun t => cdims (lab t)) cnt 0)
    (h : ∀ t, t < cnt → internal.digit cdims n x (lab t)
      = internal.digit (fun t => cdims (lab t)) cnt i t) :
    subIdx cdims lab cnt n x = i := by
  unfold subIdx
  rw [internal._multiidx2n_congr _ (internal.digit (fun t => cdims (lab t)) cnt i) _
    (fun t => cdims (lab t)) cnt h (fun _ _ => rfl)]
  exact internal._multiidx2n_digit _ _ i hi

/-- Two in-range indices with the same two sub-indices are equal. -/
theorem eq_of_subIdx_eq (cdims lab1 lab2 : CArr) (n1 n2 n x y : Nat)
    (h1 : ∀ t, t < n1 → lab1 t < n) (h2 : ∀ t, t < n2 → lab2 t < n)
    (hcov : Covers lab1 n1 lab2 n2 n)
    (hx : x < internal._suffix_prod cdims n 0) (hy : y < internal._suffix_prod cdims n 0)
    (e1 : subIdx cdims lab1 n1 n x = subIdx cdims lab1 n1 n y)
    (e2 : subIdx cdims lab2 n2 n x = subIdx cdims lab2 n2 n y) : x = y := by
  apply eq_of_digit_eq cdims n x y hx hy
  intro l hl
  rcases hcov l hl with ⟨t, ht, rfl⟩ | ⟨t, ht, rfl⟩
  · rw [← (subIdx_spec cdims lab1 n1 n x h1 hx).2 t ht,
      ← (subIdx_spec cdims lab1 n1 n y h1 hy).2 t ht, e1]
  · rw [← (subIdx_spec cdims lab2 n2 n x h2 hx).2 t ht,
      ← (subIdx_spec cdims lab2 n2 n y h2 hy).2 t ht, e2]

/-! ## The source index of `ptrace` -/

theorem IsBij_of_perm (perm : List Nat) (n : Nat) (h : perm.Perm (List.range n)) :
    IsBij (toCArr perm) n := by
  have hlen : perm.length = n := by simpa using h.length_eq
  have := IsBij_of_check perm
    (fun l hl => by rw [hlen]; exact List.mem_range.mp (h.mem_iff.mp hl))
    (h.nodup_iff.mpr (List.nodup_range _))
  rwa [hlen] at this

theorem toCArr_append_left (L1 L2 : List Nat) (t : Nat) (ht : t < L1.length) :
    toCArr (L1 ++ L2) t = toCArr L1 t := by
  simp [toCArr, List.getD_eq_getElem?_getD, List.getElem?_append_left ht]

theorem toCArr_append_right (L1 L2 : List Nat) (u : Nat) :
    toCArr (L1 ++ L2) (L1.length + u) = toCArr L2 u := by
  simp [toCArr, List.getD_eq_getElem?_getD, List.getElem?_append_right]

theorem toCArr_lt_of_mem (L : List Nat) (n : Nat) (h : ∀ l ∈ L, l < n) (t : Nat)
    (ht : t < L.length) : toCArr L t < n := by
  rw [toCArr_getElem L t ht]
  exact h _ (List.getElem_mem ht)

theorem subDim_eq_suffix_prod (dims L : List Nat) :
    subDim dims L = internal._suffix_prod (fun t => toCArr dims (toCArr L t)) L.length 0 := by
  unfold subDim
  rw [← internal._suffix_prod_toCArr, List.length_map]
  apply internal._suffix_prod_congr
  intro l hl
  exact toCArr_map_getD L dims l hl

theorem covers_of_perm (L1 L2 : List Nat) (n : Nat) (h : (L1 ++ L2).Perm (List.range n)) :
    Covers (toCArr L1) L1.length (toCArr L2) L2.length n := by
  intro l hl
  have : l ∈ L1 ++ L2 := h.mem_iff.mpr (List.mem_range.mpr hl)
  rcases List.mem_append.mp this with h1 | h1
  · obtain ⟨k, hk, rfl⟩ := List.getElem_of_mem h1
    exact Or.inl ⟨k, hk, toCArr_getElem L1 k hk⟩
  · obtain ⟨k, hk, rfl⟩ := List.getElem_of_mem h1
    exact Or.inr ⟨k, hk, toCArr_getElem L2 k hk⟩

/-- The source index for `i * D2 + k` under the permutation `L1 ++ L2` is the
in-range index with sub-index `i` at the labels `L1` and `k` at the labels `L2`. -/
theorem permIdx_append_spec (dims L1 L2 : List Nat)
    (hperm : (L1 ++ L2).Perm (List.range dims.length)) (i k : Nat)
    (hi : i < subDim dims L1) (hk : k < subDim dims L2) :
    permIdx (toCArr dims) (toCArr (L1 ++ L2)) dims.length (i * subDim dims L2 + k) < dims.prod ∧
    subIdx (toCArr dims) (toCArr L1) L1.length dims.length
      (permIdx (toCArr dims) (toCArr (L1 ++ L2)) dims.length (i * subDim dims L2 + k)) = i ∧
    subIdx (toCArr dims) (toCArr L2) L2.length dims.length
      (permIdx (toCArr dims) (toCArr (L1 ++ L2)) dims.length (i * subDim dims L2 + k)) = k := by
  have hb := IsBij_of_perm _ _ hperm
  have hlen : L1.length + L2.length = dims.length := by
    simpa using hperm.length_eq
  have hD : dims.prod = subDim dims L1 * subDim dims L2 := by
    rw [← subDim_append, subDim_perm dims _ _ hperm, subDim_range]
  have hx : i * subDim dims L2 + k < internal._suffix_prod (toCArr dims) dims.length 0 := by
    rw [internal._suffix_prod_toCArr, hD]
    calc i * subDim dims L2 + k < i * subDim dims L2 + subDim dims L2 := by omega
      _ = (i + 1) * subDim dims L2 := by ring
      _ ≤ subDim dims L1 * subDim dims L2 := Nat.mul_le_mul_right _ hi
  obtain ⟨hX, hXd⟩ := permIdx_spec (toCArr dims) (toCArr (L1 ++ L2)) dims.length _ hb hx
  have hD2 : internal._suffix_prod
      (fun t => (fun k => toCArr dims (toCArr (L1 ++ L2) k)) (L1.length + t)) L2.length 0
      = subDim dims L2 := by
    rw [subDim_eq_suffix_prod]
    apply internal._suffix_prod_congr
    intro l _
    simp only [toCArr_append_right]
  obtain ⟨hd1, hd2⟩ := digit_add (fun k => toCArr dims (toCArr (L1 ++ L2) k)) L1.length L2.length
    i k (by rw [hD2]; exact hk)
  rw [hD2, hlen] at hd1 hd2
  rw [internal._suffix_prod_toCArr] at hX
  refine ⟨hX, ?_, ?_⟩
  · apply subIdx_eq_of_digit _ _ _ _ _ _ (by rw [← subDim_eq_suffix_prod]; exact hi)
    intro t ht
    have := hXd t (by omega)
    rw [toCArr_append_left L1 L2 t ht] at this
    rw [this, hd1 t ht]
    exact digit_congr _ _ _ _ _ (fun l hl => by simp only [toCArr_append_left L1 L2 l hl]) ht
  · apply subIdx_eq_of_digit _ _ _ _ _ _ (by rw [← subDim_eq_suffix_prod]; exact hk)
    intro u hu
    have := hXd (L1.length + u) (by omega)
    rw [toCArr_append_right L1 L2 u] at this
    rw [this, hd2 u hu]
    exact digit_congr _ _ _ _ _ (fun l _ => by simp only [toCArr_append_right]) hu

/-- The index map of `syspermute` is a bijection of `[0, D)`. -/
theorem permIdx_isBij (cdims cperm : CArr) (n : Nat) (hb : IsBij cperm n) :
    IsBij (permIdx cdims cperm n) (internal._suffix_prod cdims n 0) := by
  refine ⟨fun x hx => (permIdx_spec cdims cperm n x hb hx).1, ?_⟩
  intro x y hx hy he
  have hx2 : x < internal._suffix_prod (fun k => cdims (cperm k)) n 0 := by
    rw [hb.prod_comp]; exact hx
  have hy2 : y < internal._suffix_prod (fun k => cdims (cperm k)) n 0 := by
    rw [hb.prod_comp]; exact hy
  apply eq_of_digit_eq _ n x y hx2 hy2
  intro t ht
  rw [← (permIdx_spec cdims cperm n x hb hx).2 t ht, ← (permIdx_spec cdims cperm n y hb hy).2 t ht,
    he]

theorem sum_range_mul {M : Type} [AddCommMonoid M] (f : Nat → M) (a b : Nat) :
    ∑ i in Finset.range a, ∑ k in Finset.range b, f (i * b + k)
      = ∑ x in Finset.range (a * b), f x := by
  induction a with
  | zero => simp
  | succ a ih =>
    rw [Finset.sum_range_succ, ih, Nat.succ_mul, Finset.sum_range_add]

/-! ## Trace preservation -/

theorem trace_eq_sum {R : Type} [Semiring R] (A : Mat R) (hsq : A.rows = A.cols) :
    trace A = ∑ x in Finset.range A.rows, A.data x x := by
  unfold trace Mat.trace
  rw [← hsq, Nat.min_self]
  exact foldl_add_eq_sum (fun k => A.data k k) A.rows

/-- C9: trace preservation.  For every square matrix `rho` of size `prod(dims)`,
valid `dims` and every valid subsystem list `subsys`, `ptrace` succeeds and the
trace of its result is the trace of `rho`. -/
theorem ptrace_trace_preservation {R : Type} [Semiring R] (rho : Mat R) (subsys dims : List Nat)
    (hne : dims ≠ []) (hpos : ∀ d ∈ dims, 1 ≤ d)
    (hr : rho.rows = dims.prod) (hc : rho.cols = dims.prod)
    (hsub : ∀ l ∈ subsys, l < dims.length) (hnd : subsys.Nodup) :
    ∃ B, ptrace rho subsys dims = .ok B ∧ trace B = trace rho := by
  refine ⟨_, ptrace_eq rho subsys dims hne hpos hr hc hsub hnd, ?_⟩
  have hS := subDim_pos dims subsys hpos hsub
  have hmul := subDim_compl_mul dims subsys hsub hnd
  have hdiv : rho.rows / subDim dims subsys * subDim dims subsys = rho.rows := by
    rw [hr, ← hmul, Nat.mul_div_cancel _ hS]
  have hb := IsBij_of_perm _ _ (compl_append_sorted_perm subsys dims.length)
  have hσ := permIdx_isBij (toCArr dims) _ dims.length hb
  rw [internal._suffix_prod_toCArr, ← hr] at hσ
  rw [trace_eq_sum _ rfl, trace_eq_sum rho (by rw [hr, hc])]
  simp only [ptraceMat, ptrace2Mat]
  rw [Finset.sum_congr rfl (fun i hi => by
    rw [if_pos ⟨Finset.mem_range.mp hi, Finset.mem_range.mp hi⟩])]
  rw [sum_range_mul (fun x => (syspermuteMat rho
    (complLabels subsys dims.length ++ sortedLabels subsys dims.length) dims).data x x), hdiv]
  simp only [syspermuteMat]
  rw [Finset.sum_congr rfl (fun x hx => by
    rw [if_pos ⟨Finset.mem_range.mp hx, Finset.mem_range.mp hx⟩])]
  exact hσ.sum_comp (fun x => rho.data x x)

theorem ptrace_trace_preservation_witness :
    ∃ B, ptrace (demoMat 6) [0] [2, 3] = .ok B ∧ trace B = trace (demoMat 6) :=
  ptrace_trace_preservation (demoMat 6) [0] [2, 3] (by decide) (by decide) (by decide)
    (by decide) (by decide) (by decide)

/-! ## Reindexing the sum over the traced-out subsystems -/

/-- The encoding of a multi-index that carries the digits of `i` at the labels
`lab1` and the digits of `k` at the labels `lab2`. -/
theorem enc_split_spec (cdims lab1 lab2 : CArr) (n1 n2 n : Nat) (m : CArr) (i k : Nat)
    (h1 : ∀ t, t < n1 → lab1 t < n) (h2 : ∀ t, t < n2 → lab2 t < n)
    (hcov : Covers lab1 n1 lab2 n2 n) (hpos : ∀ l, l < n → 1 ≤ cdims l)
    (hi : i < internal._suffix_prod (fun t => cdims (lab1 t)) n1 0)
    (hk : k < internal._suffix_prod (fun t => cdims (lab2 t)) n2 0)
    (hm1 : ∀ t, t < n1 → m (lab1 t) = internal.digit (fun t => cdims (lab1 t)) n1 i t)
    (hm2 : ∀ t, t < n2 → m (lab2 t) = internal.digit (fun t => cdims (lab2 t)) n2 k t) :
    internal._multiidx2n m n cdims < internal._suffix_prod cdims n 0 ∧
    subIdx cdims lab1 n1 n (internal._multiidx2n m n cdims) = i ∧
    subIdx cdims lab2 n2 n (internal._multiidx2n m n cdims) = k := by
  have hvalid : ∀ l, l < n → m l < cdims l := by
    intro l hl
    rcases hcov l hl with ⟨t, ht, rfl⟩ | ⟨t, ht, rfl⟩
    · rw [hm1 t ht]
      exact internal.digit_lt _ _ _ _ (hpos _ (h1 t ht))
    · rw [hm2 t ht]
      exact internal.digit_lt _ _ _ _ (hpos _ (h2 t ht))
  obtain ⟨hlt, hdig⟩ := internal.digit_multiidx2n cdims n m hvalid
  refine ⟨hlt, ?_, ?_⟩
  · apply subIdx_eq_of_digit _ _ _ _ _ _ hi
    intro t ht
    rw [hdig _ (h1 t ht), hm1 t ht]
  · apply subIdx_eq_of_digit _ _ _ _ _ _ hk
    intro t ht
    rw [hdig _ (h2 t ht), hm2 t ht]

/-- The sub-index at labels that all occur among the labels `labA` or `labB` is
determined by the sub-indices at `labA` and at `labB`. -/
theorem subIdx_determined (cdims labA labB labC : CArr) (nA nB nC n x y : Nat)
    (hA : ∀ t, t < nA → labA t < n) (hB : ∀ t, t < nB → labB t < n)
    (hsub : ∀ t, t < nC → (∃ u, u < nA ∧ labA u = labC t) ∨ (∃ u, u < nB ∧ labB u = labC t))
    (hx : x < internal._suffix_prod cdims n 0) (hy : y < internal._suffix_prod cdims n 0)
    (eA : subIdx cdims labA nA n x = subIdx cdims labA nA n y)
    (eB : subIdx cdims labB nB n x = subIdx cdims labB nB n y) :
    subIdx cdims labC nC n x = subIdx cdims labC nC n y := by
  unfold subIdx
  apply internal._multiidx2n_congr _ _ _ _ _ _ (fun _ _ => rfl)
  intro t ht
  rcases hsub t ht with ⟨u, hu, he⟩ | ⟨u, hu, he⟩
  · rw [← he, ← (subIdx_spec cdims labA nA n x hA hx).2 u hu,
      ← (subIdx_spec cdims labA nA n y hA hy).2 u hu, eA]
  · rw [← he, ← (subIdx_spec cdims labB nB n x hB hx).2 u hu,
      ← (subIdx_spec cdims labB nB n y hB hy).2 u hu, eB]

/-- A family `Y i t`, `t ∈ T`, that has the complement sub-index `i`, a traced-out
sub-index independent of `i`, and as many members as there are traced-out
sub-indices, enumerates the same index pairs as the family `X i k`, `k < D2`. -/
theorem sum_reindex {R ι : Type} [AddCommMonoid R] [DecidableEq ι]
    (cdims lab1 lab2 : CArr) (n1 n2 n : Nat)
    (h1 : ∀ t, t < n1 → lab1 t < n) (h2 : ∀ t, t < n2 → lab2 t < n)
    (hcov : Covers lab1 n1 lab2 n2 n)
    (X : Nat → Nat → Nat) (Y : Nat → ι → Nat) (T : Finset ι) (i j : Nat)
    (hXi : ∀ k, k < internal._suffix_prod (fun t => cdims (lab2 t)) n2 0 →
      X i k < internal._suffix_prod cdims n 0 ∧ subIdx cdims lab1 n1 n (X i k) = i ∧
        subIdx cdims lab2 n2 n (X i k) = k)
    (hXj : ∀ k, k < internal._suffix_prod (fun t => cdims (lab2 t)) n2 0 →
      X j k < internal._suffix_prod cdims n 0 ∧ subIdx cdims lab1 n1 n (X j k) = j ∧
        subIdx cdims lab2 n2 n (X j k) = k)
    (hYi : ∀ t ∈ T, Y i t < internal._suffix_prod cdims n 0 ∧
      subIdx cdims lab1 n1 n (Y i t) = i)
    (hYj : ∀ t ∈ T, Y j t < internal._suffix_prod cdims n 0 ∧
      subIdx cdims lab1 n1 n (Y j t) = j)
    (hind : ∀ t ∈ T, subIdx cdims lab2 n2 n (Y i t) = subIdx cdims lab2 n2 n (Y j t))
    (hinj : ∀ t ∈ T, ∀ t2 ∈ T,
      subIdx cdims lab2 n2 n (Y i t) = subIdx cdims lab2 n2 n (Y i t2) → t = t2)
    (hcard : T.card = internal._suffix_prod (fun t => cdims (lab2 t)) n2 0)
    (F : Nat → Nat → R) :
    ∑ t in T, F (Y i t) (Y j t)
      = ∑ k in Finset.range (internal._suffix_prod (fun t => cdims (lab2 t)) n2 0),
          F (X i k) (X j k) := by
  have hκ : ∀ t ∈ T, subIdx cdims lab2 n2 n (Y i t)
      < internal._suffix_prod (fun t => cdims (lab2 t)) n2 0 :=
    fun t ht => (subIdx_spec cdims lab2 n2 n _ h2 (hYi t ht).1).1
  have hYXi : ∀ t ∈ T, Y i t = X i (subIdx cdims lab2 n2 n (Y i t)) := by
    intro t ht
    obtain ⟨a1, a2, a3⟩ := hXi _ (hκ t ht)
    exact eq_of_subIdx_eq cdims lab1 lab2 n1 n2 n _ _ h1 h2 hcov (hYi t ht).1 a1
      (by rw [a2, (hYi t ht).2]) (by rw [a3])
  have hYXj : ∀ t ∈ T, Y j t = X j (subIdx cdims lab2 n2 n (Y i t)) := by
    intro t ht
    obtain ⟨a1, a2, a3⟩ := hXj _ (hκ t ht)
    exact eq_of_subIdx_eq cdims lab1 lab2 n1 n2 n _ _ h1 h2 hcov (hYj t ht).1 a1
      (by rw [a2, (hYj t ht).2]) (by rw [a3, hind t ht])
  have himg : T.image (fun t => subIdx cdims lab2 n2 n (Y i t))
      = Finset.range (internal._suffix_prod (fun t => cdims (lab2 t)) n2 0) := by
    apply Finset.eq_of_subset_of_card_le
    · intro k hk
      obtain ⟨t, ht, rfl⟩ := Finset.mem_image.mp hk
      exact Finset.mem_range.mpr (hκ t ht)
    · rw [Finset.card_image_of_injOn (fun a ha b hb hab => hinj a ha b hb hab), hcard,
        Finset.card_range]
  rw [← himg, Finset.sum_image (fun a ha b hb hab => hinj a ha b hb hab)]
  apply Finset.sum_congr rfl
  intro t ht
  rw [← hYXi t ht, ← hYXj t ht]

/-! ## Partial trace against its reference definition -/

theorem exists_toCArr_eq_iff (L : List Nat) (l : Nat) :
    (∃ u, u < L.length ∧ toCArr L u = l) ↔ l ∈ L := by
  constructor
  · rintro ⟨u, hu, rfl⟩
    rw [toCArr_getElem L u hu]
    exact List.getElem_mem hu
  · intro h
    obtain ⟨k, hk, rfl⟩ := List.getElem_of_mem h
    exact ⟨k, hk, toCArr_getElem L k hk⟩

theorem toCArr_mem (L : List Nat) (t : Nat) (ht : t < L.length) : toCArr L t ∈ L := by
  rw [toCArr_getElem L t ht]
  exact List.getElem_mem ht

theorem fullIndex_spec (dims C S : List Nat) (hpos : ∀ d ∈ dims, 1 ≤ d)
    (hperm : (C ++ S).Perm (List.range dims.length)) (i k : Nat)
    (hi : i < subDim dims C) (hk : k < subDim dims S) :
    fullIndex dims C S i k < dims.prod ∧
    subIdx (toCArr dims) (toCArr C) C.length dims.length (fullIndex dims C S i k) = i ∧
    subIdx (toCArr dims) (toCArr S) S.length dims.length (fullIndex dims C S i k) = k := by
  have hnd : (C ++ S).Nodup := hperm.nodup_iff.mpr (List.nodup_range _)
  obtain ⟨hndC, hndS, hdisj⟩ := List.nodup_append.mp hnd
  have hlt : ∀ l ∈ C ++ S, l < dims.length := fun l hl => List.mem_range.mp (hperm.mem_iff.mp hl)
  have h1 := toCArr_lt_of_mem C dims.length (fun l hl => hlt l (List.mem_append_left _ hl))
  have h2 := toCArr_lt_of_mem S dims.length (fun l hl => hlt l (List.mem_append_right _ hl))
  rw [subDim_eq_suffix_prod] at hi hk
  have := enc_split_spec (toCArr dims) (toCArr C) (toCArr S) C.length S.length dims.length
    (CArr.scatter (toCArr S) S.length
      (internal._n2multiidx k S.length (fun t => toCArr dims (toCArr S t)) (fun _ => 0))
      (CArr.scatter (toCArr C) C.length
        (internal._n2multiidx i C.length (fun t => toCArr dims (toCArr C t)) (fun _ => 0))
        (fun _ => 0)))
    i k h1 h2 (covers_of_perm C S _ hperm) (toCArr_pos dims hpos) hi hk
    (by
      intro t ht
      rw [CArr.scatter_of_not_mem _ _ _ _ _ (fun u hu he =>
          hdisj (toCArr_mem C t ht) (by rw [← he]; exact toCArr_mem S u hu)),
        CArr.scatter_of_mem _ _ _ _ (toCArr_inj_of_nodup C hndC) t ht,
        internal._n2multiidx_eq _ _ _ _ hi]
      simp [ht])
    (by
      intro t ht
      rw [CArr.scatter_of_mem _ _ _ _ (toCArr_inj_of_nodup S hndS) t ht,
        internal._n2multiidx_eq _ _ _ _ hk]
      simp [ht])
  rw [internal._suffix_prod_toCArr] at this
  exact this

/-- C4: partial trace equals its reference definition.  For every square matrix
`A` of size `D = prod(dims)`, valid `dims` and every valid subsystem list
`subsys`, `ptrace` succeeds and returns the matrix `ptrace_ref A subsys dims`:
shape `(D/Dsub) x (D/Dsub)`, entry `(i, j)` the sum over the multi-indices `k` of
the traced-out subsystems of `A(r(i,k), r(j,k))`. -/
theorem ptrace_eq_reference {R : Type} [Semiring R] (A : Mat R) (subsys dims : List Nat)
    (hne : dims ≠ []) (hpos : ∀ d ∈ dims, 1 ≤ d)
    (hr : A.rows = dims.prod) (hc : A.cols = dims.prod)
    (hsub : ∀ l ∈ subsys, l < dims.length) (hnd : subsys.Nodup) :
    ∃ B, ptrace A subsys dims = .ok B ∧ B.same (ptrace_ref A subsys dims) := by
  refine ⟨_, ptrace_eq A subsys dims hne hpos hr hc hsub hnd, ?_, ?_, ?_⟩
  · simp [ptraceMat, ptrace2Mat, ptrace_ref, hr]
  · simp [ptraceMat, ptrace2Mat, ptrace_ref, hr]
  intro i hi j hj
  have hS := subDim_pos dims subsys hpos hsub
  have hmul := subDim_compl_mul dims subsys hsub hnd
  have hdiv : A.rows / subDim dims subsys = subDim dims (complLabels subsys dims.length) := by
    rw [hr, ← hmul]
    exact Nat.mul_div_cancel _ hS
  have hi2 : i < subDim dims (complLabels subsys dims.length) := hdiv ▸ hi
  have hj2 : j < subDim dims (complLabels subsys dims.length) := hdiv ▸ hj
  have hsp := sortedLabels_perm subsys dims.length hsub hnd
  have hDS := subDim_perm dims _ _ hsp
  have hperm := compl_append_sorted_perm subsys dims.length
  have hperm2 : (complLabels subsys dims.length ++ subsys).Perm (List.range dims.length) :=
    (List.Perm.append_left _ hsp.symm).trans hperm
  have hlt : ∀ l ∈ complLabels subsys dims.length ++ sortedLabels subsys dims.length,
      l < dims.length := fun l hl => List.mem_range.mp (hperm.mem_iff.mp hl)
  have h1 := toCArr_lt_of_mem (complLabels subsys dims.length) dims.length
    (fun l hl => hlt l (List.mem_append_left _ hl))
  have h2 := toCArr_lt_of_mem (sortedLabels subsys dims.length) dims.length
    (fun l hl => hlt l (List.mem_append_right _ hl))
  have h3 := toCArr_lt_of_mem subsys dims.length hsub
  have hD : internal._suffix_prod (toCArr dims) dims.length 0 = dims.prod :=
    internal._suffix_prod_toCArr dims
  have hX : ∀ a, a < subDim dims (complLabels subsys dims.length) →
      ∀ k, k < internal._suffix_prod
          (fun t => toCArr dims (toCArr (sortedLabels subsys dims.length) t))
          (sortedLabels subsys dims.length).length 0 →
        permIdx (toCArr dims)
            (toCArr (complLabels subsys dims.length ++ sortedLabels subsys dims.length))
            dims.length (a * subDim dims subsys + k)
          < internal._suffix_prod (toCArr dims) dims.length 0 ∧
        subIdx (toCArr dims) (toCArr (complLabels subsys dims.length))
          (complLabels subsys dims.length).length dims.length
          (permIdx (toCArr dims)
            (toCArr (complLabels subsys dims.length ++ sortedLabels subsys dims.length))
            dims.length (a * subDim dims subsys + k)) = a ∧
        subIdx (toCArr dims) (toCArr (sortedLabels subsys dims.length))
          (sortedLabels subsys dims.length).length dims.length
          (permIdx (toCArr dims)
            (toCArr (complLabels subsys dims.length ++ sortedLabels subsys dims.length))
            dims.length (a * subDim dims subsys + k)) = k := by
    intro a ha k hk
    rw [← subDim_eq_suffix_prod] at hk
    have := permIdx_append_spec dims _ _ hperm a k ha hk
    rw [hDS] at this
    rw [hD]
    exact this
  have hY : ∀ a, a < subDim dims (complLabels subsys dims.length) →
      ∀ t ∈ Finset.range (subDim dims subsys),
        fullIndex dims (complLabels subsys dims.length) subsys a t < dims.prod ∧
        subIdx (toCArr dims) (toCArr (complLabels subsys dims.length))
          (complLabels subsys dims.length).length dims.length
          (fullIndex dims (complLabels subsys dims.length) subsys a t) = a ∧
        subIdx (toCArr dims) (toCArr subsys) subsys.length dims.length
          (fullIndex dims (complLabels subsys dims.length) subsys a t) = t :=
    fun a ha t ht => fullIndex_spec dims _ _ hpos hperm2 a t ha (Finset.mem_range.mp ht)
  have hsum := sum_reindex (toCArr dims) (toCArr (complLabels subsys dims.length))
    (toCArr (sortedLabels subsys dims.length)) (complLabels subsys dims.length).length
    (sortedLabels subsys dims.length).length dims.length h1 h2 (covers_of_perm _ _ _ hperm)
    (fun a k => permIdx (toCArr dims)
      (toCArr (complLabels subsys dims.length ++ sortedLabels subsys dims.length))
      dims.length (a * subDim dims subsys + k))
    (fun a t => fullIndex dims (complLabels subsys dims.length) subsys a t)
    (Finset.range (subDim dims subsys)) i j (hX i hi2) (hX j hj2)
    (fun t ht => ⟨by rw [hD]; exact (hY i hi2 t ht).1, (hY i hi2 t ht).2.1⟩)
    (fun t ht => ⟨by rw [hD]; exact (hY j hj2 t ht).1, (hY j hj2 t ht).2.1⟩)
    (by
      intro t ht
      apply subIdx_determined (toCArr dims) (toCArr subsys) (toCArr subsys) _ subsys.length
        subsys.length _ dims.length _ _ h3 h3 _ (by rw [hD]; exact (hY i hi2 t ht).1)
        (by rw [hD]; exact (hY j hj2 t ht).1)
        (by rw [(hY i hi2 t ht).2.2, (hY j hj2 t ht).2.2])
        (by rw [(hY i hi2 t ht).2.2, (hY j hj2 t ht).2.2])
      intro u hu
      exact Or.inl ((exists_toCArr_eq_iff subsys _).mpr (hsp.mem_iff.mp (toCArr_mem _ u hu))))
    (by
      intro t ht t2 ht2 he
      have := subIdx_determined (toCArr dims) (toCArr (sortedLabels subsys dims.length))
        (toCArr (sortedLabels subsys dims.length)) (toCArr subsys) _ _ subsys.length dims.length
        _ _ h2 h2
        (fun u hu => Or.inl ((exists_toCArr_eq_iff _ _).mpr
          (hsp.mem_iff.mpr (toCArr_mem _ u hu))))
        (by rw [hD]; exact (hY i hi2 t ht).1) (by rw [hD]; exact (hY i hi2 t2 ht2).1) he he
      rwa [(hY i hi2 t ht).2.2, (hY i hi2 t2 ht2).2.2] at this)
    (by rw [Finset.card_range, ← subDim_eq_suffix_prod, hDS])
    (fun x y => A.data x y)
  rw [← subDim_eq_suffix_prod, hDS] at hsum
  have hi3 : i < A.rows / subDim dims subsys := hi
  have hj3 : j < A.rows / subDim dims subsys := hj
  simp only [ptraceMat, ptrace2Mat, ptrace_ref, hi3, hj3, and_self, if_true, syspermuteMat]
  rw [hsum]
  apply Finset.sum_congr rfl
  intro k hk
  have hk2 := Finset.mem_range.mp hk
  have hb : ∀ a, a < subDim dims (complLabels subsys dims.length) →
      a * subDim dims subsys + k < A.rows := by
    intro a ha
    rw [hr, ← hmul]
    calc a * subDim dims subsys + k < a * subDim dims subsys + subDim dims subsys := by omega
      _ = (a + 1) * subDim dims subsys := by ring
      _ ≤ _ := Nat.mul_le_mul_right _ ha
  rw [if_pos ⟨hb i hi2, hb j hj2⟩]

theorem ptrace_eq_reference_witness :
    ∃ B, ptrace (demoMat 6) [1] [2, 3] = .ok B ∧ B.same (ptrace_ref (demoMat 6) [1] [2, 3]) :=
  ptrace_eq_reference (demoMat 6) [1] [2, 3] (by decide) (by decide) (by decide) (by decide)
    (by decide) (by decide)

/-! ## The loops of `apply` -/

namespace obsolete

theorem applyRowIdx_A (su : ApplySetup) (n nA nA_bar a i : Nat) (inv : ApplyInv su n nA nA_bar)
    (ha : a < su.DA) (u : Nat) (hu : u < nA) :
    applyRowIdx su nA nA_bar a i (su.CsubsysA u) = internal.digit su.CdimsA nA a u := by
  unfold applyRowIdx
  rw [CArr.scatter_of_not_mem _ _ _ _ _ (fun t ht => inv.disj t u ht hu),
    CArr.scatter_of_mem _ _ _ _ inv.injA u hu,
    internal._n2multiidx_eq _ _ _ _ (inv.hDA ▸ ha)]
  simp [hu]

theorem applyRowIdx_B (su : ApplySetup) (n nA nA_bar a i : Nat) (inv : ApplyInv su n nA nA_bar)
    (hi : i < su.DA_bar) (t : Nat) (ht : t < nA_bar) :
    applyRowIdx su nA nA_bar a i (su.CsubsysA_bar t)
      = internal.digit su.CdimsA_bar nA_bar i t := by
  unfold applyRowIdx
  rw [CArr.scatter_of_mem _ _ _ _ inv.injB t ht,
    internal._n2multiidx_eq _ _ _ _ (inv.hDB ▸ hi)]
  simp [ht]

/-- A row multi-index with the digits of `a` at the subsystem labels and the
digits of `i` at the complement labels encodes to `applyRow su … a i`. -/
theorem enc_eq_applyRow (su : ApplySetup) (n nA nA_bar a i : Nat) (inv : ApplyInv su n nA nA_bar)
    (ha : a < su.DA) (hi : i < su.DA_bar) (m : CArr)
    (hmA : ∀ u, u < nA → m (su.CsubsysA u) = internal.digit su.CdimsA nA a u)
    (hmB : ∀ t, t < nA_bar → m (su.CsubsysA_bar t) = internal.digit su.CdimsA_bar nA_bar i t) :
    internal._multiidx2n m n su.Cdims = applyRow su n nA nA_bar a i := by
  unfold applyRow
  apply internal._multiidx2n_congr _ _ _ _ _ _ (fun _ _ => rfl)
  intro l hl
  rcases inv.cov l hl with ⟨t, ht, rfl⟩ | ⟨u, hu, rfl⟩
  · rw [hmB t ht, applyRowIdx_B su n nA nA_bar a i inv hi t ht]
  · rw [hmA u hu, applyRowIdx_A su n nA nA_bar a i inv ha u hu]

/-- The innermost loop of `apply`: the coefficient it accumulates, and what it
leaves in the scratch arrays. -/
theorem apply_coeff_spec {R : Type} [Semiring R] (rA rstate : Mat R) (n nA nA_bar : Nat)
    (su : ApplySetup) (inv : ApplyInv su n nA nA_bar) (a col i : Nat) (hi : i < su.DA_bar)
    (sc : ApplyScratch)
    (hsc : ∀ t, t < nA_bar →
      sc.midx_rho_row (su.CsubsysA_bar t) = internal.digit su.CdimsA_bar nA_bar i t) :
    (apply_coeff rA rstate n nA su a col sc).1.midx_row = sc.midx_row ∧
    (∀ t, t < nA_bar → (apply_coeff rA rstate n nA su a col sc).1.midx_rho_row
      (su.CsubsysA_bar t) = internal.digit su.CdimsA_bar nA_bar i t) ∧
    (apply_coeff rA rstate n nA su a col sc).2
      = ∑ c in Finset.range su.DA,
          rA.data a c * rstate.data (applyRow su n nA nA_bar c i) col := by
  have hsim := foldl_simulation
    (fun (st : ApplyScratch × R) c =>
      ({ st.1 with
          midxA_rho_row := internal._n2multiidx c nA su.CdimsA st.1.midxA_rho_row,
          midx_rho_row := CArr.scatter su.CsubsysA nA
            (internal._n2multiidx c nA su.CdimsA st.1.midxA_rho_row) st.1.midx_rho_row },
       st.2 + rA.data a c * rstate.data
        (internal._multiidx2n
          (CArr.scatter su.CsubsysA nA
            (internal._n2multiidx c nA su.CdimsA st.1.midxA_rho_row) st.1.midx_rho_row)
          n su.Cdims) col))
    (fun (acc : R) c => acc + rA.data a c * rstate.data (applyRow su n nA nA_bar c i) col)
    (fun st => st.2)
    (fun st => st.1.midx_row = sc.midx_row ∧ ∀ t, t < nA_bar →
      st.1.midx_rho_row (su.CsubsysA_bar t) = internal.digit su.CdimsA_bar nA_bar i t)
    (List.range su.DA)
    (by
      intro st c hc hI
      have hc2 : c < su.DA := List.mem_range.mp hc
      have hB : ∀ t, t < nA_bar →
          CArr.scatter su.CsubsysA nA
            (internal._n2multiidx c nA su.CdimsA st.1.midxA_rho_row) st.1.midx_rho_row
            (su.CsubsysA_bar t) = internal.digit su.CdimsA_bar nA_bar i t := by
        intro t ht
        rw [CArr.scatter_of_not_mem _ _ _ _ _ (fun u hu he => inv.disj t u ht hu he.symm)]
        exact hI.2 t ht
      refine ⟨⟨hI.1, hB⟩, ?_⟩
      simp only
      rw [enc_eq_applyRow su n nA nA_bar c i inv hc2 hi _ _ hB]
      intro u hu
      rw [CArr.scatter_of_mem _ _ _ _ inv.injA u hu,
        internal._n2multiidx_eq _ _ _ _ (inv.hDA ▸ hc2)]
      simp [hu])
    (sc, 0) ⟨rfl, hsc⟩
  refine ⟨hsim.1.1, hsim.1.2, ?_⟩
  have h2 := hsim.2
  simp only at h2
  unfold apply_coeff
  rw [h2]
  exact foldl_add_eq_sum _ _

end obsolete

namespace obsolete

/-- One pass of the loop over `i` in the ket branch of `apply`. -/
theorem apply_ket_body_spec {R : Type} [Semiring R] (rA rstate : Mat R) (n nA nA_bar : Nat)
    (su : ApplySetup) (inv : ApplyInv su n nA nA_bar) (a i : Nat) (ha : a < su.DA)
    (hi : i < su.DA_bar) (st : ApplyScratch × Mat R)
    (hst : ∀ u, u < nA → st.1.midx_row (su.CsubsysA u) = internal.digit su.CdimsA nA a u) :
    (∀ u, u < nA →
      (apply_coeff rA rstate n nA su a 0 (apply_complement nA_bar su i st.1)).1.midx_row
        (su.CsubsysA u) = internal.digit su.CdimsA nA a u) ∧
    st.2.set (internal._multiidx2n (apply_complement nA_bar su i st.1).midx_row n su.Cdims) 0
        (apply_coeff rA rstate n nA su a 0 (apply_complement nA_bar su i st.1)).2
      = st.2.set (applyRow su n nA nA_bar a i) 0
          (∑ c in Finset.range su.DA,
            rA.data a c * rstate.data (applyRow su n nA nA_bar c i) 0) := by
  have hrowA : ∀ u, u < nA → (apply_complement nA_bar su i st.1).midx_row (su.CsubsysA u)
      = internal.digit su.CdimsA nA a u := by
    intro u hu
    simp only [apply_complement]
    rw [CArr.scatter_of_not_mem _ _ _ _ _ (fun t ht => inv.disj t u ht hu)]
    exact hst u hu
  have hrowB : ∀ t, t < nA_bar → (apply_complement nA_bar su i st.1).midx_row
      (su.CsubsysA_bar t) = internal.digit su.CdimsA_bar nA_bar i t := by
    intro t ht
    simp only [apply_complement]
    rw [CArr.scatter_of_mem _ _ _ _ inv.injB t ht,
      internal._n2multiidx_eq _ _ _ _ (inv.hDB ▸ hi)]
    simp [ht]
  have hrhoB : ∀ t, t < nA_bar → (apply_complement nA_bar su i st.1).midx_rho_row
      (su.CsubsysA_bar t) = internal.digit su.CdimsA_bar nA_bar i t := by
    intro t ht
    simp only [apply_complement]
    rw [CArr.scatter_of_mem _ _ _ _ inv.injB t ht,
      internal._n2multiidx_eq _ _ _ _ (inv.hDB ▸ hi)]
    simp [ht]
  obtain ⟨h1, _, h3⟩ := apply_coeff_spec rA rstate n nA nA_bar su inv a 0 i hi
    (apply_complement nA_bar su i st.1) hrhoB
  refine ⟨?_, ?_⟩
  · intro u hu
    rw [h1]
    exact hrowA u hu
  · rw [h3, enc_eq_applyRow su n nA nA_bar a i inv ha hi _ hrowA hrowB]

/-- The loops of the ket branch of `apply` store, for every `a` and `i` in turn,
the coefficient sum at the row `applyRow su … a i`. -/
theorem apply_ket_eq {R : Type} [Semiring R] (rA rstate : Mat R) (n nA nA_bar : Nat)
    (su : ApplySetup) (inv : ApplyInv su n nA nA_bar) (sc : ApplyScratch) (result : Mat R) :
    (apply_ket rA rstate n nA nA_bar su sc result).2
      = (List.range su.DA).foldl
          (fun M a => (List.range su.DA_bar).foldl
            (fun M i => M.set (applyRow su n nA nA_bar a i) 0
              (∑ c in Finset.range su.DA,
                rA.data a c * rstate.data (applyRow su n nA nA_bar c i) 0)) M)
          result := by
  have houter := foldl_simulation
    (fun (st : ApplyScratch × Mat R) a =>
      (List.range su.DA_bar).foldl
        (fun (st : ApplyScratch × Mat R) i =>
          ((apply_coeff rA rstate n nA su a 0 (apply_complement nA_bar su i st.1)).1,
            st.2.set
              (internal._multiidx2n (apply_complement nA_bar su i st.1).midx_row n su.Cdims) 0
              (apply_coeff rA rstate n nA su a 0 (apply_complement nA_bar su i st.1)).2))
        (apply_subsys nA su a st.1, st.2))
    (fun (M : Mat R) a => (List.range su.DA_bar).foldl
      (fun M i => M.set (applyRow su n nA nA_bar a i) 0
        (∑ c in Finset.range su.DA,
          rA.data a c * rstate.data (applyRow su n nA nA_bar c i) 0)) M)
    (fun st => st.2) (fun _ => True) (List.range su.DA)
    (by
      intro st a ha _
      have ha2 : a < su.DA := List.mem_range.mp ha
      refine ⟨trivial, ?_⟩
      have hinner := foldl_simulation
        (fun (st : ApplyScratch × Mat R) i =>
          ((apply_coeff rA rstate n nA su a 0 (apply_complement nA_bar su i st.1)).1,
            st.2.set
              (internal._multiidx2n (apply_complement nA_bar su i st.1).midx_row n su.Cdims) 0
              (apply_coeff rA rstate n nA su a 0 (apply_complement nA_bar su i st.1)).2))
        (fun (M : Mat R) i => M.set (applyRow su n nA nA_bar a i) 0
          (∑ c in Finset.range su.DA,
            rA.data a c * rstate.data (applyRow su n nA nA_bar c i) 0))
        (fun st => st.2)
        (fun st => ∀ u, u < nA →
          st.1.midx_row (su.CsubsysA u) = internal.digit su.CdimsA nA a u)
        (List.range su.DA_bar)
        (by
          intro s i hi hI
          exact apply_ket_body_spec rA rstate n nA nA_bar su inv a i ha2 (List.mem_range.mp hi)
            s hI)
        (apply_subsys nA su a st.1, st.2)
        (by
          intro u hu
          simp only [apply_subsys]
          rw [CArr.scatter_of_mem _ _ _ _ inv.injA u hu,
            internal._n2multiidx_eq _ _ _ _ (inv.hDA ▸ ha2)]
          simp [hu])
      exact hinner.2)
    (sc, result) trivial
  exact houter.2

end obsolete

/-! ## Loops of stores at computed positions -/

theorem foldl_set_shape {R ι : Type} (pr pc : ι → Nat) (v : ι → R) (l : List ι) (N : Mat R) :
    (l.foldl (fun M t => M.set (pr t) (pc t) (v t)) N).rows = N.rows ∧
    (l.foldl (fun M t => M.set (pr t) (pc t) (v t)) N).cols = N.cols := by
  induction l generalizing N with
  | nil => exact ⟨rfl, rfl⟩
  | cons t l ih =>
    simp only [List.foldl_cons]
    exact ih (N.set (pr t) (pc t) (v t))

/-- A cell that no store of the loop addresses keeps its entry. -/
theorem foldl_set_untouched {R ι : Type} (pr pc : ι → Nat) (v : ι → R) (l : List ι)
    (N : Mat R) (x y : Nat) (h : ∀ t ∈ l, ¬ (pr t = x ∧ pc t = y)) :
    (l.foldl (fun M t => M.set (pr t) (pc t) (v t)) N).data x y = N.data x y := by
  induction l generalizing N with
  | nil => rfl
  | cons t l ih =>
    simp only [List.foldl_cons]
    rw [ih _ (fun t2 ht2 => h t2 (List.mem_cons_of_mem _ ht2))]
    have := h t (List.mem_cons_self _ _)
    have hne : ¬ (x = pr t ∧ y = pc t) := fun e => this ⟨e.1.symm, e.2.symm⟩
    simp [Mat.set, hne]

/-- A cell addressed by exactly one member of the loop holds what that member
stores. -/
theorem foldl_set_hit {R ι : Type} (pr pc : ι → Nat) (v : ι → R) (l : List ι) (N : Mat R)
    (t : ι) (ht : t ∈ l)
    (huniq : ∀ t2 ∈ l, pr t2 = pr t → pc t2 = pc t → t2 = t) :
    (l.foldl (fun M t => M.set (pr t) (pc t) (v t)) N).data (pr t) (pc t) = v t := by
  induction l generalizing N with
  | nil => simp at ht
  | cons t0 l ih =>
    simp only [List.foldl_cons]
    by_cases hmem : t ∈ l
    · exact ih _ hmem (fun t2 ht2 => huniq t2 (List.mem_cons_of_mem _ ht2))
    · have ht0 : t = t0 := by
        rcases List.mem_cons.mp ht with h | h
        · exact h
        · exact absurd h hmem
      subst ht0
      rw [foldl_set_untouched pr pc v l _ _ _ (fun t2 ht2 he =>
        hmem (huniq t2 (List.mem_cons_of_mem _ ht2) he.1 he.2 ▸ ht2))]
      simp [Mat.set]

/-- A doubly nested loop is one loop over the pairs, row by row. -/
theorem foldl_nested {α β σ : Type} (g : σ → α → β → σ) (l1 : List α) (l2 : List β) (s : σ) :
    l1.foldl (fun s a => l2.foldl (fun s b => g s a b) s) s
      = (l1 ×ˢ l2).foldl (fun s p => g s p.1 p.2) s := by
  induction l1 generalizing s with
  | nil => rfl
  | cons a l1 ih =>
    rw [List.foldl_cons, List.product_cons, List.foldl_append, List.foldl_map, ih]

/-! ## The setup loops of `apply` -/

namespace obsolete

theorem apply_loop1_fold (subsys dims : List Nat) (j : Nat) :
    let st := (List.range j).foldl
      (fun (st : ApplyLoop1) k =>
        let st1 : ApplyLoop1 :=
          { st with
            midx_row := st.midx_row.write k 0
            midx_rho_row := st.midx_rho_row.write k 0
            Cdims := st.Cdims.write k (dims.getD k 0)
            D := st.D * dims.getD k 0 }
        if !subsys.contains k then
          { st1 with
            CsubsysA_bar := st1.CsubsysA_bar.write st1.cnt k
            CdimsA_bar := st1.CdimsA_bar.write st1.cnt (dims.getD k 0)
            midxA_bar_row := st1.midxA_bar_row.write st1.cnt 0
            DA_bar := st1.DA_bar * dims.getD k 0
            cnt := st1.cnt + 1 }
        else st1)
      { Cdims := fun _ => 0, CdimsA_bar := fun _ => 0, CsubsysA_bar := fun _ => 0,
        D := 1, DA_bar := 1, cnt := 0,
        midx_row := fun _ => 0, midx_rho_row := fun _ => 0, midxA_bar_row := fun _ => 0 }
    (∀ l, l < j → st.Cdims l = toCArr dims l) ∧
    st.D = subDim dims (List.range j) ∧
    st.cnt = (complLabels subsys j).length ∧
    (∀ t, t < (complLabels subsys j).length →
      st.CsubsysA_bar t = toCArr (complLabels subsys j) t) ∧
    (∀ t, t < (complLabels subsys j).length →
      st.CdimsA_bar t = toCArr dims (toCArr (complLabels subsys j) t)) ∧
    st.DA_bar = subDim dims (complLabels subsys j) := by
  induction j with
  | zero => simp [complLabels, subDim]
  | succ j ih =>
    obtain ⟨h1, h2, h3, h4, h5, h6⟩ := ih
    rw [List.range_succ, List.foldl_append]
    simp only [List.foldl_cons, List.foldl_nil]
    generalize List.foldl
      (fun (st : ApplyLoop1) k =>
        let st1 : ApplyLoop1 :=
          { st with
            midx_row := st.midx_row.write k 0
            midx_rho_row := st.midx_rho_row.write k 0
            Cdims := st.Cdims.write k (dims.getD k 0)
            D := st.D * dims.getD k 0 }
        if !subsys.contains k then
          { st1 with
            CsubsysA_bar := st1.CsubsysA_bar.write st1.cnt k
            CdimsA_bar := st1.CdimsA_bar.write st1.cnt (dims.getD k 0)
            midxA_bar_row := st1.midxA_bar_row.write st1.cnt 0
            DA_bar := st1.DA_bar * dims.getD k 0
            cnt := st1.cnt + 1 }
        else st1)
      { Cdims := fun _ => 0, CdimsA_bar := fun _ => 0, CsubsysA_bar := fun _ => 0,
        D := 1, DA_bar := 1, cnt := 0,
        midx_row := fun _ => 0, midx_rho_row := fun _ => 0, midxA_bar_row := fun _ => 0 }
      (List.range j) = st at h1 h2 h3 h4 h5 h6 ⊢
    have hCd : ∀ l, l < j + 1 → st.Cdims.write j (dims.getD j 0) l = toCArr dims l := by
      intro l hl
      by_cases hlj : l = j
      · subst hlj; simp [CArr.write, toCArr]
      · simp only [CArr.write, hlj, if_false]
        exact h1 l (by omega)
    have hD : st.D * dims.getD j 0 = subDim dims (List.range j ++ [j]) := by
      rw [h2]; simp [subDim]
    by_cases hmem0 : j ∈ subsys
    · have hmem : subsys.contains j = true := by simpa using hmem0
      have eC : complLabels subsys (j + 1) = complLabels subsys j := by
        simp [complLabels, List.range_succ, List.filter_append, hmem0]
      simp only [hmem, Bool.not_true, Bool.false_eq_true, if_false, eC]
      exact ⟨hCd, hD, h3, h4, h5, h6⟩
    · have hmem : subsys.contains j = false := by simpa using hmem0
      have eC : complLabels subsys (j + 1) = complLabels subsys j ++ [j] := by
        simp [complLabels, List.range_succ, List.filter_append, hmem0]
      simp only [hmem, Bool.not_false, if_true, eC, List.length_append, List.length_singleton]
      refine ⟨hCd, hD, by rw [h3], ?_, ?_, ?_⟩
      · intro t ht
        by_cases htc : t = (complLabels subsys j).length
        · subst htc
          simp [CArr.write, h3, toCArr, List.getD_eq_getElem?_getD]
        · have ht2 : t < (complLabels subsys j).length := by omega
          simp only [CArr.write, h3, htc, if_false]
          rw [h4 t ht2, toCArr_append_left _ _ t ht2]
      · intro t ht
        by_cases htc : t = (complLabels subsys j).length
        · subst htc
          simp [CArr.write, h3, toCArr, List.getD_eq_getElem?_getD]
        · have ht2 : t < (complLabels subsys j).length := by omega
          simp only [CArr.write, h3, htc, if_false]
          rw [h5 t ht2, toCArr_append_left _ _ t ht2]
      · rw [h6]; simp [subDim]

theorem apply_loop2_fold (subsys dims : List Nat) (j : Nat) :
    let st := (List.range j).foldl
      (fun (st : ApplyLoop2) k =>
        { midxA_row := st.midxA_row.write k 0
          midxA_rho_row := st.midxA_rho_row.write k 0
          CdimsA := st.CdimsA.write k (dims.getD (subsys.getD k 0) 0)
          CsubsysA := st.CsubsysA.write k (subsys.getD k 0)
          DA := st.DA * dims.getD (subsys.getD k 0) 0 })
      { CdimsA := fun _ => 0, CsubsysA := fun _ => 0, DA := 1,
        midxA_row := fun _ => 0, midxA_rho_row := fun _ => 0 }
    (∀ t, t < j → st.CdimsA t = toCArr dims (toCArr subsys t)) ∧
    (∀ t, t < j → st.CsubsysA t = toCArr subsys t) ∧
    st.DA = ((List.range j).map (fun t => toCArr dims (toCArr subsys t))).prod := by
  induction j with
  | zero => simp
  | succ j ih =>
    obtain ⟨h1, h2, h3⟩ := ih
    rw [List.range_succ, List.foldl_append]
    simp only [List.foldl_cons, List.foldl_nil]
    generalize List.foldl
      (fun (st : ApplyLoop2) k =>
        { midxA_row := st.midxA_row.write k 0
          midxA_rho_row := st.midxA_rho_row.write k 0
          CdimsA := st.CdimsA.write k (dims.getD (subsys.getD k 0) 0)
          CsubsysA := st.CsubsysA.write k (subsys.getD k 0)
          DA := st.DA * dims.getD (subsys.getD k 0) 0 })
      { CdimsA := fun _ => 0, CsubsysA := fun _ => 0, DA := 1,
        midxA_row := fun _ => 0, midxA_rho_row := fun _ => 0 }
      (List.range j) = st at h1 h2 h3 ⊢
    refine ⟨?_, ?_, ?_⟩
    · intro t ht
      by_cases htj : t = j
      · subst htj; simp [CArr.write, toCArr]
      · simp only [CArr.write, htj, if_false]
        exact h1 t (by omega)
    · intro t ht
      by_cases htj : t = j
      · subst htj; simp [CArr.write, toCArr]
      · simp only [CArr.write, htj, if_false]
        exact h2 t (by omega)
    · rw [h3]; simp [toCArr]

end obsolete

namespace obsolete

theorem compl_length (subsys : List Nat) (n : Nat) (h1 : ∀ l ∈ subsys, l < n)
    (h2 : subsys.Nodup) : (complLabels subsys n).length = n - subsys.length := by
  have hS : (sortedLabels subsys n).length = subsys.length :=
    (sortedLabels_perm subsys n h1 h2).length_eq
  have htot : (complLabels subsys n).length + (sortedLabels subsys n).length = n := by
    have := (compl_append_sorted_perm subsys n).length_eq
    simpa using this
  omega

theorem compl_append_perm (subsys : List Nat) (n : Nat) (h1 : ∀ l ∈ subsys, l < n)
    (h2 : subsys.Nodup) : (complLabels subsys n ++ subsys).Perm (List.range n) :=
  (List.Perm.append_left _ (sortedLabels_perm subsys n h1 h2).symm).trans
    (compl_append_sorted_perm subsys n)

/-- The values that the setup loops of `apply` compute. -/
theorem apply_setup_spec (subsys dims : List Nat) (hpos : ∀ d ∈ dims, 1 ≤ d)
    (hsub : ∀ l ∈ subsys, l < dims.length) (hnd : subsys.Nodup) :
    ApplyInv (apply_setup subsys dims).1 dims.length subsys.length
      (dims.length - subsys.length) ∧
    (apply_setup subsys dims).1.D = dims.prod ∧
    (apply_setup subsys dims).1.DA = subDim dims subsys ∧
    (apply_setup subsys dims).1.DA_bar = subDim dims (complLabels subsys dims.length) ∧
    (∀ l, l < dims.length → (apply_setup subsys dims).1.Cdims l = toCArr dims l) ∧
    (∀ t, t < subsys.length → (apply_setup subsys dims).1.CsubsysA t = toCArr subsys t) ∧
    (∀ t, t < subsys.length →
      (apply_setup subsys dims).1.CdimsA t = toCArr dims (toCArr subsys t)) ∧
    (∀ t, t < (complLabels subsys dims.length).length →
      (apply_setup subsys dims).1.CsubsysA_bar t
        = toCArr (complLabels subsys dims.length) t) ∧
    (∀ t, t < (complLabels subsys dims.length).length →
      (apply_setup subsys dims).1.CdimsA_bar t
        = toCArr dims (toCArr (complLabels subsys dims.length) t)) := by
  obtain ⟨a1, a2, _, a4, a5, a6⟩ := apply_loop1_fold subsys dims dims.length
  obtain ⟨b1, b2, b3⟩ := apply_loop2_fold subsys dims subsys.length
  have hlenC := compl_length subsys dims.length hsub hnd
  have hperm := compl_append_perm subsys dims.length hsub hnd
  have hndCS : (complLabels subsys dims.length ++ subsys).Nodup :=
    hperm.nodup_iff.mpr (List.nodup_range _)
  obtain ⟨hndC, _, hdisj⟩ := List.nodup_append.mp hndCS
  have hltC : ∀ l ∈ complLabels subsys dims.length, l < dims.length :=
    fun l hl => List.mem_range.mp (List.mem_filter.mp hl).1
  have hDA : (apply_setup subsys dims).1.DA = subDim dims subsys := by
    show (apply_loop2 subsys dims).DA = _
    unfold apply_loop2
    rw [b3, subDim]
    exact congrArg List.prod (map_range_comp_getD (fun l => dims.getD l 0) subsys)
  have hD : (apply_setup subsys dims).1.D = dims.prod := by
    show (apply_loop1 subsys dims).D = _
    unfold apply_loop1
    rw [a2, subDim_range]
  refine ⟨?_, hD, hDA, a6, a1, b2, b1, a4, a5⟩
  have hcov := covers_of_perm _ _ _ hperm
  constructor
  · intro t ht
    show (apply_loop2 subsys dims).CsubsysA t < _
    unfold apply_loop2
    rw [b2 t ht]
    exact toCArr_lt_of_mem subsys _ hsub t ht
  · intro t ht
    show (apply_loop1 subsys dims).CsubsysA_bar t < _
    unfold apply_loop1
    rw [a4 t (by omega)]
    exact toCArr_lt_of_mem _ _ hltC t (by omega)
  · intro t u ht hu he
    have : (apply_loop2 subsys dims).CsubsysA t = (apply_loop2 subsys dims).CsubsysA u := he
    unfold apply_loop2 at this
    rw [b2 t ht, b2 u hu] at this
    exact toCArr_inj_of_nodup subsys hnd t u ht hu this
  · intro t u ht hu he
    have : (apply_loop1 subsys dims).CsubsysA_bar t = (apply_loop1 subsys dims).CsubsysA_bar u :=
      he
    unfold apply_loop1 at this
    rw [a4 t (by omega), a4 u (by omega)] at this
    exact toCArr_inj_of_nodup _ hndC t u (by omega) (by omega) this
  · intro t u ht hu he
    have : (apply_loop1 subsys dims).CsubsysA_bar t = (apply_loop2 subsys dims).CsubsysA u := he
    unfold apply_loop1 apply_loop2 at this
    rw [a4 t (by omega), b2 u hu] at this
    exact hdisj (toCArr_mem _ t (by omega)) (by rw [this]; exact toCArr_mem subsys u hu)
  · intro l hl
    rcases hcov l hl with ⟨t, ht, he⟩ | ⟨t, ht, he⟩
    · refine Or.inl ⟨t, by omega, ?_⟩
      show (apply_loop1 subsys dims).CsubsysA_bar t = l
      unfold apply_loop1
      rw [a4 t ht, he]
    · refine Or.inr ⟨t, ht, ?_⟩
      show (apply_loop2 subsys dims).CsubsysA t = l
      unfold apply_loop2
      rw [b2 t ht, he]
  · intro t ht
    show (apply_loop2 subsys dims).CdimsA t
      = (apply_loop1 subsys dims).Cdims ((apply_loop2 subsys dims).CsubsysA t)
    unfold apply_loop1 apply_loop2
    rw [b1 t ht, b2 t ht, a1 _ (toCArr_lt_of_mem subsys _ hsub t ht)]
  · intro t ht
    show (apply_loop1 subsys dims).CdimsA_bar t
      = (apply_loop1 subsys dims).Cdims ((apply_loop1 subsys dims).CsubsysA_bar t)
    unfold apply_loop1
    rw [a5 t (by omega), a4 t (by omega), a1 _ (toCArr_lt_of_mem _ _ hltC t (by omega))]
  · intro l hl
    show 1 ≤ (apply_loop1 subsys dims).Cdims l
    unfold apply_loop1
    rw [a1 l hl]
    exact toCArr_pos dims hpos l hl
  · rw [hDA, subDim_eq_suffix_prod]
    apply internal._suffix_prod_congr
    intro t ht
    show _ = (apply_loop2 subsys dims).CdimsA t
    unfold apply_loop2
    rw [b1 t ht]
  · rw [show (apply_setup subsys dims).1.DA_bar = (apply_loop1 subsys dims).DA_bar from rfl]
    unfold apply_loop1
    rw [a6, subDim_eq_suffix_prod, hlenC]
    apply internal._suffix_prod_congr
    intro t ht
    show _ = (apply_loop1 subsys dims).CdimsA_bar t
    unfold apply_loop1
    rw [a5 t (by omega)]
  · rw [hD, ← internal._suffix_prod_toCArr]
    apply internal._suffix_prod_congr
    intro l hl
    show _ = (apply_loop1 subsys dims).Cdims l
    unfold apply_loop1
    rw [a1 l hl]

end obsolete

/-- A doubly nested loop of stores into column `col` at pairwise distinct rows
`pos a i`: the shape is unchanged and row `pos a i` ends up holding `val a i`. -/
theorem foldl_set_scatter_prod {R : Type} (l1 l2 : List Nat) (pos : Nat → Nat → Nat)
    (val : Nat → Nat → R) (M : Mat R) (col : Nat)
    (hinj : ∀ a i a2 i2, a ∈ l1 → i ∈ l2 → a2 ∈ l1 → i2 ∈ l2 → pos a i = pos a2 i2 →
      a = a2 ∧ i = i2) :
    (l1.foldl (fun M a => l2.foldl (fun M i => M.set (pos a i) col (val a i)) M) M).rows
      = M.rows ∧
    (l1.foldl (fun M a => l2.foldl (fun M i => M.set (pos a i) col (val a i)) M) M).cols
      = M.cols ∧
    ∀ a i, a ∈ l1 → i ∈ l2 →
      (l1.foldl (fun M a => l2.foldl (fun M i => M.set (pos a i) col (val a i)) M) M).data
        (pos a i) col = val a i := by
  rw [foldl_nested (fun M a i => M.set (pos a i) col (val a i)) l1 l2 M]
  have hsh := foldl_set_shape (fun p : Nat × Nat => pos p.1 p.2) (fun _ => col)
    (fun p => val p.1 p.2) (l1 ×ˢ l2) M
  refine ⟨hsh.1, hsh.2, ?_⟩
  intro a i ha hi
  exact foldl_set_hit (fun p : Nat × Nat => pos p.1 p.2) (fun _ => col)
    (fun p => val p.1 p.2) (l1 ×ˢ l2) M (a, i) (List.mem_product.mpr ⟨ha, hi⟩)
    (fun p hp he _ => by
      obtain ⟨h1, h2⟩ := List.mem_product.mp hp
      obtain ⟨e1, e2⟩ := hinj p.1 p.2 a i h1 h2 ha hi he
      exact Prod.ext e1 e2)

namespace obsolete

/-- The row that `apply` addresses for `(a, i)` is the row with complement part
`i` and subsystem part `a`. -/
theorem applyRow_eq_fullIndex (subsys dims : List Nat) (hpos : ∀ d ∈ dims, 1 ≤ d)
    (hsub : ∀ l ∈ subsys, l < dims.length) (hnd : subsys.Nodup) (a i : Nat)
    (ha : a < subDim dims subsys) (hi : i < subDim dims (complLabels subsys dims.length)) :
    applyRow (apply_setup subsys dims).1 dims.length subsys.length
      (dims.length - subsys.length) a i
      = fullIndex dims (complLabels subsys dims.length) subsys i a := by
  obtain ⟨inv, _, hDA, hDB, c1, c2, c3, c4, c5⟩ := apply_setup_spec subsys dims hpos hsub hnd
  generalize (apply_setup subsys dims).1 = su at inv hDA hDB c1 c2 c3 c4 c5 ⊢
  have hlenC := compl_length subsys dims.length hsub hnd
  have hperm := compl_append_perm subsys dims.length hsub hnd
  have hndCS : (complLabels subsys dims.length ++ subsys).Nodup :=
    hperm.nodup_iff.mpr (List.nodup_range _)
  obtain ⟨hndC, _, hdisj⟩ := List.nodup_append.mp hndCS
  have ha2 := ha
  have hi2 := hi
  rw [subDim_eq_suffix_prod] at ha2 hi2
  symm
  unfold fullIndex
  simp only
  rw [internal._multiidx2n_congr _ _ (toCArr dims) su.Cdims dims.length (fun _ _ => rfl)
    (fun l hl => (c1 l hl).symm)]
  apply enc_eq_applyRow su _ _ _ a i inv (hDA ▸ ha) (hDB ▸ hi)
  · intro u hu
    rw [c2 u hu, CArr.scatter_of_mem _ _ _ _ (toCArr_inj_of_nodup subsys hnd) u hu,
      internal._n2multiidx_eq _ _ _ _ ha2]
    simp only [hu, if_true]
    exact digit_congr _ _ _ _ _ (fun t ht => (c3 t ht).symm) hu
  · intro t ht
    have ht2 : t < (complLabels subsys dims.length).length := by omega
    rw [c4 t ht2, CArr.scatter_of_not_mem _ _ _ _ _ (fun u hu he =>
        hdisj (toCArr_mem _ t ht2) (by rw [← he]; exact toCArr_mem subsys u hu)),
      CArr.scatter_of_mem _ _ _ _ (toCArr_inj_of_nodup _ hndC) t ht2,
      internal._n2multiidx_eq _ _ _ _ hi2]
    simp only [ht2, if_true]
    rw [← hlenC]
    exact digit_congr _ _ _ _ _ (fun t ht => (c5 t ht).symm) ht2

end obsolete

/-- C10: local operator on a ket.  For every column vector `state` of length
`D = prod(dims)`, valid `dims` and `subsys`, and square `A` of size
`DA = prod dims[subsys[k]]`, `apply` succeeds and returns a `D x 1` vector whose
entry at the row with subsystem part `a` (decoded over the dimensions of `subsys`
in listed order) and complement part `i` is `Σ_{c < DA} A(a, c) * state(row with
complement part i and subsystem part c)`; every row `x < D` is such a row, for
exactly the parts of `x`. -/
theorem apply_ket_formula {R : Type} [Semiring R] (state A : Mat R) (subsys dims : List Nat)
    (hne : dims ≠ []) (hpos : ∀ d ∈ dims, 1 ≤ d)
    (hsub : ∀ l ∈ subsys, l < dims.length) (hnd : subsys.Nodup)
    (hsr : state.rows = dims.prod) (hsc : state.cols = 1)
    (hAr : A.rows = subDim dims subsys) (hAc : A.cols = subDim dims subsys) :
    ∃ res, obsolete.apply state A subsys dims = .ok res ∧
      res.rows = dims.prod ∧ res.cols = 1 ∧
      (∀ a i, a < subDim dims subsys → i < subDim dims (complLabels subsys dims.length) →
        res.data (fullIndex dims (complLabels subsys dims.length) subsys i a) 0
          = ∑ c in Finset.range (subDim dims subsys),
              A.data a c *
                state.data (fullIndex dims (complLabels subsys dims.length) subsys i c) 0) ∧
      (∀ x, x < dims.prod →
        subIdx (toCArr dims) (toCArr subsys) subsys.length dims.length x < subDim dims subsys ∧
        subIdx (toCArr dims) (toCArr (complLabels subsys dims.length))
          (complLabels subsys dims.length).length dims.length x
          < subDim dims (complLabels subsys dims.length) ∧
        fullIndex dims (complLabels subsys dims.length) subsys
          (subIdx (toCArr dims) (toCArr (complLabels subsys dims.length))
            (complLabels subsys dims.length).length dims.length x)
          (subIdx (toCArr dims) (toCArr subsys) subsys.length dims.length x) = x) := by
  obtain ⟨inv, hD, hDA, hDB, _⟩ := obsolete.apply_setup_spec subsys dims hpos hsub hnd
  have hS := subDim_pos dims subsys hpos hsub
  have hperm := obsolete.compl_append_perm subsys dims.length hsub hnd
  have hP : 0 < dims.prod := List.prod_pos (fun d hd => hpos d hd)
  have hlt : ∀ l ∈ complLabels subsys dims.length, l < dims.length :=
    fun l hl => List.mem_range.mp (List.mem_filter.mp hl).1
  have h1 := toCArr_lt_of_mem (complLabels subsys dims.length) dims.length hlt
  have h2 := toCArr_lt_of_mem subsys dims.length hsub
  have hfull : ∀ a i, a < subDim dims subsys →
      i < subDim dims (complLabels subsys dims.length) →
      applyRow (obsolete.apply_setup subsys dims).1 dims.length subsys.length
        (dims.length - subsys.length) a i
        = fullIndex dims (complLabels subsys dims.length) subsys i a :=
    fun a i ha hi => obsolete.applyRow_eq_fullIndex subsys dims hpos hsub hnd a i ha hi
  have hS0 : subDim dims subsys ≠ 0 := by omega
  have hP0 : dims.prod ≠ 0 := by omega
  have c1 : internal._check_nonzero_size A = true := by
    simp [internal._check_nonzero_size, hAr, hAc, hS0]
  have c2 : internal._check_nonzero_size state = true := by
    simp [internal._check_nonzero_size, hsr, hsc, hP0]
  have c3 : internal._check_square_mat A = true := by
    rw [_check_square_mat_iff, hAr, hAc]
  have c4 := (_check_dims_iff dims).mpr ⟨hne, hpos⟩
  have c5 : internal._check_subsys_match_dims subsys dims = true :=
    (_check_subsys_iff subsys dims).mpr ⟨hsub, hnd⟩
  have c6 : (A.rows != (obsolete.apply_setup subsys dims).1.DA) = false := by
    rw [hDA, hAr]; simp
  have c7 : internal._check_col_vector state = true := by
    simp [internal._check_col_vector, hsc]
  have c8 : internal._check_dims_match_cvect dims state = true := by
    simp [internal._check_dims_match_cvect, hsr]
  have hspec := foldl_set_scatter_prod
    (List.range (obsolete.apply_setup subsys dims).1.DA)
    (List.range (obsolete.apply_setup subsys dims).1.DA_bar)
    (fun a i => applyRow (obsolete.apply_setup subsys dims).1 dims.length subsys.length
      (dims.length - subsys.length) a i)
    (fun a i => ∑ c in Finset.range (obsolete.apply_setup subsys dims).1.DA,
      A.data a c * state.data
        (applyRow (obsolete.apply_setup subsys dims).1 dims.length subsys.length
          (dims.length - subsys.length) c i) 0)
    (Mat.Zero (obsolete.apply_setup subsys dims).1.D 1) 0
    (by
      intro a i a2 i2 ha hi ha2 hi2 he
      rw [List.mem_range, hDA] at ha ha2
      rw [List.mem_range, hDB] at hi hi2
      simp only [hfull a i ha hi, hfull a2 i2 ha2 hi2] at he
      obtain ⟨_, e1, e2⟩ := fullIndex_spec dims _ _ hpos hperm i a hi ha
      obtain ⟨_, e3, e4⟩ := fullIndex_spec dims _ _ hpos hperm i2 a2 hi2 ha2
      rw [he] at e1 e2
      exact ⟨e2.symm.trans e4, e1.symm.trans e3⟩)
  have happly : obsolete.apply state A subsys dims = .ok
      ((List.range (obsolete.apply_setup subsys dims).1.DA).foldl
        (fun M a => (List.range (obsolete.apply_setup subsys dims).1.DA_bar).foldl
          (fun M i => M.set
            (applyRow (obsolete.apply_setup subsys dims).1 dims.length subsys.length
              (dims.length - subsys.length) a i) 0
            (∑ c in Finset.range (obsolete.apply_setup subsys dims).1.DA,
              A.data a c * state.data
                (applyRow (obsolete.apply_setup subsys dims).1 dims.length subsys.length
                  (dims.length - subsys.length) c i) 0)) M)
        (Mat.Zero (obsolete.apply_setup subsys dims).1.D 1)) := by
    unfold obsolete.apply
    simp only [c1, c2, c3, c4, c5, c6, c7, c8, Bool.not_true, Bool.false_eq_true, if_false,
      if_true]
    rw [obsolete.apply_ket_eq _ _ _ _ _ _ inv]
  refine ⟨_, happly, ?_, ?_, ?_, ?_⟩
  · rw [hspec.1]; exact hD
  · rw [hspec.2.1]; rfl
  · intro a i ha hi
    have := hspec.2.2 a i (by rw [List.mem_range, hDA]; exact ha)
      (by rw [List.mem_range, hDB]; exact hi)
    simp only [hfull a i ha hi] at this
    rw [this, hDA]
    apply Finset.sum_congr rfl
    intro c hc
    rw [hfull c i (Finset.mem_range.mp hc) hi]
  · intro x hx
    have hx2 : x < internal._suffix_prod (toCArr dims) dims.length 0 := by
      rw [internal._suffix_prod_toCArr]; exact hx
    have s1 := (subIdx_spec (toCArr dims) (toCArr subsys) subsys.length dims.length x h2 hx2).1
    have s2 := (subIdx_spec (toCArr dims) (toCArr (complLabels subsys dims.length))
      (complLabels subsys dims.length).length dims.length x h1 hx2).1
    rw [← subDim_eq_suffix_prod] at s1 s2
    refine ⟨s1, s2, ?_⟩
    obtain ⟨e0, e1, e2⟩ := fullIndex_spec dims _ _ hpos hperm _ _ s2 s1
    exact eq_of_subIdx_eq (toCArr dims) (toCArr (complLabels subsys dims.length)) (toCArr subsys)
      _ _ dims.length _ _ h1 h2 (covers_of_perm _ _ _ hperm)
      (by rw [internal._suffix_prod_toCArr]; exact e0) hx2 e1 e2

theorem apply_ket_formula_witness :
    ∃ res, obsolete.apply (demoVec 8) (demoMat 2) [1] [2, 2, 2] = .ok res ∧
      res.rows = [2, 2, 2].prod ∧ res.cols = 1 ∧
      (∀ a i, a < subDim [2, 2, 2] [1] →
        i < subDim [2, 2, 2] (complLabels [1] [2, 2, 2].length) →
        res.data (fullIndex [2, 2, 2] (complLabels [1] [2, 2, 2].length) [1] i a) 0
          = ∑ c in Finset.range (subDim [2, 2, 2] [1]),
              (demoMat 2).data a c *
                (demoVec 8).data
                  (fullIndex [2, 2, 2] (complLabels [1] [2, 2, 2].length) [1] i c) 0) ∧
      (∀ x, x < [2, 2, 2].prod →
        subIdx (toCArr [2, 2, 2]) (toCArr [1]) [1].length [2, 2, 2].length x
          < subDim [2, 2, 2] [1] ∧
        subIdx (toCArr [2, 2, 2]) (toCArr (complLabels [1] [2, 2, 2].length))
          (complLabels [1] [2, 2, 2].length).length [2, 2, 2].length x
          < subDim [2, 2, 2] (complLabels [1] [2, 2, 2].length) ∧
        fullIndex [2, 2, 2] (complLabels [1] [2, 2, 2].length) [1]
          (subIdx (toCArr [2, 2, 2]) (toCArr (complLabels [1] [2, 2, 2].length))
            (complLabels [1] [2, 2, 2].length).length [2, 2, 2].length x)
          (subIdx (toCArr [2, 2, 2]) (toCArr [1]) [1].length [2, 2, 2].length x) = x) :=
  apply_ket_formula (demoVec 8) (demoMat 2) [1] [2, 2, 2] (by decide) (by decide) (by decide)
    (by decide) (by decide) (by decide) (by decide) (by decide)

/-! ## Labels of a reduced system -/

theorem contains_eq_true_iff (l : List Nat) (a : Nat) : l.contains a = true ↔ a ∈ l := by
  simp

theorem contains_eq_false_iff (l : List Nat) (a : Nat) : l.contains a = false ↔ a ∉ l := by
  simp

theorem mem_complLabels (S : List Nat) (n l : Nat) :
    l ∈ complLabels S n ↔ l < n ∧ l ∉ S := by
  simp [complLabels]

theorem mem_sortedLabels (S : List Nat) (n l : Nat) :
    l ∈ sortedLabels S n ↔ l < n ∧ l ∈ S := by
  simp [sortedLabels]

theorem nodup_complLabels (S : List Nat) (n : Nat) : (complLabels S n).Nodup :=
  (List.nodup_range n).filter _

theorem nodup_sortedLabels (S : List Nat) (n : Nat) : (sortedLabels S n).Nodup :=
  (List.nodup_range n).filter _

theorem getD_append_left (l : List Nat) (a p : Nat) (hp : p < l.length) :
    (l ++ [a]).getD p 0 = l.getD p 0 := by
  simp [List.getD_eq_getElem?_getD, List.getElem?_append_left hp]

/-- Filtering a list by value is filtering its positions and reading them back. -/
theorem filter_eq_map_filter_range (q : Nat → Bool) (l : List Nat) :
    l.filter q
      = ((List.range l.length).filter (fun p => q (l.getD p 0))).map (fun p => l.getD p 0) := by
  induction l using List.reverseRecOn with
  | nil => simp
  | append_singleton l a ih =>
    rw [List.filter_append, List.length_append, List.length_singleton, List.range_succ,
      List.filter_append, List.map_append, ih]
    congr 1
    · have h1 : (List.range l.length).filter (fun p => q ((l ++ [a]).getD p 0))
          = (List.range l.length).filter (fun p => q (l.getD p 0)) := by
        apply List.filter_congr
        intro p hp
        rw [getD_append_left l a p (List.mem_range.mp hp)]
      rw [h1]
      apply List.map_congr_left
      intro p hp
      rw [getD_append_left l a p (List.mem_range.mp (List.mem_filter.mp hp).1)]
    · have h2 : (l ++ [a]).getD l.length 0 = a := by
        simp [List.getD_eq_getElem?_getD]
      by_cases hq : q a = true
      · simp [List.filter_cons, h2, hq]
      · simp [List.filter_cons, h2, hq]

theorem getD_indexOf (C : List Nat) (l : Nat) (hl : l ∈ C) : C.getD (C.indexOf l) 0 = l := by
  have h := List.indexOf_lt_length.mpr hl
  simp [List.getD_eq_getElem?_getD, List.getElem?_eq_getElem h, List.getElem_indexOf h]

theorem indexOf_getD (C : List Nat) (hC : C.Nodup) (p : Nat) (hp : p < C.length) :
    C.indexOf (C.getD p 0) = p := by
  have : C.getD p 0 = C[p] := by simp [List.getD_eq_getElem?_getD, hp]
  rw [this]
  exact List.indexOf_getElem hC p hp

/-- Membership in the renumbered list, for a position of the reduced system. -/
theorem mem_renumber_iff (S1 S2 : List Nat) (n : Nat) (hS2 : ∀ l ∈ S2, l < n)
    (hdisj : ∀ l ∈ S2, l ∉ S1) (p : Nat) (hp : p < (complLabels S1 n).length) :
    p ∈ renumber S1 n S2 ↔ (complLabels S1 n).getD p 0 ∈ S2 := by
  unfold renumber
  rw [List.mem_map]
  constructor
  · rintro ⟨l, hl, rfl⟩
    rw [getD_indexOf _ l ((mem_complLabels S1 n l).mpr ⟨hS2 l hl, hdisj l hl⟩)]
    exact hl
  · intro h
    exact ⟨_, h, indexOf_getD _ (nodup_complLabels S1 n) p hp⟩

theorem renumber_valid (S1 S2 : List Nat) (n : Nat) (hS2 : ∀ l ∈ S2, l < n)
    (hnd : S2.Nodup) (hdisj : ∀ l ∈ S2, l ∉ S1) :
    (∀ p ∈ renumber S1 n S2, p < (complLabels S1 n).length) ∧ (renumber S1 n S2).Nodup := by
  have hmem : ∀ l ∈ S2, l ∈ complLabels S1 n :=
    fun l hl => (mem_complLabels S1 n l).mpr ⟨hS2 l hl, hdisj l hl⟩
  refine ⟨?_, ?_⟩
  · intro p hp
    obtain ⟨l, hl, rfl⟩ := List.mem_map.mp hp
    exact List.indexOf_lt_length.mpr (hmem l hl)
  · unfold renumber
    apply List.Nodup.map_on _ hnd
    intro x hx y hy he
    exact (List.indexOf_inj (hmem x hx) (hmem y hy)).mp he

/-- The complement of the union is the complement, within the reduced system, of
the renumbered second set, read back through the first complement. -/
theorem complLabels_union (S1 S2 U : List Nat) (n : Nat) (hS2 : ∀ l ∈ S2, l < n)
    (hdisj : ∀ l ∈ S2, l ∉ S1) (hU : U.Perm (S1 ++ S2)) :
    complLabels U n
      = (complLabels (renumber S1 n S2) (complLabels S1 n).length).map
          (fun p => (complLabels S1 n).getD p 0) := by
  have h1 : complLabels U n = (complLabels S1 n).filter (fun l => !S2.contains l) := by
    unfold complLabels
    rw [List.filter_filter]
    apply List.filter_congr
    intro l _
    have : l ∈ U ↔ l ∈ S1 ∨ l ∈ S2 := by rw [hU.mem_iff, List.mem_append]
    by_cases a1 : l ∈ S1 <;> by_cases a2 : l ∈ S2 <;> simp [this, a1, a2]
  rw [h1, filter_eq_map_filter_range]
  congr 1
  rw [show complLabels (renumber S1 n S2) (complLabels S1 n).length
    = (List.range (complLabels S1 n).length).filter
        (fun l => !(renumber S1 n S2).contains l) from rfl]
  apply List.filter_congr
  intro p hp
  have := mem_renumber_iff S1 S2 n hS2 hdisj p (List.mem_range.mp hp)
  by_cases a : p ∈ renumber S1 n S2
  · rw [(contains_eq_true_iff _ _).mpr a, (contains_eq_true_iff _ _).mpr (this.mp a)]
  · rw [(contains_eq_false_iff _ _).mpr a,
      (contains_eq_false_iff _ _).mpr (fun h => a (this.mpr h))]

theorem reducedDims_getD (dims S : List Nat) (p : Nat) (hp : p < (complLabels S dims.length).length) :
    (reducedDims dims S).getD p 0 = dims.getD ((complLabels S dims.length).getD p 0) 0 := by
  simp [reducedDims, List.getD_eq_getElem?_getD, List.getElem?_map, List.getElem?_eq_getElem hp]

theorem subDim_renumber (dims S1 S2 : List Nat) (hS2 : ∀ l ∈ S2, l < dims.length)
    (hdisj : ∀ l ∈ S2, l ∉ S1) :
    subDim (reducedDims dims S1) (renumber S1 dims.length S2) = subDim dims S2 := by
  unfold subDim renumber
  rw [List.map_map]
  congr 1
  apply List.map_congr_left
  intro l hl
  have hmem := (mem_complLabels S1 dims.length l).mpr ⟨hS2 l hl, hdisj l hl⟩
  simp only [Function.comp]
  rw [reducedDims_getD dims S1 _ (List.indexOf_lt_length.mpr hmem), getD_indexOf _ l hmem]

/-! ## Tracing out in two steps: indices -/

theorem subIdx_congr (cdims cdims2 lab lab2 : CArr) (cnt n x : Nat)
    (hd : ∀ l, l < n → cdims l = cdims2 l) (hl : ∀ t, t < cnt → lab t = lab2 t)
    (hlt : ∀ t, t < cnt → lab t < n) :
    subIdx cdims lab cnt n x = subIdx cdims2 lab2 cnt n x := by
  unfold subIdx
  apply internal._multiidx2n_congr
  · intro t ht
    rw [← hl t ht]
    exact digit_congr _ _ _ _ _ hd (hlt t ht)
  · intro t ht
    rw [← hl t ht, hd _ (hlt t ht)]

/-- A sub-index of a sub-index is the sub-index at the composed labels. -/
theorem subIdx_comp (cdims cdims2 lab lab2 : CArr) (n1 cnt2 n x : Nat)
    (hd : ∀ p, p < n1 → cdims2 p = cdims (lab p)) (hlab : ∀ p, p < n1 → lab p < n)
    (hlab2 : ∀ t, t < cnt2 → lab2 t < n1) (hx : x < internal._suffix_prod cdims n 0) :
    subIdx cdims2 lab2 cnt2 n1 (subIdx cdims lab n1 n x)
      = subIdx cdims (fun t => lab (lab2 t)) cnt2 n x := by
  unfold subIdx
  apply internal._multiidx2n_congr
  · intro t ht
    have h1 := digit_congr cdims2 (fun p => cdims (lab p)) n1
      (internal._multiidx2n (fun t => internal.digit cdims n x (lab t)) n1
        (fun t => cdims (lab t))) (lab2 t) hd (hlab2 t ht)
    rw [h1]
    exact (subIdx_spec cdims lab n1 n x hlab hx).2 _ (hlab2 t ht)
  · intro t ht
    exact hd _ (hlab2 t ht)

theorem toCArr_map (L : List Nat) (f : Nat → Nat) (t : Nat) (ht : t < L.length) :
    toCArr (L.map f) t = f (toCArr L t) := by
  simp [toCArr, List.getD_eq_getElem?_getD, List.getElem?_map, List.getElem?_eq_getElem ht]

/-- The source index of the two-step partial trace: its sub-indices at the
complement of the union, at the first set and at the second set. -/
theorem two_step_index_spec (dims S1 S2 U : List Nat)
    (hS1 : ∀ l ∈ S1, l < dims.length) (hnd1 : S1.Nodup)
    (hS2 : ∀ l ∈ S2, l < dims.length) (hnd2 : S2.Nodup)
    (hdisj : ∀ l ∈ S2, l ∉ S1) (hU : U.Perm (S1 ++ S2)) (i k2 k1 : Nat)
    (hi : i < subDim (reducedDims dims S1)
      (complLabels (renumber S1 dims.length S2) (reducedDims dims S1).length))
    (hk2 : k2 < subDim (reducedDims dims S1) (renumber S1 dims.length S2))
    (hk1 : k1 < subDim dims S1) :
    permIdx (toCArr dims)
        (toCArr (complLabels S1 dims.length ++ sortedLabels S1 dims.length)) dims.length
        (permIdx (toCArr (reducedDims dims S1))
          (toCArr (complLabels (renumber S1 dims.length S2) (reducedDims dims S1).length
            ++ sortedLabels (renumber S1 dims.length S2) (reducedDims dims S1).length))
          (reducedDims dims S1).length
          (i * subDim (reducedDims dims S1) (renumber S1 dims.length S2) + k2)
          * subDim dims S1 + k1) < dims.prod ∧
    permIdx (toCArr (reducedDims dims S1))
        (toCArr (complLabels (renumber S1 dims.length S2) (reducedDims dims S1).length
          ++ sortedLabels (renumber S1 dims.length S2) (reducedDims dims S1).length))
        (reducedDims dims S1).length
        (i * subDim (reducedDims dims S1) (renumber S1 dims.length S2) + k2)
      < (reducedDims dims S1).prod ∧
    subIdx (toCArr dims) (toCArr (complLabels U dims.length)) (complLabels U dims.length).length
        dims.length
        (permIdx (toCArr dims)
          (toCArr (complLabels S1 dims.length ++ sortedLabels S1 dims.length)) dims.length
          (permIdx (toCArr (reducedDims dims S1))
            (toCArr (complLabels (renumber S1 dims.length S2) (reducedDims dims S1).length
              ++ sortedLabels (renumber S1 dims.length S2) (reducedDims dims S1).length))
            (reducedDims dims S1).length
            (i * subDim (reducedDims dims S1) (renumber S1 dims.length S2) + k2)
            * subDim dims S1 + k1)) = i ∧
    subIdx (toCArr dims) (toCArr (sortedLabels S1 dims.length))
        (sortedLabels S1 dims.length).length dims.length
        (permIdx (toCArr dims)
          (toCArr (complLabels S1 dims.length ++ sortedLabels S1 dims.length)) dims.length
          (permIdx (toCArr (reducedDims dims S1))
            (toCArr (complLabels (renumber S1 dims.length S2) (reducedDims dims S1).length
              ++ sortedLabels (renumber S1 dims.length S2) (reducedDims dims S1).length))
            (reducedDims dims S1).length
            (i * subDim (reducedDims dims S1) (renumber S1 dims.length S2) + k2)
            * subDim dims S1 + k1)) = k1 ∧
    subIdx (toCArr dims)
        (fun t => toCArr (complLabels S1 dims.length)
          (toCArr (sortedLabels (renumber S1 dims.length S2) (reducedDims dims S1).length) t))
        (sortedLabels (renumber S1 dims.length S2) (reducedDims dims S1).length).length
        dims.length
        (permIdx (toCArr dims)
          (toCArr (complLabels S1 dims.length ++ sortedLabels S1 dims.length)) dims.length
          (permIdx (toCArr (reducedDims dims S1))
            (toCArr (complLabels (renumber S1 dims.length S2) (reducedDims dims S1).length
              ++ sortedLabels (renumber S1 dims.length S2) (reducedDims dims S1).length))
            (reducedDims dims S1).length
            (i * subDim (reducedDims dims S1) (renumber S1 dims.length S2) + k2)
            * subDim dims S1 + k1)) = k2 := by
  have hlen' : (reducedDims dims S1).length = (complLabels S1 dims.length).length := by
    simp [reducedDims]
  obtain ⟨hv1, hv2⟩ := renumber_valid S1 S2 dims.length hS2 hnd2 hdisj
  rw [← hlen'] at hv1
  have hsp' := sortedLabels_perm (renumber S1 dims.length S2) (reducedDims dims S1).length hv1 hv2
  have hDS' := subDim_perm (reducedDims dims S1) _ _ hsp'
  have hsp1 := sortedLabels_perm S1 dims.length hS1 hnd1
  have hDS1 := subDim_perm dims _ _ hsp1
  -- the inner index, in the reduced system
  have hu := permIdx_append_spec (reducedDims dims S1)
    (complLabels (renumber S1 dims.length S2) (reducedDims dims S1).length)
    (sortedLabels (renumber S1 dims.length S2) (reducedDims dims S1).length)
    (compl_append_sorted_perm _ _) i k2 hi (by rw [hDS']; exact hk2)
  rw [hDS'] at hu
  obtain ⟨hu1, hu2, hu3⟩ := hu
  generalize permIdx (toCArr (reducedDims dims S1))
    (toCArr (complLabels (renumber S1 dims.length S2) (reducedDims dims S1).length
      ++ sortedLabels (renumber S1 dims.length S2) (reducedDims dims S1).length))
    (reducedDims dims S1).length
    (i * subDim (reducedDims dims S1) (renumber S1 dims.length S2) + k2) = u at hu1 hu2 hu3 ⊢
  -- the outer index, in the full system
  have hY := permIdx_append_spec dims (complLabels S1 dims.length) (sortedLabels S1 dims.length)
    (compl_append_sorted_perm _ _) u k1 (show u < subDim dims (complLabels S1 dims.length) from hu1)
    (by rw [hDS1]; exact hk1)
  rw [hDS1] at hY
  obtain ⟨hY1, hY2, hY3⟩ := hY
  generalize permIdx (toCArr dims)
    (toCArr (complLabels S1 dims.length ++ sortedLabels S1 dims.length)) dims.length
    (u * subDim dims S1 + k1) = Y at hY1 hY2 hY3 ⊢
  have hY1' : Y < internal._suffix_prod (toCArr dims) dims.length 0 := by
    rw [internal._suffix_prod_toCArr]; exact hY1
  have hltC1 : ∀ p, p < (complLabels S1 dims.length).length →
      toCArr (complLabels S1 dims.length) p < dims.length :=
    toCArr_lt_of_mem _ _ (fun l hl => ((mem_complLabels S1 dims.length l).mp hl).1)
  have hd : ∀ p, p < (complLabels S1 dims.length).length →
      toCArr (reducedDims dims S1) p = toCArr dims (toCArr (complLabels S1 dims.length) p) :=
    fun p hp => toCArr_map_getD _ dims p hp
  have hltC' : ∀ t, t < (complLabels (renumber S1 dims.length S2)
      (reducedDims dims S1).length).length →
      toCArr (complLabels (renumber S1 dims.length S2) (reducedDims dims S1).length) t
        < (complLabels S1 dims.length).length := by
    intro t ht
    rw [← hlen']
    exact toCArr_lt_of_mem _ _ (fun l hl => ((mem_complLabels _ _ l).mp hl).1) t ht
  have hltS' : ∀ t, t < (sortedLabels (renumber S1 dims.length S2)
      (reducedDims dims S1).length).length →
      toCArr (sortedLabels (renumber S1 dims.length S2) (reducedDims dims S1).length) t
        < (complLabels S1 dims.length).length := by
    intro t ht
    rw [← hlen']
    exact toCArr_lt_of_mem _ _ (fun l hl => ((mem_sortedLabels _ _ l).mp hl).1) t ht
  refine ⟨hY1, hu1, ?_, hY3, ?_⟩
  · have hK := complLabels_union S1 S2 U dims.length hS2 hdisj hU
    rw [← hlen'] at hK
    have hKlen : (complLabels U dims.length).length
        = (complLabels (renumber S1 dims.length S2) (reducedDims dims S1).length).length := by
      rw [hK, List.length_map]
    rw [hKlen]
    rw [subIdx_congr (toCArr dims) (toCArr dims) (toCArr (complLabels U dims.length))
      (fun t => toCArr (complLabels S1 dims.length)
        (toCArr (complLabels (renumber S1 dims.length S2) (reducedDims dims S1).length) t))
      _ dims.length _ (fun _ _ => rfl)
      (by
        intro t ht
        rw [hK, toCArr_map _ _ t ht]
        rfl)
      (by
        intro t ht
        rw [hK, toCArr_map _ _ t ht]
        exact hltC1 _ (hltC' t ht))]
    rw [← subIdx_comp (toCArr dims) (toCArr (reducedDims dims S1))
      (toCArr (complLabels S1 dims.length)) _ (complLabels S1 dims.length).length _ dims.length _
      hd hltC1 hltC' hY1', hY2, ← hlen']
    exact hu2
  · rw [← subIdx_comp (toCArr dims) (toCArr (reducedDims dims S1))
      (toCArr (complLabels S1 dims.length)) _ (complLabels S1 dims.length).length _ dims.length _
      hd hltC1 hltS' hY1', hY2, ← hlen']
    exact hu3

/-! ## Tracing out in two steps -/

/-- An in-range entry of the matrix returned by `ptrace`. -/
theorem ptraceMat_data {R : Type} [Semiring R] (A : Mat R) (subsys dims : List Nat)
    (hpos : ∀ d ∈ dims, 1 ≤ d) (hr : A.rows = dims.prod)
    (hsub : ∀ l ∈ subsys, l < dims.length) (hnd : subsys.Nodup) (i j : Nat)
    (hi : i < A.rows / subDim dims subsys) (hj : j < A.rows / subDim dims subsys) :
    (ptraceMat A subsys dims).data i j
      = ∑ k in Finset.range (subDim dims subsys),
          A.data (ptraceIdx dims subsys i k) (ptraceIdx dims subsys j k) := by
  have hS := subDim_pos dims subsys hpos hsub
  have hmul := subDim_compl_mul dims subsys hsub hnd
  have hdiv : A.rows / subDim dims subsys = subDim dims (complLabels subsys dims.length) := by
    rw [hr, ← hmul]
    exact Nat.mul_div_cancel _ hS
  simp only [ptraceMat, ptrace2Mat, hi, hj, and_self, if_true, syspermuteMat]
  apply Finset.sum_congr rfl
  intro k hk
  have hk2 := Finset.mem_range.mp hk
  have hb : ∀ a, a < A.rows / subDim dims subsys → a * subDim dims subsys + k < A.rows := by
    intro a ha
    rw [hdiv] at ha
    rw [hr, ← hmul]
    calc a * subDim dims subsys + k < a * subDim dims subsys + subDim dims subsys := by omega
      _ = (a + 1) * subDim dims subsys := by ring
      _ ≤ _ := Nat.mul_le_mul_right _ ha
  rw [if_pos ⟨hb i hi, hb j hj⟩]
  rfl

/-- The source index of `ptrace`: in range, with complement part `i` and
traced-out part `k`. -/
theorem ptraceIdx_spec (dims S : List Nat) (hS : ∀ l ∈ S, l < dims.length) (hnd : S.Nodup)
    (i k : Nat) (hi : i < subDim dims (complLabels S dims.length)) (hk : k < subDim dims S) :
    ptraceIdx dims S i k < dims.prod ∧
    subIdx (toCArr dims) (toCArr (complLabels S dims.length)) (complLabels S dims.length).length
      dims.length (ptraceIdx dims S i k) = i ∧
    subIdx (toCArr dims) (toCArr (sortedLabels S dims.length)) (sortedLabels S dims.length).length
      dims.length (ptraceIdx dims S i k) = k := by
  have hDS := subDim_perm dims _ _ (sortedLabels_perm S dims.length hS hnd)
  have := permIdx_append_spec dims _ _ (compl_append_sorted_perm S dims.length) i k hi
    (by rw [hDS]; exact hk)
  rw [hDS] at this
  exact this

theorem compl_div (dims S : List Nat) (hpos : ∀ d ∈ dims, 1 ≤ d)
    (hS : ∀ l ∈ S, l < dims.length) (hnd : S.Nodup) :
    dims.prod / subDim dims S = subDim dims (complLabels S dims.length) := by
  rw [← subDim_compl_mul dims S hS hnd]
  exact Nat.mul_div_cancel _ (subDim_pos dims S hpos hS)

theorem reducedDims_pos (dims S : List Nat) (hpos : ∀ d ∈ dims, 1 ≤ d) :
    ∀ d ∈ reducedDims dims S, 1 ≤ d := by
  intro d hd
  obtain ⟨l, hl, rfl⟩ := List.mem_map.mp hd
  exact getD_pos_of_lt dims hpos l ((mem_complLabels S dims.length l).mp hl).1

/-- The source index of the two-step partial trace in terms of `ptraceIdx`. -/
theorem twoStep_spec (dims S1 S2 U : List Nat)
    (hS1 : ∀ l ∈ S1, l < dims.length) (hnd1 : S1.Nodup)
    (hS2 : ∀ l ∈ S2, l < dims.length) (hnd2 : S2.Nodup)
    (hdisj : ∀ l ∈ S2, l ∉ S1) (hU : U.Perm (S1 ++ S2)) (i k2 k1 : Nat)
    (hi : i < subDim (reducedDims dims S1)
      (complLabels (renumber S1 dims.length S2) (reducedDims dims S1).length))
    (hk2 : k2 < subDim (reducedDims dims S1) (renumber S1 dims.length S2))
    (hk1 : k1 < subDim dims S1) :
    ptraceIdx dims S1 (ptraceIdx (reducedDims dims S1) (renumber S1 dims.length S2) i k2) k1
      < dims.prod ∧
    ptraceIdx (reducedDims dims S1) (renumber S1 dims.length S2) i k2
      < (reducedDims dims S1).prod ∧
    subIdx (toCArr dims) (toCArr (complLabels U dims.length)) (complLabels U dims.length).length
      dims.length
      (ptraceIdx dims S1 (ptraceIdx (reducedDims dims S1) (renumber S1 dims.length S2) i k2) k1)
      = i ∧
    subIdx (toCArr dims) (toCArr (sortedLabels S1 dims.length))
      (sortedLabels S1 dims.length).length dims.length
      (ptraceIdx dims S1 (ptraceIdx (reducedDims dims S1) (renumber S1 dims.length S2) i k2) k1)
      = k1 ∧
    subIdx (toCArr dims)
      (fun t => toCArr (complLabels S1 dims.length)
        (toCArr (sortedLabels (renumber S1 dims.length S2) (reducedDims dims S1).length) t))
      (sortedLabels (renumber S1 dims.length S2) (reducedDims dims S1).length).length
      dims.length
      (ptraceIdx dims S1 (ptraceIdx (reducedDims dims S1) (renumber S1 dims.length S2) i k2) k1)
      = k2 :=
  two_step_index_spec dims S1 S2 U hS1 hnd1 hS2 hnd2 hdisj hU i k2 k1 hi hk2 hk1

/-- Label sets of the two-step partial trace. -/
theorem two_step_labels (dims S1 S2 U : List Nat)
    (hS2 : ∀ l ∈ S2, l < dims.length)
    (hdisj : ∀ l ∈ S2, l ∉ S1) (hU : U.Perm (S1 ++ S2)) :
    (∀ t, t < (sortedLabels U dims.length).length →
      (∃ u, u < (sortedLabels S1 dims.length).length ∧
        toCArr (sortedLabels S1 dims.length) u = toCArr (sortedLabels U dims.length) t) ∨
      (∃ u, u < (sortedLabels (renumber S1 dims.length S2) (reducedDims dims S1).length).length ∧
        toCArr (complLabels S1 dims.length)
          (toCArr (sortedLabels (renumber S1 dims.length S2) (reducedDims dims S1).length) u)
          = toCArr (sortedLabels U dims.length) t)) ∧
    (∀ t, t < (sortedLabels S1 dims.length).length →
      ∃ u, u < (sortedLabels U dims.length).length ∧
        toCArr (sortedLabels U dims.length) u = toCArr (sortedLabels S1 dims.length) t) ∧
    (∀ t, t < (sortedLabels (renumber S1 dims.length S2) (reducedDims dims S1).length).length →
      ∃ u, u < (sortedLabels U dims.length).length ∧
        toCArr (sortedLabels U dims.length) u
          = toCArr (complLabels S1 dims.length)
              (toCArr (sortedLabels (renumber S1 dims.length S2)
                (reducedDims dims S1).length) t)) ∧
    (∀ t, t < (sortedLabels (renumber S1 dims.length S2) (reducedDims dims S1).length).length →
      toCArr (complLabels S1 dims.length)
        (toCArr (sortedLabels (renumber S1 dims.length S2) (reducedDims dims S1).length) t)
        < dims.length) := by
  have hlen' : (reducedDims dims S1).length = (complLabels S1 dims.length).length := by
    simp [reducedDims]
  have hmemU : ∀ l, l ∈ U ↔ l ∈ S1 ∨ l ∈ S2 := by
    intro l; rw [hU.mem_iff, List.mem_append]
  have hC1 : ∀ l ∈ S2, l ∈ complLabels S1 dims.length :=
    fun l hl => (mem_complLabels S1 dims.length l).mpr ⟨hS2 l hl, hdisj l hl⟩
  have hpS : ∀ t, t < (sortedLabels (renumber S1 dims.length S2)
      (reducedDims dims S1).length).length →
      toCArr (sortedLabels (renumber S1 dims.length S2) (reducedDims dims S1).length) t
          < (complLabels S1 dims.length).length ∧
      toCArr (complLabels S1 dims.length)
        (toCArr (sortedLabels (renumber S1 dims.length S2) (reducedDims dims S1).length) t)
          ∈ S2 := by
    intro t ht
    have hm := (mem_sortedLabels _ _ _).mp (toCArr_mem _ t ht)
    have h1 : toCArr (sortedLabels (renumber S1 dims.length S2) (reducedDims dims S1).length) t
        < (complLabels S1 dims.length).length := by
      rw [← hlen']; exact hm.1
    exact ⟨h1, (mem_renumber_iff S1 S2 dims.length hS2 hdisj _ h1).mp hm.2⟩
  refine ⟨?_, ?_, ?_, ?_⟩
  · intro t ht
    have hm := (mem_sortedLabels _ _ _).mp (toCArr_mem _ t ht)
    rcases (hmemU _).mp hm.2 with h1 | h2
    · exact Or.inl ((exists_toCArr_eq_iff _ _).mpr ((mem_sortedLabels _ _ _).mpr ⟨hm.1, h1⟩))
    · right
      have hidx := List.indexOf_lt_length.mpr (hC1 _ h2)
      have hmem : (complLabels S1 dims.length).indexOf (toCArr (sortedLabels U dims.length) t)
          ∈ sortedLabels (renumber S1 dims.length S2) (reducedDims dims S1).length := by
        rw [mem_sortedLabels, hlen']
        exact ⟨hidx, List.mem_map.mpr ⟨_, h2, rfl⟩⟩
      obtain ⟨u, hu, he⟩ := (exists_toCArr_eq_iff _ _).mpr hmem
      refine ⟨u, hu, ?_⟩
      rw [he]
      exact getD_indexOf _ _ (hC1 _ h2)
  · intro t ht
    have hm := (mem_sortedLabels _ _ _).mp (toCArr_mem _ t ht)
    exact (exists_toCArr_eq_iff _ _).mpr
      ((mem_sortedLabels _ _ _).mpr ⟨hm.1, (hmemU _).mpr (Or.inl hm.2)⟩)
  · intro t ht
    obtain ⟨_, h2⟩ := hpS t ht
    exact (exists_toCArr_eq_iff _ _).mpr
      ((mem_sortedLabels _ _ _).mpr ⟨hS2 _ h2, (hmemU _).mpr (Or.inr h2)⟩)
  · intro t ht
    exact hS2 _ (hpS t ht).2

/-- Tracing out `S1` and then the renumbered `S2` gives the partial trace over
any list `U` of the labels of `S1` and `S2`, when `S1` leaves a subsystem. -/
theorem ptrace_two_step {R : Type} [Semiring R] (A : Mat R) (dims S1 S2 U : List Nat)
    (hne : dims ≠ []) (hpos : ∀ d ∈ dims, 1 ≤ d)
    (hr : A.rows = dims.prod) (hc : A.cols = dims.prod)
    (hS1 : ∀ l ∈ S1, l < dims.length) (hnd1 : S1.Nodup)
    (hS2 : ∀ l ∈ S2, l < dims.length) (hnd2 : S2.Nodup)
    (hdisj : ∀ l ∈ S2, l ∉ S1) (hU : U.Perm (S1 ++ S2))
    (hproper : S1.length < dims.length) :
    ptrace A S1 dims = .ok (ptraceMat A S1 dims) ∧
    ptrace (ptraceMat A S1 dims) (renumber S1 dims.length S2) (reducedDims dims S1)
      = .ok (ptraceMat (ptraceMat A S1 dims) (renumber S1 dims.length S2)
          (reducedDims dims S1)) ∧
    ptrace A U dims = .ok (ptraceMat A U dims) ∧
    (ptraceMat A U dims).same
      (ptraceMat (ptraceMat A S1 dims) (renumber S1 dims.length S2) (reducedDims dims S1)) := by
  -- validity of the three calls
  have hUmem : ∀ l, l ∈ U ↔ l ∈ S1 ∨ l ∈ S2 := by
    intro l; rw [hU.mem_iff, List.mem_append]
  have hUlt : ∀ l ∈ U, l < dims.length := by
    intro l hl
    rcases (hUmem l).mp hl with h | h
    · exact hS1 l h
    · exact hS2 l h
  have hUnd : U.Nodup := hU.nodup_iff.mpr
    (List.nodup_append.mpr ⟨hnd1, hnd2, fun a h1 h2 => hdisj a h2 h1⟩)
  have hlen' : (reducedDims dims S1).length = (complLabels S1 dims.length).length := by
    simp [reducedDims]
  have hlenC1 := obsolete.compl_length S1 dims.length hS1 hnd1
  have hne' : reducedDims dims S1 ≠ [] := by
    intro he
    have := congrArg List.length he
    rw [hlen', hlenC1, List.length_nil] at this
    omega
  have hpos' := reducedDims_pos dims S1 hpos
  obtain ⟨hv1, hv2⟩ := renumber_valid S1 S2 dims.length hS2 hnd2 hdisj
  rw [← hlen'] at hv1
  have hD1 := subDim_pos dims S1 hpos hS1
  have hdiv1 := compl_div dims S1 hpos hS1 hnd1
  have hB1r : (ptraceMat A S1 dims).rows = (reducedDims dims S1).prod := by
    show A.rows / subDim dims S1 = _
    rw [hr, hdiv1]; rfl
  have hB1c : (ptraceMat A S1 dims).cols = (reducedDims dims S1).prod := hB1r
  have hD2 := subDim_renumber dims S1 S2 hS2 hdisj
  have hDU : subDim dims U = subDim dims S1 * subDim dims S2 := by
    rw [subDim_perm dims _ _ hU, subDim_append]
  have hdiv' := compl_div (reducedDims dims S1) (renumber S1 dims.length S2) hpos' hv1 hv2
  have hdivU := compl_div dims U hpos hUlt hUnd
  have hrows : A.rows / subDim dims U
      = (ptraceMat A S1 dims).rows / subDim (reducedDims dims S1) (renumber S1 dims.length S2) := by
    rw [hB1r, hD2, hDU, ← Nat.div_div_eq_div_mul, hr, hdiv1]
    rfl
  refine ⟨ptrace_eq A S1 dims hne hpos hr hc hS1 hnd1,
    ptrace_eq _ _ _ hne' hpos' hB1r hB1c hv1 hv2,
    ptrace_eq A U dims hne hpos hr hc hUlt hUnd, hrows, hrows, ?_⟩
  intro i hi j hj
  have hi1 : i < A.rows / subDim dims U := hi
  have hj1 : j < A.rows / subDim dims U := hj
  have hi2 := hrows ▸ hi1
  have hj2 := hrows ▸ hj1
  have hi3 : i < subDim (reducedDims dims S1)
      (complLabels (renumber S1 dims.length S2) (reducedDims dims S1).length) := by
    rw [← hdiv', ← hB1r]; exact hi2
  have hj3 : j < subDim (reducedDims dims S1)
      (complLabels (renumber S1 dims.length S2) (reducedDims dims S1).length) := by
    rw [← hdiv', ← hB1r]; exact hj2
  have hi4 : i < subDim dims (complLabels U dims.length) := by
    rw [← hdivU, ← hr]; exact hi1
  have hj4 : j < subDim dims (complLabels U dims.length) := by
    rw [← hdivU, ← hr]; exact hj1
  -- both sides as sums over source indices
  rw [ptraceMat_data A U dims hpos hr hUlt hUnd i j hi1 hj1,
    ptraceMat_data _ _ _ hpos' hB1r hv1 hv2 i j hi2 hj2]
  have hY := fun a (ha : a < subDim (reducedDims dims S1)
      (complLabels (renumber S1 dims.length S2) (reducedDims dims S1).length)) k2 k1
      (hk2 : k2 < subDim (reducedDims dims S1) (renumber S1 dims.length S2))
      (hk1 : k1 < subDim dims S1) =>
    twoStep_spec dims S1 S2 U hS1 hnd1 hS2 hnd2 hdisj hU a k2 k1 ha hk2 hk1
  have hinner : ∀ k2 ∈ Finset.range (subDim (reducedDims dims S1) (renumber S1 dims.length S2)),
      (ptraceMat A S1 dims).data
        (ptraceIdx (reducedDims dims S1) (renumber S1 dims.length S2) i k2)
        (ptraceIdx (reducedDims dims S1) (renumber S1 dims.length S2) j k2)
      = ∑ k1 in Finset.range (subDim dims S1),
          A.data
            (ptraceIdx dims S1
              (ptraceIdx (reducedDims dims S1) (renumber S1 dims.length S2) i k2) k1)
            (ptraceIdx dims S1
              (ptraceIdx (reducedDims dims S1) (renumber S1 dims.length S2) j k2) k1) := by
    intro k2 hk2
    have hk2' := Finset.mem_range.mp hk2
    apply ptraceMat_data A S1 dims hpos hr hS1 hnd1
    · rw [hr, hdiv1]
      exact (hY i hi3 k2 0 hk2' hD1).2.1
    · rw [hr, hdiv1]
      exact (hY j hj3 k2 0 hk2' hD1).2.1
  rw [Finset.sum_congr rfl hinner, ← Finset.sum_product']
  obtain ⟨hL1, hL2, hL3, hL4⟩ := two_step_labels dims S1 S2 U hS2 hdisj hU
  have hltU' := toCArr_lt_of_mem (sortedLabels U dims.length) dims.length
    (fun l hl => ((mem_sortedLabels U dims.length l).mp hl).1)
  have hltS1' := toCArr_lt_of_mem (sortedLabels S1 dims.length) dims.length
    (fun l hl => ((mem_sortedLabels S1 dims.length l).mp hl).1)
  have hltCU := toCArr_lt_of_mem (complLabels U dims.length) dims.length
    (fun l hl => ((mem_complLabels U dims.length l).mp hl).1)
  have hD : internal._suffix_prod (toCArr dims) dims.length 0 = dims.prod :=
    internal._suffix_prod_toCArr dims
  have hDSU := subDim_perm dims _ _ (sortedLabels_perm U dims.length hUlt hUnd)
  have hX : ∀ a, a < subDim dims (complLabels U dims.length) →
      ∀ k, k < internal._suffix_prod
          (fun t => toCArr dims (toCArr (sortedLabels U dims.length) t))
          (sortedLabels U dims.length).length 0 →
        ptraceIdx dims U a k < internal._suffix_prod (toCArr dims) dims.length 0 ∧
        subIdx (toCArr dims) (toCArr (complLabels U dims.length))
          (complLabels U dims.length).length dims.length (ptraceIdx dims U a k) = a ∧
        subIdx (toCArr dims) (toCArr (sortedLabels U dims.length))
          (sortedLabels U dims.length).length dims.length (ptraceIdx dims U a k) = k := by
    intro a ha k hk
    rw [← subDim_eq_suffix_prod, hDSU] at hk
    rw [hD]
    exact ptraceIdx_spec dims U hUlt hUnd a k ha hk
  have hmemT : ∀ t ∈ Finset.range (subDim (reducedDims dims S1) (renumber S1 dims.length S2))
      ×ˢ Finset.range (subDim dims S1),
      t.1 < subDim (reducedDims dims S1) (renumber S1 dims.length S2) ∧
      t.2 < subDim dims S1 := by
    intro t ht
    simpa using ht
  have hsum := sum_reindex (toCArr dims) (toCArr (complLabels U dims.length))
    (toCArr (sortedLabels U dims.length)) (complLabels U dims.length).length
    (sortedLabels U dims.length).length dims.length hltCU hltU'
    (covers_of_perm _ _ _ (compl_append_sorted_perm U dims.length))
    (fun a k => ptraceIdx dims U a k)
    (fun a (t : Nat × Nat) => ptraceIdx dims S1
      (ptraceIdx (reducedDims dims S1) (renumber S1 dims.length S2) a t.1) t.2)
    (Finset.range (subDim (reducedDims dims S1) (renumber S1 dims.length S2))
      ×ˢ Finset.range (subDim dims S1)) i j (hX i hi4) (hX j hj4)
    (fun t ht => ⟨by rw [hD]; exact (hY i hi3 t.1 t.2 (hmemT t ht).1 (hmemT t ht).2).1,
      (hY i hi3 t.1 t.2 (hmemT t ht).1 (hmemT t ht).2).2.2.1⟩)
    (fun t ht => ⟨by rw [hD]; exact (hY j hj3 t.1 t.2 (hmemT t ht).1 (hmemT t ht).2).1,
      (hY j hj3 t.1 t.2 (hmemT t ht).1 (hmemT t ht).2).2.2.1⟩)
    (by
      intro t ht
      obtain ⟨a1, _, _, a4, a5⟩ := hY i hi3 t.1 t.2 (hmemT t ht).1 (hmemT t ht).2
      obtain ⟨b1, _, _, b4, b5⟩ := hY j hj3 t.1 t.2 (hmemT t ht).1 (hmemT t ht).2
      exact subIdx_determined (toCArr dims) _ _ _ _ _ _ dims.length _ _ hltS1' hL4 hL1
        (by rw [hD]; exact a1) (by rw [hD]; exact b1) (by rw [a4, b4]) (by rw [a5, b5]))
    (by
      intro t ht t2 ht2 he
      obtain ⟨a1, _, _, a4, a5⟩ := hY i hi3 t.1 t.2 (hmemT t ht).1 (hmemT t ht).2
      obtain ⟨b1, _, _, b4, b5⟩ := hY i hi3 t2.1 t2.2 (hmemT t2 ht2).1 (hmemT t2 ht2).2
      have e1 := subIdx_determined (toCArr dims) _ _ _ _ _ _ dims.length _ _ hltU' hltU'
        (fun u hu => Or.inl (hL2 u hu)) (by rw [hD]; exact a1) (by rw [hD]; exact b1) he he
      have e2 := subIdx_determined (toCArr dims) _ _ _ _ _ _ dims.length _ _ hltU' hltU'
        (fun u hu => Or.inl (hL3 u hu)) (by rw [hD]; exact a1) (by rw [hD]; exact b1) he he
      rw [a4, b4] at e1
      rw [a5, b5] at e2
      exact Prod.ext e2 e1)
    (by
      rw [Finset.card_product, Finset.card_range, Finset.card_range, ← subDim_eq_suffix_prod,
        hDSU, hDU, hD2, Nat.mul_comm])
    (fun x y => A.data x y)
  rw [← subDim_eq_suffix_prod, hDSU] at hsum
  exact hsum.symm

/-- With an empty dimension vector `ptrace` fails whatever the matrix is. -/
theorem ptrace_nil_dims {R : Type} [Semiring R] (B : Mat R) (subsys : List Nat) :
    ∃ e, ptrace B subsys [] = .error e := by
  unfold ptrace
  by_cases h : internal._check_square_mat B = true
  · exact ⟨"ptrace: Invalid dimensions vector!", by simp [h, internal._check_dims]⟩
  · exact ⟨"ptrace: Matrix must be square!", by simp [h]⟩

/-- C8 as stated fails when the set traced out first is the whole system: for
`dims = [2]`, `S1 = {0}`, `S2 = {}`, the one-step trace succeeds with the `1 x 1`
matrix `trace(A) = 11`, the reduced dimension vector is empty, and the second call
of the two-step trace is rejected by the dimension check. -/
theorem ptrace_additivity_counterexample :
    (∃ B12, ptrace (demoMat 2) ([0] ++ []) [2] = .ok B12 ∧ B12.rows = 1 ∧ B12.cols = 1 ∧
      B12.data 0 0 = 11) ∧
    (∃ B1, ptrace (demoMat 2) [0] [2] = .ok B1 ∧
      ptrace B1 (renumber [0] [2].length []) (reducedDims [2] [0])
        = .error "ptrace: Invalid dimensions vector!") ∧
    ¬ ∃ B1 B B12, ptrace (demoMat 2) [0] [2] = .ok B1 ∧
      ptrace B1 (renumber [0] [2].length []) (reducedDims [2] [0]) = .ok B ∧
      ptrace (demoMat 2) ([0] ++ []) [2] = .ok B12 ∧ B12.same B := by
  have h1 : ptrace (demoMat 2) [0] [2] = .ok (ptraceMat (demoMat 2) [0] [2]) :=
    ptrace_eq (demoMat 2) [0] [2] (by decide) (by decide) (by decide) (by decide) (by decide)
      (by decide)
  refine ⟨⟨_, h1, by decide, by decide, by decide⟩, ⟨_, h1, ?_⟩, ?_⟩
  · have e1 : renumber [0] [2].length [] = [] := by decide
    have e2 : reducedDims [2] [0] = [] := by decide
    rw [e1, e2]
    unfold ptrace
    have hsq : internal._check_square_mat (ptraceMat (demoMat 2) [0] [2]) = true := by decide
    simp [hsq, internal._check_dims]
  · rintro ⟨B1, B, B12, _, h2, _⟩
    have e1 : renumber [0] [2].length [] = [] := by decide
    have e2 : reducedDims [2] [0] = [] := by decide
    rw [e1, e2] at h2
    obtain ⟨e, he⟩ := ptrace_nil_dims B1 []
    rw [he] at h2
    cases h2

/-- C8 (amended): partial trace additivity.  For every square matrix `A` of
size `prod(dims)`, valid `dims`, disjoint valid subsystem lists `S1`, `S2` and any
list `U` of the labels in `S1 ∪ S2`: if `S1` is not the whole system, tracing out
`S1` and then `S2'` (the labels of `S2` renumbered in the reduced system) over
`dims'` (`dims` with the entries of `S1` removed) succeeds and gives
`ptrace(A, U, dims)`; likewise with the roles of `S1` and `S2` exchanged, if
`S2` is not the whole system. -/
theorem ptrace_additivity {R : Type} [Semiring R] (A : Mat R) (dims S1 S2 U : List Nat)
    (hne : dims ≠ []) (hpos : ∀ d ∈ dims, 1 ≤ d)
    (hr : A.rows = dims.prod) (hc : A.cols = dims.prod)
    (hS1 : ∀ l ∈ S1, l < dims.length) (hnd1 : S1.Nodup)
    (hS2 : ∀ l ∈ S2, l < dims.length) (hnd2 : S2.Nodup)
    (hdisj : ∀ l ∈ S1, l ∉ S2) (hU : U.Perm (S1 ++ S2)) :
    (S1.length < dims.length →
      ∃ B1 B B12, ptrace A S1 dims = .ok B1 ∧
        ptrace B1 (renumber S1 dims.length S2) (reducedDims dims S1) = .ok B ∧
        ptrace A U dims = .ok B12 ∧ B12.same B) ∧
    (S2.length < dims.length →
      ∃ B2 B B12, ptrace A S2 dims = .ok B2 ∧
        ptrace B2 (renumber S2 dims.length S1) (reducedDims dims S2) = .ok B ∧
        ptrace A U dims = .ok B12 ∧ B12.same B) := by
  refine ⟨?_, ?_⟩
  · intro h
    obtain ⟨a1, a2, a3, a4⟩ := ptrace_two_step A dims S1 S2 U hne hpos hr hc hS1 hnd1 hS2 hnd2
      (fun l h2 h1 => hdisj l h1 h2) hU h
    exact ⟨_, _, _, a1, a2, a3, a4⟩
  · intro h
    obtain ⟨a1, a2, a3, a4⟩ := ptrace_two_step A dims S2 S1 U hne hpos hr hc hS2 hnd2 hS1 hnd1
      hdisj (hU.trans List.perm_append_comm) h
    exact ⟨_, _, _, a1, a2, a3, a4⟩

theorem ptrace_additivity_witness :
    (∃ B1 B B12, ptrace demoMat12 [1] [2, 3, 2] = .ok B1 ∧
      ptrace B1 (renumber [1] [2, 3, 2].length [0]) (reducedDims [2, 3, 2] [1]) = .ok B ∧
      ptrace demoMat12 [0, 1] [2, 3, 2] = .ok B12 ∧ B12.same B) ∧
    (∃ B2 B B12, ptrace demoMat12 [0] [2, 3, 2] = .ok B2 ∧
      ptrace B2 (renumber [0] [2, 3, 2].length [1]) (reducedDims [2, 3, 2] [0]) = .ok B ∧
      ptrace demoMat12 [0, 1] [2, 3, 2] = .ok B12 ∧ B12.same B) :=
  ⟨(ptrace_additivity demoMat12 [2, 3, 2] [1] [0] [0, 1] (by decide) (by decide) (by decide)
      (by decide) (by decide) (by decide) (by decide) (by decide) (by decide) (by decide)).1
      (by decide),
   (ptrace_additivity demoMat12 [2, 3, 2] [1] [0] [0, 1] (by decide) (by decide) (by decide)
      (by decide) (by decide) (by decide) (by decide) (by decide) (by decide) (by decide)).2
      (by decide)⟩

/-! ## Degenerate partial traces -/

theorem complLabels_nil (n : Nat) : complLabels [] n = List.range n := by
  simp [complLabels]

theorem sortedLabels_nil (n : Nat) : sortedLabels [] n = [] := by
  simp [sortedLabels]

theorem complLabels_range (n : Nat) : complLabels (List.range n) n = [] := by
  simp only [complLabels, List.filter_eq_nil_iff]
  intro l hl
  simp [List.mem_range.mp hl]

theorem sortedLabels_range (n : Nat) : sortedLabels (List.range n) n = List.range n := by
  simp only [sortedLabels, List.filter_eq_self]
  intro l hl
  simp [List.mem_range.mp hl]

/-- The source index of `ptrace` when nothing is traced out. -/
theorem ptraceIdx_nil (dims : List Nat) (i : Nat) (hi : i < dims.prod) :
    ptraceIdx dims [] i 0 = i := by
  unfold ptraceIdx
  rw [complLabels_nil, sortedLabels_nil, List.append_nil]
  have : subDim dims [] = 1 := by simp [subDim]
  rw [this, Nat.mul_one, Nat.add_zero]
  exact permIdx_id _ _ _ (by rw [internal._suffix_prod_toCArr]; exact hi)

/-- The source index of `ptrace` when everything is traced out. -/
theorem ptraceIdx_range (dims : List Nat) (k : Nat) (hk : k < dims.prod) :
    ptraceIdx dims (List.range dims.length) 0 k = k := by
  unfold ptraceIdx
  rw [complLabels_range, sortedLabels_range, List.nil_append, Nat.zero_mul, Nat.zero_add]
  exact permIdx_id _ _ _ (by rw [internal._suffix_prod_toCArr]; exact hk)

/-- C18: degenerate partial trace, empty selection.  For every valid `dims` and
every square matrix `A` of size `prod(dims)`, `ptrace(A, [], dims)` does not fail
and returns `A`. -/
theorem ptrace_empty_selection {R : Type} [Semiring R] (A : Mat R) (dims : List Nat)
    (hne : dims ≠ []) (hpos : ∀ d ∈ dims, 1 ≤ d)
    (hr : A.rows = dims.prod) (hc : A.cols = dims.prod) :
    ∃ B, ptrace A [] dims = .ok B ∧ B.same A := by
  refine ⟨_, ptrace_eq A [] dims hne hpos hr hc (by simp) List.nodup_nil, ?_⟩
  have hS : subDim dims [] = 1 := by simp [subDim]
  have hrows : (ptraceMat A [] dims).rows = A.rows := by
    simp [ptraceMat, ptrace2Mat, hS]
  have hcols : (ptraceMat A [] dims).cols = A.rows := by
    simp [ptraceMat, ptrace2Mat, hS]
  refine ⟨hrows, by rw [hcols, hr, hc], ?_⟩
  intro i hi j hj
  rw [hrows] at hi
  rw [hcols] at hj
  rw [ptraceMat_data A [] dims hpos hr (by simp) List.nodup_nil i j
    (by rw [hS, Nat.div_one]; exact hi) (by rw [hS, Nat.div_one]; exact hj), hS,
    Finset.sum_range_one, ptraceIdx_nil dims i (hr ▸ hi), ptraceIdx_nil dims j (hr ▸ hj)]

theorem ptrace_empty_selection_witness :
    ∃ B, ptrace demoMat12 [] [2, 3, 2] = .ok B ∧ B.same demoMat12 :=
  ptrace_empty_selection demoMat12 [2, 3, 2] (by decide) (by decide) (by decide) (by decide)

/-- C19: degenerate partial trace, full selection.  For every valid `dims` with
`n` subsystems and every square matrix `A` of size `prod(dims)`,
`ptrace(A, [0, 1, ..., n-1], dims)` is the `1 x 1` matrix whose single entry is
`trace(A)`. -/
theorem ptrace_full_selection {R : Type} [Semiring R] (A : Mat R) (dims : List Nat)
    (hne : dims ≠ []) (hpos : ∀ d ∈ dims, 1 ≤ d)
    (hr : A.rows = dims.prod) (hc : A.cols = dims.prod) :
    ∃ B, ptrace A (List.range dims.length) dims = .ok B ∧ B.rows = 1 ∧ B.cols = 1 ∧
      B.data 0 0 = trace A := by
  have hsub : ∀ l ∈ List.range dims.length, l < dims.length := fun l hl => List.mem_range.mp hl
  have hnd := List.nodup_range dims.length
  refine ⟨_, ptrace_eq A _ dims hne hpos hr hc hsub hnd, ?_⟩
  have hS : subDim dims (List.range dims.length) = dims.prod := subDim_range dims
  have hD : 0 < dims.prod := by
    rw [← hS]; exact subDim_pos dims _ hpos hsub
  have hone : A.rows / subDim dims (List.range dims.length) = 1 := by
    rw [hS, hr]; exact Nat.div_self hD
  have hrows : (ptraceMat A (List.range dims.length) dims).rows = 1 := by
    simp only [ptraceMat, ptrace2Mat]; exact hone
  have hcols : (ptraceMat A (List.range dims.length) dims).cols = 1 := by
    simp only [ptraceMat, ptrace2Mat]; exact hone
  refine ⟨hrows, hcols, ?_⟩
  rw [ptraceMat_data A _ dims hpos hr hsub hnd 0 0 (by rw [hone]; exact Nat.one_pos)
    (by rw [hone]; exact Nat.one_pos), trace_eq_sum A (by rw [hr, hc]), hS, hr]
  apply Finset.sum_congr rfl
  intro k hk
  rw [ptraceIdx_range dims k (Finset.mem_range.mp hk)]

theorem ptrace_full_selection_witness :
    ∃ B, ptrace demoMat12 (List.range [2, 3, 2].length) [2, 3, 2] = .ok B ∧ B.rows = 1 ∧
      B.cols = 1 ∧ B.data 0 0 = trace demoMat12 :=
  ptrace_full_selection demoMat12 [2, 3, 2] (by decide) (by decide) (by decide) (by decide)

/-! ## The Kronecker product -/

/-- A loop of updates, seen from one cell: if exactly one member of the loop
touches the cell, the cell ends up with what that member stores there. -/
theorem foldl_update_hit {R ι : Type} (upd : Mat R → ι → Mat R) (x y : Nat) (touch : ι → Prop)
    (v : ι → R)
    (hupd : ∀ M t, (touch t → (upd M t).data x y = v t) ∧
      (¬ touch t → (upd M t).data x y = M.data x y))
    (l : List ι) (N : Mat R) (t : ι) (ht : t ∈ l) (htouch : touch t)
    (huniq : ∀ t2 ∈ l, touch t2 → t2 = t) :
    (l.foldl upd N).data x y = v t := by
  induction l using List.reverseRecOn with
  | nil => simp at ht
  | append_singleton l t0 ih =>
    rw [List.foldl_append, List.foldl_cons, List.foldl_nil]
    by_cases h0 : touch t0
    · rw [(hupd _ t0).1 h0, huniq t0 (by simp) h0]
    · rw [(hupd _ t0).2 h0]
      have hmem : t ∈ l := by
        rcases List.mem_append.mp ht with h | h
        · exact h
        · rw [List.mem_singleton] at h
          exact absurd (h ▸ htouch) h0
      exact ih hmem (fun t2 ht2 => huniq t2 (List.mem_append_left _ ht2))

theorem foldl_update_shape {R ι : Type} (upd : Mat R → ι → Mat R)
    (hupd : ∀ M t, (upd M t).rows = M.rows ∧ (upd M t).cols = M.cols)
    (l : List ι) (N : Mat R) :
    (l.foldl upd N).rows = N.rows ∧ (l.foldl upd N).cols = N.cols := by
  induction l generalizing N with
  | nil => exact ⟨rfl, rfl⟩
  | cons t l ih =>
    rw [List.foldl_cons]
    exact ⟨(ih _).1.trans (hupd N t).1, (ih _).2.trans (hupd N t).2⟩

/-- The shape of `kron(A, B)`. -/
theorem kron_shape {R : Type} [Semiring R] (A B : Mat R) :
    (kron A B).rows = A.rows * B.rows ∧ (kron A B).cols = A.cols * B.cols := by
  unfold kron
  simp only
  rw [foldl_nested (fun (M : Mat R) i j =>
    M.setBlock (i * B.rows) (j * B.cols) B.rows B.cols (Mat.smul (A.data i j) B))]
  exact foldl_update_shape
    (fun (M : Mat R) (p : Nat × Nat) =>
      M.setBlock (p.1 * B.rows) (p.2 * B.cols) B.rows B.cols (Mat.smul (A.data p.1 p.2) B))
    (fun M t => ⟨rfl, rfl⟩) _ (Mat.Zero (A.rows * B.rows) (A.cols * B.cols))

/-- The entries of `kron(A, B)`. -/
theorem kron_data {R : Type} [Semiring R] (A B : Mat R) (i j k l : Nat)
    (hi : i < A.rows) (hj : j < A.cols) (hk : k < B.rows) (hl : l < B.cols) :
    (kron A B).data (i * B.rows + k) (j * B.cols + l) = A.data i j * B.data k l := by
  unfold kron
  simp only
  rw [foldl_nested (fun (M : Mat R) i j =>
    M.setBlock (i * B.rows) (j * B.cols) B.rows B.cols (Mat.smul (A.data i j) B))]
  have key := foldl_update_hit
    (fun (M : Mat R) (p : Nat × Nat) =>
      M.setBlock (p.1 * B.rows) (p.2 * B.cols) B.rows B.cols (Mat.smul (A.data p.1 p.2) B))
    (i * B.rows + k) (j * B.cols + l)
    (fun p => p.1 = i ∧ p.2 = j)
    (fun p => A.data p.1 p.2 * B.data k l)
    (by
      intro M t
      constructor
      · rintro ⟨h1, h2⟩
        simp only [Mat.setBlock, Mat.smul, h1, h2]
        rw [if_pos ⟨by omega, by omega, by omega, by omega⟩]
        simp
      · intro hne
        simp only [Mat.setBlock]
        rw [if_neg]
        rintro ⟨h1, h2, h3, h4⟩
        apply hne
        constructor
        · have e1 : (i * B.rows + k) / B.rows = i := by
            rw [Nat.mul_comm, Nat.mul_add_div (by omega), Nat.div_eq_of_lt hk, Nat.add_zero]
          have e2 : (i * B.rows + k) / B.rows = t.1 := by
            apply Nat.div_eq_of_lt_le
            · exact h1
            · calc i * B.rows + k < t.1 * B.rows + B.rows := h2
                _ = (t.1 + 1) * B.rows := by ring
          omega
        · have e1 : (j * B.cols + l) / B.cols = j := by
            rw [Nat.mul_comm, Nat.mul_add_div (by omega), Nat.div_eq_of_lt hl, Nat.add_zero]
          have e2 : (j * B.cols + l) / B.cols = t.2 := by
            apply Nat.div_eq_of_lt_le
            · exact h3
            · calc j * B.cols + l < t.2 * B.cols + B.cols := h4
                _ = (t.2 + 1) * B.cols := by ring
          omega)
    (List.range A.rows ×ˢ List.range A.cols) (Mat.Zero (A.rows * B.rows) (A.cols * B.cols))
    (i, j) (List.mem_product.mpr ⟨List.mem_range.mpr hi, List.mem_range.mpr hj⟩) ⟨rfl, rfl⟩
    (fun t2 _ h => Prod.ext h.1 h.2)
  exact key

/-- The entries of `kron(A, B)`, by quotient and remainder of the cell. -/
theorem kron_data_div {R : Type} [Semiring R] (A B : Mat R) (x y : Nat)
    (hx : x < A.rows * B.rows) (hy : y < A.cols * B.cols) :
    (kron A B).data x y
      = A.data (x / B.rows) (y / B.cols) * B.data (x % B.rows) (y % B.cols) := by
  have hBr : 0 < B.rows := by
    rcases Nat.eq_zero_or_pos B.rows with h | h
    · rw [h] at hx; simp at hx
    · exact h
  have hBc : 0 < B.cols := by
    rcases Nat.eq_zero_or_pos B.cols with h | h
    · rw [h] at hy; simp at hy
    · exact h
  have := kron_data A B (x / B.rows) (y / B.cols) (x % B.rows) (y % B.cols)
    (Nat.div_lt_of_lt_mul (by rw [Nat.mul_comm]; exact hx))
    (Nat.div_lt_of_lt_mul (by rw [Nat.mul_comm]; exact hy))
    (Nat.mod_lt _ hBr) (Nat.mod_lt _ hBc)
  rw [Nat.div_add_mod' x B.rows, Nat.div_add_mod' y B.cols] at this
  exact this
/-! ## Two subsystems -/

theorem _suffix_prod_two_one (c : CArr) : internal._suffix_prod c 2 1 = c 1 := by
  simp [internal._suffix_prod, List.range_succ, List.filter_cons]

theorem _suffix_prod_two_zero (c : CArr) : internal._suffix_prod c 2 0 = c 0 * c 1 := by
  simp [internal._suffix_prod, List.range_succ, List.filter_cons]

theorem digit_two_zero (c : CArr) (x : Nat) : internal.digit c 2 x 0 = (x / c 1) % c 0 := by
  simp [internal.digit, _suffix_prod_two_one]

theorem digit_two_one (c : CArr) (x : Nat) : internal.digit c 2 x 1 = x % c 1 := by
  simp [internal.digit, internal._suffix_prod, List.range_succ, List.filter_cons]

theorem _multiidx2n_two (m c : CArr) : internal._multiidx2n m 2 c = m 0 * c 1 + m 1 := by
  simp [internal._multiidx2n, internal._suffix_prod, List.range_succ, List.filter_cons]
theorem toCArr_pair (a b : Nat) : toCArr [a, b] 0 = a ∧ toCArr [a, b] 1 = b := by
  simp [toCArr]

/-- The source index of `ptrace` for two subsystems, the second traced out. -/
theorem ptraceIdx_second (dA dB i k : Nat) (hi : i < dA) (hk : k < dB) :
    ptraceIdx [dA, dB] [1] i k = i * dB + k := by
  unfold ptraceIdx
  have e1 : complLabels [1] [dA, dB].length ++ sortedLabels [1] [dA, dB].length
      = List.range 2 := by
    show complLabels [1] 2 ++ sortedLabels [1] 2 = List.range 2
    decide
  have e2 : subDim [dA, dB] [1] = dB := by simp [subDim]
  rw [e1, e2]
  apply permIdx_id
  rw [_suffix_prod_two_zero, (toCArr_pair dA dB).1, (toCArr_pair dA dB).2]
  calc i * dB + k < i * dB + dB := by omega
    _ = (i + 1) * dB := by ring
    _ ≤ dA * dB := Nat.mul_le_mul_right _ hi

/-- The source index of `ptrace` for two subsystems, the first traced out. -/
theorem ptraceIdx_first (dA dB i k : Nat) (hi : i < dB) (hk : k < dA) :
    ptraceIdx [dA, dB] [0] i k = k * dB + i := by
  unfold ptraceIdx
  have e1 : complLabels [0] [dA, dB].length ++ sortedLabels [0] [dA, dB].length
      = [1, 0] := by
    show complLabels [0] 2 ++ sortedLabels [0] 2 = [1, 0]
    decide
  have e2 : subDim [dA, dB] [0] = dA := by simp [subDim]
  rw [e1, e2]
  have hb : IsBij (toCArr [1, 0]) 2 := IsBij_of_check [1, 0] (by decide) (by decide)
  have hx : i * dA + k < internal._suffix_prod (toCArr [dA, dB]) 2 0 := by
    rw [_suffix_prod_two_zero, (toCArr_pair dA dB).1, (toCArr_pair dA dB).2]
    calc i * dA + k < i * dA + dA := by omega
      _ = dA * (i + 1) := by ring
      _ ≤ dA * dB := Nat.mul_le_mul_left _ hi
  have hy : k * dB + i < internal._suffix_prod (toCArr [dA, dB]) 2 0 := by
    rw [_suffix_prod_two_zero, (toCArr_pair dA dB).1, (toCArr_pair dA dB).2]
    calc k * dB + i < k * dB + dB := by omega
      _ = (k + 1) * dB := by ring
      _ ≤ dA * dB := Nat.mul_le_mul_right _ hk
  obtain ⟨hX, hdig⟩ := permIdx_spec (toCArr [dA, dB]) (toCArr [1, 0]) 2 (i * dA + k) hb hx
  have h0 := hdig 0 (by omega)
  have h1 := hdig 1 (by omega)
  have p0 : toCArr [1, 0] 0 = 1 := by simp [toCArr]
  have p1 : toCArr [1, 0] 1 = 0 := by simp [toCArr]
  rw [p0, digit_two_zero, p1, p0, (toCArr_pair dA dB).1, (toCArr_pair dA dB).2] at h0
  rw [p1, digit_two_one, p1, (toCArr_pair dA dB).1] at h1
  have hdA : 0 < dA := by omega
  have hdB : 0 < dB := by omega
  have q0 : (i * dA + k) / dA % dB = i := by
    rw [Nat.mul_comm, Nat.mul_add_div hdA, Nat.div_eq_of_lt hk, Nat.add_zero, Nat.mod_eq_of_lt hi]
  have q1 : (i * dA + k) % dA = k := by
    rw [Nat.mul_comm, Nat.mul_add_mod, Nat.mod_eq_of_lt hk]
  rw [q0] at h0
  rw [q1] at h1
  apply eq_of_digit_eq (toCArr [dA, dB]) 2 _ _ hX hy
  intro l hl
  have hl2 : l = 0 ∨ l = 1 := by omega
  rcases hl2 with rfl | rfl
  · rw [h1, digit_two_zero, (toCArr_pair dA dB).1, (toCArr_pair dA dB).2, Nat.mul_comm,
      Nat.mul_add_div hdB, Nat.div_eq_of_lt hi, Nat.add_zero, Nat.mod_eq_of_lt hk]
  · rw [h0, digit_two_one, (toCArr_pair dA dB).2, Nat.mul_comm, Nat.mul_add_mod,
      Nat.mod_eq_of_lt hi]
theorem ptrace_kron_second {R : Type} [CommSemiring R] (A B : Mat R)
    (hA : A.rows = A.cols) (hB : B.rows = B.cols) (hA0 : 0 < A.rows) (hB0 : 0 < B.rows) :
    ∃ P, ptrace (kron A B) [1] [A.rows, B.rows] = .ok P ∧ P.same (Mat.smul (trace B) A) := by
  have hpos : ∀ d ∈ [A.rows, B.rows], 1 ≤ d := by
    intro d hd
    simp only [List.mem_cons, List.mem_singleton, List.not_mem_nil, or_false] at hd
    rcases hd with rfl | rfl <;> omega
  have hr : (kron A B).rows = [A.rows, B.rows].prod := by simp [(kron_shape A B).1]
  have hc : (kron A B).cols = [A.rows, B.rows].prod := by simp [(kron_shape A B).2, ← hA, ← hB]
  have hsub : ∀ l ∈ [1], l < [A.rows, B.rows].length := by simp
  have hnd : [1].Nodup := by simp
  have hS : subDim [A.rows, B.rows] [1] = B.rows := by simp [subDim]
  have hdiv : (kron A B).rows / subDim [A.rows, B.rows] [1] = A.rows := by
    rw [hS, (kron_shape A B).1]
    exact Nat.mul_div_cancel _ hB0
  refine ⟨_, ptrace_eq _ _ _ (by simp) hpos hr hc hsub hnd, ?_⟩
  have hrows : (ptraceMat (kron A B) [1] [A.rows, B.rows]).rows = A.rows := hdiv
  have hcols : (ptraceMat (kron A B) [1] [A.rows, B.rows]).cols = A.rows := hdiv
  refine ⟨hrows, hcols.trans hA, ?_⟩
  intro i hi j hj
  rw [hrows] at hi
  rw [hcols] at hj
  rw [ptraceMat_data _ _ _ hpos hr hsub hnd i j (by rw [hdiv]; exact hi) (by rw [hdiv]; exact hj),
    hS]
  show _ = trace B * A.data i j
  rw [trace_eq_sum B hB, Finset.sum_mul]
  apply Finset.sum_congr rfl
  intro k hk
  have hk2 := Finset.mem_range.mp hk
  rw [ptraceIdx_second _ _ i k hi hk2, ptraceIdx_second _ _ j k hj hk2]
  have := kron_data A B i j k k hi (hA ▸ hj) hk2 (hB ▸ hk2)
  rw [← hB] at this
  rw [this, mul_comm]

theorem ptrace_kron_first {R : Type} [CommSemiring R] (A B : Mat R)
    (hA : A.rows = A.cols) (hB : B.rows = B.cols) (hA0 : 0 < A.rows) (hB0 : 0 < B.rows) :
    ∃ Q, ptrace (kron A B) [0] [A.rows, B.rows] = .ok Q ∧ Q.same (Mat.smul (trace A) B) := by
  have hpos : ∀ d ∈ [A.rows, B.rows], 1 ≤ d := by
    intro d hd
    simp only [List.mem_cons, List.mem_singleton, List.not_mem_nil, or_false] at hd
    rcases hd with rfl | rfl <;> omega
  have hr : (kron A B).rows = [A.rows, B.rows].prod := by simp [(kron_shape A B).1]
  have hc : (kron A B).cols = [A.rows, B.rows].prod := by simp [(kron_shape A B).2, ← hA, ← hB]
  have hsub : ∀ l ∈ [0], l < [A.rows, B.rows].length := by simp
  have hnd : [0].Nodup := by simp
  have hS : subDim [A.rows, B.rows] [0] = A.rows := by simp [subDim]
  have hdiv : (kron A B).rows / subDim [A.rows, B.rows] [0] = B.rows := by
    rw [hS, (kron_shape A B).1]
    exact Nat.mul_div_cancel_left _ hA0
  refine ⟨_, ptrace_eq _ _ _ (by simp) hpos hr hc hsub hnd, ?_⟩
  have hrows : (ptraceMat (kron A B) [0] [A.rows, B.rows]).rows = B.rows := hdiv
  have hcols : (ptraceMat (kron A B) [0] [A.rows, B.rows]).cols = B.rows := hdiv
  refine ⟨hrows, hcols.trans hB, ?_⟩
  intro i hi j hj
  rw [hrows] at hi
  rw [hcols] at hj
  rw [ptraceMat_data _ _ _ hpos hr hsub hnd i j (by rw [hdiv]; exact hi) (by rw [hdiv]; exact hj),
    hS]
  show _ = trace A * B.data i j
  rw [trace_eq_sum A hA, Finset.sum_mul]
  apply Finset.sum_congr rfl
  intro k hk
  have hk2 := Finset.mem_range.mp hk
  rw [ptraceIdx_first _ _ i k hi hk2, ptraceIdx_first _ _ j k hj hk2]
  have := kron_data A B k k i j hk2 (hA ▸ hk2) hi (hB ▸ hj)
  rw [← hB] at this
  rw [this]

theorem ptrace_identity_six {R : Type} [CommSemiring R] :
    ∃ P, ptrace (Mat.Identity 6 : Mat R) [1] [2, 3] = .ok P ∧
      P.same (Mat.smul 3 (Mat.Identity 2)) := by
  have hpos : ∀ d ∈ [2, 3], 1 ≤ d := by decide
  have hsub : ∀ l ∈ [1], l < [2, 3].length := by decide
  have hnd : [1].Nodup := by decide
  refine ⟨_, ptrace_eq _ _ _ (by simp) hpos rfl rfl hsub hnd, ?_⟩
  have hS : subDim [2, 3] [1] = 3 := by decide
  have hrows : (ptraceMat (Mat.Identity 6 : Mat R) [1] [2, 3]).rows = 2 := by
    show 6 / subDim [2, 3] [1] = 2
    rw [hS]
  have hcols : (ptraceMat (Mat.Identity 6 : Mat R) [1] [2, 3]).cols = 2 := hrows
  refine ⟨hrows, hcols, ?_⟩
  intro i hi j hj
  have hi2 : i < 2 := hrows ▸ hi
  have hj2 : j < 2 := hcols ▸ hj
  have hdiv : (Mat.Identity 6 : Mat R).rows / subDim [2, 3] [1] = 2 := hrows
  rw [ptraceMat_data _ _ _ hpos rfl hsub hnd i j (by rw [hdiv]; exact hi2)
    (by rw [hdiv]; exact hj2), hS]
  have : ∀ k ∈ Finset.range 3,
      (Mat.Identity 6 : Mat R).data (ptraceIdx [2, 3] [1] i k) (ptraceIdx [2, 3] [1] j k)
        = if i = j then 1 else 0 := by
    intro k hk
    have hk2 := Finset.mem_range.mp hk
    rw [ptraceIdx_second 2 3 i k hi2 hk2, ptraceIdx_second 2 3 j k hj2 hk2]
    simp only [Mat.Identity]
    by_cases h : i = j
    · simp [h]
    · rw [if_neg h, if_neg (by omega)]
  rw [Finset.sum_congr rfl this]
  simp only [Mat.smul, Mat.Identity]
  by_cases h : i = j
  · simp [h]
  · simp [h]

/-- C16: partial trace of a product operator.  For every `dA x dA` matrix `A`
and `dB x dB` matrix `B` (`dA, dB ≥ 1`), `ptrace(kron(A, B), {1}, [dA, dB])`
is `trace(B) * A` and `ptrace(kron(A, B), {0}, [dA, dB])` is `trace(A) * B`; in
particular `ptrace(Identity(6), {1}, [2, 3])` is `3 * Identity(2)`. -/
theorem ptrace_of_kron {R : Type} [CommSemiring R] (A B : Mat R)
    (hA : A.rows = A.cols) (hB : B.rows = B.cols) (hA0 : 0 < A.rows) (hB0 : 0 < B.rows) :
    (∃ P, ptrace (kron A B) [1] [A.rows, B.rows] = .ok P ∧ P.same (Mat.smul (trace B) A)) ∧
    (∃ Q, ptrace (kron A B) [0] [A.rows, B.rows] = .ok Q ∧ Q.same (Mat.smul (trace A) B)) ∧
    (∃ P, ptrace (Mat.Identity 6 : Mat R) [1] [2, 3] = .ok P ∧
      P.same (Mat.smul 3 (Mat.Identity 2))) :=
  ⟨ptrace_kron_second A B hA hB hA0 hB0, ptrace_kron_first A B hA hB hA0 hB0,
    ptrace_identity_six⟩

theorem ptrace_of_kron_witness :
    (∃ P, ptrace (kron (demoMat 2) (demoMat 3)) [1] [(demoMat 2).rows, (demoMat 3).rows] = .ok P ∧
      P.same (Mat.smul (trace (demoMat 3)) (demoMat 2))) ∧
    (∃ Q, ptrace (kron (demoMat 2) (demoMat 3)) [0] [(demoMat 2).rows, (demoMat 3).rows] = .ok Q ∧
      Q.same (Mat.smul (trace (demoMat 2)) (demoMat 3))) ∧
    (∃ P, ptrace (Mat.Identity 6 : Mat Int) [1] [2, 3] = .ok P ∧
      P.same (Mat.smul 3 (Mat.Identity 2))) :=
  ptrace_of_kron (demoMat 2) (demoMat 3) (by decide) (by decide) (by decide) (by decide)

/-- The source row of `ptranspose` for two subsystems, the second transposed. -/
theorem ptIdx_second (dA dB i j : Nat) (hi : i < dA * dB) :
    ptIdx (toCArr [dA, dB]) (toCArr [1]) 2 1 i j = i / dB * dB + j % dB := by
  unfold ptIdx
  have c0 : ¬ ∃ k, k < 1 ∧ toCArr [1] k = 0 := by
    rintro ⟨k, hk, he⟩
    have : k = 0 := by omega
    subst this
    simp [toCArr] at he
  have c1 : ∃ k, k < 1 ∧ toCArr [1] k = 1 := ⟨0, by omega, by simp [toCArr]⟩
  rw [_multiidx2n_two, if_neg c0, if_pos c1, digit_two_zero, digit_two_one,
    (toCArr_pair dA dB).1, (toCArr_pair dA dB).2,
    Nat.mod_eq_of_lt (Nat.div_lt_of_lt_mul (by rw [Nat.mul_comm]; exact hi))]

/-- The source row of `ptranspose` for two subsystems, the first transposed. -/
theorem ptIdx_first (dA dB i j : Nat) (hj : j < dA * dB) :
    ptIdx (toCArr [dA, dB]) (toCArr [0]) 2 1 i j = j / dB * dB + i % dB := by
  unfold ptIdx
  have c0 : ∃ k, k < 1 ∧ toCArr [0] k = 0 := ⟨0, by omega, by simp [toCArr]⟩
  have c1 : ¬ ∃ k, k < 1 ∧ toCArr [0] k = 1 := by
    rintro ⟨k, hk, he⟩
    have : k = 0 := by omega
    subst this
    simp [toCArr] at he
  rw [_multiidx2n_two, if_pos c0, if_neg c1, digit_two_zero, digit_two_one,
    (toCArr_pair dA dB).1, (toCArr_pair dA dB).2,
    Nat.mod_eq_of_lt (Nat.div_lt_of_lt_mul (by rw [Nat.mul_comm]; exact hj))]

theorem div_mul_add_mod_lt (dA dB i j : Nat) (hi : i < dA * dB) :
    i / dB * dB + j % dB < dA * dB ∧ (i / dB * dB + j % dB) / dB = i / dB ∧
    (i / dB * dB + j % dB) % dB = j % dB := by
  have hdB : 0 < dB := by
    rcases Nat.eq_zero_or_pos dB with h | h
    · rw [h] at hi; simp at hi
    · exact h
  have h1 : i / dB < dA := Nat.div_lt_of_lt_mul (by rw [Nat.mul_comm]; exact hi)
  have h2 : j % dB < dB := Nat.mod_lt _ hdB
  refine ⟨?_, ?_, ?_⟩
  · calc i / dB * dB + j % dB < i / dB * dB + dB := by omega
      _ = (i / dB + 1) * dB := by ring
      _ ≤ dA * dB := Nat.mul_le_mul_right _ h1
  · rw [Nat.mul_comm, Nat.mul_add_div hdB, Nat.div_eq_of_lt h2, Nat.add_zero]
  · rw [Nat.mul_comm, Nat.mul_add_mod, Nat.mod_eq_of_lt h2]

theorem ptranspose_kron_second {R : Type} [Semiring R] (A B : Mat R)
    (hA : A.rows = A.cols) (hB : B.rows = B.cols) (hA0 : 0 < A.rows) (hB0 : 0 < B.rows) :
    ∃ P, ptranspose (kron A B) [1] [A.rows, B.rows] = .ok P ∧
      P.same (kron A (Mat.transpose B)) := by
  have hpos : ∀ d ∈ [A.rows, B.rows], 1 ≤ d := by
    intro d hd
    simp only [List.mem_cons, List.mem_singleton, List.not_mem_nil, or_false] at hd
    rcases hd with rfl | rfl <;> omega
  have hr : (kron A B).rows = [A.rows, B.rows].prod := by simp [(kron_shape A B).1]
  have hrc : (kron A B).rows = (kron A B).cols := by
    rw [(kron_shape A B).1, (kron_shape A B).2, ← hA, ← hB]
  refine ⟨_, ptranspose_eq _ _ _ hrc ((_check_dims_iff _).mpr ⟨by simp, hpos⟩) hr
    ((_check_subsys_iff _ _).mpr ⟨by simp, by simp⟩), ?_⟩
  have hT := kron_shape A (Mat.transpose B)
  refine ⟨?_, ?_, ?_⟩
  · show (kron A B).rows = _
    rw [hT.1, (kron_shape A B).1]
    show A.rows * B.rows = A.rows * B.cols
    rw [hB]
  · show (kron A B).cols = _
    rw [hT.2, (kron_shape A B).2]
    show A.cols * B.cols = A.cols * B.rows
    rw [hB]
  · intro i hi j hj
    have hi2 : i < A.rows * B.rows := (kron_shape A B).1 ▸ hi
    have hj2 : j < A.rows * B.rows := by
      have : j < (kron A B).cols := hj
      rw [← hrc, (kron_shape A B).1] at this
      exact this
    have hi3 : i < (kron A B).rows := hi
    have hj3 : j < (kron A B).rows := by rw [(kron_shape A B).1]; exact hj2
    simp only [ptransposeMat, hi3, hj3, and_self, if_true]
    show (kron A B).data (ptIdx (toCArr [A.rows, B.rows]) (toCArr [1]) 2 1 i j)
      (ptIdx (toCArr [A.rows, B.rows]) (toCArr [1]) 2 1 j i) = _
    rw [ptIdx_second _ _ i j hi2, ptIdx_second _ _ j i hj2]
    obtain ⟨a1, a2, a3⟩ := div_mul_add_mod_lt A.rows B.rows i j hi2
    obtain ⟨b1, b2, b3⟩ := div_mul_add_mod_lt A.rows B.rows j i hj2
    rw [kron_data_div A B _ _ a1 (by rw [← hA, ← hB]; exact b1),
      kron_data_div A (Mat.transpose B) i j
        (by show i < A.rows * B.cols; rw [← hB]; exact hi2)
        (by show j < A.cols * B.rows; rw [← hA]; exact hj2)]
    show _ = A.data (i / B.cols) (j / B.rows) * B.data (j % B.rows) (i % B.cols)
    rw [← hB, a2, a3, b2, b3]

theorem ptranspose_kron_first {R : Type} [Semiring R] (A B : Mat R)
    (hA : A.rows = A.cols) (hB : B.rows = B.cols) (hA0 : 0 < A.rows) (hB0 : 0 < B.rows) :
    ∃ P, ptranspose (kron A B) [0] [A.rows, B.rows] = .ok P ∧
      P.same (kron (Mat.transpose A) B) := by
  have hpos : ∀ d ∈ [A.rows, B.rows], 1 ≤ d := by
    intro d hd
    simp only [List.mem_cons, List.mem_singleton, List.not_mem_nil, or_false] at hd
    rcases hd with rfl | rfl <;> omega
  have hr : (kron A B).rows = [A.rows, B.rows].prod := by simp [(kron_shape A B).1]
  have hrc : (kron A B).rows = (kron A B).cols := by
    rw [(kron_shape A B).1, (kron_shape A B).2, ← hA, ← hB]
  refine ⟨_, ptranspose_eq _ _ _ hrc ((_check_dims_iff _).mpr ⟨by simp, hpos⟩) hr
    ((_check_subsys_iff _ _).mpr ⟨by simp, by simp⟩), ?_⟩
  have hT := kron_shape (Mat.transpose A) B
  refine ⟨?_, ?_, ?_⟩
  · show (kron A B).rows = _
    rw [hT.1, (kron_shape A B).1]
    show A.rows * B.rows = A.cols * B.rows
    rw [hA]
  · show (kron A B).cols = _
    rw [hT.2, (kron_shape A B).2]
    show A.cols * B.cols = A.rows * B.cols
    rw [hA]
  · intro i hi j hj
    have hi2 : i < A.rows * B.rows := (kron_shape A B).1 ▸ hi
    have hj2 : j < A.rows * B.rows := by
      have : j < (kron A B).cols := hj
      rw [← hrc, (kron_shape A B).1] at this
      exact this
    have hi3 : i < (kron A B).rows := hi
    have hj3 : j < (kron A B).rows := by rw [(kron_shape A B).1]; exact hj2
    simp only [ptransposeMat, hi3, hj3, and_self, if_true]
    show (kron A B).data (ptIdx (toCArr [A.rows, B.rows]) (toCArr [0]) 2 1 i j)
      (ptIdx (toCArr [A.rows, B.rows]) (toCArr [0]) 2 1 j i) = _
    rw [ptIdx_first _ _ i j hj2, ptIdx_first _ _ j i hi2]
    obtain ⟨a1, a2, a3⟩ := div_mul_add_mod_lt A.rows B.rows j i hj2
    obtain ⟨b1, b2, b3⟩ := div_mul_add_mod_lt A.rows B.rows i j hi2
    rw [kron_data_div A B _ _ a1 (by rw [← hA, ← hB]; exact b1),
      kron_data_div (Mat.transpose A) B i j
        (by show i < A.cols * B.rows; rw [← hA]; exact hi2)
        (by show j < A.rows * B.cols; rw [← hB]; exact hj2)]
    show _ = A.data (j / B.cols) (i / B.rows) * B.data (i % B.rows) (j % B.cols)
    rw [← hB, a2, a3, b2, b3]

/-- C17: partial transpose acts on the designated tensor factor only.  For
every `dA x dA` matrix `A` and `dB x dB` matrix `B` (`dA, dB ≥ 1`),
`ptranspose(kron(A, B), {1}, [dA, dB])` is `kron(A, transpose(B))` and
`ptranspose(kron(A, B), {0}, [dA, dB])` is `kron(transpose(A), B)`. -/
theorem ptranspose_of_kron {R : Type} [Semiring R] (A B : Mat R)
    (hA : A.rows = A.cols) (hB : B.rows = B.cols) (hA0 : 0 < A.rows) (hB0 : 0 < B.rows) :
    (∃ P, ptranspose (kron A B) [1] [A.rows, B.rows] = .ok P ∧
      P.same (kron A (Mat.transpose B))) ∧
    (∃ Q, ptranspose (kron A B) [0] [A.rows, B.rows] = .ok Q ∧
      Q.same (kron (Mat.transpose A) B)) :=
  ⟨ptranspose_kron_second A B hA hB hA0 hB0, ptranspose_kron_first A B hA hB hA0 hB0⟩

theorem ptranspose_of_kron_witness :
    (∃ P, ptranspose (kron (demoMat 2) (demoMat 3)) [1] [(demoMat 2).rows, (demoMat 3).rows]
        = .ok P ∧ P.same (kron (demoMat 2) (Mat.transpose (demoMat 3)))) ∧
    (∃ Q, ptranspose (kron (demoMat 2) (demoMat 3)) [0] [(demoMat 2).rows, (demoMat 3).rows]
        = .ok Q ∧ Q.same (kron (Mat.transpose (demoMat 2)) (demoMat 3))) :=
  ptranspose_of_kron (demoMat 2) (demoMat 3) (by decide) (by decide) (by decide) (by decide)

/-! ## `syspermute` on basis states -/

theorem permIdx_eq_iff (cdims cperm : CArr) (n : Nat) (hb : IsBij cperm n) (a x : Nat)
    (ha : a < internal._suffix_prod cdims n 0) (hx : x < internal._suffix_prod cdims n 0) :
    permIdx cdims cperm n a = x ↔ a = subIdx cdims cperm n n x := by
  have hfwd : ∀ a2, a2 < internal._suffix_prod cdims n 0 → permIdx cdims cperm n a2 = x →
      a2 = subIdx cdims cperm n n x := by
    intro a2 ha2 he
    symm
    apply subIdx_eq_of_digit
    · rw [hb.prod_comp]; exact ha2
    · intro t ht
      rw [← he]
      exact (permIdx_spec cdims cperm n a2 hb ha2).2 t ht
  constructor
  · exact hfwd a ha
  · intro he
    obtain ⟨a0, ha0, h0⟩ := (permIdx_isBij cdims cperm n hb).surj x hx
    rw [he, ← hfwd a0 ha0 h0]
    exact h0

theorem permutedIndex_eq_subIdx (dims perm : List Nat) (hp : ∀ l ∈ perm, l < dims.length)
    (hlen : perm.length = dims.length) (x : Nat) (hx : x < dims.prod) :
    permutedIndex dims perm x
      = subIdx (toCArr dims) (toCArr perm) dims.length dims.length x := by
  unfold permutedIndex subIdx
  simp only
  apply internal._multiidx2n_congr _ _ _ _ _ _ (fun _ _ => rfl)
  intro k hk
  rw [internal._n2multiidx_eq _ _ _ _ (by rw [internal._suffix_prod_toCArr]; exact hx)]
  have : toCArr perm k < dims.length := toCArr_lt_of_mem perm _ hp k (by omega)
  simp [this]

/-- What `syspermute` does to basis states: a basis column vector of length
above 1 is rejected, a basis matrix is mapped to a basis matrix. -/
theorem syspermute_basisMat {R : Type} [Semiring R] (dims perm : List Nat)
    (hne : dims ≠ []) (hpos : ∀ d ∈ dims, 1 ≤ d)
    (hlen : perm.length = dims.length) (hp : ∀ l ∈ perm, l < perm.length) (hnd : perm.Nodup)
    (x y : Nat) (hx : x < dims.prod) (hy : y < dims.prod) :
    permutedIndex dims perm x < dims.prod ∧
    ∃ B, syspermute (basisMat dims.prod x y : Mat R) perm dims = .ok B ∧
      B.same (basisMat dims.prod (permutedIndex dims perm x) (permutedIndex dims perm y)) := by
  have hb : IsBij (toCArr perm) dims.length := hlen ▸ IsBij_of_check perm hp hnd
  have hp2 : ∀ l ∈ perm, l < dims.length := fun l hl => hlen ▸ hp l hl
  have hP := internal._suffix_prod_toCArr dims
  have hlt : ∀ z, z < dims.prod → permutedIndex dims perm z < dims.prod := by
    intro z hz
    rw [permutedIndex_eq_subIdx dims perm hp2 hlen z hz]
    have := (subIdx_spec (toCArr dims) (toCArr perm) dims.length dims.length z hb.1
      (by rw [hP]; exact hz)).1
    rw [hb.prod_comp, hP] at this
    exact this
  refine ⟨hlt x hx, _, syspermute_eq _ perm dims rfl ((_check_dims_iff dims).mpr ⟨hne, hpos⟩) rfl
    ((_check_perm_iff perm dims).mpr ⟨hlen, hp, hnd⟩), rfl, rfl, ?_⟩
  intro a ha b hb2
  have ha2 : a < dims.prod := ha
  have hb3 : b < dims.prod := hb2
  simp only [syspermuteMat, basisMat, ha2, hb3, and_self, if_true]
  have e1 := permIdx_eq_iff (toCArr dims) (toCArr perm) dims.length hb a x
    (by rw [hP]; exact ha2) (by rw [hP]; exact hx)
  have e2 := permIdx_eq_iff (toCArr dims) (toCArr perm) dims.length hb b y
    (by rw [hP]; exact hb3) (by rw [hP]; exact hy)
  rw [← permutedIndex_eq_subIdx dims perm hp2 hlen x hx] at e1
  rw [← permutedIndex_eq_subIdx dims perm hp2 hlen y hy] at e2
  simp only [e1, e2]

theorem syspermute_ket_counterexample :
    syspermute (basisKet [2, 2].prod 2 : Mat Int) [1, 0] [2, 2]
      = .error "syspermute: Matrix must be square!" ∧
    ¬ ∃ B, syspermute (basisKet [2, 2].prod 2 : Mat Int) [1, 0] [2, 2] = .ok B ∧
      B.same (basisKet [2, 2].prod (permutedIndex [2, 2] [1, 0] 2)) := by
  have h : syspermute (basisKet [2, 2].prod 2 : Mat Int) [1, 0] [2, 2]
      = .error "syspermute: Matrix must be square!" := by
    have hsq : internal._check_square_mat (basisKet [2, 2].prod 2 : Mat Int) = false := by decide
    simp only [syspermute, hsq, Bool.not_false, if_true]
  refine ⟨h, ?_⟩
  rintro ⟨B, hB, _⟩
  rw [h] at hB
  cases hB

/-- C15 (amended): `syspermute` on basis states.  For every valid `dims` and
valid permutation `perm`, with `D = prod(dims)`: a basis column vector `e_x` of
length `D > 1` is rejected with the error "Matrix must be square" (the function
takes square matrices only); for the basis matrix `|e_x><e_y|` of size `D`,
`syspermute` succeeds and returns the basis matrix `|e_x'><e_y'|`, where `x'`
(below `D`) is the linear index, over the permuted dims, of the permuted
multi-index of `x`, and likewise `y'`; in particular for `dims = [2,2]` and
`perm = [1,0]` the matrix `|10><10|` (cell `(2,2)`) is mapped to `|01><01|`
(cell `(1,1)`). -/
theorem syspermute_basis {R : Type} [Semiring R] (dims perm : List Nat)
    (hne : dims ≠ []) (hpos : ∀ d ∈ dims, 1 ≤ d)
    (hlen : perm.length = dims.length) (hp : ∀ l ∈ perm, l < perm.length) (hnd : perm.Nodup)
    (x y : Nat) (hx : x < dims.prod) (hy : y < dims.prod) :
    (1 < dims.prod → syspermute (basisKet dims.prod x : Mat R) perm dims
      = .error "syspermute: Matrix must be square!") ∧
    (permutedIndex dims perm x < dims.prod ∧
      ∃ B, syspermute (basisMat dims.prod x y : Mat R) perm dims = .ok B ∧
        B.same (basisMat dims.prod (permutedIndex dims perm x) (permutedIndex dims perm y))) ∧
    ∃ B, syspermute (basisMat 4 2 2 : Mat R) [1, 0] [2, 2] = .ok B ∧ B.same (basisMat 4 1 1) := by
  refine ⟨?_, syspermute_basisMat dims perm hne hpos hlen hp hnd x y hx hy, ?_⟩
  · intro hD
    unfold syspermute
    have hsq : internal._check_square_mat (basisKet dims.prod x : Mat R) = false := by
      simp only [internal._check_square_mat, basisKet]
      rw [beq_eq_false_iff_ne]
      omega
    simp [hsq]
  · have h := (syspermute_basisMat (R := R) [2, 2] [1, 0] (by decide) (by decide) (by decide)
      (by decide) (by decide) 2 2 (by decide) (by decide)).2
    have e : permutedIndex [2, 2] [1, 0] 2 = 1 := by decide
    rw [e] at h
    exact h

theorem syspermute_basis_witness :
    (1 < [2, 3].prod → syspermute (basisKet [2, 3].prod 1 : Mat Int) [1, 0] [2, 3]
      = .error "syspermute: Matrix must be square!") ∧
    (permutedIndex [2, 3] [1, 0] 1 < [2, 3].prod ∧
      ∃ B, syspermute (basisMat [2, 3].prod 1 3 : Mat Int) [1, 0] [2, 3] = .ok B ∧
        B.same (basisMat [2, 3].prod (permutedIndex [2, 3] [1, 0] 1)
          (permutedIndex [2, 3] [1, 0] 3))) ∧
    ∃ B, syspermute (basisMat 4 2 2 : Mat Int) [1, 0] [2, 2] = .ok B ∧ B.same (basisMat 4 1 1) :=
  syspermute_basis [2, 3] [1, 0] (by decide) (by decide) (by decide) (by decide) (by decide)
    1 3 (by decide) (by decide)

/-! ## The matrix branch of `apply` -/

namespace obsolete

/-- One pass of the loop over `i` in the matrix branch of `apply`. -/
theorem apply_mat_body_spec {R : Type} [Semiring R] (rA rstate : Mat R) (n nA nA_bar : Nat)
    (su : ApplySetup) (inv : ApplyInv su n nA nA_bar) (a i : Nat) (ha : a < su.DA)
    (hi : i < su.DA_bar) (st : ApplyScratch × Mat R)
    (hst : ∀ u, u < nA → st.1.midx_row (su.CsubsysA u) = internal.digit su.CdimsA nA a u) :
    (∀ u, u < nA →
      ((List.range su.D).foldl
        (fun (s : ApplyScratch × Mat R) j =>
          ((apply_coeff rA rstate n nA su a j s.1).1,
            s.2.set (internal._multiidx2n (apply_complement nA_bar su i st.1).midx_row n su.Cdims)
              j (apply_coeff rA rstate n nA su a j s.1).2))
        (apply_complement nA_bar su i st.1, st.2)).1.midx_row (su.CsubsysA u)
        = internal.digit su.CdimsA nA a u) ∧
    ((List.range su.D).foldl
        (fun (s : ApplyScratch × Mat R) j =>
          ((apply_coeff rA rstate n nA su a j s.1).1,
            s.2.set (internal._multiidx2n (apply_complement nA_bar su i st.1).midx_row n su.Cdims)
              j (apply_coeff rA rstate n nA su a j s.1).2))
        (apply_complement nA_bar su i st.1, st.2)).2
      = (List.range su.D).foldl
          (fun M j => M.set (applyRow su n nA nA_bar a i) j
            (∑ c in Finset.range su.DA,
              rA.data a c * rstate.data (applyRow su n nA nA_bar c i) j)) st.2 := by
  have hrowA : ∀ u, u < nA → (apply_complement nA_bar su i st.1).midx_row (su.CsubsysA u)
      = internal.digit su.CdimsA nA a u := by
    intro u hu
    simp only [apply_complement]
    rw [CArr.scatter_of_not_mem _ _ _ _ _ (fun t ht => inv.disj t u ht hu)]
    exact hst u hu
  have hrowB : ∀ t, t < nA_bar → (apply_complement nA_bar su i st.1).midx_row
      (su.CsubsysA_bar t) = internal.digit su.CdimsA_bar nA_bar i t := by
    intro t ht
    simp only [apply_complement]
    rw [CArr.scatter_of_mem _ _ _ _ inv.injB t ht,
      internal._n2multiidx_eq _ _ _ _ (inv.hDB ▸ hi)]
    simp [ht]
  have hrhoB : ∀ t, t < nA_bar → (apply_complement nA_bar su i st.1).midx_rho_row
      (su.CsubsysA_bar t) = internal.digit su.CdimsA_bar nA_bar i t := by
    intro t ht
    simp only [apply_complement]
    rw [CArr.scatter_of_mem _ _ _ _ inv.injB t ht,
      internal._n2multiidx_eq _ _ _ _ (inv.hDB ▸ hi)]
    simp [ht]
  have henc := enc_eq_applyRow su n nA nA_bar a i inv ha hi _ hrowA hrowB
  rw [henc]
  have hsim := foldl_simulation
    (fun (s : ApplyScratch × Mat R) j =>
      ((apply_coeff rA rstate n nA su a j s.1).1,
        s.2.set (applyRow su n nA nA_bar a i) j (apply_coeff rA rstate n nA su a j s.1).2))
    (fun (M : Mat R) j => M.set (applyRow su n nA nA_bar a i) j
      (∑ c in Finset.range su.DA, rA.data a c * rstate.data (applyRow su n nA nA_bar c i) j))
    (fun s => s.2)
    (fun s => s.1.midx_row = (apply_complement nA_bar su i st.1).midx_row ∧
      ∀ t, t < nA_bar →
        s.1.midx_rho_row (su.CsubsysA_bar t) = internal.digit su.CdimsA_bar nA_bar i t)
    (List.range su.D)
    (by
      intro s j _ hI
      obtain ⟨h1, h2, h3⟩ := apply_coeff_spec rA rstate n nA nA_bar su inv a j i hi s.1 hI.2
      refine ⟨⟨h1.trans hI.1, h2⟩, ?_⟩
      simp only
      rw [h3])
    (apply_complement nA_bar su i st.1, st.2) ⟨rfl, hrhoB⟩
  refine ⟨?_, hsim.2⟩
  intro u hu
  rw [hsim.1.1]
  exact hrowA u hu

/-- The loops of the matrix branch of `apply` store, for every `a`, `i` and
column `j` in turn, the coefficient sum at the cell `(applyRow su … a i, j)`. -/
theorem apply_mat_eq {R : Type} [Semiring R] (rA rstate : Mat R) (n nA nA_bar : Nat)
    (su : ApplySetup) (inv : ApplyInv su n nA nA_bar) (sc : ApplyScratch) (result : Mat R) :
    (apply_mat rA rstate n nA nA_bar su sc result).2
      = (List.range su.DA).foldl
          (fun M a => (List.range su.DA_bar).foldl
            (fun M i => (List.range su.D).foldl
              (fun M j => M.set (applyRow su n nA nA_bar a i) j
                (∑ c in Finset.range su.DA,
                  rA.data a c * rstate.data (applyRow su n nA nA_bar c i) j)) M) M)
          result := by
  have houter := foldl_simulation
    (fun (st : ApplyScratch × Mat R) a =>
      (List.range su.DA_bar).foldl
        (fun (st : ApplyScratch × Mat R) i =>
          (List.range su.D).foldl
            (fun (s : ApplyScratch × Mat R) j =>
              ((apply_coeff rA rstate n nA su a j s.1).1,
                s.2.set
                  (internal._multiidx2n (apply_complement nA_bar su i st.1).midx_row n su.Cdims)
                  j (apply_coeff rA rstate n nA su a j s.1).2))
            (apply_complement nA_bar su i st.1, st.2))
        (apply_subsys nA su a st.1, st.2))
    (fun (M : Mat R) a => (List.range su.DA_bar).foldl
      (fun M i => (List.range su.D).foldl
        (fun M j => M.set (applyRow su n nA nA_bar a i) j
          (∑ c in Finset.range su.DA,
            rA.data a c * rstate.data (applyRow su n nA nA_bar c i) j)) M) M)
    (fun st => st.2) (fun _ => True) (List.range su.DA)
    (by
      intro st a ha _
      have ha2 : a < su.DA := List.mem_range.mp ha
      refine ⟨trivial, ?_⟩
      have hinner := foldl_simulation
        (fun (st : ApplyScratch × Mat R) i =>
          (List.range su.D).foldl
            (fun (s : ApplyScratch × Mat R) j =>
              ((apply_coeff rA rstate n nA su a j s.1).1,
                s.2.set
                  (internal._multiidx2n (apply_complement nA_bar su i st.1).midx_row n su.Cdims)
                  j (apply_coeff rA rstate n nA su a j s.1).2))
            (apply_complement nA_bar su i st.1, st.2))
        (fun (M : Mat R) i => (List.range su.D).foldl
          (fun M j => M.set (applyRow su n nA nA_bar a i) j
            (∑ c in Finset.range su.DA,
              rA.data a c * rstate.data (applyRow su n nA nA_bar c i) j)) M)
        (fun st => st.2)
        (fun st => ∀ u, u < nA →
          st.1.midx_row (su.CsubsysA u) = internal.digit su.CdimsA nA a u)
        (List.range su.DA_bar)
        (by
          intro s i hi hI
          exact apply_mat_body_spec rA rstate n nA nA_bar su inv a i ha2 (List.mem_range.mp hi)
            s hI)
        (apply_subsys nA su a st.1, st.2)
        (by
          intro u hu
          simp only [apply_subsys]
          rw [CArr.scatter_of_mem _ _ _ _ inv.injA u hu,
            internal._n2multiidx_eq _ _ _ _ (inv.hDA ▸ ha2)]
          simp [hu])
      exact hinner.2)
    (sc, result) trivial
  exact houter.2

end obsolete
/-- A triply nested loop of stores at the cells `(pos a i, j)`, the rows
`pos a i` pairwise distinct: the shape is unchanged and the cell `(pos a i, j)`
ends up holding `val a i j`. -/
theorem foldl_set_scatter_cols {R : Type} (l1 l2 l3 : List Nat) (pos : Nat → Nat → Nat)
    (val : Nat → Nat → Nat → R) (M : Mat R)
    (hinj : ∀ a i a2 i2, a ∈ l1 → i ∈ l2 → a2 ∈ l1 → i2 ∈ l2 → pos a i = pos a2 i2 →
      a = a2 ∧ i = i2) :
    (l1.foldl (fun M a => l2.foldl (fun M i => l3.foldl
      (fun M j => M.set (pos a i) j (val a i j)) M) M) M).rows = M.rows ∧
    (l1.foldl (fun M a => l2.foldl (fun M i => l3.foldl
      (fun M j => M.set (pos a i) j (val a i j)) M) M) M).cols = M.cols ∧
    ∀ a i j, a ∈ l1 → i ∈ l2 → j ∈ l3 →
      (l1.foldl (fun M a => l2.foldl (fun M i => l3.foldl
        (fun M j => M.set (pos a i) j (val a i j)) M) M) M).data (pos a i) j = val a i j := by
  rw [foldl_nested (fun M a i => l3.foldl (fun M j => M.set (pos a i) j (val a i j)) M) l1 l2 M,
    foldl_nested (fun M (p : Nat × Nat) j => M.set (pos p.1 p.2) j (val p.1 p.2 j)) (l1 ×ˢ l2)
      l3 M]
  have hsh := foldl_set_shape (fun p : (Nat × Nat) × Nat => pos p.1.1 p.1.2) (fun p => p.2)
    (fun p => val p.1.1 p.1.2 p.2) ((l1 ×ˢ l2) ×ˢ l3) M
  refine ⟨hsh.1, hsh.2, ?_⟩
  intro a i j ha hi hj
  exact foldl_set_hit (fun p : (Nat × Nat) × Nat => pos p.1.1 p.1.2) (fun p => p.2)
    (fun p => val p.1.1 p.1.2 p.2) ((l1 ×ˢ l2) ×ˢ l3) M ((a, i), j)
    (List.mem_product.mpr ⟨List.mem_product.mpr ⟨ha, hi⟩, hj⟩)
    (fun p hp he hc => by
      obtain ⟨h12, _⟩ := List.mem_product.mp hp
      obtain ⟨h1, h2⟩ := List.mem_product.mp h12
      obtain ⟨e1, e2⟩ := hinj p.1.1 p.1.2 a i h1 h2 ha hi he
      exact Prod.ext (Prod.ext e1 e2) hc)

/-- Every index below `prod(dims)` is the full index of its complement part and
its subsystem part. -/
theorem fullIndex_subIdx (dims subsys : List Nat) (hpos : ∀ d ∈ dims, 1 ≤ d)
    (hsub : ∀ l ∈ subsys, l < dims.length) (hnd : subsys.Nodup) (x : Nat) (hx : x < dims.prod) :
    subIdx (toCArr dims) (toCArr subsys) subsys.length dims.length x < subDim dims subsys ∧
    subIdx (toCArr dims) (toCArr (complLabels subsys dims.length))
      (complLabels subsys dims.length).length dims.length x
      < subDim dims (complLabels subsys dims.length) ∧
    replaceIdx dims subsys x
      (subIdx (toCArr dims) (toCArr subsys) subsys.length dims.length x) = x := by
  have hperm := obsolete.compl_append_perm subsys dims.length hsub hnd
  have hlt : ∀ l ∈ complLabels subsys dims.length, l < dims.length :=
    fun l hl => List.mem_range.mp (List.mem_filter.mp hl).1
  have h1 := toCArr_lt_of_mem (complLabels subsys dims.length) dims.length hlt
  have h2 := toCArr_lt_of_mem subsys dims.length hsub
  have hx2 : x < internal._suffix_prod (toCArr dims) dims.length 0 := by
    rw [internal._suffix_prod_toCArr]; exact hx
  have s1 := (subIdx_spec (toCArr dims) (toCArr subsys) subsys.length dims.length x h2 hx2).1
  have s2 := (subIdx_spec (toCArr dims) (toCArr (complLabels subsys dims.length))
    (complLabels subsys dims.length).length dims.length x h1 hx2).1
  rw [← subDim_eq_suffix_prod] at s1 s2
  refine ⟨s1, s2, ?_⟩
  obtain ⟨e0, e1, e2⟩ := fullIndex_spec dims _ _ hpos hperm _ _ s2 s1
  exact eq_of_subIdx_eq (toCArr dims) (toCArr (complLabels subsys dims.length)) (toCArr subsys)
    _ _ dims.length _ _ h1 h2 (covers_of_perm _ _ _ hperm)
    (by rw [internal._suffix_prod_toCArr]; exact e0) hx2 e1 e2

/-- The index with the subsystem part replaced: in range, same complement part,
subsystem part `c`. -/
theorem replaceIdx_spec (dims subsys : List Nat) (hpos : ∀ d ∈ dims, 1 ≤ d)
    (hsub : ∀ l ∈ subsys, l < dims.length) (hnd : subsys.Nodup) (x c : Nat) (hx : x < dims.prod)
    (hc : c < subDim dims subsys) :
    replaceIdx dims subsys x c < dims.prod ∧
    subIdx (toCArr dims) (toCArr (complLabels subsys dims.length))
      (complLabels subsys dims.length).length dims.length (replaceIdx dims subsys x c)
      = subIdx (toCArr dims) (toCArr (complLabels subsys dims.length))
          (complLabels subsys dims.length).length dims.length x ∧
    subIdx (toCArr dims) (toCArr subsys) subsys.length dims.length (replaceIdx dims subsys x c)
      = c :=
  fullIndex_spec dims _ _ hpos (obsolete.compl_append_perm subsys dims.length hsub hnd) _ _
    (fullIndex_subIdx dims subsys hpos hsub hnd x hx).2.1 hc

/-- The result of `apply`, for a column vector or a square matrix state: it has
the shape of the state and the entries `applyEntry`. -/
theorem apply_closed {R : Type} [Semiring R] (state A : Mat R) (subsys dims : List Nat)
    (hne : dims ≠ []) (hpos : ∀ d ∈ dims, 1 ≤ d)
    (hsub : ∀ l ∈ subsys, l < dims.length) (hnd : subsys.Nodup)
    (hsr : state.rows = dims.prod) (hsc : state.cols = 1 ∨ state.cols = dims.prod)
    (hAr : A.rows = subDim dims subsys) (hAc : A.cols = subDim dims subsys) :
    ∃ res, obsolete.apply state A subsys dims = .ok res ∧
      res.rows = dims.prod ∧ res.cols = state.cols ∧
      ∀ x j, x < dims.prod → j < state.cols →
        res.data x j = applyEntry state A subsys dims x j := by
  obtain ⟨inv, hD, hDA, hDB, _⟩ := obsolete.apply_setup_spec subsys dims hpos hsub hnd
  have hS := subDim_pos dims subsys hpos hsub
  have hperm := obsolete.compl_append_perm subsys dims.length hsub hnd
  have hP : 0 < dims.prod := List.prod_pos (fun d hd => hpos d hd)
  have hfull : ∀ a i, a < subDim dims subsys →
      i < subDim dims (complLabels subsys dims.length) →
      applyRow (obsolete.apply_setup subsys dims).1 dims.length subsys.length
        (dims.length - subsys.length) a i
        = fullIndex dims (complLabels subsys dims.length) subsys i a :=
    fun a i ha hi => obsolete.applyRow_eq_fullIndex subsys dims hpos hsub hnd a i ha hi
  have hinj : ∀ a i a2 i2, a ∈ List.range (obsolete.apply_setup subsys dims).1.DA →
      i ∈ List.range (obsolete.apply_setup subsys dims).1.DA_bar →
      a2 ∈ List.range (obsolete.apply_setup subsys dims).1.DA →
      i2 ∈ List.range (obsolete.apply_setup subsys dims).1.DA_bar →
      applyRow (obsolete.apply_setup subsys dims).1 dims.length subsys.length
        (dims.length - subsys.length) a i
        = applyRow (obsolete.apply_setup subsys dims).1 dims.length subsys.length
          (dims.length - subsys.length) a2 i2 → a = a2 ∧ i = i2 := by
    intro a i a2 i2 ha hi ha2 hi2 he
    rw [List.mem_range, hDA] at ha ha2
    rw [List.mem_range, hDB] at hi hi2
    simp only [hfull a i ha hi, hfull a2 i2 ha2 hi2] at he
    obtain ⟨_, e1, e2⟩ := fullIndex_spec dims _ _ hpos hperm i a hi ha
    obtain ⟨_, e3, e4⟩ := fullIndex_spec dims _ _ hpos hperm i2 a2 hi2 ha2
    rw [he] at e1 e2
    exact ⟨e2.symm.trans e4, e1.symm.trans e3⟩
  have hS0 : subDim dims subsys ≠ 0 := by omega
  have hP0 : dims.prod ≠ 0 := by omega
  have hcols0 : state.cols ≠ 0 := by rcases hsc with h | h <;> omega
  have c1 : internal._check_nonzero_size A = true := by
    simp [internal._check_nonzero_size, hAr, hAc, hS0]
  have c2 : internal._check_nonzero_size state = true := by
    simp [internal._check_nonzero_size, hsr, hcols0, hP0]
  have c3 : internal._check_square_mat A = true := by
    rw [_check_square_mat_iff, hAr, hAc]
  have c4 := (_check_dims_iff dims).mpr ⟨hne, hpos⟩
  have c5 : internal._check_subsys_match_dims subsys dims = true :=
    (_check_subsys_iff subsys dims).mpr ⟨hsub, hnd⟩
  have c6 : (A.rows != (obsolete.apply_setup subsys dims).1.DA) = false := by
    rw [hDA, hAr]; simp
  have hval : ∀ x j, x < dims.prod →
      (∑ c in Finset.range (obsolete.apply_setup subsys dims).1.DA,
        A.data (subIdx (toCArr dims) (toCArr subsys) subsys.length dims.length x) c *
          state.data
            (applyRow (obsolete.apply_setup subsys dims).1 dims.length subsys.length
              (dims.length - subsys.length) c
              (subIdx (toCArr dims) (toCArr (complLabels subsys dims.length))
                (complLabels subsys dims.length).length dims.length x)) j)
        = applyEntry state A subsys dims x j := by
    intro x j hx
    obtain ⟨_, s2, _⟩ := fullIndex_subIdx dims subsys hpos hsub hnd x hx
    rw [hDA]
    unfold applyEntry
    apply Finset.sum_congr rfl
    intro c hc
    rw [hfull c _ (Finset.mem_range.mp hc) s2]
    rfl
  by_cases hk : state.cols = 1
  · have c7 : internal._check_col_vector state = true := by
      simp [internal._check_col_vector, hk]
    have c8 : internal._check_dims_match_cvect dims state = true := by
      simp [internal._check_dims_match_cvect, hsr]
    have hspec := foldl_set_scatter_prod
      (List.range (obsolete.apply_setup subsys dims).1.DA)
      (List.range (obsolete.apply_setup subsys dims).1.DA_bar)
      (fun a i => applyRow (obsolete.apply_setup subsys dims).1 dims.length subsys.length
        (dims.length - subsys.length) a i)
      (fun a i => ∑ c in Finset.range (obsolete.apply_setup subsys dims).1.DA,
        A.data a c * state.data
          (applyRow (obsolete.apply_setup subsys dims).1 dims.length subsys.length
            (dims.length - subsys.length) c i) 0)
      (Mat.Zero (obsolete.apply_setup subsys dims).1.D 1) 0 hinj
    have happly : obsolete.apply state A subsys dims = .ok
        ((List.range (obsolete.apply_setup subsys dims).1.DA).foldl
          (fun M a => (List.range (obsolete.apply_setup subsys dims).1.DA_bar).foldl
            (fun M i => M.set
              (applyRow (obsolete.apply_setup subsys dims).1 dims.length subsys.length
                (dims.length - subsys.length) a i) 0
              (∑ c in Finset.range (obsolete.apply_setup subsys dims).1.DA,
                A.data a c * state.data
                  (applyRow (obsolete.apply_setup subsys dims).1 dims.length subsys.length
                    (dims.length - subsys.length) c i) 0)) M)
          (Mat.Zero (obsolete.apply_setup subsys dims).1.D 1)) := by
      unfold obsolete.apply
      simp only [c1, c2, c3, c4, c5, c6, c7, c8, Bool.not_true, Bool.false_eq_true, if_false,
        if_true]
      rw [obsolete.apply_ket_eq _ _ _ _ _ _ inv]
    refine ⟨_, happly, ?_, ?_, ?_⟩
    · rw [hspec.1]; exact hD
    · rw [hspec.2.1, hk]; rfl
    · intro x j hx hj
      have hj0 : j = 0 := by omega
      subst hj0
      obtain ⟨s1, s2, s3⟩ := fullIndex_subIdx dims subsys hpos hsub hnd x hx
      have := hspec.2.2 _ _ (by rw [List.mem_range, hDA]; exact s1)
        (by rw [List.mem_range, hDB]; exact s2)
      simp only [hfull _ _ s1 s2] at this
      have s3b : fullIndex dims (complLabels subsys dims.length) subsys
          (subIdx (toCArr dims) (toCArr (complLabels subsys dims.length))
            (complLabels subsys dims.length).length dims.length x)
          (subIdx (toCArr dims) (toCArr subsys) subsys.length dims.length x) = x := s3
      rw [s3b] at this
      rw [this]
      exact hval x 0 hx
  · have hkD : state.cols = dims.prod := by rcases hsc with h | h; exact absurd h hk; exact h
    have c7 : internal._check_col_vector state = false := by
      simp [internal._check_col_vector, hk]
    have c8 : internal._check_square_mat state = true := by
      rw [_check_square_mat_iff, hsr, hkD]
    have c9 : internal._check_dims_match_mat dims state = true :=
      (_check_dims_match_mat_iff dims state).mpr ⟨hsr, hkD⟩
    have hspec := foldl_set_scatter_cols
      (List.range (obsolete.apply_setup subsys dims).1.DA)
      (List.range (obsolete.apply_setup subsys dims).1.DA_bar)
      (List.range (obsolete.apply_setup subsys dims).1.D)
      (fun a i => applyRow (obsolete.apply_setup subsys dims).1 dims.length subsys.length
        (dims.length - subsys.length) a i)
      (fun a i j => ∑ c in Finset.range (obsolete.apply_setup subsys dims).1.DA,
        A.data a c * state.data
          (applyRow (obsolete.apply_setup subsys dims).1 dims.length subsys.length
            (dims.length - subsys.length) c i) j)
      (Mat.Zero (obsolete.apply_setup subsys dims).1.D (obsolete.apply_setup subsys dims).1.D)
      hinj
    have happly : obsolete.apply state A subsys dims = .ok
        ((List.range (obsolete.apply_setup subsys dims).1.DA).foldl
          (fun M a => (List.range (obsolete.apply_setup subsys dims).1.DA_bar).foldl
            (fun M i => (List.range (obsolete.apply_setup subsys dims).1.D).foldl
              (fun M j => M.set
                (applyRow (obsolete.apply_setup subsys dims).1 dims.length subsys.length
                  (dims.length - subsys.length) a i) j
                (∑ c in Finset.range (obsolete.apply_setup subsys dims).1.DA,
                  A.data a c * state.data
                    (applyRow (obsolete.apply_setup subsys dims).1 dims.length subsys.length
                      (dims.length - subsys.length) c i) j)) M) M)
          (Mat.Zero (obsolete.apply_setup subsys dims).1.D
            (obsolete.apply_setup subsys dims).1.D)) := by
      unfold obsolete.apply
      simp only [c1, c2, c3, c4, c5, c6, c7, c8, c9, Bool.not_true, Bool.false_eq_true, if_false,
        if_true]
      rw [obsolete.apply_mat_eq _ _ _ _ _ _ inv]
    refine ⟨_, happly, ?_, ?_, ?_⟩
    · rw [hspec.1]; exact hD
    · rw [hspec.2.1, hkD]; exact hD
    · intro x j hx hj
      obtain ⟨s1, s2, s3⟩ := fullIndex_subIdx dims subsys hpos hsub hnd x hx
      have := hspec.2.2 _ _ j (by rw [List.mem_range, hDA]; exact s1)
        (by rw [List.mem_range, hDB]; exact s2) (by rw [List.mem_range, hD, ← hkD]; exact hj)
      simp only [hfull _ _ s1 s2] at this
      have s3b : fullIndex dims (complLabels subsys dims.length) subsys
          (subIdx (toCArr dims) (toCArr (complLabels subsys dims.length))
            (complLabels subsys dims.length).length dims.length x)
          (subIdx (toCArr dims) (toCArr subsys) subsys.length dims.length x) = x := s3
      rw [s3b] at this
      rw [this]
      exact hval x j hx

/-- C12: local-operator unit case.  For every valid `dims` and `subsys` and
every state (a column vector of length `prod(dims)` or a square matrix of size
`prod(dims)`), `apply(state, Identity(Dsub), subsys, dims)` succeeds and returns
the state, `Dsub` the product of `dims[s]` over `s` in `subsys`. -/
theorem apply_identity {R : Type} [Semiring R] (state : Mat R) (subsys dims : List Nat)
    (hne : dims ≠ []) (hpos : ∀ d ∈ dims, 1 ≤ d)
    (hsub : ∀ l ∈ subsys, l < dims.length) (hnd : subsys.Nodup)
    (hsr : state.rows = dims.prod) (hsc : state.cols = 1 ∨ state.cols = dims.prod) :
    ∃ res, obsolete.apply state (Mat.Identity (subDim dims subsys)) subsys dims = .ok res ∧
      res.same state := by
  obtain ⟨res, hres, hr, hc, hdata⟩ := apply_closed state (Mat.Identity (subDim dims subsys))
    subsys dims hne hpos hsub hnd hsr hsc rfl rfl
  refine ⟨res, hres, hr.trans hsr.symm, hc, ?_⟩
  intro x hx j hj
  rw [hr] at hx
  rw [hc] at hj
  rw [hdata x j hx hj]
  obtain ⟨s1, _, s3⟩ := fullIndex_subIdx dims subsys hpos hsub hnd x hx
  unfold applyEntry
  rw [Finset.sum_eq_single
    (subIdx (toCArr dims) (toCArr subsys) subsys.length dims.length x)]
  · simp only [Mat.Identity, if_true, one_mul]
    rw [s3]
  · intro c _ hne2
    simp only [Mat.Identity]
    rw [if_neg (fun h => hne2 h.symm), zero_mul]
  · intro h
    exact absurd (Finset.mem_range.mpr s1) h

theorem apply_identity_witness :
    (∃ res, obsolete.apply (demoVec 12) (Mat.Identity (subDim [2, 3, 2] [2, 0])) [2, 0] [2, 3, 2]
      = .ok res ∧ res.same (demoVec 12)) ∧
    (∃ res, obsolete.apply demoMat12 (Mat.Identity (subDim [2, 3, 2] [2, 0])) [2, 0] [2, 3, 2]
      = .ok res ∧ res.same demoMat12) :=
  ⟨apply_identity (demoVec 12) [2, 0] [2, 3, 2] (by decide) (by decide) (by decide) (by decide)
      (by decide) (Or.inl (by decide)),
   apply_identity demoMat12 [2, 0] [2, 3, 2] (by decide) (by decide) (by decide) (by decide)
      (by decide) (Or.inr (by decide))⟩

/-- C20: `apply` on a square-matrix state works column by column.  For every
valid `dims` and `subsys`, every square state `M` of size `prod(dims)`, every
gate `A` of matching size and every column `j`, both applications succeed and
column `j` of `apply(M, A, subsys, dims)` is `apply(column j of M, A, subsys,
dims)`. -/
theorem apply_column_by_column {R : Type} [Semiring R] (M A : Mat R) (subsys dims : List Nat)
    (hne : dims ≠ []) (hpos : ∀ d ∈ dims, 1 ≤ d)
    (hsub : ∀ l ∈ subsys, l < dims.length) (hnd : subsys.Nodup)
    (hMr : M.rows = dims.prod) (hMc : M.cols = dims.prod)
    (hAr : A.rows = subDim dims subsys) (hAc : A.cols = subDim dims subsys)
    (j : Nat) (hj : j < dims.prod) :
    ∃ res resj, obsolete.apply M A subsys dims = .ok res ∧
      obsolete.apply (Mat.col M j) A subsys dims = .ok resj ∧ (Mat.col res j).same resj := by
  obtain ⟨res, hres, hr, _, hdata⟩ := apply_closed M A subsys dims hne hpos hsub hnd hMr
    (Or.inr hMc) hAr hAc
  obtain ⟨resj, hresj, hrj, hcj, hdataj⟩ := apply_closed (Mat.col M j) A subsys dims hne hpos
    hsub hnd hMr (Or.inl rfl) hAr hAc
  refine ⟨res, resj, hres, hresj, ?_, ?_, ?_⟩
  · show res.rows = resj.rows
    rw [hr, hrj]
  · show 1 = resj.cols
    rw [hcj]; rfl
  · intro x hx k hk
    have hx2 : x < dims.prod := by
      have : x < res.rows := hx
      rw [hr] at this; exact this
    have hk0 : k = 0 := by
      have : k < 1 := hk
      omega
    subst hk0
    show res.data x j = resj.data x 0
    rw [hdata x j hx2 (by rw [hMc]; exact hj), hdataj x 0 hx2 (by show 0 < 1; omega)]
    rfl

theorem apply_column_by_column_witness :
    ∃ res resj, obsolete.apply demoMat12 (demoMat 4) [2, 0] [2, 3, 2] = .ok res ∧
      obsolete.apply (Mat.col demoMat12 7) (demoMat 4) [2, 0] [2, 3, 2] = .ok resj ∧
      (Mat.col res 7).same resj :=
  apply_column_by_column demoMat12 (demoMat 4) [2, 0] [2, 3, 2] (by decide) (by decide)
    (by decide) (by decide) (by decide) (by decide) (by decide) (by decide) 7 (by decide)

/-! ## A gate on a single subsystem -/

/-- The digits of `(m * d + c) * DR + r`, `d` the dimension at `pos` and `DR` the
product of the dimensions after `pos`: the digits of `m` before `pos`, `c` at
`pos`, the digits of `r` after `pos`. -/
theorem digit_single (cd : CArr) (pos n2 m c r : Nat) (hc : c < cd pos)
    (hr : r < internal._suffix_prod (fun t => cd (pos + 1 + t)) n2 0) :
    internal.digit cd (pos + 1 + n2)
      ((m * cd pos + c) * internal._suffix_prod (fun t => cd (pos + 1 + t)) n2 0 + r) pos = c ∧
    (∀ l, l < pos → internal.digit cd (pos + 1 + n2)
      ((m * cd pos + c) * internal._suffix_prod (fun t => cd (pos + 1 + t)) n2 0 + r) l
        = internal.digit cd pos m l) ∧
    (∀ u, u < n2 → internal.digit cd (pos + 1 + n2)
      ((m * cd pos + c) * internal._suffix_prod (fun t => cd (pos + 1 + t)) n2 0 + r)
        (pos + 1 + u) = internal.digit (fun t => cd (pos + 1 + t)) n2 r u) := by
  obtain ⟨h1, h2⟩ := digit_add cd (pos + 1) n2 (m * cd pos + c) r hr
  have hd : 0 < cd pos := by omega
  refine ⟨?_, ?_, h2⟩
  · rw [h1 pos (by omega), internal.digit_succ_last, Nat.mul_comm, Nat.mul_add_mod,
      Nat.mod_eq_of_lt hc]
  · intro l hl
    rw [h1 l (by omega), internal.digit_succ_of_lt _ _ _ _ hl, Nat.mul_comm,
      Nat.mul_add_div hd, Nat.div_eq_of_lt hc, Nat.add_zero]

/-- Every index below the total dimension splits as `(m * d + c) * DR + r`. -/
theorem split_single (cd : CArr) (pos n2 x : Nat)
    (hx : x < internal._suffix_prod cd (pos + 1 + n2) 0) :
    x / internal._suffix_prod (fun t => cd (pos + 1 + t)) n2 0 / cd pos
      < internal._suffix_prod cd pos 0 ∧
    x / internal._suffix_prod (fun t => cd (pos + 1 + t)) n2 0 % cd pos < cd pos ∧
    x % internal._suffix_prod (fun t => cd (pos + 1 + t)) n2 0
      < internal._suffix_prod (fun t => cd (pos + 1 + t)) n2 0 ∧
    (x / internal._suffix_prod (fun t => cd (pos + 1 + t)) n2 0 / cd pos * cd pos
        + x / internal._suffix_prod (fun t => cd (pos + 1 + t)) n2 0 % cd pos)
      * internal._suffix_prod (fun t => cd (pos + 1 + t)) n2 0
      + x % internal._suffix_prod (fun t => cd (pos + 1 + t)) n2 0 = x := by
  rw [_suffix_prod_add, internal._suffix_prod_succ _ _ _ (Nat.zero_le _)] at hx
  generalize internal._suffix_prod (fun t => cd (pos + 1 + t)) n2 0 = DR at hx ⊢
  generalize internal._suffix_prod cd pos 0 = PL at hx ⊢
  generalize cd pos = d at hx ⊢
  have hDR : 0 < DR := by
    rcases Nat.eq_zero_or_pos DR with h | h
    · rw [h] at hx; simp at hx
    · exact h
  have hd : 0 < d := by
    rcases Nat.eq_zero_or_pos d with h | h
    · rw [h] at hx; simp at hx
    · exact h
  have h1 : x / DR < PL * d := Nat.div_lt_of_lt_mul (by rw [Nat.mul_comm]; exact hx)
  refine ⟨Nat.div_lt_of_lt_mul (by rw [Nat.mul_comm]; exact h1), Nat.mod_lt _ hd,
    Nat.mod_lt _ hDR, ?_⟩
  rw [Nat.div_add_mod' (x / DR) d, Nat.div_add_mod' x DR]

/-- The index `(m * d + c) * DR + r` is below the total dimension. -/
theorem single_lt (cd : CArr) (pos n2 m c r : Nat) (hm : m < internal._suffix_prod cd pos 0)
    (hc : c < cd pos) (hr : r < internal._suffix_prod (fun t => cd (pos + 1 + t)) n2 0) :
    (m * cd pos + c) * internal._suffix_prod (fun t => cd (pos + 1 + t)) n2 0 + r
      < internal._suffix_prod cd (pos + 1 + n2) 0 := by
  rw [_suffix_prod_add, internal._suffix_prod_succ _ _ _ (Nat.zero_le _)]
  generalize internal._suffix_prod (fun t => cd (pos + 1 + t)) n2 0 = DR at hr ⊢
  generalize internal._suffix_prod cd pos 0 = PL at hm ⊢
  generalize cd pos = d at hc ⊢
  have h1 : m * d + c < PL * d := by
    calc m * d + c < m * d + d := by omega
      _ = (m + 1) * d := by ring
      _ ≤ PL * d := Nat.mul_le_mul_right _ hm
  calc (m * d + c) * DR + r < (m * d + c) * DR + DR := by omega
    _ = (m * d + c + 1) * DR := by ring
    _ ≤ PL * d * DR := Nat.mul_le_mul_right _ h1

theorem subIdx_single (cd : CArr) (pos n x : Nat) :
    subIdx cd (toCArr [pos]) 1 n x = internal.digit cd n x pos := by
  unfold subIdx
  rw [internal._multiidx2n_succ]
  simp [internal._multiidx2n, toCArr]
/-- Replacing the coordinate at `pos` leaves the other digits alone. -/
theorem digit_single_congr (cd : CArr) (pos n2 x c : Nat)
    (hx : x < internal._suffix_prod cd (pos + 1 + n2) 0) (hc : c < cd pos) (l : Nat)
    (hl : l < pos + 1 + n2) (hne : l ≠ pos) :
    internal.digit cd (pos + 1 + n2)
      ((x / internal._suffix_prod (fun t => cd (pos + 1 + t)) n2 0 / cd pos * cd pos + c)
        * internal._suffix_prod (fun t => cd (pos + 1 + t)) n2 0
        + x % internal._suffix_prod (fun t => cd (pos + 1 + t)) n2 0) l
      = internal.digit cd (pos + 1 + n2) x l := by
  obtain ⟨_, s2, s3, s4⟩ := split_single cd pos n2 x hx
  obtain ⟨_, a2, a3⟩ := digit_single cd pos n2
    (x / internal._suffix_prod (fun t => cd (pos + 1 + t)) n2 0 / cd pos) c
    (x % internal._suffix_prod (fun t => cd (pos + 1 + t)) n2 0) hc s3
  obtain ⟨_, b2, b3⟩ := digit_single cd pos n2
    (x / internal._suffix_prod (fun t => cd (pos + 1 + t)) n2 0 / cd pos)
    (x / internal._suffix_prod (fun t => cd (pos + 1 + t)) n2 0 % cd pos)
    (x % internal._suffix_prod (fun t => cd (pos + 1 + t)) n2 0) s2 s3
  rw [s4] at b2 b3
  rcases Nat.lt_or_gt_of_ne hne with h | h
  · rw [a2 l h, b2 l h]
  · obtain ⟨u, rfl⟩ : ∃ u, l = pos + 1 + u := ⟨l - pos - 1, by omega⟩
    rw [a3 u (by omega), b3 u (by omega)]

/-- For a single subsystem `pos`: the subsystem part of `x` and the index with
the subsystem part replaced, in the arithmetic of quotients and remainders. -/
theorem replaceIdx_single (dims : List Nat) (pos n2 : Nat) (hn : dims.length = pos + 1 + n2)
    (hpos : ∀ d ∈ dims, 1 ≤ d) (x c : Nat) (hx : x < dims.prod) (hc : c < toCArr dims pos) :
    subIdx (toCArr dims) (toCArr [pos]) 1 dims.length x
      = x / internal._suffix_prod (fun t => toCArr dims (pos + 1 + t)) n2 0 % toCArr dims pos ∧
    replaceIdx dims [pos] x c
      = (x / internal._suffix_prod (fun t => toCArr dims (pos + 1 + t)) n2 0 / toCArr dims pos
          * toCArr dims pos + c)
        * internal._suffix_prod (fun t => toCArr dims (pos + 1 + t)) n2 0
        + x % internal._suffix_prod (fun t => toCArr dims (pos + 1 + t)) n2 0 := by
  have hsub : ∀ l ∈ [pos], l < dims.length := by
    intro l hl
    rw [List.mem_singleton] at hl
    omega
  have hnd : [pos].Nodup := List.nodup_singleton pos
  have hP := internal._suffix_prod_toCArr dims
  have hx2 : x < internal._suffix_prod (toCArr dims) (pos + 1 + n2) 0 := by
    rw [← hn, hP]; exact hx
  obtain ⟨s1, s2, s3, s4⟩ := split_single (toCArr dims) pos n2 x hx2
  have hA : subIdx (toCArr dims) (toCArr [pos]) 1 dims.length x
      = x / internal._suffix_prod (fun t => toCArr dims (pos + 1 + t)) n2 0 % toCArr dims pos := by
    rw [subIdx_single, hn]
    have := (digit_single (toCArr dims) pos n2
      (x / internal._suffix_prod (fun t => toCArr dims (pos + 1 + t)) n2 0 / toCArr dims pos)
      _ _ s2 s3).1
    rw [s4] at this
    exact this
  refine ⟨hA, ?_⟩
  have hS : subDim dims [pos] = toCArr dims pos := by simp [subDim, toCArr]
  obtain ⟨r0, r1, r2⟩ := replaceIdx_spec dims [pos] hpos hsub hnd x c hx (by rw [hS]; exact hc)
  have hperm := obsolete.compl_append_perm [pos] dims.length hsub hnd
  have hlt : ∀ l ∈ complLabels [pos] dims.length, l < dims.length :=
    fun l hl => List.mem_range.mp (List.mem_filter.mp hl).1
  have h1 := toCArr_lt_of_mem (complLabels [pos] dims.length) dims.length hlt
  have h2 := toCArr_lt_of_mem [pos] dims.length hsub
  have hY := single_lt (toCArr dims) pos n2 _ c _ s1 hc s3
  apply eq_of_subIdx_eq (toCArr dims) (toCArr (complLabels [pos] dims.length)) (toCArr [pos])
    _ _ dims.length _ _ h1 h2 (covers_of_perm _ _ _ hperm) (by rw [hP]; exact r0)
    (by rw [hn]; exact hY)
  · rw [r1]
    unfold subIdx
    apply internal._multiidx2n_congr _ _ _ _ _ ?_ (fun _ _ => rfl)
    intro t ht
    have hmem : toCArr (complLabels [pos] dims.length) t ∈ complLabels [pos] dims.length :=
      toCArr_mem _ t ht
    have hne : toCArr (complLabels [pos] dims.length) t ≠ pos := by
      have := (mem_complLabels [pos] dims.length _).mp hmem
      intro he
      exact this.2 (by rw [he]; exact List.mem_singleton_self pos)
    have hl := hlt _ hmem
    rw [hn] at hl hne ⊢
    exact (digit_single_congr (toCArr dims) pos n2 x c hx2 hc _ hl hne).symm
  · rw [show subIdx (toCArr dims) (toCArr [pos]) [pos].length dims.length
        (replaceIdx dims [pos] x c) = c from r2]
    show c = subIdx (toCArr dims) (toCArr [pos]) 1 dims.length _
    rw [subIdx_single, hn]
    exact ((digit_single (toCArr dims) pos n2 _ c _ hc s3).1).symm
theorem single_parts (l d c DR r : Nat) (hc : c < d) (hr : r < DR) :
    ((l * d + c) * DR + r) / DR / d = l ∧ ((l * d + c) * DR + r) / DR % d = c ∧
    ((l * d + c) * DR + r) % DR = r := by
  have hd : 0 < d := by omega
  have hDR : 0 < DR := by omega
  have h1 : ((l * d + c) * DR + r) / DR = l * d + c := by
    rw [Nat.mul_comm, Nat.mul_add_div hDR, Nat.div_eq_of_lt hr, Nat.add_zero]
  refine ⟨?_, ?_, ?_⟩
  · rw [h1, Nat.mul_comm, Nat.mul_add_div hd, Nat.div_eq_of_lt hc, Nat.add_zero]
  · rw [h1, Nat.mul_comm, Nat.mul_add_mod, Nat.mod_eq_of_lt hc]
  · rw [Nat.mul_comm, Nat.mul_add_mod, Nat.mod_eq_of_lt hr]

/-- The entries of `kron(kron(Id_L, A), Id_R)`. -/
theorem embed_data {R : Type} [Semiring R] (A : Mat R) (DL DR x y : Nat)
    (hA : A.rows = A.cols) (hx : x < DL * A.rows * DR) (hy : y < DL * A.rows * DR) :
    (kron (kron (Mat.Identity DL) A) (Mat.Identity DR)).data x y
      = (if x / DR / A.rows = y / DR / A.rows then 1 else 0)
        * A.data (x / DR % A.rows) (y / DR % A.rows)
        * (if x % DR = y % DR then 1 else 0) := by
  have hs := kron_shape (Mat.Identity DL : Mat R) A
  have hDR : 0 < DR := by
    rcases Nat.eq_zero_or_pos DR with h | h
    · rw [h] at hx; simp at hx
    · exact h
  rw [kron_data_div _ _ x y (by rw [hs.1]; exact hx)
    (by rw [hs.2]; show y < DL * A.cols * DR; rw [← hA]; exact hy)]
  have hxd : x / DR < DL * A.rows := Nat.div_lt_of_lt_mul (by rw [Nat.mul_comm]; exact hx)
  have hyd : y / DR < DL * A.rows := Nat.div_lt_of_lt_mul (by rw [Nat.mul_comm]; exact hy)
  show (kron (Mat.Identity DL) A).data (x / DR) (y / DR) * (if x % DR = y % DR then 1 else 0) = _
  rw [kron_data_div _ _ _ _ hxd (by show y / DR < DL * A.cols; rw [← hA]; exact hyd)]
  rw [← hA]
  rfl

/-- The product of `kron(kron(Id_L, A), Id_R)` with a matrix, entry by entry. -/
theorem embed_mul {R : Type} [Semiring R] (A state : Mat R) (DL DR x j : Nat)
    (hA : A.rows = A.cols) (hx : x < DL * A.rows * DR) :
    (Mat.mul (kron (kron (Mat.Identity DL) A) (Mat.Identity DR)) state).data x j
      = ∑ c in Finset.range A.rows,
          A.data (x / DR % A.rows) c
            * state.data ((x / DR / A.rows * A.rows + c) * DR + x % DR) j := by
  have hDR : 0 < DR := by
    rcases Nat.eq_zero_or_pos DR with h | h
    · rw [h] at hx; simp at hx
    · exact h
  have hd : 0 < A.rows := by
    rcases Nat.eq_zero_or_pos A.rows with h | h
    · rw [h] at hx; simp at hx
    · exact h
  have hcols : (kron (kron (Mat.Identity DL) A) (Mat.Identity DR) : Mat R).cols
      = DL * A.rows * DR := by
    rw [(kron_shape _ _).2, (kron_shape _ _).2, ← hA]
    rfl
  have hl : x / DR / A.rows < DL :=
    Nat.div_lt_of_lt_mul (by
      rw [Nat.mul_comm]
      exact Nat.div_lt_of_lt_mul (by rw [Nat.mul_comm]; exact hx))
  have hr : x % DR < DR := Nat.mod_lt _ hDR
  have hY : ∀ c, c < A.rows → (x / DR / A.rows * A.rows + c) * DR + x % DR < DL * A.rows * DR := by
    intro c hc
    have h1 : x / DR / A.rows * A.rows + c < DL * A.rows := by
      calc x / DR / A.rows * A.rows + c < x / DR / A.rows * A.rows + A.rows := by omega
        _ = (x / DR / A.rows + 1) * A.rows := by ring
        _ ≤ DL * A.rows := Nat.mul_le_mul_right _ hl
    calc (x / DR / A.rows * A.rows + c) * DR + x % DR
        < (x / DR / A.rows * A.rows + c) * DR + DR := by omega
      _ = (x / DR / A.rows * A.rows + c + 1) * DR := by ring
      _ ≤ DL * A.rows * DR := Nat.mul_le_mul_right _ h1
  show ∑ y in Finset.range (kron (kron (Mat.Identity DL) A) (Mat.Identity DR) : Mat R).cols,
    (kron (kron (Mat.Identity DL) A) (Mat.Identity DR)).data x y * state.data y j = _
  rw [hcols]
  have step1 : ∀ c ∈ Finset.range A.rows,
      A.data (x / DR % A.rows) c * state.data ((x / DR / A.rows * A.rows + c) * DR + x % DR) j
        = ∑ y in Finset.range (DL * A.rows * DR),
            if y = (x / DR / A.rows * A.rows + c) * DR + x % DR
              then A.data (x / DR % A.rows) c * state.data y j else 0 := by
    intro c hc
    rw [Finset.sum_ite_eq', if_pos (Finset.mem_range.mpr (hY c (Finset.mem_range.mp hc)))]
  rw [Finset.sum_congr rfl step1, Finset.sum_comm]
  apply Finset.sum_congr rfl
  intro y hy
  have hy2 := Finset.mem_range.mp hy
  rw [embed_data A DL DR x y hA hx hy2]
  by_cases hLR : x / DR / A.rows = y / DR / A.rows ∧ x % DR = y % DR
  · rw [if_pos hLR.1, if_pos hLR.2, one_mul, mul_one]
    have hyeq : y = (x / DR / A.rows * A.rows + y / DR % A.rows) * DR + x % DR := by
      rw [hLR.1, hLR.2, Nat.div_add_mod' (y / DR) A.rows, Nat.div_add_mod' y DR]
    rw [Finset.sum_eq_single (y / DR % A.rows)]
    · rw [if_pos hyeq]
    · intro c hc hne
      rw [if_neg]
      intro he
      apply hne
      have := (single_parts (x / DR / A.rows) A.rows c DR (x % DR)
        (Finset.mem_range.mp hc) hr).2.1
      rw [← he] at this
      exact this.symm
    · intro h
      exact absurd (Finset.mem_range.mpr (Nat.mod_lt _ hd)) h
  · have hz : (if x / DR / A.rows = y / DR / A.rows then (1 : R) else 0)
        * A.data (x / DR % A.rows) (y / DR % A.rows) * (if x % DR = y % DR then 1 else 0) = 0 := by
      by_cases h1 : x / DR / A.rows = y / DR / A.rows
      · have h2 : ¬ x % DR = y % DR := fun h => hLR ⟨h1, h⟩
        rw [if_neg h2, mul_zero]
      · rw [if_neg h1, zero_mul, zero_mul]
    rw [hz, zero_mul]
    symm
    apply Finset.sum_eq_zero
    intro c hc
    rw [if_neg]
    intro he
    obtain ⟨p1, _, p3⟩ := single_parts (x / DR / A.rows) A.rows c DR (x % DR)
      (Finset.mem_range.mp hc) hr
    rw [← he] at p1 p3
    exact hLR ⟨p1.symm, p3.symm⟩
theorem prod_take_eq (dims : List Nat) (k : Nat) (hk : k ≤ dims.length) :
    (dims.take k).prod = internal._suffix_prod (toCArr dims) k 0 := by
  rw [← internal._suffix_prod_toCArr, List.length_take, Nat.min_eq_left hk]
  apply internal._suffix_prod_congr
  intro l hl
  simp [toCArr, List.getElem?_take, hl]

theorem prod_drop_eq (dims : List Nat) (k : Nat) :
    (dims.drop k).prod
      = internal._suffix_prod (fun t => toCArr dims (k + t)) (dims.length - k) 0 := by
  rw [← internal._suffix_prod_toCArr, List.length_drop]
  apply internal._suffix_prod_congr
  intro l _
  simp [toCArr, List.getElem?_drop]

theorem apply_bitflip_scenario {R : Type} [Semiring R] :
    ∃ res, obsolete.apply (basisKet 8 0 : Mat R) bitflipX [1] [2, 2, 2] = .ok res ∧
      res.same (basisKet 8 2) := by
  obtain ⟨res, hres, hr, hc, hdata⟩ := apply_closed (basisKet 8 0 : Mat R) bitflipX [1] [2, 2, 2]
    (by decide) (by decide) (by decide) (by decide) rfl (Or.inl rfl) rfl rfl
  refine ⟨res, hres, hr, hc, ?_⟩
  intro x hx j hj
  have hx8 : x < 8 := by rw [hr] at hx; exact hx
  have hj0 : j = 0 := by
    rw [hc] at hj
    have : j < 1 := hj
    omega
  subst hj0
  rw [hdata x 0 hx8 (by show 0 < 1; omega)]
  have key : ∀ x, x < 8 → ∀ c, c < 2 →
      subIdx (toCArr [2, 2, 2]) (toCArr [1]) 1 3 x = x / 2 % 2 ∧
      replaceIdx [2, 2, 2] [1] x c = (x / 2 / 2 * 2 + c) * 2 + x % 2 := by decide
  have hS : subDim [2, 2, 2] [1] = 2 := by decide
  unfold applyEntry
  rw [hS, Finset.sum_range_succ, Finset.sum_range_succ, Finset.sum_range_zero]
  show 0 + bitflipX.data (subIdx (toCArr [2, 2, 2]) (toCArr [1]) 1 3 x) 0
        * (basisKet 8 0 : Mat R).data (replaceIdx [2, 2, 2] [1] x 0) 0
      + bitflipX.data (subIdx (toCArr [2, 2, 2]) (toCArr [1]) 1 3 x) 1
        * (basisKet 8 0 : Mat R).data (replaceIdx [2, 2, 2] [1] x 1) 0 = _
  rw [(key x hx8 0 (by omega)).1, (key x hx8 0 (by omega)).2, (key x hx8 1 (by omega)).2]
  interval_cases x <;> simp [bitflipX, basisKet]

/-- C11: local operator as a Kronecker embedding.  For every dimension vector
`dims` (entries at least 1), every position `pos < dims.size()`, every
`dims[pos] x dims[pos]` matrix `A` and every column vector `state` of length
`prod(dims)`, `apply(state, A, {pos}, dims)` succeeds and is
`kron(Id_L, A, Id_R) * state`, with `Id_L`, `Id_R` the identities of dimension
`prod(dims[0..pos))` and `prod(dims(pos..end])`; in particular the bit-flip `X`
applied to subsystem 1 of `|000>` with `dims = [2,2,2]` gives `|010>`. -/
theorem apply_single_is_kron {R : Type} [Semiring R] (state A : Mat R) (dims : List Nat)
    (pos : Nat) (hp : pos < dims.length) (hpos : ∀ d ∈ dims, 1 ≤ d)
    (hAr : A.rows = dims.getD pos 0) (hAc : A.cols = dims.getD pos 0)
    (hsr : state.rows = dims.prod) (hsc : state.cols = 1) :
    (∃ res, obsolete.apply state A [pos] dims = .ok res ∧
      res.same (Mat.mul
        (kron (kron (Mat.Identity (dims.take pos).prod) A)
          (Mat.Identity (dims.drop (pos + 1)).prod)) state)) ∧
    (∃ res, obsolete.apply (basisKet 8 0 : Mat R) bitflipX [1] [2, 2, 2] = .ok res ∧
      res.same (basisKet 8 2)) := by
  refine ⟨?_, apply_bitflip_scenario⟩
  have hne : dims ≠ [] := by
    intro h
    rw [h] at hp
    simp at hp
  have hsub : ∀ l ∈ [pos], l < dims.length := by
    intro l hl
    rw [List.mem_singleton] at hl
    omega
  have hS : subDim dims [pos] = dims.getD pos 0 := by simp [subDim]
  obtain ⟨res, hres, hr, hc, hdata⟩ := apply_closed state A [pos] dims hne hpos hsub
    (List.nodup_singleton pos) hsr (Or.inl hsc) (by rw [hS]; exact hAr) (by rw [hS]; exact hAc)
  obtain ⟨n2, hn⟩ : ∃ n2, dims.length = pos + 1 + n2 := ⟨dims.length - pos - 1, by omega⟩
  have hL := prod_take_eq dims pos (by omega)
  have hR : (dims.drop (pos + 1)).prod
      = internal._suffix_prod (fun t => toCArr dims (pos + 1 + t)) n2 0 := by
    rw [prod_drop_eq, hn]
    congr 1
    omega
  have hD : dims.prod = (dims.take pos).prod * A.rows * (dims.drop (pos + 1)).prod := by
    rw [← internal._suffix_prod_toCArr, hn, _suffix_prod_add,
      internal._suffix_prod_succ _ _ _ (Nat.zero_le _), hL, hR, hAr]
    rfl
  have hrows : (Mat.mul
      (kron (kron (Mat.Identity (dims.take pos).prod) A)
        (Mat.Identity (dims.drop (pos + 1)).prod)) state).rows = dims.prod := by
    show (kron (kron (Mat.Identity (dims.take pos).prod) A)
      (Mat.Identity (dims.drop (pos + 1)).prod)).rows = _
    rw [(kron_shape _ _).1, (kron_shape _ _).1, hD]
    rfl
  refine ⟨res, hres, hr.trans hrows.symm, hc, ?_⟩
  intro x hx j hj
  rw [hr] at hx
  rw [hc] at hj
  rw [hdata x j hx hj, embed_mul A state _ _ x j (hAr.trans hAc.symm) (by rw [← hD]; exact hx)]
  unfold applyEntry
  rw [hS, ← hAr]
  apply Finset.sum_congr rfl
  intro c hc2
  have hc3 : c < toCArr dims pos := by
    have := Finset.mem_range.mp hc2
    rw [hAr] at this
    exact this
  obtain ⟨q1, q2⟩ := replaceIdx_single dims pos n2 hn hpos x c hx hc3
  have q1b : subIdx (toCArr dims) (toCArr [pos]) [pos].length dims.length x
      = x / internal._suffix_prod (fun t => toCArr dims (pos + 1 + t)) n2 0 % toCArr dims pos := q1
  rw [q1b, q2, hR, hAr]
  rfl

theorem apply_single_is_kron_witness :
    (∃ res, obsolete.apply (demoVec 12) (demoMat 3) [1] [2, 3, 2] = .ok res ∧
      res.same (Mat.mul
        (kron (kron (Mat.Identity ([2, 3, 2].take 1).prod) (demoMat 3))
          (Mat.Identity ([2, 3, 2].drop (1 + 1)).prod)) (demoVec 12))) ∧
    (∃ res, obsolete.apply (basisKet 8 0 : Mat Int) bitflipX [1] [2, 2, 2] = .ok res ∧
      res.same (basisKet 8 2)) :=
  apply_single_is_kron (demoVec 12) (demoMat 3) [2, 3, 2] 1 (by decide) (by decide) (by decide)
    (by decide) (by decide) (by decide)

/-! ## The loops of `channel` -/

theorem CArr.gather_eq (lab : CArr) (cnt : Nat) (src dst : CArr) (k : Nat) :
    CArr.gather lab cnt src dst k = if k < cnt then src (lab k) else dst k := by
  unfold CArr.gather
  induction cnt with
  | zero => simp
  | succ cnt ih =>
    rw [List.range_succ, List.foldl_append, List.foldl_cons, List.foldl_nil]
    simp only [CArr.write]
    by_cases hk : k = cnt
    · subst hk
      simp
    · rw [if_neg hk, ih]
      by_cases h2 : k < cnt
      · rw [if_pos h2, if_pos (by omega)]
      · rw [if_neg h2, if_neg (by omega)]

/-- The accumulation loop `acc += f k` from any start value. -/
theorem foldl_add_eq_add_sum {R : Type} [AddCommMonoid R] (f : Nat → R) (n : Nat) (acc : R) :
    (List.range n).foldl (fun acc k => acc + f k) acc = acc + ∑ k in Finset.range n, f k := by
  induction n with
  | zero => simp
  | succ n ih =>
    rw [List.range_succ, List.foldl_append, ih, Finset.sum_range_succ]
    simp [add_assoc]

namespace obsolete

/-- The body of the loop over `b` in `channel`. -/
theorem channel_term_spec {R : Type} [Semiring R] (sop rrho : Mat R) (n nA nA_bar : Nat)
    (su : ApplySetup) (inv : ApplyInv su n nA nA_bar) (a b iB jB : Nat)
    (ha : a < su.DA) (hb : b < su.DA) (hiB : iB < su.DA_bar) (hjB : jB < su.DA_bar)
    (st : ChannelScratch × R)
    (hrow : ∀ t, t < nA_bar → st.1.midxA_bar_row t = internal.digit su.CdimsA_bar nA_bar iB t)
    (hcol : ∀ t, t < nA_bar → st.1.midxA_bar_col t = internal.digit su.CdimsA_bar nA_bar jB t)
    (hrho : ∀ u, u < nA → st.1.midxA_rho_row u = internal.digit su.CdimsA nA a u) :
    (channel_term sop rrho n nA nA_bar su a b st).1.midxA_row = st.1.midxA_row ∧
    (channel_term sop rrho n nA nA_bar su a b st).1.midxA_col = st.1.midxA_col ∧
    (channel_term sop rrho n nA nA_bar su a b st).1.midxA_bar_row = st.1.midxA_bar_row ∧
    (channel_term sop rrho n nA nA_bar su a b st).1.midxA_bar_col = st.1.midxA_bar_col ∧
    (channel_term sop rrho n nA nA_bar su a b st).1.midxA_rho_row = st.1.midxA_rho_row ∧
    (channel_term sop rrho n nA nA_bar su a b st).2
      = st.2 + sop.data
          (internal._multiidx2n st.1.midxA_row nA su.CdimsA * su.DA
            + internal._multiidx2n st.1.midxA_col nA su.CdimsA)
          (a * su.DA + b)
        * rrho.data (applyRow su n nA nA_bar a iB) (applyRow su n nA nA_bar b jB) := by
  refine ⟨rfl, rfl, rfl, rfl, rfl, ?_⟩
  simp only [channel_term]
  have e1 : internal._multiidx2n
      (CArr.scatter su.CsubsysA_bar nA_bar st.1.midxA_bar_row
        (CArr.scatter su.CsubsysA nA st.1.midxA_rho_row st.1.midx_rho_row)) n su.Cdims
      = applyRow su n nA nA_bar a iB := by
    apply enc_eq_applyRow su n nA nA_bar a iB inv ha hiB
    · intro u hu
      rw [CArr.scatter_of_not_mem _ _ _ _ _ (fun t ht => inv.disj t u ht hu),
        CArr.scatter_of_mem _ _ _ _ inv.injA u hu]
      exact hrho u hu
    · intro t ht
      rw [CArr.scatter_of_mem _ _ _ _ inv.injB t ht]
      exact hrow t ht
  have e2 : internal._multiidx2n
      (CArr.scatter su.CsubsysA_bar nA_bar st.1.midxA_bar_col
        (CArr.scatter su.CsubsysA nA
          (internal._n2multiidx b nA su.CdimsA st.1.midxA_rho_col) st.1.midx_rho_col)) n su.Cdims
      = applyRow su n nA nA_bar b jB := by
    apply enc_eq_applyRow su n nA nA_bar b jB inv hb hjB
    · intro u hu
      rw [CArr.scatter_of_not_mem _ _ _ _ _ (fun t ht => inv.disj t u ht hu),
        CArr.scatter_of_mem _ _ _ _ inv.injA u hu,
        internal._n2multiidx_eq _ _ _ _ (inv.hDA ▸ hb)]
      simp [hu]
    · intro t ht
      rw [CArr.scatter_of_mem _ _ _ _ inv.injB t ht]
      exact hcol t ht
  rw [e1, e2, _multiidx2n_two, _multiidx2n_two]
  simp [toCArr]

/-- The loops over `a` and `b` in `channel`: the coefficient they accumulate and
the scratch arrays they leave alone. -/
theorem channel_coeff_spec {R : Type} [Semiring R] (sop rrho : Mat R) (n nA nA_bar : Nat)
    (su : ApplySetup) (inv : ApplyInv su n nA nA_bar) (iB jB : Nat)
    (hiB : iB < su.DA_bar) (hjB : jB < su.DA_bar) (sc : ChannelScratch)
    (hrow : ∀ t, t < nA_bar → sc.midxA_bar_row t = internal.digit su.CdimsA_bar nA_bar iB t)
    (hcol : ∀ t, t < nA_bar → sc.midxA_bar_col t = internal.digit su.CdimsA_bar nA_bar jB t) :
    (channel_coeff sop rrho n nA nA_bar su sc).1.midxA_row = sc.midxA_row ∧
    (channel_coeff sop rrho n nA nA_bar su sc).1.midxA_bar_row = sc.midxA_bar_row ∧
    (channel_coeff sop rrho n nA nA_bar su sc).2
      = ∑ a in Finset.range su.DA, ∑ b in Finset.range su.DA,
          sop.data
            (internal._multiidx2n sc.midxA_row nA su.CdimsA * su.DA
              + internal._multiidx2n sc.midxA_col nA su.CdimsA)
            (a * su.DA + b)
          * rrho.data (applyRow su n nA nA_bar a iB) (applyRow su n nA nA_bar b jB) := by
  have houter := foldl_simulation
    (fun (st : ChannelScratch × R) a =>
      (List.range su.DA).foldl
        (fun (st : ChannelScratch × R) b => channel_term sop rrho n nA nA_bar su a b st)
        ({ st.1 with
            midxA_rho_row := internal._n2multiidx a nA su.CdimsA st.1.midxA_rho_row },
          st.2))
    (fun (acc : R) a => acc + ∑ b in Finset.range su.DA,
      sop.data
        (internal._multiidx2n sc.midxA_row nA su.CdimsA * su.DA
          + internal._multiidx2n sc.midxA_col nA su.CdimsA)
        (a * su.DA + b)
      * rrho.data (applyRow su n nA nA_bar a iB) (applyRow su n nA nA_bar b jB))
    (fun st => st.2)
    (fun st => st.1.midxA_row = sc.midxA_row ∧ st.1.midxA_col = sc.midxA_col ∧
      st.1.midxA_bar_row = sc.midxA_bar_row ∧ st.1.midxA_bar_col = sc.midxA_bar_col)
    (List.range su.DA)
    (by
      intro st a ha hI
      have ha2 : a < su.DA := List.mem_range.mp ha
      obtain ⟨i1, i2, i3, i4⟩ := hI
      have hinner := foldl_simulation
        (fun (st : ChannelScratch × R) b => channel_term sop rrho n nA nA_bar su a b st)
        (fun (acc : R) b => acc + sop.data
          (internal._multiidx2n sc.midxA_row nA su.CdimsA * su.DA
            + internal._multiidx2n sc.midxA_col nA su.CdimsA)
          (a * su.DA + b)
          * rrho.data (applyRow su n nA nA_bar a iB) (applyRow su n nA nA_bar b jB))
        (fun st => st.2)
        (fun s => s.1.midxA_row = sc.midxA_row ∧ s.1.midxA_col = sc.midxA_col ∧
          s.1.midxA_bar_row = sc.midxA_bar_row ∧ s.1.midxA_bar_col = sc.midxA_bar_col ∧
          ∀ u, u < nA → s.1.midxA_rho_row u = internal.digit su.CdimsA nA a u)
        (List.range su.DA)
        (by
          intro s b hb hJ
          obtain ⟨j1, j2, j3, j4, j5⟩ := hJ
          obtain ⟨k1, k2, k3, k4, k5, k6⟩ := channel_term_spec sop rrho n nA nA_bar su inv a b
            iB jB ha2 (List.mem_range.mp hb) hiB hjB s
            (fun t ht => by rw [j3]; exact hrow t ht)
            (fun t ht => by rw [j4]; exact hcol t ht) j5
          refine ⟨⟨k1.trans j1, k2.trans j2, k3.trans j3, k4.trans j4, ?_⟩, ?_⟩
          · intro u hu
            rw [k5]
            exact j5 u hu
          · show (channel_term sop rrho n nA nA_bar su a b s).2 = _
            rw [k6, j1, j2])
        ({ st.1 with
            midxA_rho_row := internal._n2multiidx a nA su.CdimsA st.1.midxA_rho_row },
          st.2)
        ⟨i1, i2, i3, i4, by
          intro u hu
          show internal._n2multiidx a nA su.CdimsA st.1.midxA_rho_row u = _
          rw [internal._n2multiidx_eq _ _ _ _ (inv.hDA ▸ ha2)]
          simp [hu]⟩
      refine ⟨⟨hinner.1.1, hinner.1.2.1, hinner.1.2.2.1, hinner.1.2.2.2.1⟩, ?_⟩
      refine hinner.2.trans ?_
      exact foldl_add_eq_add_sum _ _ _)
    (sc, 0) ⟨rfl, rfl, rfl, rfl⟩
  refine ⟨houter.1.1, houter.1.2.2.1, ?_⟩
  refine houter.2.trans ?_
  rw [foldl_add_eq_sum]

end obsolete
namespace obsolete

/-- Decoding an index and reading off its complement part and its subsystem
part, as the loops of `channel` do. -/
theorem decode_parts (su : ApplySetup) (n nA nA_bar : Nat) (inv : ApplyInv su n nA nA_bar)
    (x : Nat) (hx : x < su.D) (r d1 d2 : CArr) :
    (∀ t, t < nA_bar →
      CArr.gather su.CsubsysA_bar nA_bar (internal._n2multiidx x n su.Cdims r) d1 t
        = internal.digit su.CdimsA_bar nA_bar
            (subIdx su.Cdims su.CsubsysA_bar nA_bar n x) t) ∧
    subIdx su.Cdims su.CsubsysA_bar nA_bar n x < su.DA_bar ∧
    internal._multiidx2n
        (CArr.gather su.CsubsysA nA (internal._n2multiidx x n su.Cdims r) d2) nA su.CdimsA
      = subIdx su.Cdims su.CsubsysA nA n x ∧
    subIdx su.Cdims su.CsubsysA nA n x < su.DA := by
  have hx2 : x < internal._suffix_prod su.Cdims n 0 := inv.hD ▸ hx
  obtain ⟨b1, b2⟩ := subIdx_spec su.Cdims su.CsubsysA_bar nA_bar n x inv.hB hx2
  obtain ⟨a1, _⟩ := subIdx_spec su.Cdims su.CsubsysA nA n x inv.hA hx2
  refine ⟨?_, ?_, ?_, ?_⟩
  · intro t ht
    rw [CArr.gather_eq, if_pos ht, internal._n2multiidx_eq _ _ _ _ hx2]
    simp only [inv.hB t ht, if_true]
    rw [← b2 t ht]
    exact digit_congr _ _ _ _ _ (fun l hl => (inv.dB l hl).symm) ht
  · rw [inv.hDB, internal._suffix_prod_congr _ _ _ _ (fun l hl => inv.dB l hl)]
    exact b1
  · unfold subIdx
    apply internal._multiidx2n_congr
    · intro u hu
      rw [CArr.gather_eq, if_pos hu, internal._n2multiidx_eq _ _ _ _ hx2]
      simp only [inv.hA u hu, if_true]
    · intro u hu
      exact inv.dA u hu
  · rw [inv.hDA, internal._suffix_prod_congr _ _ _ _ (fun l hl => inv.dA l hl)]
    exact a1

/-- The loops of `channel` store, for every cell `(i, j)` in turn, the
contraction of the superoperator with `rho`. -/
theorem channel_loops_eq {R : Type} [Semiring R] (sop rrho : Mat R) (n nA nA_bar : Nat)
    (su : ApplySetup) (inv : ApplyInv su n nA nA_bar) (sc : ChannelScratch) (result : Mat R) :
    (channel_loops sop rrho n nA nA_bar su sc result).2
      = (List.range su.D).foldl
          (fun M i => (List.range su.D).foldl
            (fun M j => M.set i j
              (∑ a in Finset.range su.DA, ∑ b in Finset.range su.DA,
                sop.data
                  (subIdx su.Cdims su.CsubsysA nA n i * su.DA
                    + subIdx su.Cdims su.CsubsysA nA n j)
                  (a * su.DA + b)
                * rrho.data
                    (applyRow su n nA nA_bar a (subIdx su.Cdims su.CsubsysA_bar nA_bar n i))
                    (applyRow su n nA nA_bar b (subIdx su.Cdims su.CsubsysA_bar nA_bar n j))))
            M)
          result := by
  have houter := foldl_simulation
    (fun (st : ChannelScratch × Mat R) i =>
      (List.range su.D).foldl
        (fun (st : ChannelScratch × Mat R) j =>
          ((channel_coeff sop rrho n nA nA_bar su (channel_cols n nA nA_bar su j st.1)).1,
            st.2.set i j
              (channel_coeff sop rrho n nA nA_bar su (channel_cols n nA nA_bar su j st.1)).2))
        (channel_rows n nA nA_bar su i st.1, st.2))
    (fun (M : Mat R) i => (List.range su.D).foldl
      (fun M j => M.set i j
        (∑ a in Finset.range su.DA, ∑ b in Finset.range su.DA,
          sop.data
            (subIdx su.Cdims su.CsubsysA nA n i * su.DA + subIdx su.Cdims su.CsubsysA nA n j)
            (a * su.DA + b)
          * rrho.data
              (applyRow su n nA nA_bar a (subIdx su.Cdims su.CsubsysA_bar nA_bar n i))
              (applyRow su n nA nA_bar b (subIdx su.Cdims su.CsubsysA_bar nA_bar n j))))
      M)
    (fun st => st.2) (fun _ => True) (List.range su.D)
    (by
      intro st i hi _
      have hi2 : i < su.D := List.mem_range.mp hi
      refine ⟨trivial, ?_⟩
      obtain ⟨r1, r2, r3, _⟩ := decode_parts su n nA nA_bar inv i hi2 st.1.midx_row
        st.1.midxA_bar_row st.1.midxA_row
      have hinner := foldl_simulation
        (fun (st : ChannelScratch × Mat R) j =>
          ((channel_coeff sop rrho n nA nA_bar su (channel_cols n nA nA_bar su j st.1)).1,
            st.2.set i j
              (channel_coeff sop rrho n nA nA_bar su (channel_cols n nA nA_bar su j st.1)).2))
        (fun (M : Mat R) j => M.set i j
          (∑ a in Finset.range su.DA, ∑ b in Finset.range su.DA,
            sop.data
              (subIdx su.Cdims su.CsubsysA nA n i * su.DA + subIdx su.Cdims su.CsubsysA nA n j)
              (a * su.DA + b)
            * rrho.data
                (applyRow su n nA nA_bar a (subIdx su.Cdims su.CsubsysA_bar nA_bar n i))
                (applyRow su n nA nA_bar b (subIdx su.Cdims su.CsubsysA_bar nA_bar n j))))
        (fun st => st.2)
        (fun s => (∀ t, t < nA_bar → s.1.midxA_bar_row t
            = internal.digit su.CdimsA_bar nA_bar
                (subIdx su.Cdims su.CsubsysA_bar nA_bar n i) t) ∧
          internal._multiidx2n s.1.midxA_row nA su.CdimsA = subIdx su.Cdims su.CsubsysA nA n i)
        (List.range su.D)
        (by
          intro s j hj hJ
          have hj2 : j < su.D := List.mem_range.mp hj
          obtain ⟨c1, c2, c3, _⟩ := decode_parts su n nA nA_bar inv j hj2 s.1.midx_col
            s.1.midxA_bar_col s.1.midxA_col
          obtain ⟨k1, k2, k3⟩ := channel_coeff_spec sop rrho n nA nA_bar su inv
            (subIdx su.Cdims su.CsubsysA_bar nA_bar n i)
            (subIdx su.Cdims su.CsubsysA_bar nA_bar n j) r2 c2
            (channel_cols n nA nA_bar su j s.1) hJ.1 c1
          refine ⟨⟨?_, ?_⟩, ?_⟩
          · intro t ht
            show (channel_coeff sop rrho n nA nA_bar su
              (channel_cols n nA nA_bar su j s.1)).1.midxA_bar_row t = _
            rw [k2]
            exact hJ.1 t ht
          · show internal._multiidx2n (channel_coeff sop rrho n nA nA_bar su
              (channel_cols n nA nA_bar su j s.1)).1.midxA_row nA su.CdimsA = _
            rw [k1]
            exact hJ.2
          · show s.2.set i j (channel_coeff sop rrho n nA nA_bar su
              (channel_cols n nA nA_bar su j s.1)).2 = _
            rw [k3]
            have e1 : internal._multiidx2n (channel_cols n nA nA_bar su j s.1).midxA_row nA
                su.CdimsA = subIdx su.Cdims su.CsubsysA nA n i := hJ.2
            have e2 : internal._multiidx2n (channel_cols n nA nA_bar su j s.1).midxA_col nA
                su.CdimsA = subIdx su.Cdims su.CsubsysA nA n j := c3
            rw [e1, e2])
        (channel_rows n nA nA_bar su i st.1, st.2) ⟨r1, r3⟩
      exact hinner.2)
    (sc, result) trivial
  exact houter.2

end obsolete
/-- The result of `channel`: a square matrix of size `prod(dims)` with the
entries `channelEntry`. -/
theorem channel_closed {R : Type} [Semiring R] [Star R] (rho : Mat R) (Ks : List (Mat R))
    (subsys dims : List Nat) (hne : dims ≠ []) (hpos : ∀ d ∈ dims, 1 ≤ d)
    (hsub : ∀ l ∈ subsys, l < dims.length) (hnd : subsys.Nodup)
    (hr : rho.rows = dims.prod) (hc : rho.cols = dims.prod) (hKs : Ks ≠ [])
    (hK : ∀ K ∈ Ks, K.rows = subDim dims subsys ∧ K.cols = subDim dims subsys) :
    ∃ res, obsolete.channel rho Ks subsys dims = .ok res ∧
      res.rows = dims.prod ∧ res.cols = dims.prod ∧
      ∀ x y, x < dims.prod → y < dims.prod →
        res.data x y = channelEntry (super Ks) rho subsys dims x y := by
  obtain ⟨inv, hD, hDA, hDB, c1, c2, _, c4, _⟩ :=
    obsolete.apply_setup_spec subsys dims hpos hsub hnd
  have hP : 0 < dims.prod := List.prod_pos (fun d hd => hpos d hd)
  have hP0 : dims.prod ≠ 0 := by omega
  have hlenC := obsolete.compl_length subsys dims.length hsub hnd
  have hlt : ∀ l ∈ complLabels subsys dims.length, l < dims.length :=
    fun l hl => List.mem_range.mp (List.mem_filter.mp hl).1
  have k1 : internal._check_nonzero_size rho = true := by
    simp [internal._check_nonzero_size, hr, hc, hP0]
  have k2 : internal._check_square_mat rho = true := by
    rw [_check_square_mat_iff, hr, hc]
  have k3 := (_check_dims_iff dims).mpr ⟨hne, hpos⟩
  have k4 : internal._check_dims_match_mat dims rho = true :=
    (_check_dims_match_mat_iff dims rho).mpr ⟨hr, hc⟩
  have k5 : internal._check_subsys_match_dims subsys dims = true :=
    (_check_subsys_iff subsys dims).mpr ⟨hsub, hnd⟩
  have hrowA : ∀ x, subIdx (obsolete.apply_setup subsys dims).1.Cdims
      (obsolete.apply_setup subsys dims).1.CsubsysA subsys.length dims.length x
      = subIdx (toCArr dims) (toCArr subsys) subsys.length dims.length x :=
    fun x => subIdx_congr _ _ _ _ _ _ x c1 c2 inv.hA
  have hrowB : ∀ x, subIdx (obsolete.apply_setup subsys dims).1.Cdims
      (obsolete.apply_setup subsys dims).1.CsubsysA_bar (dims.length - subsys.length)
        dims.length x
      = subIdx (toCArr dims) (toCArr (complLabels subsys dims.length))
          (complLabels subsys dims.length).length dims.length x := by
    intro x
    rw [hlenC]
    exact subIdx_congr _ _ _ _ _ _ x c1 (fun t ht => c4 t (by rw [hlenC]; exact ht)) inv.hB
  have hval : ∀ x y, x < dims.prod → y < dims.prod →
      (∑ a in Finset.range (obsolete.apply_setup subsys dims).1.DA,
        ∑ b in Finset.range (obsolete.apply_setup subsys dims).1.DA,
          (super Ks).data
            (subIdx (obsolete.apply_setup subsys dims).1.Cdims
                (obsolete.apply_setup subsys dims).1.CsubsysA subsys.length dims.length x
                * (obsolete.apply_setup subsys dims).1.DA
              + subIdx (obsolete.apply_setup subsys dims).1.Cdims
                (obsolete.apply_setup subsys dims).1.CsubsysA subsys.length dims.length y)
            (a * (obsolete.apply_setup subsys dims).1.DA + b)
          * rho.data
              (applyRow (obsolete.apply_setup subsys dims).1 dims.length subsys.length
                (dims.length - subsys.length) a
                (subIdx (obsolete.apply_setup subsys dims).1.Cdims
                  (obsolete.apply_setup subsys dims).1.CsubsysA_bar
                  (dims.length - subsys.length) dims.length x))
              (applyRow (obsolete.apply_setup subsys dims).1 dims.length subsys.length
                (dims.length - subsys.length) b
                (subIdx (obsolete.apply_setup subsys dims).1.Cdims
                  (obsolete.apply_setup subsys dims).1.CsubsysA_bar
                  (dims.length - subsys.length) dims.length y)))
        = channelEntry (super Ks) rho subsys dims x y := by
    intro x y hx hy
    obtain ⟨_, sx, _⟩ := fullIndex_subIdx dims subsys hpos hsub hnd x hx
    obtain ⟨_, sy, _⟩ := fullIndex_subIdx dims subsys hpos hsub hnd y hy
    rw [hDA, hrowA, hrowA, hrowB, hrowB]
    unfold channelEntry
    apply Finset.sum_congr rfl
    intro a ha
    apply Finset.sum_congr rfl
    intro b hb
    rw [obsolete.applyRow_eq_fullIndex subsys dims hpos hsub hnd a _ (Finset.mem_range.mp ha) sx,
      obsolete.applyRow_eq_fullIndex subsys dims hpos hsub hnd b _ (Finset.mem_range.mp hb) sy]
    rfl
  cases Ks with
  | nil => exact absurd rfl hKs
  | cons K0 Kt =>
    have hK0 := hK K0 (List.mem_cons_self _ _)
    have k6 : internal._check_nonzero_size_list (K0 :: Kt) = true := rfl
    have k7 : internal._check_square_mat K0 = true := by
      rw [_check_square_mat_iff, hK0.1, hK0.2]
    have k8 : (K0 :: Kt).any (fun it => it.rows != K0.rows || it.cols != K0.rows) = false := by
      rw [List.any_eq_false]
      intro K hKm
      have := hK K hKm
      simp [this.1, this.2, hK0.1]
    have k9 : (K0.rows != (obsolete.apply_setup subsys dims).1.DA) = false := by
      rw [hDA, hK0.1]; simp
    have hch : obsolete.channel rho (K0 :: Kt) subsys dims = .ok
        ((List.range (obsolete.apply_setup subsys dims).1.D).foldl
          (fun M i => (List.range (obsolete.apply_setup subsys dims).1.D).foldl
            (fun M j => M.set i j
              (∑ a in Finset.range (obsolete.apply_setup subsys dims).1.DA,
                ∑ b in Finset.range (obsolete.apply_setup subsys dims).1.DA,
                  (super (K0 :: Kt)).data
                    (subIdx (obsolete.apply_setup subsys dims).1.Cdims
                        (obsolete.apply_setup subsys dims).1.CsubsysA subsys.length
                        dims.length i
                        * (obsolete.apply_setup subsys dims).1.DA
                      + subIdx (obsolete.apply_setup subsys dims).1.Cdims
                        (obsolete.apply_setup subsys dims).1.CsubsysA subsys.length
                        dims.length j)
                    (a * (obsolete.apply_setup subsys dims).1.DA + b)
                  * rho.data
                      (applyRow (obsolete.apply_setup subsys dims).1 dims.length subsys.length
                        (dims.length - subsys.length) a
                        (subIdx (obsolete.apply_setup subsys dims).1.Cdims
                          (obsolete.apply_setup subsys dims).1.CsubsysA_bar
                          (dims.length - subsys.length) dims.length i))
                      (applyRow (obsolete.apply_setup subsys dims).1 dims.length subsys.length
                        (dims.length - subsys.length) b
                        (subIdx (obsolete.apply_setup subsys dims).1.Cdims
                          (obsolete.apply_setup subsys dims).1.CsubsysA_bar
                          (dims.length - subsys.length) dims.length j))))
            M)
          (Mat.Zero (obsolete.apply_setup subsys dims).1.D
            (obsolete.apply_setup subsys dims).1.D)) := by
      unfold obsolete.channel
      simp only [k1, k2, k3, k4, k5, k6, k7, k8, k9, Bool.not_true, Bool.false_eq_true, if_false,
        if_true]
      rw [obsolete.channel_loops_eq _ _ _ _ _ _ inv]
    rw [foldl_set_grid] at hch
    refine ⟨_, hch, hD, hD, ?_⟩
    intro x y hx hy
    simp only
    rw [if_pos ⟨by rw [hD]; exact hx, by rw [hD]; exact hy⟩]
    exact hval x y hx hy

/-! ## The Kraus sum -/

/-- The entries of the embedding `E(K)`. -/
theorem embedOp_data {R : Type} [Semiring R] (K : Mat R) (subsys dims : List Nat)
    (hne : dims ≠ []) (hpos : ∀ d ∈ dims, 1 ≤ d)
    (hsub : ∀ l ∈ subsys, l < dims.length) (hnd : subsys.Nodup)
    (hKr : K.rows = subDim dims subsys) (hKc : K.cols = subDim dims subsys)
    (x y : Nat) (hx : x < dims.prod) :
    (embedOp K subsys dims).data x y
      = ∑ c in Finset.range (subDim dims subsys),
          K.data (subIdx (toCArr dims) (toCArr subsys) subsys.length dims.length x) c
            * (if replaceIdx dims subsys x c = y then 1 else 0) := by
  obtain ⟨v, hv, _, _, hdata⟩ := apply_closed (basisKet dims.prod y : Mat R) K subsys dims hne
    hpos hsub hnd rfl (Or.inl rfl) hKr hKc
  simp only [embedOp, hv]
  rw [hdata x 0 hx (by show 0 < 1; omega)]
  rfl

/-- The product `E(K) * M`, entry by entry: the contraction that `apply`
computes. -/
theorem embedOp_mul {R : Type} [Semiring R] (K M : Mat R) (subsys dims : List Nat)
    (hne : dims ≠ []) (hpos : ∀ d ∈ dims, 1 ≤ d)
    (hsub : ∀ l ∈ subsys, l < dims.length) (hnd : subsys.Nodup)
    (hKr : K.rows = subDim dims subsys) (hKc : K.cols = subDim dims subsys)
    (x j : Nat) (hx : x < dims.prod) :
    (Mat.mul (embedOp K subsys dims) M).data x j = applyEntry M K subsys dims x j := by
  show ∑ y in Finset.range dims.prod, (embedOp K subsys dims).data x y * M.data y j = _
  unfold applyEntry
  have h1 : ∀ y ∈ Finset.range dims.prod,
      (embedOp K subsys dims).data x y * M.data y j
        = ∑ c in Finset.range (subDim dims subsys),
            if replaceIdx dims subsys x c = y then
              K.data (subIdx (toCArr dims) (toCArr subsys) subsys.length dims.length x) c
                * M.data (replaceIdx dims subsys x c) j
            else 0 := by
    intro y _
    rw [embedOp_data K subsys dims hne hpos hsub hnd hKr hKc x y hx, Finset.sum_mul]
    apply Finset.sum_congr rfl
    intro c _
    by_cases h : replaceIdx dims subsys x c = y
    · rw [if_pos h, if_pos h, mul_one, h]
    · rw [if_neg h, if_neg h, mul_zero, zero_mul]
  rw [Finset.sum_congr rfl h1, Finset.sum_comm]
  apply Finset.sum_congr rfl
  intro c hc
  rw [Finset.sum_ite_eq, if_pos]
  exact Finset.mem_range.mpr
    (replaceIdx_spec dims subsys hpos hsub hnd x c hx (Finset.mem_range.mp hc)).1

/-- The entries of a sum of matrices accumulated from a start matrix. -/
theorem foldl_add_data {R : Type} [Semiring R] (l : List (Mat R)) (Z : Mat R) :
    (l.foldl Mat.add Z).rows = Z.rows ∧ (l.foldl Mat.add Z).cols = Z.cols ∧
    ∀ x y, (l.foldl Mat.add Z).data x y = Z.data x y + (l.map (fun M => M.data x y)).sum := by
  induction l generalizing Z with
  | nil => simp
  | cons M l ih =>
    rw [List.foldl_cons]
    obtain ⟨h1, h2, h3⟩ := ih (Mat.add Z M)
    refine ⟨h1, h2, ?_⟩
    intro x y
    rw [h3 x y, List.map_cons, List.sum_cons, ← add_assoc]
    rfl

/-- One term of the Kraus sum, entry by entry. -/
theorem kraus_term_data {R : Type} [CommSemiring R] [StarRing R] (rho K : Mat R)
    (subsys dims : List Nat) (hne : dims ≠ []) (hpos : ∀ d ∈ dims, 1 ≤ d)
    (hsub : ∀ l ∈ subsys, l < dims.length) (hnd : subsys.Nodup)
    (hc : rho.cols = dims.prod)
    (hKr : K.rows = subDim dims subsys) (hKc : K.cols = subDim dims subsys)
    (x y : Nat) (hx : x < dims.prod) (hy : y < dims.prod) :
    (Mat.mul (Mat.mul (embedOp K subsys dims) rho) (Mat.adjoint (embedOp K subsys dims))).data x y
      = ∑ a in Finset.range (subDim dims subsys), ∑ b in Finset.range (subDim dims subsys),
          K.data (subIdx (toCArr dims) (toCArr subsys) subsys.length dims.length x) a
            * star (K.data (subIdx (toCArr dims) (toCArr subsys) subsys.length dims.length y) b)
            * rho.data (replaceIdx dims subsys x a) (replaceIdx dims subsys y b) := by
  show ∑ v in Finset.range rho.cols,
    (Mat.mul (embedOp K subsys dims) rho).data x v * star ((embedOp K subsys dims).data y v) = _
  rw [hc]
  have h1 : ∀ v ∈ Finset.range dims.prod,
      (Mat.mul (embedOp K subsys dims) rho).data x v * star ((embedOp K subsys dims).data y v)
        = ∑ b in Finset.range (subDim dims subsys),
            if replaceIdx dims subsys y b = v then
              applyEntry rho K subsys dims x (replaceIdx dims subsys y b)
                * star (K.data
                    (subIdx (toCArr dims) (toCArr subsys) subsys.length dims.length y) b)
            else 0 := by
    intro v _
    rw [embedOp_mul K rho subsys dims hne hpos hsub hnd hKr hKc x v hx,
      embedOp_data K subsys dims hne hpos hsub hnd hKr hKc y v hy, star_sum, Finset.mul_sum]
    apply Finset.sum_congr rfl
    intro b _
    by_cases h : replaceIdx dims subsys y b = v
    · rw [if_pos h, if_pos h, mul_one, h]
    · rw [if_neg h, if_neg h, mul_zero, star_zero, mul_zero]
  rw [Finset.sum_congr rfl h1, Finset.sum_comm, Finset.sum_comm]
  have h2 : ∀ b ∈ Finset.range (subDim dims subsys),
      (∑ v in Finset.range dims.prod,
        if replaceIdx dims subsys y b = v then
          applyEntry rho K subsys dims x (replaceIdx dims subsys y b)
            * star (K.data (subIdx (toCArr dims) (toCArr subsys) subsys.length dims.length y) b)
        else 0)
      = applyEntry rho K subsys dims x (replaceIdx dims subsys y b)
          * star (K.data (subIdx (toCArr dims) (toCArr subsys) subsys.length dims.length y) b) := by
    intro b hb
    rw [Finset.sum_ite_eq, if_pos]
    exact Finset.mem_range.mpr
      (replaceIdx_spec dims subsys hpos hsub hnd y b hy (Finset.mem_range.mp hb)).1
  rw [Finset.sum_comm, Finset.sum_congr rfl h2, Finset.sum_comm]
  apply Finset.sum_congr rfl
  intro b _
  unfold applyEntry
  rw [Finset.sum_mul]
  apply Finset.sum_congr rfl
  intro a _
  ring
theorem sum_map_sum_sum {R α : Type} [Semiring R] (l : List α) (s t : Finset Nat)
    (f : α → Nat → Nat → R) :
    (l.map (fun K => ∑ a in s, ∑ b in t, f K a b)).sum
      = ∑ a in s, ∑ b in t, (l.map (fun K => f K a b)).sum := by
  induction l with
  | nil => simp
  | cons K l ih =>
    simp only [List.map_cons, List.sum_cons]
    rw [ih, ← Finset.sum_add_distrib]
    apply Finset.sum_congr rfl
    intro a _
    rw [← Finset.sum_add_distrib]

/-- The entries of the modelled superoperator. -/
theorem super_data {R : Type} [Semiring R] [Star R] (K0 : Mat R) (Kt : List (Mat R))
    (a b m n : Nat) (hb : b < K0.rows) (hn : n < K0.rows) :
    (super (K0 :: Kt)).data (a * K0.rows + b) (m * K0.rows + n)
      = ((K0 :: Kt).map (fun K => K.data a m * star (K.data b n))).sum := by
  have hd : 0 < K0.rows := by omega
  have e1 : (a * K0.rows + b) / K0.rows = a := by
    rw [Nat.mul_comm, Nat.mul_add_div hd, Nat.div_eq_of_lt hb, Nat.add_zero]
  have e2 : (a * K0.rows + b) % K0.rows = b := by
    rw [Nat.mul_comm, Nat.mul_add_mod, Nat.mod_eq_of_lt hb]
  have e3 : (m * K0.rows + n) / K0.rows = m := by
    rw [Nat.mul_comm, Nat.mul_add_div hd, Nat.div_eq_of_lt hn, Nat.add_zero]
  have e4 : (m * K0.rows + n) % K0.rows = n := by
    rw [Nat.mul_comm, Nat.mul_add_mod, Nat.mod_eq_of_lt hn]
  show ((K0 :: Kt).map (fun K => K.data ((a * K0.rows + b) / K0.rows)
      ((m * K0.rows + n) / K0.rows)
    * star (K.data ((a * K0.rows + b) % K0.rows) ((m * K0.rows + n) % K0.rows)))).sum = _
  rw [e1, e2, e3, e4]

/-- The result of `channel` is the Kraus sum. -/
theorem channel_eq_krausSum {R : Type} [CommSemiring R] [StarRing R] (rho : Mat R)
    (Ks : List (Mat R)) (subsys dims : List Nat) (hne : dims ≠ []) (hpos : ∀ d ∈ dims, 1 ≤ d)
    (hsub : ∀ l ∈ subsys, l < dims.length) (hnd : subsys.Nodup)
    (hr : rho.rows = dims.prod) (hc : rho.cols = dims.prod) (hKs : Ks ≠ [])
    (hK : ∀ K ∈ Ks, K.rows = subDim dims subsys ∧ K.cols = subDim dims subsys) :
    ∃ res, obsolete.channel rho Ks subsys dims = .ok res ∧
      res.same (krausSum rho Ks subsys dims) := by
  obtain ⟨res, hres, h1, h2, hdata⟩ := channel_closed rho Ks subsys dims hne hpos hsub hnd hr hc
    hKs hK
  obtain ⟨f1, f2, f3⟩ := foldl_add_data
    (Ks.map (fun K =>
      Mat.mul (Mat.mul (embedOp K subsys dims) rho) (Mat.adjoint (embedOp K subsys dims))))
    (Mat.Zero dims.prod dims.prod)
  refine ⟨res, hres, ?_, ?_, ?_⟩
  · rw [h1]; exact f1.symm
  · rw [h2]; exact f2.symm
  · intro x hx y hy
    rw [h1] at hx
    rw [h2] at hy
    rw [hdata x y hx hy]
    show _ = ((Ks.map (fun K =>
      Mat.mul (Mat.mul (embedOp K subsys dims) rho) (Mat.adjoint (embedOp K subsys dims)))).foldl
      Mat.add (Mat.Zero dims.prod dims.prod)).data x y
    rw [f3 x y, List.map_map]
    show _ = 0 + _
    rw [zero_add]
    have hterm : (Ks.map ((fun M : Mat R => M.data x y) ∘ (fun K =>
        Mat.mul (Mat.mul (embedOp K subsys dims) rho) (Mat.adjoint (embedOp K subsys dims)))))
        = Ks.map (fun K =>
          ∑ a in Finset.range (subDim dims subsys), ∑ b in Finset.range (subDim dims subsys),
            K.data (subIdx (toCArr dims) (toCArr subsys) subsys.length dims.length x) a
              * star (K.data
                  (subIdx (toCArr dims) (toCArr subsys) subsys.length dims.length y) b)
              * rho.data (replaceIdx dims subsys x a) (replaceIdx dims subsys y b)) := by
      apply List.map_congr_left
      intro K hKm
      exact kraus_term_data rho K subsys dims hne hpos hsub hnd hc (hK K hKm).1 (hK K hKm).2
        x y hx hy
    rw [hterm, sum_map_sum_sum]
    obtain ⟨sx, _, _⟩ := fullIndex_subIdx dims subsys hpos hsub hnd x hx
    obtain ⟨sy, _, _⟩ := fullIndex_subIdx dims subsys hpos hsub hnd y hy
    unfold channelEntry
    apply Finset.sum_congr rfl
    intro a ha
    apply Finset.sum_congr rfl
    intro b hb
    cases Ks with
    | nil => exact absurd rfl hKs
    | cons K0 Kt =>
      have hK0 := (hK K0 (List.mem_cons_self _ _)).1
      rw [← hK0] at sy hb ⊢
      rw [super_data K0 Kt _ _ a b sy (Finset.mem_range.mp hb), ← List.sum_map_mul_right]
/-- C13: channel application equals the Kraus sum.  For every valid `dims` and
`subsys`, every square `rho` of size `prod(dims)` and every non-empty Kraus set
`Ks` of square matrices of dimension `DA = prod dims[subsys[k]]`:
`E(K) * v = apply(v, K, subsys, dims)` for every `K` of the set and every ket
`v`; `super(Ks)` is the row-stacking superoperator
`sop(a*DA+b, m*DA+n) = Σ_i K_i(a,m) * conj(K_i(b,n))`; and
`channel(rho, Ks, subsys, dims)` succeeds and is
`Σ_i E(K_i) * rho * adjoint(E(K_i))`. -/
theorem channel_kraus_sum {R : Type} [CommSemiring R] [StarRing R] (rho : Mat R)
    (Ks : List (Mat R)) (subsys dims : List Nat) (hne : dims ≠ []) (hpos : ∀ d ∈ dims, 1 ≤ d)
    (hsub : ∀ l ∈ subsys, l < dims.length) (hnd : subsys.Nodup)
    (hr : rho.rows = dims.prod) (hc : rho.cols = dims.prod) (hKs : Ks ≠ [])
    (hK : ∀ K ∈ Ks, K.rows = subDim dims subsys ∧ K.cols = subDim dims subsys) :
    (∀ K ∈ Ks, ∀ v : Mat R, v.rows = dims.prod → v.cols = 1 →
      ∃ w, obsolete.apply v K subsys dims = .ok w ∧
        w.same (Mat.mul (embedOp K subsys dims) v)) ∧
    (∀ a b m n, b < subDim dims subsys → n < subDim dims subsys →
      (super Ks).data (a * subDim dims subsys + b) (m * subDim dims subsys + n)
        = (Ks.map (fun K => K.data a m * star (K.data b n))).sum) ∧
    ∃ res, obsolete.channel rho Ks subsys dims = .ok res ∧
      res.same (krausSum rho Ks subsys dims) := by
  refine ⟨?_, ?_, channel_eq_krausSum rho Ks subsys dims hne hpos hsub hnd hr hc hKs hK⟩
  · intro K hKm v hvr hvc
    obtain ⟨w, hw, w1, w2, wdata⟩ := apply_closed v K subsys dims hne hpos hsub hnd hvr
      (Or.inl hvc) (hK K hKm).1 (hK K hKm).2
    refine ⟨w, hw, w1, w2, ?_⟩
    intro x hx j hj
    rw [w1] at hx
    rw [w2] at hj
    rw [wdata x j hx hj,
      embedOp_mul K v subsys dims hne hpos hsub hnd (hK K hKm).1 (hK K hKm).2 x j hx]
  · intro a b m n hb hn
    cases Ks with
    | nil => exact absurd rfl hKs
    | cons K0 Kt =>
      have hK0 := (hK K0 (List.mem_cons_self _ _)).1
      rw [← hK0] at hb hn ⊢
      exact super_data K0 Kt a b m n hb hn

theorem channel_kraus_sum_witness :
    (∀ K ∈ [demoMat 2, bitflipX], ∀ v : Mat Int, v.rows = [3, 2].prod → v.cols = 1 →
      ∃ w, obsolete.apply v K [1] [3, 2] = .ok w ∧
        w.same (Mat.mul (embedOp K [1] [3, 2]) v)) ∧
    (∀ a b m n, b < subDim [3, 2] [1] → n < subDim [3, 2] [1] →
      (super [demoMat 2, bitflipX]).data (a * subDim [3, 2] [1] + b) (m * subDim [3, 2] [1] + n)
        = ([demoMat 2, bitflipX].map (fun K => K.data a m * star (K.data b n))).sum) ∧
    ∃ res, obsolete.channel (demoMat 6) [demoMat 2, bitflipX] [1] [3, 2] = .ok res ∧
      res.same (krausSum (demoMat 6) [demoMat 2, bitflipX] [1] [3, 2]) :=
  channel_kraus_sum (demoMat 6) [demoMat 2, bitflipX] [1] [3, 2] (by decide) (by decide)
    (by decide) (by decide) (by decide) (by decide) (by simp)
    (by
      intro K hK
      simp only [List.mem_cons, List.mem_singleton, List.not_mem_nil, or_false] at hK
      rcases hK with rfl | rfl <;> decide)
/-! ## A single Kraus operator -/

theorem channel_vs_apply_counterexample :
    (∃ r1, obsolete.channel (Mat.mul (basisKet 2 0) (Mat.adjoint (basisKet 2 0)) : Mat Int)
        [bitflipX] [0] [2] = .ok r1 ∧ r1.same (basisMat 2 1 1)) ∧
    (∃ r2, obsolete.apply (Mat.mul (basisKet 2 0) (Mat.adjoint (basisKet 2 0)) : Mat Int)
        bitflipX [0] [2] = .ok r2 ∧ r2.same (basisMat 2 1 0)) ∧
    ¬ ∃ r1 r2,
      obsolete.channel (Mat.mul (basisKet 2 0) (Mat.adjoint (basisKet 2 0)) : Mat Int)
        [bitflipX] [0] [2] = .ok r1 ∧
      obsolete.apply (Mat.mul (basisKet 2 0) (Mat.adjoint (basisKet 2 0)) : Mat Int)
        bitflipX [0] [2] = .ok r2 ∧
      r1.same r2 := by
  obtain ⟨c, hc, cr, cc, cdata⟩ := channel_closed
    (Mat.mul (basisKet 2 0) (Mat.adjoint (basisKet 2 0)) : Mat Int) [bitflipX] [0] [2]
    (by decide) (by decide) (by decide) (by decide) (by decide) (by decide) (by simp)
    (by
      intro K hK
      rw [List.mem_singleton] at hK
      subst hK
      decide)
  obtain ⟨a, ha, ar, ac, adata⟩ := apply_closed
    (Mat.mul (basisKet 2 0) (Mat.adjoint (basisKet 2 0)) : Mat Int) bitflipX [0] [2]
    (by decide) (by decide) (by decide) (by decide) (by decide) (Or.inr (by decide))
    (by decide) (by decide)
  have hcv : ∀ x, x < 2 → ∀ y, y < 2 →
      channelEntry (super [bitflipX])
        (Mat.mul (basisKet 2 0) (Mat.adjoint (basisKet 2 0)) : Mat Int) [0] [2] x y
        = (basisMat 2 1 1 : Mat Int).data x y := by decide
  have hav : ∀ x, x < 2 → ∀ y, y < 2 →
      applyEntry (Mat.mul (basisKet 2 0) (Mat.adjoint (basisKet 2 0)) : Mat Int) bitflipX
        [0] [2] x y = (basisMat 2 1 0 : Mat Int).data x y := by decide
  have hc2 : c.same (basisMat 2 1 1) := by
    refine ⟨cr, cc, ?_⟩
    intro x hx y hy
    rw [cr] at hx
    rw [cc] at hy
    rw [cdata x y hx hy]
    exact hcv x hx y hy
  have ha2 : a.same (basisMat 2 1 0) := by
    refine ⟨ar, ac, ?_⟩
    intro x hx y hy
    rw [ar] at hx
    rw [ac] at hy
    rw [adata x y hx hy]
    exact hav x hx y hy
  refine ⟨⟨c, hc, hc2⟩, ⟨a, ha, ha2⟩, ?_⟩
  rintro ⟨r1, r2, h1, h2, hs⟩
  rw [hc] at h1
  rw [ha] at h2
  cases h1
  cases h2
  have e := hs.2.2 1 (by rw [cr]; decide) 1 (by rw [cc]; decide)
  rw [hc2.2.2 1 (by rw [cr]; decide) 1 (by rw [cc]; decide),
    ha2.2.2 1 (by rw [ar]; decide) 1 (by rw [ac]; decide)] at e
  revert e
  decide

/-- C14 (amended): a single Kraus operator.  For every valid `dims` and
`subsys`, every square `U` of dimension `Dsub` and every ket `psi` of length
`prod(dims)`, with `phi = apply(psi, U, subsys, dims)` the operator applied to
the ket: `channel(|psi><psi|, {U}, subsys, dims)` succeeds and is `|phi><phi|`,
whereas `apply(|psi><psi|, U, subsys, dims)` on the density matrix succeeds and
is `|phi><psi|` (the operator multiplied from the left only). -/
theorem channel_single_kraus {R : Type} [CommSemiring R] [StarRing R] (psi U : Mat R)
    (subsys dims : List Nat) (hne : dims ≠ []) (hpos : ∀ d ∈ dims, 1 ≤ d)
    (hsub : ∀ l ∈ subsys, l < dims.length) (hnd : subsys.Nodup)
    (hpr : psi.rows = dims.prod) (hpc : psi.cols = 1)
    (hUr : U.rows = subDim dims subsys) (hUc : U.cols = subDim dims subsys) :
    ∃ phi res res2, obsolete.apply psi U subsys dims = .ok phi ∧
      obsolete.channel (Mat.mul psi (Mat.adjoint psi)) [U] subsys dims = .ok res ∧
      res.same (Mat.mul phi (Mat.adjoint phi)) ∧
      obsolete.apply (Mat.mul psi (Mat.adjoint psi)) U subsys dims = .ok res2 ∧
      res2.same (Mat.mul phi (Mat.adjoint psi)) := by
  obtain ⟨phi, hphi, p1, p2, pdata⟩ := apply_closed psi U subsys dims hne hpos hsub hnd hpr
    (Or.inl hpc) hUr hUc
  have hrr : (Mat.mul psi (Mat.adjoint psi)).rows = dims.prod := hpr
  have hrc : (Mat.mul psi (Mat.adjoint psi)).cols = dims.prod := hpr
  have hrho : ∀ x y, (Mat.mul psi (Mat.adjoint psi)).data x y
      = psi.data x 0 * star (psi.data y 0) := by
    intro x y
    show ∑ k in Finset.range psi.cols, psi.data x k * star (psi.data y k) = _
    rw [hpc, Finset.sum_range_one]
  obtain ⟨res, hres, c1, c2, cdata⟩ := channel_closed (Mat.mul psi (Mat.adjoint psi)) [U] subsys
    dims hne hpos hsub hnd hrr hrc (by simp)
    (by
      intro K hK
      rw [List.mem_singleton] at hK
      subst hK
      exact ⟨hUr, hUc⟩)
  obtain ⟨res2, hres2, a1, a2, adata⟩ := apply_closed (Mat.mul psi (Mat.adjoint psi)) U subsys
    dims hne hpos hsub hnd hrr (Or.inr hrc) hUr hUc
  have hphic : phi.cols = 1 := p2.trans hpc
  refine ⟨phi, res, res2, hphi, hres, ⟨?_, ?_, ?_⟩, hres2, ⟨?_, ?_, ?_⟩⟩
  · rw [c1]; exact p1.symm
  · rw [c2]; exact p1.symm
  · intro x hx y hy
    rw [c1] at hx
    rw [c2] at hy
    rw [cdata x y hx hy]
    show _ = ∑ k in Finset.range phi.cols, phi.data x k * star (phi.data y k)
    rw [hphic, Finset.sum_range_one, pdata x 0 hx (by rw [hpc]; omega),
      pdata y 0 hy (by rw [hpc]; omega)]
    obtain ⟨_, _, _⟩ := fullIndex_subIdx dims subsys hpos hsub hnd x hx
    obtain ⟨sy, _, _⟩ := fullIndex_subIdx dims subsys hpos hsub hnd y hy
    unfold channelEntry applyEntry
    rw [star_sum, Finset.sum_mul_sum]
    apply Finset.sum_congr rfl
    intro a _
    apply Finset.sum_congr rfl
    intro b hb
    have hsup := super_data U [] (subIdx (toCArr dims) (toCArr subsys) subsys.length dims.length x)
      (subIdx (toCArr dims) (toCArr subsys) subsys.length dims.length y) a b
      (by rw [hUr]; exact sy) (by rw [hUr]; exact Finset.mem_range.mp hb)
    rw [hUr] at hsup
    rw [hsup, hrho, star_mul']
    simp only [List.map_cons, List.map_nil, List.sum_cons, List.sum_nil, add_zero]
    ring
  · rw [a1]; exact p1.symm
  · rw [a2, hrc]; exact hpr.symm
  · intro x hx y hy
    rw [a1] at hx
    rw [a2] at hy
    rw [adata x y hx hy]
    show _ = ∑ k in Finset.range phi.cols, phi.data x k * star (psi.data y k)
    rw [hphic, Finset.sum_range_one, pdata x 0 hx (by rw [hpc]; omega)]
    unfold applyEntry
    rw [Finset.sum_mul]
    apply Finset.sum_congr rfl
    intro a _
    rw [hrho, mul_assoc]

theorem channel_single_kraus_witness :
    ∃ phi res res2, obsolete.apply (demoVec 6) (demoMat 2) [1] [3, 2] = .ok phi ∧
      obsolete.channel (Mat.mul (demoVec 6) (Mat.adjoint (demoVec 6))) [demoMat 2] [1] [3, 2]
        = .ok res ∧
      res.same (Mat.mul phi (Mat.adjoint phi)) ∧
      obsolete.apply (Mat.mul (demoVec 6) (Mat.adjoint (demoVec 6))) (demoMat 2) [1] [3, 2]
        = .ok res2 ∧
      res2.same (Mat.mul phi (Mat.adjoint (demoVec 6))) :=
  channel_single_kraus (demoVec 6) (demoMat 2) [1] [3, 2] (by decide) (by decide) (by decide)
    (by decide) (by decide) (by decide) (by decide) (by decide)

/-! ## Rejected gates and reordered selections -/

/-- C21: `apply` rejects a gate of the wrong size.  For every non-empty state,
valid `dims` and valid `subsys`, if `A` is a non-empty square matrix whose number
of rows differs from `Dsub`, the product of `dims[s]` over `s` in `subsys`,
`apply` raises the error `DIMS_MISMATCH_MATRIX` (and so returns no result). -/
theorem apply_rejects_wrong_size {R : Type} [Semiring R] (state A : Mat R)
    (subsys dims : List Nat) (hsr : state.rows ≠ 0) (hsc : state.cols ≠ 0)
    (hne : dims ≠ []) (hpos : ∀ d ∈ dims, 1 ≤ d)
    (hsub : ∀ l ∈ subsys, l < dims.length) (hnd : subsys.Nodup)
    (hA0 : A.rows ≠ 0) (hAsq : A.rows = A.cols) (hneq : A.rows ≠ subDim dims subsys) :
    obsolete.apply state A subsys dims = .error ⟨"apply", .DIMS_MISMATCH_MATRIX⟩ := by
  obtain ⟨_, _, hDA, _⟩ := obsolete.apply_setup_spec subsys dims hpos hsub hnd
  have c1 : internal._check_nonzero_size A = true := by
    simp [internal._check_nonzero_size, hA0, ← hAsq]
  have c2 : internal._check_nonzero_size state = true := by
    simp [internal._check_nonzero_size, hsr, hsc]
  have c3 : internal._check_square_mat A = true := (_check_square_mat_iff A).mpr hAsq
  have c4 := (_check_dims_iff dims).mpr ⟨hne, hpos⟩
  have c5 : internal._check_subsys_match_dims subsys dims = true :=
    (_check_subsys_iff subsys dims).mpr ⟨hsub, hnd⟩
  have c6 : (A.rows != (obsolete.apply_setup subsys dims).1.DA) = true := by
    rw [hDA]; simp [hneq]
  unfold obsolete.apply
  simp only [c1, c2, c3, c4, c5, c6, Bool.not_true, Bool.false_eq_true, if_false, if_true]

theorem apply_rejects_wrong_size_witness :
    obsolete.apply (demoVec 12) (demoMat 3) [2, 0] [2, 3, 2]
      = .error ⟨"apply", .DIMS_MISMATCH_MATRIX⟩ :=
  apply_rejects_wrong_size (demoVec 12) (demoMat 3) [2, 0] [2, 3, 2] (by decide) (by decide)
    (by decide) (by decide) (by decide) (by decide) (by decide) (by decide) (by decide)

theorem complLabels_perm (s1 s2 : List Nat) (n : Nat) (h : s1.Perm s2) :
    complLabels s1 n = complLabels s2 n := by
  unfold complLabels
  apply List.filter_congr
  intro l _
  by_cases hm : l ∈ s1
  · have hm2 : l ∈ s2 := h.mem_iff.mp hm
    simp [hm, hm2]
  · have hm2 : l ∉ s2 := fun h2 => hm (h.mem_iff.mpr h2)
    simp [hm, hm2]

theorem sortedLabels_congr (s1 s2 : List Nat) (n : Nat) (h : s1.Perm s2) :
    sortedLabels s1 n = sortedLabels s2 n := by
  unfold sortedLabels
  apply List.filter_congr
  intro l _
  by_cases hm : l ∈ s1
  · have hm2 : l ∈ s2 := h.mem_iff.mp hm
    simp [hm, hm2]
  · have hm2 : l ∉ s2 := fun h2 => hm (h.mem_iff.mpr h2)
    simp [hm, hm2]

/-- C22: the subsystem selection of a partial trace is an unordered set.  For
every valid `dims`, every square `A` of size `prod(dims)` and every two lists
`subsys1`, `subsys2` of the same distinct valid labels in different orders,
`ptrace(A, subsys1, dims)` and `ptrace(A, subsys2, dims)` succeed with the same
matrix. -/
theorem ptrace_order_independent {R : Type} [Semiring R] (A : Mat R)
    (subsys1 subsys2 dims : List Nat) (hne : dims ≠ []) (hpos : ∀ d ∈ dims, 1 ≤ d)
    (hr : A.rows = dims.prod) (hc : A.cols = dims.prod)
    (hsub : ∀ l ∈ subsys1, l < dims.length) (hnd : subsys1.Nodup)
    (hperm : subsys1.Perm subsys2) :
    ∃ B, ptrace A subsys1 dims = .ok B ∧ ptrace A subsys2 dims = .ok B := by
  have hsub2 : ∀ l ∈ subsys2, l < dims.length := fun l hl => hsub l (hperm.mem_iff.mpr hl)
  have hnd2 : subsys2.Nodup := hperm.nodup_iff.mp hnd
  refine ⟨_, ptrace_eq A subsys1 dims hne hpos hr hc hsub hnd, ?_⟩
  rw [ptrace_eq A subsys2 dims hne hpos hr hc hsub2 hnd2]
  unfold ptraceMat
  rw [complLabels_perm subsys1 subsys2 _ hperm, sortedLabels_congr subsys1 subsys2 _ hperm,
    subDim_perm dims subsys1 subsys2 hperm]

theorem ptrace_order_independent_witness :
    ∃ B, ptrace demoMat12 [2, 0] [2, 3, 2] = .ok B ∧ ptrace demoMat12 [0, 2] [2, 3, 2] = .ok B :=
  ptrace_order_independent demoMat12 [2, 0] [0, 2] [2, 3, 2] (by decide) (by decide) (by decide)
    (by decide) (by decide) (by decide) (by decide)

/-! ## The order of the subsystems of a gate -/

/-- Reading the subsystem part of an index in another order of the labels. -/
theorem reorderIdx_spec (dims S1 S2 : List Nat) (hpos : ∀ d ∈ dims, 1 ≤ d)
    (hsub : ∀ l ∈ S1, l < dims.length) (hnd : S1.Nodup) (hperm : S1.Perm S2) :
    (∀ y, y < dims.prod →
      subIdx (toCArr dims) (toCArr S2) S2.length dims.length y
        = reorderIdx dims S1 S2 (subIdx (toCArr dims) (toCArr S1) S1.length dims.length y)) ∧
    (∀ c, c < subDim dims S1 → reorderIdx dims S1 S2 c < subDim dims S1) ∧
    (∀ c c2, c < subDim dims S1 → c2 < subDim dims S1 →
      reorderIdx dims S1 S2 c = reorderIdx dims S1 S2 c2 → c = c2) := by
  have hsub2 : ∀ l ∈ S2, l < dims.length := fun l hl => hsub l (hperm.mem_iff.mpr hl)
  have hnd2 : S2.Nodup := hperm.nodup_iff.mp hnd
  have hP := internal._suffix_prod_toCArr dims
  have h1 := toCArr_lt_of_mem S1 dims.length hsub
  have h2 := toCArr_lt_of_mem S2 dims.length hsub2
  have hC : complLabels S1 dims.length = complLabels S2 dims.length :=
    complLabels_perm S1 S2 _ hperm
  have hperm1 := obsolete.compl_append_perm S1 dims.length hsub hnd
  have hperm2 := obsolete.compl_append_perm S2 dims.length hsub2 hnd2
  have hltC : ∀ l ∈ complLabels S1 dims.length, l < dims.length :=
    fun l hl => List.mem_range.mp (List.mem_filter.mp hl).1
  have hC1 := toCArr_lt_of_mem (complLabels S1 dims.length) dims.length hltC
  have hC0 : 0 < subDim dims (complLabels S1 dims.length) := subDim_pos dims _ hpos hltC
  have h21 : ∀ t, t < S2.length →
      (∃ u, u < S1.length ∧ toCArr S1 u = toCArr S2 t) ∨
      (∃ u, u < S1.length ∧ toCArr S1 u = toCArr S2 t) := by
    intro t ht
    have hm : toCArr S2 t ∈ S1 := hperm.mem_iff.mpr (toCArr_mem S2 t ht)
    obtain ⟨u, hu, he⟩ := (exists_toCArr_eq_iff S1 (toCArr S2 t)).mpr hm
    exact Or.inl ⟨u, hu, he⟩
  have h12 : ∀ t, t < S1.length →
      (∃ u, u < S2.length ∧ toCArr S2 u = toCArr S1 t) ∨
      (∃ u, u < S2.length ∧ toCArr S2 u = toCArr S1 t) := by
    intro t ht
    have hm : toCArr S1 t ∈ S2 := hperm.mem_iff.mp (toCArr_mem S1 t ht)
    obtain ⟨u, hu, he⟩ := (exists_toCArr_eq_iff S2 (toCArr S1 t)).mpr hm
    exact Or.inl ⟨u, hu, he⟩
  have hS12 : subDim dims S1 = subDim dims S2 := subDim_perm dims S1 S2 hperm
  have key : ∀ y, y < dims.prod →
      subIdx (toCArr dims) (toCArr S2) S2.length dims.length y
        = reorderIdx dims S1 S2
            (subIdx (toCArr dims) (toCArr S1) S1.length dims.length y) := by
    intro y hy
    have hy2 : y < internal._suffix_prod (toCArr dims) dims.length 0 := by rw [hP]; exact hy
    have s1 := (subIdx_spec (toCArr dims) (toCArr S1) S1.length dims.length y h1 hy2).1
    rw [← subDim_eq_suffix_prod] at s1
    obtain ⟨e0, _, e2⟩ := fullIndex_spec dims _ _ hpos hperm1 0 _ hC0 s1
    unfold reorderIdx
    exact subIdx_determined (toCArr dims) (toCArr S1) (toCArr S1) (toCArr S2) _ _ _ _ _ _
      h1 h1 h21 hy2 (by rw [hP]; exact e0) e2.symm e2.symm
  refine ⟨key, ?_, ?_⟩
  · intro c hc
    obtain ⟨e0, _, _⟩ := fullIndex_spec dims _ _ hpos hperm1 0 c hC0 hc
    have := (subIdx_spec (toCArr dims) (toCArr S2) S2.length dims.length _ h2
      (by rw [hP]; exact e0)).1
    rw [← subDim_eq_suffix_prod, ← hS12] at this
    exact this
  · intro c c2 hc hc2 he
    obtain ⟨e0, e1, e2⟩ := fullIndex_spec dims _ _ hpos hperm1 0 c hC0 hc
    obtain ⟨f0, f1, f2⟩ := fullIndex_spec dims _ _ hpos hperm1 0 c2 hC0 hc2
    have hz : subIdx (toCArr dims) (toCArr S1) S1.length dims.length
          (fullIndex dims (complLabels S1 dims.length) S1 0 c)
        = subIdx (toCArr dims) (toCArr S1) S1.length dims.length
          (fullIndex dims (complLabels S1 dims.length) S1 0 c2) :=
      subIdx_determined (toCArr dims) (toCArr S2) (toCArr S2) (toCArr S1) _ _ _ _ _ _
        h2 h2 h12 (by rw [hP]; exact e0) (by rw [hP]; exact f0) he he
    rw [e2, f2] at hz
    exact hz

/-- Replacing the subsystem part of an index, by a value given in either order of
the labels. -/
theorem replaceIdx_reorder (dims S1 S2 : List Nat) (hpos : ∀ d ∈ dims, 1 ≤ d)
    (hsub : ∀ l ∈ S1, l < dims.length) (hnd : S1.Nodup) (hperm : S1.Perm S2)
    (x c : Nat) (hx : x < dims.prod) (hc : c < subDim dims S1) :
    replaceIdx dims S2 x (reorderIdx dims S1 S2 c) = replaceIdx dims S1 x c := by
  have hsub2 : ∀ l ∈ S2, l < dims.length := fun l hl => hsub l (hperm.mem_iff.mpr hl)
  have hnd2 : S2.Nodup := hperm.nodup_iff.mp hnd
  have hP := internal._suffix_prod_toCArr dims
  have hC : complLabels S1 dims.length = complLabels S2 dims.length :=
    complLabels_perm S1 S2 _ hperm
  have hS12 : subDim dims S1 = subDim dims S2 := subDim_perm dims S1 S2 hperm
  obtain ⟨k1, k2, _⟩ := reorderIdx_spec dims S1 S2 hpos hsub hnd hperm
  obtain ⟨a0, a1, a2⟩ := replaceIdx_spec dims S1 hpos hsub hnd x c hx hc
  obtain ⟨b0, b1, b2⟩ := replaceIdx_spec dims S2 hpos hsub2 hnd2 x (reorderIdx dims S1 S2 c) hx
    (by rw [← hS12]; exact k2 c hc)
  have hperm2 := obsolete.compl_append_perm S2 dims.length hsub2 hnd2
  have hltC : ∀ l ∈ complLabels S2 dims.length, l < dims.length :=
    fun l hl => List.mem_range.mp (List.mem_filter.mp hl).1
  apply eq_of_subIdx_eq (toCArr dims) (toCArr (complLabels S2 dims.length)) (toCArr S2)
    _ _ dims.length _ _ (toCArr_lt_of_mem _ _ hltC) (toCArr_lt_of_mem S2 _ hsub2)
    (covers_of_perm _ _ _ hperm2) (by rw [hP]; exact b0) (by rw [hP]; exact a0)
  · rw [b1, ← hC, a1]
  · rw [b2, k1 _ a0, a2]

/-- What `apply` computes when the labels of `subsys` are listed in another
order: the same as for the gate with its tensor factors reordered. -/
theorem applyEntry_reorder {R : Type} [Semiring R] (state A : Mat R) (dims S1 S2 : List Nat)
    (hpos : ∀ d ∈ dims, 1 ≤ d) (hsub : ∀ l ∈ S1, l < dims.length) (hnd : S1.Nodup)
    (hperm : S1.Perm S2) (x j : Nat) (hx : x < dims.prod) :
    applyEntry state A S2 dims x j = applyEntry state (reorderGate A dims S1 S2) S1 dims x j := by
  obtain ⟨k1, k2, k3⟩ := reorderIdx_spec dims S1 S2 hpos hsub hnd hperm
  have hS12 : subDim dims S1 = subDim dims S2 := subDim_perm dims S1 S2 hperm
  unfold applyEntry
  have hbij : IsBij (reorderIdx dims S1 S2) (subDim dims S1) := ⟨k2, k3⟩
  rw [← hS12, ← IsBij.sum_comp hbij]
  apply Finset.sum_congr rfl
  intro c hc
  rw [replaceIdx_reorder dims S1 S2 hpos hsub hnd hperm x c hx (Finset.mem_range.mp hc), k1 x hx]
  rfl
theorem apply_order_counterexample :
    (∃ r1, obsolete.apply (basisKet 4 1 : Mat Int) gateCNOT [0, 1] [2, 2] = .ok r1 ∧
      r1.same (basisKet 4 1)) ∧
    (∃ r2, obsolete.apply (basisKet 4 1 : Mat Int) gateCNOT [1, 0] [2, 2] = .ok r2 ∧
      r2.same (basisKet 4 3)) ∧
    ¬ ∃ r1 r2, obsolete.apply (basisKet 4 1 : Mat Int) gateCNOT [0, 1] [2, 2] = .ok r1 ∧
      obsolete.apply (basisKet 4 1 : Mat Int) gateCNOT [1, 0] [2, 2] = .ok r2 ∧ r1.same r2 := by
  obtain ⟨a, ha, ar, ac, adata⟩ := apply_closed (basisKet 4 1 : Mat Int) gateCNOT [0, 1] [2, 2]
    (by decide) (by decide) (by decide) (by decide) (by decide) (Or.inl (by decide))
    (by decide) (by decide)
  obtain ⟨b, hb, br, bc, bdata⟩ := apply_closed (basisKet 4 1 : Mat Int) gateCNOT [1, 0] [2, 2]
    (by decide) (by decide) (by decide) (by decide) (by decide) (Or.inl (by decide))
    (by decide) (by decide)
  have hav : ∀ x, x < 4 → ∀ y, y < 1 →
      applyEntry (basisKet 4 1 : Mat Int) gateCNOT [0, 1] [2, 2] x y
        = (basisKet 4 1 : Mat Int).data x y := by decide
  have hbv : ∀ x, x < 4 → ∀ y, y < 1 →
      applyEntry (basisKet 4 1 : Mat Int) gateCNOT [1, 0] [2, 2] x y
        = (basisKet 4 3 : Mat Int).data x y := by decide
  have ha2 : a.same (basisKet 4 1) := by
    refine ⟨ar, ac, ?_⟩
    intro x hx y hy
    rw [ar] at hx
    rw [ac] at hy
    rw [adata x y hx hy]
    exact hav x hx y hy
  have hb2 : b.same (basisKet 4 3) := by
    refine ⟨br, bc, ?_⟩
    intro x hx y hy
    rw [br] at hx
    rw [bc] at hy
    rw [bdata x y hx hy]
    exact hbv x hx y hy
  refine ⟨⟨a, ha, ha2⟩, ⟨b, hb, hb2⟩, ?_⟩
  rintro ⟨r1, r2, h1, h2, hs⟩
  rw [ha] at h1
  rw [hb] at h2
  cases h1
  cases h2
  have e := hs.2.2 1 (by rw [ar]; decide) 0 (by rw [ac]; decide)
  rw [ha2.2.2 1 (by rw [ar]; decide) 0 (by rw [ac]; decide),
    hb2.2.2 1 (by rw [br]; decide) 0 (by rw [bc]; decide)] at e
  revert e
  decide

/-- C23 (amended): the subsystem list of an operator application is ordered,
the `k`-th tensor factor of the gate acts on `subsys[k]`.  For every valid
`dims`, every state (a column vector of length `prod(dims)` or a square matrix of
that size), every gate `A` of size `Dsub` and every two lists `subsys1`,
`subsys2` of the same distinct valid labels in different orders, both
applications below succeed and
`apply(state, A, subsys2, dims) = apply(state, A', subsys1, dims)`, where `A'` is
`A` with its tensor factors reordered: `A'(a, c) = A(r(a), r(c))`, `r(a)` being
the linear index over the dimensions of `subsys2` of the multi-index that `a` is
over the dimensions of `subsys1`. -/
theorem apply_reordered_subsys {R : Type} [Semiring R] (state A : Mat R)
    (subsys1 subsys2 dims : List Nat) (hne : dims ≠ []) (hpos : ∀ d ∈ dims, 1 ≤ d)
    (hsub : ∀ l ∈ subsys1, l < dims.length) (hnd : subsys1.Nodup)
    (hperm : subsys1.Perm subsys2)
    (hsr : state.rows = dims.prod) (hsc : state.cols = 1 ∨ state.cols = dims.prod)
    (hAr : A.rows = subDim dims subsys1) (hAc : A.cols = subDim dims subsys1) :
    ∃ res2 res1, obsolete.apply state A subsys2 dims = .ok res2 ∧
      obsolete.apply state (reorderGate A dims subsys1 subsys2) subsys1 dims = .ok res1 ∧
      res2.same res1 := by
  have hsub2 : ∀ l ∈ subsys2, l < dims.length := fun l hl => hsub l (hperm.mem_iff.mpr hl)
  have hnd2 : subsys2.Nodup := hperm.nodup_iff.mp hnd
  have hS12 : subDim dims subsys1 = subDim dims subsys2 := subDim_perm dims _ _ hperm
  obtain ⟨res2, h2, r2, c2, d2⟩ := apply_closed state A subsys2 dims hne hpos hsub2 hnd2 hsr hsc
    (by rw [← hS12]; exact hAr) (by rw [← hS12]; exact hAc)
  obtain ⟨res1, h1, r1, c1, d1⟩ := apply_closed state (reorderGate A dims subsys1 subsys2)
    subsys1 dims hne hpos hsub hnd hsr hsc hAr hAc
  refine ⟨res2, res1, h2, h1, r2.trans r1.symm, c2.trans c1.symm, ?_⟩
  intro x hx j hj
  rw [r2] at hx
  rw [c2] at hj
  rw [d2 x j hx hj, d1 x j hx hj]
  exact applyEntry_reorder state A dims subsys1 subsys2 hpos hsub hnd hperm x j hx

theorem apply_reordered_subsys_witness :
    ∃ res2 res1, obsolete.apply (basisKet 4 1 : Mat Int) gateCNOT [1, 0] [2, 2] = .ok res2 ∧
      obsolete.apply (basisKet 4 1 : Mat Int) (reorderGate gateCNOT [2, 2] [0, 1] [1, 0]) [0, 1]
        [2, 2] = .ok res1 ∧
      res2.same res1 :=
  apply_reordered_subsys (basisKet 4 1 : Mat Int) gateCNOT [0, 1] [1, 0] [2, 2] (by decide)
    (by decide) (by decide) (by decide) (by decide) (by decide) (Or.inl (by decide)) (by decide)
    (by decide)

/-! ## Greatest common divisor -/

theorem natAbs_tmod (a b : Int) : (a.tmod b).natAbs = a.natAbs % b.natAbs := by
  cases a <;> cases b <;> simp [Int.tmod, Int.natAbs_neg] <;> norm_cast

theorem gcd_tmod (a b : Int) : Int.gcd b (a.tmod b) = Int.gcd a b := by
  rw [Int.gcd_eq_natAbs, Int.gcd_eq_natAbs, natAbs_tmod]
  calc b.natAbs.gcd (a.natAbs % b.natAbs) = (a.natAbs % b.natAbs).gcd b.natAbs := Nat.gcd_comm _ _
    _ = b.natAbs.gcd a.natAbs := (Nat.gcd_rec _ _).symm
    _ = a.natAbs.gcd b.natAbs := Nat.gcd_comm _ _

theorem natAbs_tmod_lt (a b : Int) (hb : b ≠ 0) : (a.tmod b).natAbs < b.natAbs := by
  rw [natAbs_tmod]
  exact Nat.mod_lt _ (Int.natAbs_pos.mpr hb)

/-- The loop of `gcd`: with enough fuel it returns its start value if `b = 0` and
otherwise a value whose absolute value is the greatest common divisor. -/
theorem gcd_loop_spec : ∀ (fuel : Nat) (a b result : Int), b.natAbs ≤ fuel →
    (b = 0 → gcd_loop fuel a b result = result) ∧
    (b ≠ 0 → (gcd_loop fuel a b result).natAbs = Int.gcd a b) := by
  intro fuel
  induction fuel with
  | zero =>
    intro a b result hb
    have hb0 : b = 0 := Int.natAbs_eq_zero.mp (by omega)
    exact ⟨fun _ => rfl, fun h => absurd hb0 h⟩
  | succ fuel ih =>
    intro a b result hb
    constructor
    · intro hb0
      simp [gcd_loop, hb0]
    · intro hb0
      have hlt := natAbs_tmod_lt a b hb0
      obtain ⟨h1, h2⟩ := ih b (a.tmod b) b (by omega)
      simp only [gcd_loop, hb0, ne_eq, not_false_eq_true, if_true]
      by_cases hr : a.tmod b = 0
      · rw [h1 hr, ← gcd_tmod a b, hr, Int.gcd_zero_right]
      · rw [h2 hr, gcd_tmod]

/-- The value that `gcd` returns when its arguments are not both zero. -/
theorem gcd_eq (a b : Int) (h : ¬ (a = 0 ∧ b = 0)) : gcd a b = .ok (Int.gcd a b : Int) := by
  unfold gcd
  rw [if_neg h]
  by_cases h0 : a = 0 ∨ b = 0
  · rw [if_pos h0]
    rcases h0 with rfl | rfl
    · simp [Int.gcd_zero_left]
    · simp [Int.gcd_zero_right]
  · rw [if_neg h0]
    have hb : b ≠ 0 := fun hb => h0 (Or.inr hb)
    have hs := (gcd_loop_spec b.natAbs a b 1 (le_refl _)).2 hb
    simp only
    generalize gcd_loop b.natAbs a b 1 = r at hs
    rw [← hs]
    congr 1
    split
    · omega
    · omega

/-- C29: `gcd` of two integers.  `gcd(a, b)` raises `OUT_OF_RANGE` exactly when
`a = b = 0`; for all other integers it returns the greatest common divisor of `a`
and `b` as a positive integer: a common divisor that every common divisor
divides (and does not exceed), equal to `gcd(|a|, |b|)`, and to `max(|a|, |b|)`
when one of `a`, `b` is zero. -/
theorem gcd_two_integers (a b : Int) :
    (gcd a b = .error ⟨"qpp::gcd()", .OUT_OF_RANGE⟩ ↔ a = 0 ∧ b = 0) ∧
    (¬ (a = 0 ∧ b = 0) →
      ∃ g, gcd a b = .ok g ∧ 0 < g ∧ g ∣ a ∧ g ∣ b ∧
        (∀ d : Int, d ∣ a → d ∣ b → d ∣ g ∧ d ≤ g) ∧
        g = (Nat.gcd a.natAbs b.natAbs : Int) ∧
        ((a = 0 ∨ b = 0) → g = max |a| |b|)) := by
  constructor
  · constructor
    · intro h
      by_contra hne
      rw [gcd_eq a b hne] at h
      cases h
    · intro h
      unfold gcd
      rw [if_pos h]
  · intro hne
    have hpos : 0 < Int.gcd a b := by
      rw [Int.gcd_pos_iff]
      by_contra h
      exact hne ⟨by_contra fun ha => h (Or.inl ha), by_contra fun hb => h (Or.inr hb)⟩
    refine ⟨_, gcd_eq a b hne, by exact_mod_cast hpos, Int.gcd_dvd_left, Int.gcd_dvd_right,
      ?_, by rw [Int.gcd_eq_natAbs], ?_⟩
    · intro d hda hdb
      have hd := Int.dvd_gcd hda hdb
      exact ⟨hd, Int.le_of_dvd (by exact_mod_cast hpos) hd⟩
    · intro h0
      rcases h0 with rfl | rfl
      · simp [Int.gcd_zero_left]
      · simp [Int.gcd_zero_right]

theorem gcd_two_integers_witness :
    ∃ g, gcd (-12) 18 = .ok g ∧ 0 < g ∧ g ∣ -12 ∧ g ∣ 18 ∧
      (∀ d : Int, d ∣ -12 → d ∣ 18 → d ∣ g ∧ d ≤ g) ∧
      g = (Nat.gcd (-12 : Int).natAbs (18 : Int).natAbs : Int) ∧
      (((-12 : Int) = 0 ∨ (18 : Int) = 0) → g = max |(-12 : Int)| |(18 : Int)|) :=
  (gcd_two_integers (-12) 18).2 (by decide)

/-- What `gcd` of a one-element list returns: the absolute value of the element. -/
theorem gcd_list_singleton (a : Int) : gcd_list [a] = .ok |a| := by
  simp only [gcd_list, List.foldlM, pure, Except.pure]
  congr 1
  split
  · rw [abs_of_pos (by assumption)]
  · rw [abs_of_nonpos (by omega)]

/-- C30: the code at the input `[-3]`.  The convention noted in the source is
`gcd({a}) = a`; the final sign normalisation makes `gcd` of the list `[-3]` return
`3`, not `-3`. -/
theorem gcd_list_singleton_negative :
    gcd_list [-3] = .ok 3 ∧ gcd_list [-3] ≠ .ok (-3) := by
  have h : gcd_list [-3] = .ok 3 := by
    rw [gcd_list_singleton]
    rfl
  refine ⟨h, ?_⟩
  rw [h]
  intro he
  cases he

theorem egcd_loop_spec (a0 b0 : Int) : ∀ (fuel : Nat) (a b m1 m2 n1 n2 : Int),
    b.natAbs ≤ fuel → m1 * a0 + n1 * b0 = b → m2 * a0 + n2 * b0 = a →
    Int.gcd a b = Int.gcd a0 b0 →
    (egcd_loop fuel a b m1 m2 n1 n2).2.1 * a0 + (egcd_loop fuel a b m1 m2 n1 n2).2.2 * b0
        = (egcd_loop fuel a b m1 m2 n1 n2).1 ∧
      (egcd_loop fuel a b m1 m2 n1 n2).1.natAbs = Int.gcd a0 b0 := by
  intro fuel
  induction fuel with
  | zero =>
    intro a b m1 m2 n1 n2 hf h1 h2 hg
    have hb : b = 0 := by omega
    subst hb
    simp only [egcd_loop]
    refine ⟨h2, ?_⟩
    rw [← hg, Int.gcd_zero_right]
  | succ k ih =>
    intro a b m1 m2 n1 n2 hf h1 h2 hg
    by_cases hb : b = 0
    · subst hb
      simp only [egcd_loop, ne_eq, not_true_eq_false, if_false]
      refine ⟨h2, ?_⟩
      rw [← hg, Int.gcd_zero_right]
    · simp only [egcd_loop, ne_eq, hb, not_false_eq_true, if_true]
      have hr : a - a.tdiv b * b = a.tmod b := by
        rw [Int.tmod_def]; ring
      apply ih
      · rw [hr]
        have := natAbs_tmod_lt a b hb
        omega
      · rw [← h1, ← h2]; ring
      · exact h1
      · rw [hr, gcd_tmod, ← hg]

theorem egcd_eq (a b : Int) (h : ¬ (a = 0 ∧ b = 0)) :
    ∃ m n c, egcd a b = .ok (m, n, c) ∧ c = (Int.gcd a b : Int) ∧ m * a + n * b = c := by
  obtain ⟨hbez, hgcd⟩ := egcd_loop_spec a b b.natAbs a b 0 1 1 0 le_rfl (by ring) (by ring) rfl
  unfold egcd
  rw [if_neg h]
  by_cases hc : (egcd_loop b.natAbs a b 0 1 1 0).1 < 0
  · refine ⟨_, _, _, by simp only [hc, if_true]; rfl, ?_, ?_⟩
    · rw [← hgcd]; omega
    · rw [← hbez]; ring
  · refine ⟨_, _, _, by simp only [hc, if_false], ?_, hbez⟩
    rw [← hgcd]; omega

/-- C26: `egcd` returns Bezout coefficients.  For all integers `a`, `b` not both
zero, `egcd(a, b)` returns a triple `(m, n, c)` with `c = gcd(a, b)`, `c ≥ 0` and
`m * a + n * b = c` over the integers. -/
theorem egcd_bezout (a b : Int) (h : ¬ (a = 0 ∧ b = 0)) :
    ∃ m n c, egcd a b = .ok (m, n, c) ∧ c = (Int.gcd a b : Int) ∧ 0 ≤ c ∧
      m * a + n * b = c := by
  obtain ⟨m, n, c, he, hc, hb⟩ := egcd_eq a b h
  exact ⟨m, n, c, he, hc, by rw [hc]; exact Int.ofNat_nonneg _, hb⟩

theorem egcd_bezout_witness :
    ¬ ((240 : Int) = 0 ∧ (-46 : Int) = 0) ∧
    ∃ m n c, egcd 240 (-46) = .ok (m, n, c) ∧ c = (Int.gcd 240 (-46) : Int) ∧ 0 ≤ c ∧
      m * 240 + n * (-46) = c :=
  ⟨by decide, egcd_bezout 240 (-46) (by decide)⟩

theorem abs_sub_mul_of_opp (n1 n2 q : Int) (hq : 0 ≤ q) (h : n1 * n2 ≤ 0) :
    |n2 - q * n1| = |n2| + q * |n1| := by
  rcases lt_trichotomy n1 0 with h1 | h1 | h1
  · have h2 : 0 ≤ n2 := by nlinarith
    have h3 : 0 ≤ q * (-n1) := mul_nonneg hq (by omega)
    rw [abs_of_nonneg (by nlinarith), abs_of_nonneg h2, abs_of_neg h1]
    ring
  · subst h1
    simp
  · have h2 : n2 ≤ 0 := by nlinarith
    have h3 : 0 ≤ q * n1 := mul_nonneg hq (by omega)
    rw [abs_of_nonpos (by nlinarith), abs_of_nonpos h2, abs_of_pos h1]
    ring

theorem egcd_loop_bound (a0 : Int) : ∀ (fuel : Nat) (a b m1 m2 n1 n2 : Int),
    b.natAbs ≤ fuel → 0 < a → 0 ≤ b → |n1| * a + |n2| * b = a0 → n1 * n2 ≤ 0 →
    (|n2| ≤ 1 ∨ 2 * |n2| ≤ a0) → (b < a ∨ |n1| ≤ 1) →
    |(egcd_loop fuel a b m1 m2 n1 n2).2.2| ≤ 1 ∨
      2 * |(egcd_loop fuel a b m1 m2 n1 n2).2.2| ≤ a0 := by
  intro fuel
  induction fuel with
  | zero =>
    intro a b m1 m2 n1 n2 _ _ _ _ _ h4 _
    simpa only [egcd_loop] using h4
  | succ k ih =>
    intro a b m1 m2 n1 n2 hf ha hb h2 h3 h4 h5
    by_cases hb0 : b = 0
    · subst hb0
      simpa only [egcd_loop, ne_eq, not_true_eq_false, if_false] using h4
    · simp only [egcd_loop, ne_eq, hb0, not_false_eq_true, if_true]
      have hbpos : 0 < b := lt_of_le_of_ne hb (Ne.symm hb0)
      have hq : 0 ≤ a.tdiv b := Int.tdiv_nonneg ha.le hb
      have hr : a - a.tdiv b * b = a.tmod b := by
        rw [Int.tmod_def]; ring
      have hr0 : 0 ≤ a.tmod b := Int.tmod_nonneg b ha.le
      have hrlt : a.tmod b < b := Int.tmod_lt_of_pos a hbpos
      have hn1 : 0 ≤ |n1| := abs_nonneg n1
      have hn2 : 0 ≤ |n2| := abs_nonneg n2
      apply ih
      · rw [hr]
        have := natAbs_tmod_lt a b hb0
        omega
      · exact hbpos
      · rw [hr]; exact hr0
      · rw [abs_sub_mul_of_opp n1 n2 _ hq h3, ← h2]
        ring
      · nlinarith [mul_nonneg hq (mul_self_nonneg n1)]
      · rcases h5 with h5 | h5
        · right
          have h6 : |n1| * 2 ≤ |n1| * a := mul_le_mul_of_nonneg_left (by omega) hn1
          have h7 : 0 ≤ |n2| * b := mul_nonneg hn2 hb
          linarith
        · left; exact h5
      · left
        rw [hr]; exact hrlt

theorem egcd_pos (a b : Int) (ha : 0 < a) (hb : 0 < b) :
    ∃ m n c, egcd a b = .ok (m, n, c) ∧ c = (Int.gcd a b : Int) ∧ m * a + n * b = c ∧
      (|n| ≤ 1 ∨ 2 * |n| ≤ a) := by
  have h : ¬ (a = 0 ∧ b = 0) := fun h => by omega
  obtain ⟨hbez, hgcd⟩ := egcd_loop_spec a b b.natAbs a b 0 1 1 0 le_rfl (by ring) (by ring) rfl
  have hbd := egcd_loop_bound a b.natAbs a b 0 1 1 0 le_rfl ha hb.le (by simp) (by simp)
    (by simp) (by simp)
  unfold egcd
  rw [if_neg h]
  by_cases hc : (egcd_loop b.natAbs a b 0 1 1 0).1 < 0
  · refine ⟨_, _, _, by simp only [hc, if_true]; rfl, ?_, ?_, ?_⟩
    · rw [← hgcd]; omega
    · rw [← hbez]; ring
    · rw [abs_neg]; exact hbd
  · refine ⟨_, _, _, by simp only [hc, if_false], ?_, hbez, hbd⟩
    rw [← hgcd]; omega

theorem modinv_ok (a p : Int) (ha : 1 ≤ a) (hp : 2 ≤ p) (hg : Int.gcd a p = 1) :
    ∃ r, modinv a p = .ok r ∧ 0 < r ∧ r < p ∧ (a * r) % p = 1 ∧ (a * r).tmod p = 1 := by
  obtain ⟨x, y, c, he, hc, hbez, hbd⟩ := egcd_pos p a (by omega) (by omega)
  rw [Int.gcd_comm, hg] at hc
  have hc1 : c = 1 := by simpa using hc
  subst hc1
  have hy0 : y ≠ 0 := by
    intro h0
    subst h0
    have hx : x * p = 1 := by simpa using hbez
    have hdvd : p ∣ 1 := ⟨x, by rw [← hx]; ring⟩
    have := Int.le_of_dvd one_pos hdvd
    omega
  have hylt : |y| < p := by
    rcases hbd with h | h
    · omega
    · have := abs_nonneg y
      omega
  have hy := abs_lt.mp hylt
  have hmod : ∀ r, r = y ∨ r = y + p → 0 < r → (a * r) % p = 1 ∧ (a * r).tmod p = 1 := by
    intro r hr hrpos
    have h1 : (a * r) % p = 1 := by
      have hx : ∃ k, a * r = 1 + p * k := by
        rcases hr with rfl | rfl
        · exact ⟨-x, by linear_combination hbez⟩
        · exact ⟨a - x, by linear_combination hbez⟩
      obtain ⟨k, hk⟩ := hx
      rw [hk, Int.add_mul_emod_self_left]
      exact Int.emod_eq_of_lt (by omega) (by omega)
    refine ⟨h1, ?_⟩
    rw [Int.tmod_eq_emod (mul_nonneg (by omega) hrpos.le) (by omega)]
    exact h1
  unfold modinv
  rw [if_neg (by omega), he]
  simp only [ne_eq, not_true_eq_false, if_false]
  by_cases hpos : y > 0
  · refine ⟨y, by rw [if_pos hpos], hpos, hy.2, hmod y (Or.inl rfl) hpos⟩
  · have hr : 0 < y + p := by omega
    refine ⟨y + p, by rw [if_neg hpos], hr, by omega, hmod _ (Or.inr rfl) hr⟩

theorem modinv_error (a p : Int) (h : a ≤ 0 ∨ p ≤ 0 ∨ Int.gcd a p ≠ 1) :
    modinv a p = .error ⟨"qpp::modinv()", .OUT_OF_RANGE⟩ := by
  unfold modinv
  by_cases h0 : a ≤ 0 ∨ p ≤ 0
  · rw [if_pos h0]
  · rw [if_neg h0]
    have hg : Int.gcd a p ≠ 1 := by
      rcases h with h | h | h
      · exact absurd (Or.inl h) h0
      · exact absurd (Or.inr h) h0
      · exact h
    obtain ⟨x, y, c, he, hc, -, -⟩ := egcd_pos p a (by omega) (by omega)
    rw [he]
    have hc1 : c ≠ 1 := by
      intro h1
      apply hg
      rw [Int.gcd_comm]
      rw [h1] at hc
      exact_mod_cast hc.symm
    simp only [ne_eq, hc1, not_false_eq_true, if_true]

/-- C27: `modinv` returns the modular inverse.  For all integers `a ≥ 1` and
`p ≥ 2` with `gcd(a, p) = 1`, `modinv(a, p)` returns `r` with `0 < r < p` and
`(a * r) mod p = 1`; it raises `OUT_OF_RANGE` when `a ≤ 0`, `p ≤ 0` or
`gcd(a, p) ≠ 1`. -/
theorem modinv_inverse (a p : Int) :
    (1 ≤ a → 2 ≤ p → Int.gcd a p = 1 →
      ∃ r, modinv a p = .ok r ∧ 0 < r ∧ r < p ∧ (a * r) % p = 1 ∧ (a * r).tmod p = 1) ∧
    (a ≤ 0 ∨ p ≤ 0 ∨ Int.gcd a p ≠ 1 →
      modinv a p = .error ⟨"qpp::modinv()", .OUT_OF_RANGE⟩) :=
  ⟨modinv_ok a p, modinv_error a p⟩

theorem modinv_inverse_witness :
    (1 ≤ (3 : Int) ∧ 2 ≤ (7 : Int) ∧ Int.gcd 3 7 = 1 ∧
      ∃ r, modinv 3 7 = .ok r ∧ 0 < r ∧ r < 7 ∧ (3 * r) % 7 = 1 ∧ (3 * r).tmod 7 = 1) ∧
    ((4 : Int) ≤ 0 ∨ (6 : Int) ≤ 0 ∨ Int.gcd 4 6 ≠ 1) ∧
      modinv 4 6 = .error ⟨"qpp::modinv()", .OUT_OF_RANGE⟩ :=
  ⟨⟨by decide, by decide, by decide, (modinv_inverse 3 7).1 (by decide) (by decide) (by decide)⟩,
    Or.inr (Or.inr (by decide)), (modinv_inverse 4 6).2 (Or.inr (Or.inr (by decide)))⟩

theorem ubigint_modadd (x y up : Nat) (hx : x < up) (hy : y < up) (hup : up < 2 ^ 64) :
    ubigint_add (if y ≥ ubigint_sub up x then ubigint_sub x up else x) y = (x + y) % up := by
  have hsub : ubigint_sub up x = up - x := by
    unfold ubigint_sub
    omega
  rw [hsub]
  by_cases h : y ≥ up - x
  · rw [if_pos h]
    have h1 : ubigint_sub x up = x + 2 ^ 64 - up := by
      unfold ubigint_sub
      omega
    rw [h1]
    unfold ubigint_add
    have h2 : (x + y) % up = x + y - up := by
      rw [Nat.mod_eq_sub_mod (by omega), Nat.mod_eq_of_lt (by omega)]
    rw [h2]
    omega
  · rw [if_neg h]
    unfold ubigint_add
    rw [Nat.mod_eq_of_lt (show x + y < up by omega)]
    omega

theorem modmul_loop_spec (up : Nat) (hup0 : 0 < up) (hup : up < 2 ^ 64) :
    ∀ (fuel ua ub res : Nat), ua < 2 ^ fuel → ub < up → res < up →
      modmul_loop fuel ua ub up res = (res + ua * ub) % up := by
  intro fuel
  induction fuel with
  | zero =>
    intro ua ub res hua _ hres
    have h0 : ua = 0 := by simpa using hua
    subst h0
    simp only [modmul_loop, Nat.zero_mul, Nat.add_zero]
    exact (Nat.mod_eq_of_lt hres).symm
  | succ k ih =>
    intro ua ub res hua hub hres
    by_cases h0 : ua = 0
    · subst h0
      simp only [modmul_loop, ne_eq, not_true_eq_false, if_false, Nat.zero_mul, Nat.add_zero]
      exact (Nat.mod_eq_of_lt hres).symm
    · simp only [modmul_loop, ne_eq, h0, not_false_eq_true, if_true]
      rw [ubigint_modadd res ub up hres hub hup]
      have hdbl : ubigint_add ub (if ub ≥ ubigint_sub up ub then ubigint_sub ub up else ub)
          = (ub + ub) % up := by
        have := ubigint_modadd ub ub up hub hub hup
        unfold ubigint_add at this ⊢
        rw [Nat.add_comm] at this
        exact this
      rw [hdbl]
      have hhalf : ua / 2 < 2 ^ k := by
        rw [pow_succ] at hua
        omega
      have hua2 : ua = 2 * (ua / 2) + ua % 2 := by omega
      by_cases hodd : ua % 2 = 1
      · rw [if_pos hodd, ih _ _ _ hhalf (Nat.mod_lt _ hup0) (Nat.mod_lt _ hup0)]
        have : res + ua * ub = (res + ub) + (ua / 2) * (ub + ub) := by
          conv_lhs => rw [hua2, hodd]
          ring
        rw [this]
        exact (Nat.ModEq.add (Nat.mod_modEq _ _)
          (Nat.ModEq.mul_left _ (Nat.mod_modEq _ _)))
      · rw [if_neg hodd, ih _ _ _ hhalf (Nat.mod_lt _ hup0) hres]
        have he : ua % 2 = 0 := by omega
        have : res + ua * ub = res + (ua / 2) * (ub + ub) := by
          conv_lhs => rw [hua2, he]
          ring
        rw [this]
        exact (Nat.ModEq.add_left _ (Nat.ModEq.mul_left _ (Nat.mod_modEq _ _)))

theorem modmul_unsigned_eq (ua ub up : Nat) (hup0 : 0 < up) (hup : up < 2 ^ 64) :
    modmul_unsigned ua ub up = (ua * ub) % up := by
  have ha : ua % up < up := Nat.mod_lt _ hup0
  have hb : ub % up < up := Nat.mod_lt _ hup0
  have hmul : (ua % up * (ub % up)) % up = (ua * ub) % up := (Nat.mul_mod _ _ _).symm
  unfold modmul_unsigned
  by_cases h : ub % up > ua % up
  · simp only [h, if_true, ge_iff_le, not_le.mpr ha, if_false]
    rw [modmul_loop_spec up hup0 hup 64 _ _ 0 (by omega) ha hup0, Nat.zero_add, Nat.mul_comm,
      hmul]
  · simp only [h, if_false, ge_iff_le, not_le.mpr hb]
    rw [modmul_loop_spec up hup0 hup 64 _ _ 0 (by omega) hb hup0, Nat.zero_add, hmul]

theorem to_ubigint_eq (x : Int) (h0 : 0 ≤ x) (h1 : x < 2 ^ 64) : to_ubigint x = x.natAbs := by
  unfold to_ubigint
  rw [Int.emod_eq_of_lt h0 h1]
  omega

theorem to_bigint_eq (x : Nat) (h : x < 2 ^ 63) : to_bigint x = (x : Int) := by
  unfold to_bigint
  rw [if_pos h]

/-- What `modmul` returns on operands different from zero, for values in the range
of `bigint`: the residue of `|a| * |b|` when the signs of `a` and `b` agree, and
`p` minus that residue when they differ. -/
theorem modmul_spec (a b p : Int) (hp : 1 ≤ p) (hp2 : p < 2 ^ 63) (ha : a ≠ 0) (hb : b ≠ 0)
    (har : |a| < 2 ^ 63) (hbr : |b| < 2 ^ 63) :
    modmul a b p = .ok (if (a < 0 ∧ b < 0) ∨ (0 < a ∧ 0 < b) then (|a| * |b|) % p
      else p - (|a| * |b|) % p) := by
  have hua : (if a < 0 then to_ubigint (-a) else to_ubigint a) = a.natAbs := by
    have := abs_lt.mp har
    split
    · rw [to_ubigint_eq _ (by omega) (by omega), Int.natAbs_neg]
    · rw [to_ubigint_eq _ (by omega) (by omega)]
  have hub : (if b < 0 then to_ubigint (-b) else to_ubigint b) = b.natAbs := by
    have := abs_lt.mp hbr
    split
    · rw [to_ubigint_eq _ (by omega) (by omega), Int.natAbs_neg]
    · rw [to_ubigint_eq _ (by omega) (by omega)]
  have hup : to_ubigint p = p.natAbs := to_ubigint_eq p (by omega) (by omega)
  have hp0 : 0 < p.natAbs := by omega
  have hp64 : p.natAbs < 2 ^ 64 := by omega
  have hres : ((a.natAbs * b.natAbs % p.natAbs : Nat) : Int) = (|a| * |b|) % p := by
    rw [Int.natCast_mod, Nat.cast_mul, Int.natCast_natAbs, Int.natCast_natAbs,
      Int.natCast_natAbs, abs_of_pos (show 0 < p by omega)]
  have hlt : a.natAbs * b.natAbs % p.natAbs < p.natAbs := Nat.mod_lt _ hp0
  unfold modmul
  rw [if_neg (by omega), if_neg (by omega)]
  simp only [hua, hub, hup, modmul_unsigned_eq _ _ _ hp0 hp64]
  congr 1
  by_cases hs : (a < 0 ∧ b < 0) ∨ (0 < a ∧ 0 < b)
  · have his : (if a < 0 ∧ b < 0 then true else if a < 0 ∨ b < 0 then false else true) = true := by
      rcases hs with hs | hs
      · rw [if_pos hs]
      · rw [if_neg (by omega), if_neg (by omega)]
    rw [his, if_pos hs, ← hres]
    simp only [if_true]
    exact to_bigint_eq _ (by omega)
  · have his : (if a < 0 ∧ b < 0 then true else if a < 0 ∨ b < 0 then false else true) = false := by
      rw [if_neg (by omega), if_pos (by omega)]
    rw [his, if_neg hs, ← hres]
    simp only [Bool.false_eq_true, if_false]
    have hsub : ubigint_sub p.natAbs (a.natAbs * b.natAbs % p.natAbs)
        = p.natAbs - a.natAbs * b.natAbs % p.natAbs := by
      unfold ubigint_sub
      omega
    rw [hsub, to_bigint_eq _ (by omega)]
    omega

theorem modmul_nonneg (a b p : Int) (hp : 1 ≤ p) (hp2 : p < 2 ^ 63) (ha : 0 ≤ a)
    (hb : 0 ≤ b) (har : a < 2 ^ 63) (hbr : b < 2 ^ 63) :
    modmul a b p = .ok ((a * b) % p) := by
  by_cases h0 : a = 0 ∨ b = 0
  · have : a * b = 0 := by
      rcases h0 with h | h <;> simp [h]
    rw [this]
    unfold modmul
    rw [if_neg (by omega), if_pos h0]
    simp
  · have ha0 : 0 < a := by omega
    have hb0 : 0 < b := by omega
    rw [modmul_spec a b p hp hp2 (by omega) (by omega) (by rw [abs_of_pos ha0]; exact har)
      (by rw [abs_of_pos hb0]; exact hbr), if_pos (Or.inr ⟨ha0, hb0⟩), abs_of_pos ha0,
      abs_of_pos hb0]

theorem modpow_loop_spec (p : Int) (hp : 1 ≤ p) (hp2 : p < 2 ^ 63) :
    ∀ (fuel n : Nat) (a result : Int), n < 2 ^ fuel → 0 ≤ a → a < 2 ^ 63 →
      0 ≤ result → result < 2 ^ 63 →
      modpow_loop fuel (n : Int) a p result
        = .ok (if n = 0 then result else (result * a ^ n) % p) := by
  intro fuel
  induction fuel with
  | zero =>
    intro n a result hn _ _ _ _
    have h0 : n = 0 := by simpa using hn
    subst h0
    simp [modpow_loop]
  | succ k ih =>
    intro n a result hn ha har hr hrr
    by_cases h0 : n = 0
    · subst h0
      simp [modpow_loop]
    · have hnpos : (n : Int) > 0 := by omega
      have hmod0 : ∀ x : Int, 0 ≤ x % p ∧ x % p < p := fun x =>
        ⟨Int.emod_nonneg _ (by omega), Int.emod_lt_of_pos _ (by omega)⟩
      have htm : ∀ x : Int, (x % p).tmod p = x % p := fun x => by
        rw [Int.tmod_eq_emod (hmod0 x).1 (by omega), Int.emod_emod_of_dvd _ (dvd_refl p)]
      have hdiv : (n : Int).tdiv 2 = ((n / 2 : Nat) : Int) := by
        rw [Int.tdiv_eq_ediv (by omega) (by omega)]
        norm_cast
      have hhalf : n / 2 < 2 ^ k := by
        rw [pow_succ] at hn
        omega
      have hn2 : n = 2 * (n / 2) + n % 2 := by omega
      simp only [modpow_loop, hnpos, if_true]
      rw [modmul_nonneg a a p hp hp2 ha ha har har, hdiv]
      by_cases hodd : (n : Int).tmod 2 ≠ 0
      · have hodd1 : n % 2 = 1 := by
          rw [Int.tmod_eq_emod (by omega) (by omega)] at hodd
          omega
        rw [if_pos hodd, modmul_nonneg result a p hp hp2 hr ha hrr har]
        simp only [Except.map, htm]
        rw [ih (n / 2) _ _ hhalf (hmod0 _).1 (by have := (hmod0 (a * a)).2; omega)
          (hmod0 _).1 (by have := (hmod0 (result * a)).2; omega), if_neg h0]
        congr 1
        by_cases hz : n / 2 = 0
        · rw [if_pos hz]
          have h1 : n = 1 := by omega
          rw [h1, pow_one]
        · rw [if_neg hz]
          have he : result * a ^ n = (result * a) * a ^ (2 * (n / 2)) := by
            conv_lhs => rw [hn2, hodd1]
            ring
          rw [he]
          exact Int.ModEq.mul (Int.mod_modEq _ _)
            ((Int.mod_modEq _ _).pow _ |>.trans (by rw [pow_mul, ← pow_two]))
      · have heven : n % 2 = 0 := by
          rw [not_not, Int.tmod_eq_emod (by omega) (by omega)] at hodd
          omega
        rw [if_neg hodd]
        simp only [htm]
        rw [ih (n / 2) _ _ hhalf (hmod0 _).1 (by have := (hmod0 (a * a)).2; omega) hr hrr,
          if_neg h0]
        congr 1
        have hz : n / 2 ≠ 0 := by omega
        rw [if_neg hz]
        have he : result * a ^ n = result * a ^ (2 * (n / 2)) := by
          conv_lhs => rw [hn2, heven]
          ring
        rw [he]
        exact Int.ModEq.mul_left _
          ((Int.mod_modEq _ _).pow _ |>.trans (by rw [pow_mul, ← pow_two]))

/-- The result of `modmul` for values in the range of `bigint`: a value of `[0, p]`
congruent to `a * b` modulo `p`, equal to `p` exactly when one of `a`, `b` is
negative, the other one positive, and `p` divides `a * b`. -/
theorem modmul_residue (a b p : Int) (hp : 1 ≤ p) (hp2 : p < 2 ^ 63)
    (har : |a| < 2 ^ 63) (hbr : |b| < 2 ^ 63) :
    ∃ r, modmul a b p = .ok r ∧ 0 ≤ r ∧ r ≤ p ∧ r % p = (a * b) % p ∧
      (r = p ↔ ((a < 0 ∧ 0 < b) ∨ (0 < a ∧ b < 0)) ∧ p ∣ a * b) := by
  by_cases h0 : a = 0 ∨ b = 0
  · have hab : a * b = 0 := by
      rcases h0 with h | h <;> simp [h]
    refine ⟨0, ?_, le_rfl, by omega, by rw [hab], ?_⟩
    · unfold modmul
      rw [if_neg (by omega), if_pos h0]
    · constructor
      · intro h; omega
      · rintro ⟨h, -⟩; omega
  · have ha : a ≠ 0 := fun h => h0 (Or.inl h)
    have hb : b ≠ 0 := fun h => h0 (Or.inr h)
    have hm0 : 0 ≤ (|a| * |b|) % p := Int.emod_nonneg _ (by omega)
    have hm1 : (|a| * |b|) % p < p := Int.emod_lt_of_pos _ (by omega)
    refine ⟨_, modmul_spec a b p hp hp2 ha hb har hbr, ?_⟩
    by_cases hs : (a < 0 ∧ b < 0) ∨ (0 < a ∧ 0 < b)
    · rw [if_pos hs]
      have hab : |a| * |b| = a * b := by
        rcases hs with ⟨h1, h2⟩ | ⟨h1, h2⟩
        · rw [abs_of_neg h1, abs_of_neg h2]; ring
        · rw [abs_of_pos h1, abs_of_pos h2]
      refine ⟨hm0, hm1.le, by rw [Int.emod_emod_of_dvd _ (dvd_refl p), hab], ?_⟩
      constructor
      · intro h; omega
      · rintro ⟨h, -⟩; omega
    · rw [if_neg hs]
      have hs2 : (a < 0 ∧ 0 < b) ∨ (0 < a ∧ b < 0) := by omega
      have hab : |a| * |b| = -(a * b) := by
        rcases hs2 with ⟨h1, h2⟩ | ⟨h1, h2⟩
        · rw [abs_of_neg h1, abs_of_pos h2]; ring
        · rw [abs_of_pos h1, abs_of_neg h2]; ring
      refine ⟨by omega, by omega, ?_, ?_⟩
      · have h1 : (p - (|a| * |b|) % p) % p = (-(|a| * |b|)) % p := by
          apply Int.ModEq.symm
          have h2 : ((|a| * |b|) % p) % p = (|a| * |b|) % p :=
            Int.emod_emod_of_dvd _ (dvd_refl p)
          have h3 : (-(|a| * |b|)) % p = (-((|a| * |b|) % p)) % p :=
            (Int.ModEq.neg h2).symm
          show (-(|a| * |b|)) % p = (p - (|a| * |b|) % p) % p
          rw [h3, sub_eq_add_neg, Int.add_emod_self_left]
        rw [h1, hab, neg_neg]
      · constructor
        · intro h
          refine ⟨hs2, ?_⟩
          have h1 : (|a| * |b|) % p = 0 := by omega
          have h2 : p ∣ |a| * |b| := Int.dvd_of_emod_eq_zero h1
          rw [hab] at h2
          exact (Int.dvd_neg.mp h2)
        · rintro ⟨-, h⟩
          have h2 : p ∣ |a| * |b| := by rw [hab]; exact Int.dvd_neg.mpr h
          have h1 : (|a| * |b|) % p = 0 := Int.emod_eq_zero_of_dvd h2
          omega

/-- C24: the code at the input `(-2, 3, 6)`.  The product `-6` is a multiple of
`p = 6`, its residue is `0`; `modmul(-2, 3, 6)` returns `6`, a value outside
`[0, p)`, whereas `modmul(2, 3, 6)` and `modmul(-2, -3, 6)` return `0`. -/
theorem modmul_mixed_sign_multiple :
    modmul (-2) 3 6 = .ok 6 ∧ modmul 2 3 6 = .ok 0 ∧ modmul (-2) (-3) 6 = .ok 0 :=
  ⟨rfl, rfl, rfl⟩

/-- C25: `modpow` computes the modular power.  For values in the range of
`bigint`, `modpow(a, n, p)` raises `OUT_OF_RANGE` exactly when `a < 0` or `n < 0` or
`p < 1` or `a = n = 0`; for `a ≥ 0`, `n ≥ 0`, `p ≥ 1` and not `a = n = 0` it returns
`a ^ n mod p`, a value in `[0, p)`. -/
theorem modpow_power (a n p : Int) (har : a < 2 ^ 63) (hnr : n < 2 ^ 63)
    (hpr : p < 2 ^ 63) :
    (modpow a n p = .error ⟨"qpp::modpow()", .OUT_OF_RANGE⟩ ↔
      a < 0 ∨ n < 0 ∨ p < 1 ∨ (a = 0 ∧ n = 0)) ∧
    (0 ≤ a → 0 ≤ n → 1 ≤ p → ¬ (a = 0 ∧ n = 0) →
      modpow a n p = .ok ((a ^ n.toNat) % p) ∧
        0 ≤ (a ^ n.toNat) % p ∧ (a ^ n.toNat) % p < p) := by
  have hok : 0 ≤ a → 0 ≤ n → 1 ≤ p → ¬ (a = 0 ∧ n = 0) →
      modpow a n p = .ok ((a ^ n.toNat) % p) := by
    intro ha hn hp hne
    unfold modpow
    rw [if_neg (by omega), if_neg hne]
    by_cases h1 : a = 0 ∧ n > 0
    · rw [if_pos h1, h1.1, zero_pow (by omega)]
      simp
    · rw [if_neg h1]
      by_cases h2 : n = 0 ∧ p = 1
      · rw [if_pos h2, h2.1, h2.2]
        simp
      · rw [if_neg h2]
        have hcast : n = ((n.toNat : Nat) : Int) := (Int.toNat_of_nonneg hn).symm
        have h := modpow_loop_spec p hp hpr 64 n.toNat a 1 (by omega) ha har (by omega)
          (by omega)
        rw [← hcast] at h
        rw [h]
        congr 1
        by_cases hz : n.toNat = 0
        · rw [if_pos hz, hz, pow_zero]
          have hp2 : 2 ≤ p := by omega
          exact (Int.emod_eq_of_lt (by omega) (by omega)).symm
        · rw [if_neg hz, one_mul]
  constructor
  · constructor
    · intro h
      by_contra hc
      have hc1 : 0 ≤ a ∧ 0 ≤ n ∧ 1 ≤ p ∧ ¬ (a = 0 ∧ n = 0) := by omega
      rw [hok hc1.1 hc1.2.1 hc1.2.2.1 hc1.2.2.2] at h
      cases h
    · intro h
      unfold modpow
      by_cases h1 : a < 0 ∨ n < 0 ∨ p < 1
      · rw [if_pos h1]
      · rw [if_neg h1, if_pos (by omega)]
  · intro ha hn hp hne
    exact ⟨hok ha hn hp hne, Int.emod_nonneg _ (by omega), Int.emod_lt_of_pos _ (by omega)⟩

theorem modpow_power_witness :
    modpow 3 200 1000 = .ok ((3 ^ (200 : Int).toNat) % 1000) ∧
      0 ≤ (3 ^ (200 : Int).toNat) % (1000 : Int) ∧
      (3 ^ (200 : Int).toNat) % (1000 : Int) < 1000 :=
  (modpow_power 3 200 1000 (by decide) (by decide) (by decide)).2
    (by decide) (by decide) (by decide) (by decide)

theorem prime_of_least_divisor (a d : Nat) (hd : 2 ≤ d) (hda : d ∣ a)
    (hno : ∀ k, 2 ≤ k → k < d → ¬ k ∣ a) : Nat.Prime d := by
  rw [Nat.prime_def_lt]
  refine ⟨hd, fun m hm hmd => ?_⟩
  by_contra h1
  have hm0 : m ≠ 0 := by
    rintro rfl
    rw [Nat.zero_dvd] at hmd
    omega
  exact hno m (by omega) hm (dvd_trans hmd hda)

theorem sorted_append_singleton (l : List Nat) (x : Nat) (hs : l.Sorted (· ≤ ·))
    (hx : ∀ y ∈ l, y ≤ x) : (l ++ [x]).Sorted (· ≤ ·) := by
  unfold List.Sorted at hs ⊢
  rw [List.pairwise_append]
  refine ⟨hs, List.pairwise_singleton _ _, fun y hy z hz => ?_⟩
  rw [List.mem_singleton] at hz
  rw [hz]
  exact hx y hy

theorem factors_inner_spec (d : Nat) (hd : 2 ≤ d) : ∀ (fuel a : Nat) (result : List Nat),
    a ≤ fuel → 1 ≤ a → (∀ k, 2 ≤ k → k < d → ¬ k ∣ a) → result.Sorted (· ≤ ·) →
    (∀ x ∈ result, Nat.Prime x ∧ x ≤ d) →
    1 ≤ (factors_inner fuel a d result).1 ∧ (factors_inner fuel a d result).1 ≤ a ∧
      (∀ k, 2 ≤ k → k < d + 1 → ¬ k ∣ (factors_inner fuel a d result).1) ∧
      (factors_inner fuel a d result).2.Sorted (· ≤ ·) ∧
      (∀ x ∈ (factors_inner fuel a d result).2, Nat.Prime x ∧ x ≤ d) ∧
      (factors_inner fuel a d result).2.prod * (factors_inner fuel a d result).1
        = result.prod * a := by
  intro fuel
  induction fuel with
  | zero =>
    intro a result hf ha
    omega
  | succ f ih =>
    intro a result hf ha hno hs hp
    by_cases hmod : a % d = 0
    · simp only [factors_inner, hmod, if_true]
      have hda : d ∣ a := Nat.dvd_of_mod_eq_zero hmod
      have hprime : Nat.Prime d := prime_of_least_divisor a d hd hda hno
      have hq1 : 1 ≤ a / d := Nat.div_pos (Nat.le_of_dvd (by omega) hda) (by omega)
      have hqlt : a / d < a := Nat.div_lt_self (by omega) (by omega)
      have hqd : a / d ∣ a := Nat.div_dvd_of_dvd hda
      obtain ⟨h1, h2, h3, h4, h5, h6⟩ := ih (a / d) (result ++ [d]) (by omega) hq1
        (fun k hk hkd hdvd => hno k hk hkd (dvd_trans hdvd hqd))
        (sorted_append_singleton _ _ hs (fun y hy => (hp y hy).2))
        (fun x hx => by
          rw [List.mem_append, List.mem_singleton] at hx
          rcases hx with hx | hx
          · exact hp x hx
          · rw [hx]; exact ⟨hprime, le_rfl⟩)
      refine ⟨h1, by omega, h3, h4, h5, ?_⟩
      rw [h6, List.prod_append, List.prod_singleton, Nat.mul_assoc, Nat.mul_div_cancel' hda]
    · simp only [factors_inner, hmod, if_false]
      refine ⟨ha, le_rfl, fun k hk hkd hdvd => ?_, hs, hp, trivial⟩
      rcases Nat.lt_or_ge k d with h | h
      · exact hno k hk h hdvd
      · have hkd2 : k = d := by omega
        rw [hkd2] at hdvd
        exact hmod (Nat.mod_eq_zero_of_dvd hdvd)

theorem factors_loop_spec : ∀ (fuel a d : Nat) (result : List Nat),
    a - d < fuel → 2 ≤ d → d ≤ a → (∀ k, 2 ≤ k → k < d → ¬ k ∣ a) →
    result.Sorted (· ≤ ·) → (∀ x ∈ result, Nat.Prime x ∧ x < d) →
    (factors_loop fuel a d result).Sorted (· ≤ ·) ∧
      (∀ x ∈ factors_loop fuel a d result, Nat.Prime x) ∧
      (factors_loop fuel a d result).prod = result.prod * a := by
  intro fuel
  induction fuel with
  | zero =>
    intro a d result hf
    omega
  | succ f ih =>
    intro a d result hf hd hda hno hs hp
    have ha1 : a > 1 := by omega
    obtain ⟨h1, h2, h3, h4, h5, h6⟩ := factors_inner_spec d hd a a result le_rfl (by omega)
      hno hs (fun x hx => ⟨(hp x hx).1, (hp x hx).2.le⟩)
    simp only [factors_loop, ha1, if_true]
    by_cases hbreak : (d + 1) * (d + 1) > (factors_inner a a d result).1
    · rw [if_pos hbreak]
      by_cases hgt : (factors_inner a a d result).1 > 1
      · rw [if_pos hgt]
        have hale : d + 1 ≤ (factors_inner a a d result).1 := by
          by_contra hlt
          exact h3 _ (by omega) (by omega) (dvd_refl _)
        have hprime : Nat.Prime (factors_inner a a d result).1 := by
          rw [Nat.prime_def_le_sqrt]
          refine ⟨by omega, fun m hm hsq => h3 m hm ?_⟩
          rw [Nat.le_sqrt] at hsq
          by_contra hge
          have : (d + 1) * (d + 1) ≤ m * m := Nat.mul_le_mul (by omega) (by omega)
          omega
        refine ⟨sorted_append_singleton _ _ h4 (fun y hy => ?_), fun x hx => ?_, ?_⟩
        · have := (h5 y hy).2
          omega
        · rw [List.mem_append, List.mem_singleton] at hx
          rcases hx with hx | hx
          · exact (h5 x hx).1
          · rw [hx]; exact hprime
        · rw [List.prod_append, List.prod_singleton, h6]
      · rw [if_neg hgt]
        have he : (factors_inner a a d result).1 = 1 := by omega
        refine ⟨h4, fun x hx => (h5 x hx).1, ?_⟩
        rw [← h6, he, Nat.mul_one]
    · rw [if_neg hbreak]
      have hle : (d + 1) * (d + 1) ≤ (factors_inner a a d result).1 := by omega
      have hd1 : d + 1 ≤ (factors_inner a a d result).1 := by nlinarith
      obtain ⟨g1, g2, g3⟩ := ih _ (d + 1) _ (by omega) (by omega) hd1 h3 h4
        (fun x hx => ⟨(h5 x hx).1, by have := (h5 x hx).2; omega⟩)
      exact ⟨g1, g2, by rw [g3, h6]⟩

/-- C28: `factors` returns the prime factorisation.  For every integer `a` with
`|a| ≥ 2`, `factors(a)` returns a non-decreasing list of prime numbers whose
product is `|a|`; for `a` in `{0, 1, -1}` it raises `OUT_OF_RANGE`. -/
theorem factors_prime_factorisation (a : Int) :
    (2 ≤ |a| →
      ∃ l, factors a = .ok l ∧ l.Sorted (· ≤ ·) ∧
        (∀ x ∈ l, 0 < x ∧ Nat.Prime x.natAbs) ∧ l.prod = |a|) ∧
    (a = 0 ∨ a = 1 ∨ a = -1 → factors a = .error ⟨"qpp::factors()", .OUT_OF_RANGE⟩) := by
  constructor
  · intro ha
    have hn : 2 ≤ a.natAbs := by
      rw [Int.abs_eq_natAbs] at ha
      omega
    obtain ⟨h1, h2, h3⟩ := factors_loop_spec a.natAbs a.natAbs 2 [] (by omega) le_rfl hn
      (fun k hk hk2 => by omega) List.sorted_nil (fun x hx => by simp at hx)
    refine ⟨(factors_loop a.natAbs a.natAbs 2 []).map Int.ofNat, ?_, ?_, ?_, ?_⟩
    · unfold factors
      simp only []
      rw [if_neg (by omega)]
    · unfold List.Sorted at h1 ⊢
      rw [List.pairwise_map]
      exact h1.imp (fun h => Int.ofNat_le.mpr h)
    · intro x hx
      rw [List.mem_map] at hx
      obtain ⟨y, hy, rfl⟩ := hx
      have hp := h2 y hy
      exact ⟨Int.ofNat_pos.mpr hp.pos, hp⟩
    · have hcast : ∀ l : List Nat, (l.map Int.ofNat).prod = ((l.prod : Nat) : Int) := by
        intro l
        induction l with
        | nil => simp
        | cons y t ih => simp [List.prod_cons, ih]
      rw [hcast, h3]
      simp
  · intro h
    unfold factors
    simp only []
    rw [if_pos (by omega)]

theorem factors_prime_factorisation_witness :
    (∃ l, factors (-360) = .ok l ∧ l.Sorted (· ≤ ·) ∧
        (∀ x ∈ l, 0 < x ∧ Nat.Prime x.natAbs) ∧ l.prod = |(-360 : Int)|) ∧
    factors (-1) = .error ⟨"qpp::factors()", .OUT_OF_RANGE⟩ :=
  ⟨(factors_prime_factorisation (-360)).1 (by decide),
    (factors_prime_factorisation (-1)).2 (by decide)⟩

/-! ## Kronecker product, inverse and composed permutations -/

/-- C32: `kron` is the Kronecker product.  For every `m x n` matrix `A` and
`p x q` matrix `B`, `kron(A, B)` has `m * p` rows and `n * q` columns, and its
entry `(i * p + k, j * q + l)` is `A(i, j) * B(k, l)` for all `i < m`, `j < n`,
`k < p`, `l < q`. -/
theorem kron_kronecker_product {R : Type} [Semiring R] (A B : Mat R) :
    (kron A B).rows = A.rows * B.rows ∧ (kron A B).cols = A.cols * B.cols ∧
    ∀ i j k l, i < A.rows → j < A.cols → k < B.rows → l < B.cols →
      (kron A B).data (i * B.rows + k) (j * B.cols + l) = A.data i j * B.data k l :=
  ⟨(kron_shape A B).1, (kron_shape A B).2, fun i j k l hi hj hk hl =>
    kron_data A B i j k l hi hj hk hl⟩

theorem kron_kronecker_product_witness :
    (kron (demoMat 2) (demoMat 3)).rows = 2 * 3 ∧ (kron (demoMat 2) (demoMat 3)).cols = 2 * 3 ∧
    (kron (demoMat 2) (demoMat 3)).data (1 * 3 + 2) (0 * 3 + 1)
      = (demoMat 2).data 1 0 * (demoMat 3).data 2 1 :=
  ⟨(kron_kronecker_product (demoMat 2) (demoMat 3)).1,
    (kron_kronecker_product (demoMat 2) (demoMat 3)).2.1,
    (kron_kronecker_product (demoMat 2) (demoMat 3)).2.2 1 0 2 1 (by decide) (by decide)
      (by decide) (by decide)⟩

theorem list_eq_of_toCArr (l1 l2 : List Nat) (hl : l1.length = l2.length)
    (h : ∀ k, k < l1.length → toCArr l1 k = toCArr l2 k) : l1 = l2 := by
  apply List.ext_getElem hl
  intro k h1 h2
  rw [← toCArr_getElem l1 k h1, ← toCArr_getElem l2 k h2]
  exact h k h1

/-- The loop `for (i = 0; i < n; ++i) result[i] = f(i);` fills a vector of
length `n` with the values of `f`. -/
theorem foldl_set_range (f : Nat → Nat) (n : Nat) (l : List Nat) (hl : l.length = n) :
    (List.range n).foldl (fun result i => result.set i (f i)) l = (List.range n).map f := by
  obtain ⟨h1, h2⟩ := toCArr_foldl_set (fun i => i) f n l (fun t ht => by show t < l.length; omega)
  apply list_eq_of_toCArr
  · rw [h1, hl]; simp
  · intro k hk
    rw [h1, hl] at hk
    rw [h2, CArr.scatter_of_mem (fun i => i) n f (toCArr l) (fun _ _ _ _ h => h) k hk]
    simp [toCArr, List.getD_eq_getElem?_getD, hk]

theorem compperm_eq (perm sigma : List Nat) (hp : internal.check_perm perm = true)
    (hs : internal.check_perm sigma = true) (hl : perm.length = sigma.length) :
    compperm perm sigma
      = .ok ((List.range perm.length).map (fun i => toCArr perm (toCArr sigma i))) := by
  unfold compperm
  simp only [hp, hs, hl, Bool.not_true, Bool.false_eq_true, if_false, bne_self_eq_false]
  congr 1
  rw [← hl]
  exact foldl_set_range (fun i => perm.getD (sigma.getD i 0) 0) perm.length _ (by simp)

/-- C31: `invperm` returns the inverse permutation.  For every valid permutation
`perm` of `0, …, n-1`, `invperm(perm)` is a valid permutation `q` of the same
length, and `compperm(perm, q) = compperm(q, perm) = [0, 1, …, n-1]`. -/
theorem invperm_is_inverse (perm : List Nat) (hp : internal.check_perm perm = true) :
    ∃ q, invperm perm = .ok q ∧ q.length = perm.length ∧ internal.check_perm q = true ∧
      compperm perm q = .ok (List.range perm.length) ∧
      compperm q perm = .ok (List.range perm.length) := by
  obtain ⟨h1, h2⟩ := (check_perm_iff perm).mp hp
  obtain ⟨q, hq, hlen, hinv⟩ := invperm_eq perm h1 h2
  have hb := IsBij_of_check perm h1 h2
  obtain ⟨hbq, hpq⟩ := hb.of_left_inverse hinv
  have hcq : internal.check_perm q = true :=
    (check_perm_iff q).mpr (check_of_IsBij q (by rw [hlen]; exact hbq))
  refine ⟨q, hq, hlen, hcq, ?_, ?_⟩
  · rw [compperm_eq perm q hp hcq hlen.symm]
    congr 1
    conv_rhs => rw [← List.map_id (List.range perm.length)]
    apply List.map_congr_left
    intro i hi
    exact hpq i (List.mem_range.mp hi)
  · rw [compperm_eq q perm hcq hp hlen, hlen]
    congr 1
    conv_rhs => rw [← List.map_id (List.range perm.length)]
    apply List.map_congr_left
    intro i hi
    exact hinv i (List.mem_range.mp hi)

theorem invperm_is_inverse_witness :
    ∃ q, invperm [2, 0, 3, 1] = .ok q ∧ q.length = [2, 0, 3, 1].length ∧
      internal.check_perm q = true ∧
      compperm [2, 0, 3, 1] q = .ok (List.range [2, 0, 3, 1].length) ∧
      compperm q [2, 0, 3, 1] = .ok (List.range [2, 0, 3, 1].length) :=
  invperm_is_inverse [2, 0, 3, 1] (by decide)

/-! ## Reshaping -/

theorem reshape_ok {R : Type} (A : Mat R) (rows cols : Nat)
    (h : (A.rows * A.cols) % 2 ^ 64 = (rows * cols) % 2 ^ 64) :
    reshape A rows cols = .ok (Mat.Map A.buffer rows cols) := by
  unfold reshape
  simp only [h, ne_eq, not_true_eq_false, if_false]

theorem buffer_of_lt {R : Type} (A : Mat R) (i j : Nat) (hi : i < A.rows) :
    A.buffer (i + j * A.rows) = A.data i j := by
  unfold Mat.buffer
  rw [Nat.add_mul_mod_self_right, Nat.mod_eq_of_lt hi, Nat.add_mul_div_right _ _ (by omega),
    Nat.div_eq_of_lt hi, Nat.zero_add]

theorem buffer_Map {R : Type} (buffer : Nat → R) (rows cols k : Nat) :
    (Mat.Map buffer rows cols).buffer k = buffer k := by
  show buffer (k % rows + k / rows * rows) = buffer k
  rw [Nat.mod_add_div' k rows]

/-- The check of `reshape` lets a requested shape pass whose number of elements
differs from that of `A` by a multiple of `2^64`: a `2 x 2` matrix and the shape
`(2^63 + 2) x 2`. -/
theorem reshape_wrap_counterexample :
    (demoMat 2).rows * (demoMat 2).cols ≠ (2 ^ 63 + 2) * 2 ∧
    reshape (demoMat 2) (2 ^ 63 + 2) 2 = .ok (Mat.Map (demoMat 2).buffer (2 ^ 63 + 2) 2) ∧
    reshape (demoMat 2) (2 ^ 63 + 2) 2 ≠ .error "reshape: Dimension mismatch!" := by
  have h := reshape_ok (demoMat 2) (2 ^ 63 + 2) 2 (by decide)
  refine ⟨by decide, h, ?_⟩
  rw [h]
  intro he
  cases he

/-- C33 (amended): `reshape` keeps the column-major element order.  For every
matrix `A` with `rowsA * colsA = rows * cols`, `reshape(A, rows, cols)` is the
`rows x cols` matrix whose entry `(i, j)` is the element of `A` at column-major
position `i + j * rows`, and reshaping it back to `rowsA x colsA` gives `A`; when
`rowsA * colsA` and `rows * cols` differ and both are below `2^64`, `reshape`
raises the error "reshape: Dimension mismatch!". -/
theorem reshape_column_major {R : Type} (A : Mat R) (rows cols : Nat) :
    (A.rows * A.cols = rows * cols →
      ∃ B, reshape A rows cols = .ok B ∧ B.rows = rows ∧ B.cols = cols ∧
        (∀ i j, i < rows → j < cols →
          B.data i j = A.data ((i + j * rows) % A.rows) ((i + j * rows) / A.rows)) ∧
        ∃ C, reshape B A.rows A.cols = .ok C ∧ C.same A) ∧
    (A.rows * A.cols ≠ rows * cols → A.rows * A.cols < 2 ^ 64 → rows * cols < 2 ^ 64 →
      reshape A rows cols = .error "reshape: Dimension mismatch!") := by
  constructor
  · intro h
    refine ⟨_, reshape_ok A rows cols (by rw [h]), rfl, rfl, fun i j _ _ => rfl, ?_⟩
    refine ⟨_, reshape_ok _ A.rows A.cols ?_, rfl, rfl, ?_⟩
    · show (rows * cols) % 2 ^ 64 = (A.rows * A.cols) % 2 ^ 64
      rw [h]
    · intro i hi j _
      show (Mat.Map A.buffer rows cols).buffer (i + j * A.rows) = A.data i j
      rw [buffer_Map]
      exact buffer_of_lt A i j hi
  · intro hne h1 h2
    unfold reshape
    simp only
    rw [Nat.mod_eq_of_lt h1, Nat.mod_eq_of_lt h2, if_pos hne]

theorem reshape_column_major_witness :
    (∃ B, reshape (demoMat 6) 4 9 = .ok B ∧ B.rows = 4 ∧ B.cols = 9 ∧
        (∀ i j, i < 4 → j < 9 →
          B.data i j = (demoMat 6).data ((i + j * 4) % (demoMat 6).rows)
            ((i + j * 4) / (demoMat 6).rows)) ∧
        ∃ C, reshape B (demoMat 6).rows (demoMat 6).cols = .ok C ∧ C.same (demoMat 6)) ∧
    reshape (demoMat 6) 5 7 = .error "reshape: Dimension mismatch!" :=
  ⟨(reshape_column_major (demoMat 6) 4 9).1 (by decide),
    (reshape_column_major (demoMat 6) 5 7).2 (by decide) (by decide) (by decide)⟩

/-! ## The cells written by `syspermute` -/

/-- Stores into cells named by a list, the stored value depending on the cell
only: the outcome is the same for every order and multiplicity of the list. -/
theorem foldl_set_list {R : Type} (val : Nat → Nat → R) (l : List (Nat × Nat)) (M : Mat R) :
    l.foldl (fun result ij => result.set ij.1 ij.2 (val ij.1 ij.2)) M
      = ⟨M.rows, M.cols, fun a b => if (a, b) ∈ l then val a b else M.data a b⟩ := by
  induction l generalizing M with
  | nil => simp
  | cons x l ih =>
    rw [List.foldl_cons, ih]
    refine Mat.ext_iff3 _ _ rfl rfl ?_
    funext a b
    simp only [Mat.set, List.mem_cons]
    by_cases h1 : (a, b) ∈ l
    · simp [h1]
    · by_cases h2 : a = x.1 ∧ b = x.2
      · have h3 : (a, b) = x := Prod.ext h2.1 h2.2
        simp [h1, h2, h3]
      · have h3 : ¬ (a, b) = x := fun e => h2 ⟨congrArg Prod.fst e, congrArg Prod.snd e⟩
        simp [h1, h2, h3]

theorem assignsCell_set_iff {R : Type} [Zero R] [One R] [NeZero (1 : R)] (w : R)
    (i j a b : Nat) :
    AssignsCell (fun result : Mat R => result.set i j w) a b ↔ a = i ∧ b = j := by
  constructor
  · rintro ⟨v, hv⟩
    by_contra hne
    have h0 := congrArg (fun M : Mat R => M.data a b) (hv ⟨1, 1, fun _ _ => 0⟩)
    have h1 := congrArg (fun M : Mat R => M.data a b) (hv ⟨1, 1, fun _ _ => 1⟩)
    simp only [Mat.set, hne, if_false, and_self, if_true] at h0 h1
    exact one_ne_zero (h1.trans h0.symm)
  · rintro ⟨rfl, rfl⟩
    exact ⟨w, fun _ => rfl⟩

/-- C34: `syspermute` defines every output cell exactly once.  For every valid
`dims` and valid permutation `perm`, with `D = prod(dims)`: the iteration for the
loop indices `(i, j)` assigns the cell `(i, j)` of the result and no other one;
every cell of `[0, D) x [0, D)` is assigned by exactly one iteration of
`[0, D) x [0, D)`; the cells read from `A` are a bijection of the loop indices as
well; and running the iterations in any order gives the matrix that `syspermute`
returns. -/
theorem syspermute_cells_assigned_once {R : Type} [Semiring R] [Nontrivial R] (A : Mat R)
    (perm dims : List Nat) (hsq : A.rows = A.cols) (hd : internal._check_dims dims = true)
    (hm : A.rows = dims.prod) (hp : internal._check_perm perm dims = true) :
    (∀ i j a b, AssignsCell
        (internal._syspermute_worker dims.length (toCArr dims) (toCArr perm) i j A) a b
        ↔ a = i ∧ b = j) ∧
    (∀ a b, a < A.rows → b < A.rows →
      ∃! ij : Nat × Nat, (ij.1 < A.rows ∧ ij.2 < A.rows) ∧ AssignsCell
        (internal._syspermute_worker dims.length (toCArr dims) (toCArr perm) ij.1 ij.2 A) a b) ∧
    IsBij (permIdx (toCArr dims) (toCArr perm) dims.length) A.rows ∧
    (∀ order : List (Nat × Nat), order.Perm (List.range A.rows ×ˢ List.range A.rows) →
      ∃ B, syspermute A perm dims = .ok B ∧
        order.foldl (fun result ij =>
          internal._syspermute_worker dims.length (toCArr dims) (toCArr perm) ij.1 ij.2 A result)
          (Mat.Zero A.rows A.rows) = B) := by
  have hcell : ∀ i j a b, AssignsCell
      (internal._syspermute_worker dims.length (toCArr dims) (toCArr perm) i j A) a b
      ↔ a = i ∧ b = j := fun i j a b => assignsCell_set_iff _ i j a b
  obtain ⟨hlen, h1, h2⟩ := (_check_perm_iff perm dims).mp hp
  have hb : IsBij (toCArr perm) dims.length := by
    rw [← hlen]; exact IsBij_of_check perm h1 h2
  refine ⟨hcell, ?_, ?_, ?_⟩
  · intro a b ha hb2
    refine ⟨(a, b), ⟨⟨ha, hb2⟩, (hcell a b a b).mpr ⟨rfl, rfl⟩⟩, ?_⟩
    rintro ⟨i, j⟩ ⟨-, hc⟩
    obtain ⟨rfl, rfl⟩ := (hcell i j a b).mp hc
    rfl
  · have := permIdx_isBij (toCArr dims) (toCArr perm) dims.length hb
    rw [internal._suffix_prod_toCArr] at this
    rw [hm]
    exact this
  · intro order ho
    refine ⟨_, syspermute_eq A perm dims hsq hd hm hp, ?_⟩
    have hfold := foldl_set_list
      (fun a b => A.data (permIdx (toCArr dims) (toCArr perm) dims.length a)
        (permIdx (toCArr dims) (toCArr perm) dims.length b)) order (Mat.Zero A.rows A.rows)
    show order.foldl (fun result ij => result.set ij.1 ij.2
      (A.data (permIdx (toCArr dims) (toCArr perm) dims.length ij.1)
        (permIdx (toCArr dims) (toCArr perm) dims.length ij.2))) (Mat.Zero A.rows A.rows) = _
    rw [hfold]
    refine Mat.ext_iff3 _ _ rfl rfl ?_
    funext a b
    have hmem : (a, b) ∈ order ↔ a < A.rows ∧ b < A.rows := by
      rw [ho.mem_iff, List.mem_product, List.mem_range, List.mem_range]
    simp only [syspermuteMat, hmem, Mat.Zero]

theorem syspermute_cells_assigned_once_witness :
    ∃ B, syspermute (demoMat 6) [1, 0] [2, 3] = .ok B ∧
      ((List.range (demoMat 6).rows ×ˢ List.range (demoMat 6).rows).reverse).foldl
        (fun result ij =>
          internal._syspermute_worker [2, 3].length (toCArr [2, 3]) (toCArr [1, 0]) ij.1 ij.2
            (demoMat 6) result)
        (Mat.Zero (demoMat 6).rows (demoMat 6).rows) = B :=
  (syspermute_cells_assigned_once (demoMat 6) [1, 0] [2, 3] (by decide) (by decide) (by decide)
    (by decide)).2.2.2 _ (List.reverse_perm _)

/-! ## The primality test on a prime -/

/-- What `modpow` returns on arguments in the range of `bigint`. -/
theorem modpow_ok (a n p : Int) (har : a < 2 ^ 63) (hnr : n < 2 ^ 63) (hpr : p < 2 ^ 63)
    (ha : 0 ≤ a) (hn : 0 ≤ n) (hp : 1 ≤ p) (hne : ¬ (a = 0 ∧ n = 0)) :
    modpow a n p = .ok ((a ^ n.toNat) % p) := by
  unfold modpow
  rw [if_neg (by omega), if_neg hne]
  by_cases h1 : a = 0 ∧ n > 0
  · rw [if_pos h1, h1.1, zero_pow (by omega)]
    simp
  · rw [if_neg h1]
    by_cases h2 : n = 0 ∧ p = 1
    · rw [if_pos h2, h2.1, h2.2]
      simp
    · rw [if_neg h2]
      have hcast : n = ((n.toNat : Nat) : Int) := (Int.toNat_of_nonneg hn).symm
      have h := modpow_loop_spec p hp hpr 64 n.toNat a 1 (by omega) ha har (by omega)
        (by omega)
      rw [← hcast] at h
      rw [h]
      congr 1
      by_cases hz : n.toNat = 0
      · rw [if_pos hz, hz, pow_zero]
        have hp2 : 2 ≤ p := by omega
        exact (Int.emod_eq_of_lt (by omega) (by omega)).symm
      · rw [if_neg hz, one_mul]

/-- The counter `u` of `isprime`: a power of two that divides the start value. -/
theorem isprime_u_spec : ∀ (fuel : Nat) (i : Int) (u : Nat), 0 < i → i < 2 ^ fuel →
    ∃ t, isprime_u fuel i u = u + t ∧ ((2 : Int) ^ t) ∣ i := by
  intro fuel
  induction fuel with
  | zero =>
    intro i u h0 h1
    simp at h1
    omega
  | succ f ih =>
    intro i u h0 h1
    by_cases he : i.tmod 2 = 0
    · simp only [isprime_u, he, if_true]
      rw [Int.tmod_eq_emod h0.le (by omega)] at he
      rw [Int.tdiv_eq_ediv h0.le (by omega)]
      have h2 : i = 2 * (i / 2) := by omega
      have h3 : i / 2 < 2 ^ f := by
        rw [pow_succ] at h1
        omega
      obtain ⟨t, ht, hd⟩ := ih (i / 2) (u + 1) (by omega) h3
      refine ⟨t + 1, by rw [ht]; omega, ?_⟩
      rw [h2, pow_succ, mul_comm]
      exact mul_dvd_mul_left 2 hd
    · simp only [isprime_u, he, if_false]
      exact ⟨0, rfl, by simp⟩

/-- Modulo a prime the square roots of one are `1` and `p - 1`. -/
theorem sqrt_one_mod_prime (q : Nat) (hq : q.Prime) (z : Int) (h0 : 0 ≤ z) (h1 : z < q)
    (hsq : (z * z) % (q : Int) = 1) : z = 1 ∨ z = (q : Int) - 1 := by
  have hq2 := hq.two_le
  have hdvd : (q : Int) ∣ (z - 1) * (z + 1) := by
    have h2 : (z * z) % (q : Int) = 1 % (q : Int) := by
      rw [hsq, Int.emod_eq_of_lt (by omega) (by omega)]
    have h3 := Int.ModEq.dvd h2
    have h4 : (z - 1) * (z + 1) = -(1 - z * z) := by ring
    rw [h4]
    exact (dvd_neg.mpr h3)
  rcases (Nat.prime_iff_prime_int.mp hq).dvd_or_dvd hdvd with h | h
  · left
    obtain ⟨c, hc⟩ := h
    have hc0 : c = 0 := by
      by_contra hne
      rcases lt_or_gt_of_ne hne with hlt | hgt
      · have : (q : Int) * c ≤ (q : Int) * (-1) := mul_le_mul_of_nonneg_left (by omega) (by omega)
        omega
      · have : (q : Int) * 1 ≤ (q : Int) * c := mul_le_mul_of_nonneg_left (by omega) (by omega)
        omega
    rw [hc0] at hc
    omega
  · right
    obtain ⟨c, hc⟩ := h
    have hc1 : c = 1 := by
      rcases lt_trichotomy c 1 with hlt | heq | hgt
      · have : (q : Int) * c ≤ (q : Int) * 0 := mul_le_mul_of_nonneg_left (by omega) (by omega)
        omega
      · exact heq
      · have : (q : Int) * 2 ≤ (q : Int) * c := mul_le_mul_of_nonneg_left (by omega) (by omega)
        omega
    rw [hc1] at hc
    omega

/-- On a prime `q` the inner loop of `isprime` ends with `jump` set, when it
starts from a value that is not `1` or `q - 1` and whose `2^n`-th power is `1`. -/
theorem isprime_inner_prime (q : Nat) (hq : q.Prime) (hr : (q : Int) < 2 ^ 63) :
    ∀ (n : Nat) (z : Int), 0 ≤ z → z < q → z ≠ 1 → z ≠ (q : Int) - 1 →
      (z ^ (2 ^ n)) % (q : Int) = 1 → isprime_inner q n z = .ok (some true) := by
  have hq2 := hq.two_le
  intro n
  induction n with
  | zero =>
    intro z h0 h1 hne1 _ hpow
    rw [pow_zero, pow_one, Int.emod_eq_of_lt h0 h1] at hpow
    exact absurd hpow hne1
  | succ n ih =>
    intro z h0 h1 hne1 hne2 hpow
    have hm0 : 0 ≤ (z * z) % (q : Int) := Int.emod_nonneg _ (by omega)
    have hm1 : (z * z) % (q : Int) < q := Int.emod_lt_of_pos _ (by omega)
    simp only [isprime_inner]
    rw [modmul_nonneg z z q (by omega) hr h0 h0 (by omega) (by omega)]
    simp only [Int.tmod_eq_emod hm0 (show (0 : Int) ≤ q by omega),
      Int.emod_emod_of_dvd _ (dvd_refl (q : Int))]
    have hz1 : (z * z) % (q : Int) ≠ 1 := by
      intro h
      rcases sqrt_one_mod_prime q hq z h0 h1 h with h | h
      · exact hne1 h
      · exact hne2 h
    rw [if_neg hz1]
    by_cases hz2 : (z * z) % (q : Int) = (q : Int) - 1
    · rw [if_pos hz2]
    · rw [if_neg hz2]
      apply ih _ hm0 hm1 hz1 hz2
      have h2 : ((z * z) % (q : Int)) ^ (2 ^ n) ≡ (z * z) ^ (2 ^ n) [ZMOD (q : Int)] :=
        (Int.mod_modEq _ _).pow _
      have h3 : (z * z) ^ (2 ^ n) = z ^ (2 ^ (n + 1)) := by
        rw [← pow_two, ← pow_mul, pow_succ, mul_comm]
      rw [h3] at h2
      exact Eq.trans h2 hpow

/-- Fermat: a value of `[1, q - 1]` raised to `q - 1` is `1` modulo the prime `q`. -/
theorem fermat_mod_prime (q : Nat) (hq : q.Prime) (a : Int) (h0 : 1 ≤ a) (h1 : a < q) :
    (a ^ (q - 1)) % (q : Int) = 1 := by
  have hq2 := hq.two_le
  have hco : IsCoprime a (q : Int) := by
    rw [Int.isCoprime_iff_gcd_eq_one, Int.gcd_eq_natAbs, Int.natAbs_ofNat]
    apply Nat.Coprime.symm
    rw [hq.coprime_iff_not_dvd]
    intro hd
    have := Nat.le_of_dvd (by omega) hd
    omega
  have h := Int.ModEq.pow_card_sub_one_eq_one hq hco
  have h2 : (a ^ (q - 1)) % (q : Int) = 1 % (q : Int) := h
  rw [h2]
  exact Int.emod_eq_of_lt (by omega) (by omega)

/-- On a prime `q` every round of `isprime` continues, for draws in `[2, q - 2]`. -/
theorem isprime_rounds_prime (q : Nat) (hq : q.Prime) (hr : (q : Int) < 2 ^ 63)
    (r u : Nat) (hru : r * 2 ^ u = q - 1) (as : Nat → Int) :
    ∀ (n i : Nat), (∀ j, i ≤ j → j < i + n → 2 ≤ as j ∧ as j ≤ (q : Int) - 2) →
      isprime_rounds q r u as n i = .ok true := by
  have hq2 := hq.two_le
  have hrlt : (r : Int) < 2 ^ 63 := by
    have h1 : r ≤ q - 1 := by
      rw [← hru]
      exact Nat.le_mul_of_pos_right r (by positivity)
    omega
  intro n
  induction n with
  | zero =>
    intro i _
    simp only [isprime_rounds]
  | succ n ih =>
    intro i has
    obtain ⟨ha2, haq⟩ := has i le_rfl (by omega)
    have hnext := ih (i + 1) (fun j hj1 hj2 => has j (by omega) (by omega))
    have hz0 : 0 ≤ (as i ^ r) % (q : Int) := Int.emod_nonneg _ (by omega)
    have hz1 : (as i ^ r) % (q : Int) < q := Int.emod_lt_of_pos _ (by omega)
    simp only [isprime_rounds]
    rw [modpow_ok (as i) r q (by omega) hrlt hr (by omega) (by omega) (by omega) (by omega),
      Int.toNat_ofNat]
    simp only []
    by_cases hc : (as i ^ r) % (q : Int) = 1 ∨ (as i ^ r) % (q : Int) = (q : Int) - 1
    · rw [if_pos hc]
      exact hnext
    · rw [if_neg hc]
      have hpow : (((as i ^ r) % (q : Int)) ^ (2 ^ u)) % (q : Int) = 1 := by
        have h2 : ((as i ^ r) % (q : Int)) ^ (2 ^ u) ≡ (as i ^ r) ^ (2 ^ u) [ZMOD (q : Int)] :=
          (Int.mod_modEq _ _).pow _
        rw [← pow_mul, hru] at h2
        exact Eq.trans h2 (fermat_mod_prime q hq (as i) (by omega) (by omega))
      rw [isprime_inner_prime q hq hr u _ hz0 hz1 (fun h => hc (Or.inl h))
        (fun h => hc (Or.inr h)) hpow]
      simp only [if_true]
      exact hnext

/-- C35: `isprime` has no false negatives.  For every prime `p` (of either sign,
in the range of `bigint`), every number `k` of rounds and every outcome of the
random draws, each within its requested range (`x` in `[2, |p| - 1]`, `as i` in
`[2, |p| - 2]`; no draw is requested for `|p| ≤ 3`), `isprime(p, k)` returns
`true`. -/
theorem isprime_no_false_negative (p : Int) (k : Nat) (x : Int) (as : Nat → Int)
    (hp : Nat.Prime p.natAbs) (hr : |p| < 2 ^ 63)
    (hx : 3 < |p| → 2 ≤ x ∧ x ≤ |p| - 1)
    (has : 3 < |p| → ∀ i, i < k → 2 ≤ as i ∧ as i ≤ |p| - 2) :
    isprime p k x as = .ok true := by
  have hq2 := hp.two_le
  rw [Int.abs_eq_natAbs] at hr hx has
  unfold isprime
  simp only [Int.abs_eq_natAbs]
  rw [if_neg (by omega)]
  by_cases h23 : (p.natAbs : Int) = 2 ∨ (p.natAbs : Int) = 3
  · rw [if_pos h23]
  · rw [if_neg h23]
    have h4 : p.natAbs ≠ 4 := by
      intro h
      rw [h] at hp
      exact absurd hp (by decide)
    have h5 : (3 : Int) < p.natAbs := by omega
    obtain ⟨hx2, hxq⟩ := hx h5
    have hsub : (p.natAbs : Int) - 1 = ((p.natAbs - 1 : Nat) : Int) := by omega
    rw [modpow_ok x _ _ (by omega) (by omega) hr (by omega) (by omega) (by omega) (by omega)]
    simp only []
    rw [hsub, Int.toNat_ofNat, fermat_mod_prime p.natAbs hp x (by omega) (by omega)]
    simp only [ne_eq, not_true_eq_false, if_false]
    obtain ⟨t, ht, hd⟩ := isprime_u_spec 64 ((p.natAbs - 1 : Nat) : Int) 0 (by omega) (by omega)
    rw [ht, Nat.zero_add]
    have hdn : 2 ^ t ∣ p.natAbs - 1 := by
      have : (((2 ^ t : Nat) : Int)) ∣ ((p.natAbs - 1 : Nat) : Int) := by
        rw [Nat.cast_pow, Nat.cast_ofNat]
        exact hd
      exact Int.natCast_dvd_natCast.mp this
    have hr2 : ((p.natAbs - 1 : Nat) : Int).tdiv (2 ^ t)
        = (((p.natAbs - 1) / 2 ^ t : Nat) : Int) := by
      rw [Int.tdiv_eq_ediv (by omega) (by positivity), Int.natCast_div, Nat.cast_pow,
        Nat.cast_ofNat]
    rw [hr2]
    apply isprime_rounds_prime p.natAbs hp hr _ _ (Nat.div_mul_cancel hdn)
    intro j _ hj
    exact has h5 j (by omega)

theorem isprime_no_false_negative_witness :
    isprime (-13) 3 5 (fun i => 2 + (i : Int)) = .ok true :=
  isprime_no_false_negative (-13) 3 5 (fun i => 2 + (i : Int)) (by norm_num) (by decide)
    (fun _ => ⟨by decide, by decide⟩)
    (fun _ i hi => ⟨by show (2 : Int) ≤ 2 + (i : Int); omega, by
      show 2 + (i : Int) ≤ |(-13 : Int)| - 2
      have h : |(-13 : Int)| = 13 := by decide
      rw [h]
      omega⟩)

end qpp
